import Mathlib

/-!
# ART index keys (`src/execution/index/art/art_key.cpp`)

A shallow embedding of the key codec of the adaptive radix tree index:
the byte-swap macros, `FlipSign`, `EncodeFloat` / `EncodeDouble`, the
`Key::CreateData` specialisations, `Key::CreateKey` for strings and the
comparison operators of `Key`.

Conventions of the embedding.

* Machine integers are `Nat` (unsigned, reduced `% 2^w`) or `Int` (signed).
  The C++ conversion of a value to an unsigned type of `w` bits is `castU w`.
* A key buffer (`data_t[]`, `data_t = uint8_t`) is a `List Nat` of bytes.
* `reinterpret_cast<uintN_t *>(data.get())[0] = x` stores the `N/8` bytes of
  `x` in the byte order of the host; the host byte order is the explicit
  parameter `hostLE` of `storeUInt`.
* `float` / `double` values are their IEEE-754 bit patterns (`F32`, `F64`).
-/

namespace ArtKey

/-! ## Machine-level helpers -/

/-- Conversion of a (signed or unsigned) integer value to an unsigned integer
type of `w` bits: reduction modulo `2^w`. -/
def castU (w : Nat) (x : Int) : Nat := (x % (2 : Int) ^ w).toNat

/-- The `n` low-order bytes of `x`, least significant byte first. -/
def leBytes : Nat → Nat → List Nat
  | 0, _ => []
  | n + 1, x => (x % 256) :: leBytes n (x / 256)

/-- The `n` low-order bytes of `x`, most significant byte first. -/
def beBytes (n x : Nat) : List Nat := (leBytes n x).reverse

/-- Bytes written by `reinterpret_cast<uintN_t *>(p)[0] = x` for an unsigned
integer of `n` bytes on a host that is little-endian (`hostLE = true`) or
big-endian (`hostLE = false`). -/
def storeUInt (hostLE : Bool) (n x : Nat) : List Nat :=
  if hostLE then leBytes n x else beBytes n x

/-- The unsigned number whose big-endian digits (base 256) are `bs`. -/
def beValue (bs : List Nat) : Nat := bs.foldl (fun acc b => acc * 256 + b) 0

/-! ## The byte-swap macros and `FlipSign` (art_key.cpp, lines 8-22)

Inside the macros every left shift is applied to a masked value, so no bit is
shifted out of the operand type; the outer cast is the only reduction. -/

/-- Macro `BSWAP16(x)`. -/
def BSWAP16 (x : Int) : Nat :=
  ((((castU 16 x) &&& 0xff00) >>> 8) ||| (((castU 16 x) &&& 0x00ff) <<< 8)) % 2 ^ 16

/-- Macro `BSWAP32(x)`. -/
def BSWAP32 (x : Int) : Nat :=
  ((((castU 32 x) &&& 0xff000000) >>> 24) ||| (((castU 32 x) &&& 0x00ff0000) >>> 8) |||
   (((castU 32 x) &&& 0x0000ff00) <<< 8) ||| (((castU 32 x) &&& 0x000000ff) <<< 24)) % 2 ^ 32

/-- Macro `BSWAP64(x)`. -/
def BSWAP64 (x : Int) : Nat :=
  ((((castU 64 x) &&& 0xff00000000000000) >>> 56) ||| (((castU 64 x) &&& 0x00ff000000000000) >>> 40) |||
   (((castU 64 x) &&& 0x0000ff0000000000) >>> 24) ||| (((castU 64 x) &&& 0x000000ff00000000) >>> 8) |||
   (((castU 64 x) &&& 0x00000000ff000000) <<< 8) ||| (((castU 64 x) &&& 0x0000000000ff0000) <<< 24) |||
   (((castU 64 x) &&& 0x000000000000ff00) <<< 40) ||| (((castU 64 x) &&& 0x00000000000000ff) <<< 56)) % 2 ^ 64

/-- Function `FlipSign`: `key_byte ^ 128`, returned as `uint8_t`. -/
def FlipSign (key_byte : Nat) : Nat := (key_byte ^^^ 128) % 256

/-- Statement `data[0] = FlipSign(data[0])` on a key buffer. -/
def flipFirst : List Nat → List Nat
  | [] => []
  | b :: bs => FlipSign b :: bs

/-! ## `Key::CreateData` for the signed integer types (lines 114-140) -/

/-- `Key::CreateData(int8_t value, bool is_little_endian)`: the byte of `value`
is stored and its sign bit flipped; the flag is not used. -/
def CreateData_int8 (_hostLE : Bool) (value : Int) (_is_little_endian : Bool) : List Nat :=
  flipFirst [castU 8 value]

/-- `Key::CreateData(int16_t value, bool is_little_endian)`. -/
def CreateData_int16 (hostLE : Bool) (value : Int) (is_little_endian : Bool) : List Nat :=
  flipFirst (storeUInt hostLE 2 (if is_little_endian then BSWAP16 value else castU 16 value))

/-- `Key::CreateData(int32_t value, bool is_little_endian)`. -/
def CreateData_int32 (hostLE : Bool) (value : Int) (is_little_endian : Bool) : List Nat :=
  flipFirst (storeUInt hostLE 4 (if is_little_endian then BSWAP32 value else castU 32 value))

/-- `Key::CreateData(int64_t value, bool is_little_endian)`. -/
def CreateData_int64 (hostLE : Bool) (value : Int) (is_little_endian : Bool) : List Nat :=
  flipFirst (storeUInt hostLE 8 (if is_little_endian then BSWAP64 value else castU 64 value))

/-- Range of a signed integer type of `w` bytes. -/
def InRange (w : Nat) (v : Int) : Prop := -(2 : Int) ^ (8 * w - 1) ≤ v ∧ v < (2 : Int) ^ (8 * w - 1)

instance (w : Nat) (v : Int) : Decidable (InRange w v) := by
  unfold InRange; infer_instance

/-- The four signed integer types for which `Key::CreateData` is specialised. -/
inductive IntType
  | int8
  | int16
  | int32
  | int64
  deriving DecidableEq, Repr

/-- Value of `sizeof(value)` for each integer type. -/
def IntType.bytes : IntType → Nat
  | .int8 => 1
  | .int16 => 2
  | .int32 => 4
  | .int64 => 8

/-- Selection of the `Key::CreateData<T>` specialisation by the type `T`. -/
def CreateData_int (t : IntType) (hostLE : Bool) (value : Int) (is_little_endian : Bool) :
    List Nat :=
  match t with
  | .int8 => CreateData_int8 hostLE value is_little_endian
  | .int16 => CreateData_int16 hostLE value is_little_endian
  | .int32 => CreateData_int32 hostLE value is_little_endian
  | .int64 => CreateData_int64 hostLE value is_little_endian

/-! ## IEEE-754 values

A `float` is its sign bit, its 8-bit biased exponent and its 23-bit fraction;
a `double` has an 11-bit exponent and a 52-bit fraction. -/

/-- An IEEE-754 binary32 value (`float`). -/
structure F32 where
  sign : Bool
  exp : Nat
  man : Nat
  hexp : exp < 256
  hman : man < 2 ^ 23

/-- An IEEE-754 binary64 value (`double`). -/
structure F64 where
  sign : Bool
  exp : Nat
  man : Nat
  hexp : exp < 2048
  hman : man < 2 ^ 52

/-- Test for a NaN: all exponent bits set and a non-zero fraction. -/
def F32.isNaN (x : F32) : Bool := x.exp == 255 && x.man != 0

/-- Test for a NaN: all exponent bits set and a non-zero fraction. -/
def F64.isNaN (x : F64) : Bool := x.exp == 2047 && x.man != 0

/-- Magnitude of a non-NaN `float` in units of `2^-149` (the smallest
subnormal), exactly. An infinity gets `2^277`, above every finite magnitude. -/
def F32.mag (x : F32) : Nat :=
  if x.exp = 0 then x.man else (2 ^ 23 + x.man) * 2 ^ (x.exp - 1)

/-- Magnitude of a non-NaN `double` in units of `2^-1074`, exactly. An
infinity gets `2^2098`, above every finite magnitude. -/
def F64.mag (x : F64) : Nat :=
  if x.exp = 0 then x.man else (2 ^ 52 + x.man) * 2 ^ (x.exp - 1)

/-- Signed value of a non-NaN `float` in units of `2^-149`. -/
def F32.scaled (x : F32) : Int := if x.sign then -(x.mag : Int) else (x.mag : Int)

/-- Signed value of a non-NaN `double` in units of `2^-1074`. -/
def F64.scaled (x : F64) : Int := if x.sign then -(x.mag : Int) else (x.mag : Int)

/-- The C++ operator `a < b` on `float`: false when an operand is a NaN. -/
def F32.lt (a b : F32) : Bool := !a.isNaN && !b.isNaN && decide (a.scaled < b.scaled)

/-- The C++ operator `a == b` on `float`: false when an operand is a NaN;
`+0.0 == -0.0`. -/
def F32.eq (a b : F32) : Bool := !a.isNaN && !b.isNaN && decide (a.scaled = b.scaled)

/-- The C++ operator `a < b` on `double`. -/
def F64.lt (a b : F64) : Bool := !a.isNaN && !b.isNaN && decide (a.scaled < b.scaled)

/-- The C++ operator `a == b` on `double`. -/
def F64.eq (a b : F64) : Bool := !a.isNaN && !b.isNaN && decide (a.scaled = b.scaled)

/-- The `float` value `+0.0` (the literal `0` of `x == 0` converted to `float`). -/
def F32.zero : F32 := ⟨false, 0, 0, by decide, by decide⟩

/-- The `double` value `+0.0`. -/
def F64.zero : F64 := ⟨false, 0, 0, by decide, by decide⟩

/-- Constant `FLT_MAX`, the largest finite `float`. -/
def FLT_MAX : F32 := ⟨false, 254, 2 ^ 23 - 1, by decide, by decide⟩

/-- Constant `DBL_MAX`, the largest finite `double`. -/
def DBL_MAX : F64 := ⟨false, 2046, 2 ^ 52 - 1, by decide, by decide⟩

/-- Unary minus on `float`: the sign bit is inverted. -/
def F32.neg (x : F32) : F32 := { x with sign := !x.sign }

/-- Unary minus on `double`: the sign bit is inverted. -/
def F64.neg (x : F64) : F64 := { x with sign := !x.sign }

/-- The x86-64 instructions `cvttss2si` and `cvttsd2si` with a 64 bit destination,
applied to a value that truncates towards zero to `t`: the result is `t` when it
is a signed 64 bit integer and `-2^63` (the integer indefinite value) when it is
not. -/
def cvtt64 (t : Int) : Int :=
  if -(2 : Int) ^ 63 ≤ t ∧ t < (2 : Int) ^ 63 then t else -(2 : Int) ^ 63

/-- C++ conversion of a `float` to an unsigned integer type of `w` bits
(`[conv.fpint]`): the value is truncated towards zero. Where the truncated value
is not representable (a value of -1 or below, of `2^w` or above, an infinity or
a NaN) C++ leaves the behaviour undefined; there the definition returns what the
code that GCC and Clang generate for x86-64 returns: `cvttss2si` converts the
`float` to a signed 64 bit integer, of which the low `w` bits are taken. The
result is never `none`. -/
def F32.toUInt (w : Nat) (x : F32) : Option Nat :=
  if x.exp = 255 then some (castU w (-(2 : Int) ^ 63))
  else if x.mag / 2 ^ 149 = 0 then some 0
  else if x.sign then some (castU w (cvtt64 (-((x.mag / 2 ^ 149 : Nat) : Int))))
  else if x.mag / 2 ^ 149 < 2 ^ w then some (x.mag / 2 ^ 149)
  else some (castU w (cvtt64 ((x.mag / 2 ^ 149 : Nat) : Int)))

/-- C++ conversion of a `double` to an unsigned integer type of `w` bits, for the
width 64 of `uint64_t`: the value is truncated towards zero. Where C++ leaves the
behaviour undefined the definition returns what the code that GCC generates for
x86-64 returns: a value below `2^63` is converted by `cvttsd2si`, of a value of
`2^63` or above the difference to `2^63` is converted and bit 63 of the result is
inverted, which gives 0 for a value of `2^64` or above and for `+infinity`. The
result is never `none`. -/
def F64.toUInt (w : Nat) (x : F64) : Option Nat :=
  if x.exp = 2047 then
    if x.sign = false ∧ x.man = 0 then some 0 else some (castU w (-(2 : Int) ^ 63))
  else if x.mag / 2 ^ 1074 = 0 then some 0
  else if x.sign then some (castU w (cvtt64 (-((x.mag / 2 ^ 1074 : Nat) : Int))))
  else if x.mag / 2 ^ 1074 < 2 ^ w then some (x.mag / 2 ^ 1074)
  else some 0

/-! ## `EncodeFloat` and `EncodeDouble` (lines 24-108)

`buff`, `hilong` and `lowlong` are `unsigned long`, whose width depends on the
data model of the platform. The operand `(1 << 31)` is an `int`: its value is
`INT_MIN`, converted to `unsigned long` by the `|=`. -/

/-- Width of `unsigned long`: 64 bits (LP64) or 32 bits (LLP64, ILP32). -/
inductive DataModel
  | long64
  | long32
  deriving DecidableEq, Repr

/-- Number of bits of `unsigned long`. -/
def DataModel.ulongBits : DataModel → Nat
  | .long64 => 64
  | .long32 => 32

/-- Function `EncodeFloat`. The final `return x;` converts the `float` value
to `uint32_t`. -/
def EncodeFloat (dm : DataModel) (x : F32) : Option Nat :=
  let L := dm.ulongBits
  let expbits := 8
  if F32.eq x F32.zero then
    some (castU 32 (0 : Nat))
  else if F32.lt FLT_MAX x then
    let buff := castU L ((128 + ((1 <<< (expbits - 1)) - 1) : Nat))
    let buff := (buff <<< (31 - expbits)) % 2 ^ L
    some (castU 32 buff)
  else if F32.lt x (F32.neg FLT_MAX) then
    let buff := castU L ((128 + ((1 <<< (expbits - 1)) - 1) : Nat))
    let buff := (buff <<< (31 - expbits)) % 2 ^ L
    let buff := buff ||| castU L (-(2 : Int) ^ 31)
    some (castU 32 buff)
  else if !(F32.eq x x) then
    let buff := castU L ((128 + ((1 <<< (expbits - 1)) - 1) : Nat))
    let buff := (buff <<< (31 - expbits)) % 2 ^ L
    let buff := buff ||| 1234
    some (castU 32 buff)
  else F32.toUInt 32 x

/-- Function `EncodeDouble`. The final `return x;` converts the `double` value
to `uint64_t`. -/
def EncodeDouble (dm : DataModel) (x : F64) : Option Nat :=
  let L := dm.ulongBits
  let expbits := 11
  if F64.eq x F64.zero then
    some 0
  else if F64.lt DBL_MAX x then
    let hilong := castU L ((1024 + ((1 <<< (expbits - 1)) - 1) : Nat))
    let hilong := (hilong <<< (31 - expbits)) % 2 ^ L
    let lowlong := 0
    let buff := castU 64 hilong
    let buff := (buff <<< 32) % 2 ^ 64
    let buff := (buff + lowlong) % 2 ^ 64
    some buff
  else if F64.lt x (F64.neg DBL_MAX) then
    let hilong := castU L ((1024 + ((1 <<< (expbits - 1)) - 1) : Nat))
    let hilong := (hilong <<< (31 - expbits)) % 2 ^ L
    let hilong := hilong ||| castU L (-(2 : Int) ^ 31)
    let lowlong := 0
    let buff := castU 64 hilong
    let buff := (buff <<< 32) % 2 ^ 64
    let buff := (buff + lowlong) % 2 ^ 64
    some buff
  else if !(F64.eq x x) then
    let hilong := castU L ((1024 + ((1 <<< (expbits - 1)) - 1) : Nat))
    let hilong := (hilong <<< (31 - expbits)) % 2 ^ L
    let lowlong := 1234
    let buff := castU 64 hilong
    let buff := (buff <<< 32) % 2 ^ 64
    let buff := (buff + lowlong) % 2 ^ 64
    some buff
  else F64.toUInt 64 x

/-! ## `Key::CreateData` for `float` and `double` (lines 142-155) -/

/-- `Key::CreateData(float value, bool is_little_endian)`; the result is an option
because `EncodeFloat` returns one. -/
def CreateData_float (hostLE : Bool) (dm : DataModel) (value : F32) (is_little_endian : Bool) :
    Option (List Nat) :=
  (EncodeFloat dm value).map fun (converted_value : Nat) =>
    flipFirst (storeUInt hostLE 4
      (if is_little_endian then BSWAP32 (converted_value : Int) else converted_value))

/-- `Key::CreateData(double value, bool is_little_endian)`; the result is an
option because `EncodeDouble` returns one. -/
def CreateData_double (hostLE : Bool) (dm : DataModel) (value : F64) (is_little_endian : Bool) :
    Option (List Nat) :=
  (EncodeDouble dm value).map fun (converted_value : Nat) =>
    flipFirst (storeUInt hostLE 8
      (if is_little_endian then BSWAP64 (converted_value : Int) else converted_value))

/-! ## `Key`, `Key::CreateKey` for strings and `Key::operator>` (lines 111, 159-175) -/

/-- Class `Key`: a buffer `data` and its length `len`. -/
structure Key where
  len : Nat
  data : List Nat
  deriving DecidableEq, Repr

/-- Element `data[i]` of a key buffer. -/
def Key.at (k : Key) (i : Nat) : Nat := k.data.getD i 0

/-- `Key::CreateKey(string value, bool is_little_endian)`: `value.c_str()` is the
bytes of `value` followed by a zero byte, and `value.size() + 1` bytes of it
are copied. -/
def CreateKey_string (value : List Nat) (_is_little_endian : Bool) : Key :=
  let len := value.length + 1
  { len := len, data := (value ++ [0]).take len }

/-- The loop of `Key::operator>` from index `i` on, with `n` iterations left
before `i` reaches `std::min(len, k.len)`. -/
def Key.gtLoop (a k : Key) : Nat → Nat → Bool
  | 0, _ => decide (a.len > k.len)
  | n + 1, i =>
    if a.at i > k.at i then true
    else if a.at i < k.at i then false
    else Key.gtLoop a k n (i + 1)

/-- `Key::operator>`. -/
def Key.gt (a k : Key) : Bool := Key.gtLoop a k (min a.len k.len) 0

end ArtKey

namespace ArtKey

/-! ## Example values -/

/-- The `float` value `0.25`. -/
def F32.quarter : F32 := ⟨false, 125, 0, by decide, by decide⟩

/-- The `float` value `0.5`. -/
def F32.half : F32 := ⟨false, 126, 0, by decide, by decide⟩

/-- The `float` nearest to `3.45` (bit pattern `0x405CCCCD`). -/
def F32.v3_45 : F32 := ⟨false, 128, 0x5CCCCD, by decide, by decide⟩

/-- The `float` value `3.5`. -/
def F32.v3_5 : F32 := ⟨false, 128, 0x600000, by decide, by decide⟩

/-- The `float` value `2147483648 = 2^31`. -/
def F32.two31 : F32 := ⟨false, 158, 0, by decide, by decide⟩

/-- The `float` value `2139095040 = 255 * 2^23`. -/
def F32.v2139095040 : F32 := ⟨false, 157, 0x7F0000, by decide, by decide⟩

/-- The `float` value `+infinity`. -/
def F32.inf : F32 := ⟨false, 255, 0, by decide, by decide⟩

/-- The `double` value `0.25`. -/
def F64.quarter : F64 := ⟨false, 1021, 0, by decide, by decide⟩

/-- The `double` value `0.5`. -/
def F64.half : F64 := ⟨false, 1022, 0, by decide, by decide⟩

/-- The `double` nearest to `3.45` (bit pattern `0x400B99999999999A`). -/
def F64.v3_45 : F64 := ⟨false, 1024, 0xB99999999999A, by decide, by decide⟩

/-- The `double` value `3.5`. -/
def F64.v3_5 : F64 := ⟨false, 1024, 0xC000000000000, by decide, by decide⟩

/-- The `double` value `2^63`. -/
def F64.two63 : F64 := ⟨false, 1086, 0, by decide, by decide⟩

/-- The `double` value `+infinity`. -/
def F64.inf : F64 := ⟨false, 2047, 0, by decide, by decide⟩

/-- A `float` or `double` is finite when its exponent field is not all ones. -/
def F32.isFinite (x : F32) : Bool := x.exp != 255

/-- A `double` is finite when its exponent field is not all ones. -/
def F64.isFinite (x : F64) : Bool := x.exp != 2047


/-- A quiet NaN with a zero sign bit (`float`). -/
def F32.nan1 : F32 := ⟨false, 255, 0x400000, by decide, by decide⟩

/-- A NaN with the sign bit set and payload 5 (`float`). -/
def F32.nan2 : F32 := ⟨true, 255, 5, by decide, by decide⟩

/-- A quiet NaN with a zero sign bit (`double`). -/
def F64.nan1 : F64 := ⟨false, 2047, 0x8000000000000, by decide, by decide⟩

/-- A NaN with the sign bit set and payload 5 (`double`). -/
def F64.nan2 : F64 := ⟨true, 2047, 5, by decide, by decide⟩

end ArtKey

/-!
# Transaction-local storage (`src/storage/local_storage.cpp`)

A shallow embedding of `LocalTableStorage` and `LocalStorage`: the per-table
buffer of appended chunks, its private unique indexes, the deletion bitmaps
and the scan over them, `CheckCommit` and `Commit`.

Conventions of the embedding.

* A `Vector` is its data array, its selection vector (`none` for `nullptr`)
  and its count; a `DataChunk` is a list of such columns. Values are `Int`.
* A `bool[]` bitmap is a function from the position to the bit.
* The map `table_storage` is the list of its entries in iteration order; an
  entry carries the table (`entry.first`) and its storage (`entry.second`).
* A function that throws returns the exception next to the state it leaves.
* Row identifiers are below `2^63` and chunk counts far below `2^64`; index
  arithmetic is done in `Int`, and a difference converted to `index_t` is
  reduced modulo `2^64` (`ArtKey.castU 64`).
-/

namespace LocalStore

/-- Constants declared in headers that are not among the sources at hand
(`STANDARD_VECTOR_SIZE`, `MAX_ROW_ID`, `COLUMN_IDENTIFIER_ROW_ID`); they are a
parameter of every definition that uses them. -/
structure Constants where
  STANDARD_VECTOR_SIZE : Nat
  MAX_ROW_ID : Nat
  COLUMN_IDENTIFIER_ROW_ID : Nat
  deriving DecidableEq, Repr

/-- The exceptions thrown by the storage and commit code. -/
inductive Exn
  | ConstraintException
  | NotImplementedException
  | Exception
  deriving DecidableEq, Repr

/-- Class `Vector`: data array, selection vector and count. -/
structure Vector where
  data : List Int
  sel_vector : Option (List Nat)
  count : Nat
  deriving DecidableEq, Repr

/-- Class `DataChunk`: the column vectors and the selection vector of the chunk. -/
structure DataChunk where
  data : List Vector
  sel_vector : Option (List Nat)
  deriving DecidableEq, Repr

/-- `DataChunk::size()`: the count of the first column, 0 without columns. -/
def DataChunk.size (c : DataChunk) : Nat :=
  match c.data with
  | [] => 0
  | v :: _ => v.count

/-- `DataChunk::Reset()`: every column is emptied and the selection vector dropped. -/
def DataChunk.Reset (c : DataChunk) : DataChunk :=
  { data := c.data.map (fun _ => { data := [], sel_vector := none, count := 0 }),
    sel_vector := none }

/-- Positions `i` visited by `VectorOperations::Exec` for a selection vector and
a count: `sel_vector[k]` for `k < count`, or `k` itself without selection. -/
def execPositions (sel_vector : Option (List Nat)) (count : Nat) : List Nat :=
  match sel_vector with
  | some sel => (List.range count).map (fun k => sel.getD k 0)
  | none => List.range count

/-- The rows of a chunk in the order of its selection: for every visited
position the values of all columns at that position. -/
def DataChunk.rows (c : DataChunk) : List (List Int) :=
  (execPositions c.sel_vector c.size).map (fun i => c.data.map (fun v => v.data.getD i 0))

/-- Modelled from the spec: `VectorOperations::GenerateSequence(v, start)`, which is
not among the sources; it fills the `count` entries of the vector with `start`,
`start + 1`, ... (the comment at its call in `Scan`: MAX_ROW_ID plus the row
offset in the chunk). -/
def GenerateSequence (count : Nat) (start : Int) : List Int :=
  (List.range count).map (fun (p : Nat) => start + (p : Int))

/-! ## The ART index, as far as the storage code uses it -/

/-- An ART index: the indexed columns, the unique flag and the entries
(key, row identifier) it holds. -/
structure ART where
  column_ids : List Nat
  is_unique : Bool
  entries : List (List Int × Int)
  deriving DecidableEq, Repr

/-- The entries an index gets for a chunk: for the `k`-th row of the chunk the
values of the indexed columns and the row identifier `row_start + k`. -/
def ART.chunkEntries (art : ART) (chunk : DataChunk) (row_start : Int) : List (List Int × Int) :=
  (chunk.rows.map (fun row => art.column_ids.map (fun c => row.getD c 0))).zip
    (GenerateSequence chunk.size row_start)

/-- Modelled from the spec: insertion of one key into the radix index, which is
not among the sources (`insert(key, row_id) -> success | duplicate_rejected`):
in an index enforcing uniqueness an equal key aborts the insert and leaves the
tree unchanged; otherwise the entry is added. -/
def ART.Insert (art : ART) (e : List Int × Int) : Option ART :=
  if art.is_unique && art.entries.any (fun x => x.1 == e.1) then none
  else some { art with entries := art.entries ++ [e] }

/-- Modelled from the spec: `ART::Append(chunk, row_identifiers)`, which is not
among the sources: the rows are inserted one after the other; on a duplicate the
rows of this batch inserted so far are removed again and the call fails
(`none`), the index being as before. -/
def ART.Append (art : ART) (chunk : DataChunk) (row_start : Int) : Option ART :=
  (art.chunkEntries chunk row_start).foldlM ART.Insert art

/-- Modelled from the spec: removal of the entries of a chunk from an index
(`remove(key, row_id)`, not among the sources): each (key, row identifier) pair
is removed once; a pair that is not in the index is skipped. -/
def ART.Delete (art : ART) (chunk : DataChunk) (row_start : Int) : ART :=
  { art with entries := art.entries.diff (art.chunkEntries chunk row_start) }

/-! ## `DataTable`, as far as the storage code uses it -/

/-- Struct `TableAppendState`: the first row identifier of the append. -/
structure TableAppendState where
  row_start : Int
  deriving DecidableEq, Repr

/-- A `DataTable`: its identity (the address the map is keyed by), the number of
its columns (`types.size()`), its indexes, whether it is temporary, and the rows
appended to it. -/
structure DataTable where
  id : Nat
  types : Nat
  indexes : List ART
  temporary : Bool
  rows : List (List Int)
  deriving DecidableEq, Repr

/-- Modelled from the spec: `DataTable::InitializeAppend`, not among the sources:
the append starts at the current end of the table. -/
def DataTable.InitializeAppend (t : DataTable) : TableAppendState :=
  { row_start := t.rows.length }

/-- The chunk appended to every index of a list; `none` when one of them
rejects it. -/
def appendToAll (chunk : DataChunk) (row_start : Int) : List ART → Option (List ART)
  | [] => some []
  | index :: rest =>
    match index.Append chunk row_start with
    | none => none
    | some index' => (appendToAll chunk row_start rest).map (fun r => index' :: r)

/-- Modelled from the spec: `DataTable::AppendToIndexes(state, chunk, row_start)`,
not among the sources: the chunk is appended to every index of the table under
the row identifiers `row_start`, `row_start + 1`, ...; when an index rejects it
the call fails (`none`) and all indexes are as before. -/
def DataTable.AppendToIndexes (t : DataTable) (chunk : DataChunk) (row_start : Int) :
    Option DataTable :=
  (appendToAll chunk row_start t.indexes).map (fun idxs => { t with indexes := idxs })

/-- Modelled from the spec: `DataTable::RemoveFromIndexes(chunk, row_start)`, not
among the sources: the entries of the chunk under the row identifiers
`row_start`, `row_start + 1`, ... are removed from every index. -/
def DataTable.RemoveFromIndexes (t : DataTable) (chunk : DataChunk) (row_start : Int) :
    DataTable :=
  { t with indexes := t.indexes.map (fun idx => idx.Delete chunk row_start) }

/-- Modelled from the spec: `DataTable::Append(transaction, commit_id, chunk, state)`,
not among the sources: the rows of the chunk are appended to the table. -/
def DataTable.Append (t : DataTable) (chunk : DataChunk) : DataTable :=
  { t with rows := t.rows ++ chunk.rows }

/-! ## `ChunkCollection` and `LocalTableStorage` -/

/-- Class `ChunkCollection`: the chunks and the total number of rows. -/
structure ChunkCollection where
  chunks : List DataChunk
  count : Nat
  deriving DecidableEq, Repr

/-- The first `n` (`take = true`) or all but the first `n` rows of a chunk, as a
flat chunk without selection vector. -/
def DataChunk.slice (c : DataChunk) (n : Nat) (take : Bool) : DataChunk :=
  let rows := if take then c.rows.take n else c.rows.drop n
  { data := (List.range c.data.length).map (fun j =>
      { data := rows.map (fun r => r.getD j 0), sel_vector := none, count := rows.length }),
    sel_vector := none }

/-- Rows of the second chunk added behind those of the first, flat. -/
def DataChunk.extend (c d : DataChunk) : DataChunk :=
  { data := (List.range c.data.length).map (fun j =>
      { data := (c.rows ++ d.rows).map (fun r => r.getD j 0), sel_vector := none,
        count := c.size + d.size }),
    sel_vector := none }

/-- Modelled from the spec: `ChunkCollection::Append(new_chunk)`, not among the
sources (an append-only sequence of row batches): the last chunk is filled up
to `STANDARD_VECTOR_SIZE` rows and the remaining rows form a new chunk. -/
def ChunkCollection.Append (K : Constants) (col : ChunkCollection) (new_chunk : DataChunk) :
    ChunkCollection :=
  let count := col.count + new_chunk.size
  match col.chunks.getLast? with
  | none =>
    if new_chunk.size > 0 then
      { chunks := [new_chunk.slice 0 false], count := count }
    else { chunks := [], count := count }
  | some last =>
    let added := min new_chunk.size (K.STANDARD_VECTOR_SIZE - last.size)
    let filled := col.chunks.dropLast ++ [last.extend (new_chunk.slice added true)]
    if new_chunk.size - added > 0 then
      { chunks := filled ++ [new_chunk.slice added false], count := count }
    else { chunks := filled, count := count }

/-- Class `LocalTableStorage`. `deleted_entries` maps a chunk index to the
bitmap of its deleted rows. -/
structure LocalTableStorage where
  collection : ChunkCollection
  indexes : List ART
  deleted_entries : List (Nat × (Nat → Bool))
  max_row : Int
  state : Option TableAppendState

/-- Constructor `LocalTableStorage::LocalTableStorage(DataTable &table)`: for every
unique index of the table an empty unique index on the same columns. -/
def LocalTableStorage.new (table : DataTable) : LocalTableStorage :=
  { collection := { chunks := [], count := 0 },
    indexes := (table.indexes.filter (fun art => art.is_unique)).map
      (fun art => { column_ids := art.column_ids, is_unique := true, entries := [] }),
    deleted_entries := [],
    max_row := 0,
    state := none }

/-- `LocalTableStorage::Clear`. -/
def LocalTableStorage.Clear (s : LocalTableStorage) : LocalTableStorage :=
  { s with collection := { s.collection with chunks := [] }, indexes := [],
           deleted_entries := [], state := none }

/-- Struct `LocalScanState` (without the pointer to the storage, which is passed
along with it). -/
structure LocalScanState where
  chunk_index : Nat
  max_index : Nat
  last_chunk_count : Nat
  deriving DecidableEq, Repr

/-- `LocalTableStorage::InitializeScan`. On a collection without chunks
`chunks.back()` is undefined (`none`). -/
def LocalTableStorage.InitializeScan (s : LocalTableStorage) : Option LocalScanState :=
  match s.collection.chunks.getLast? with
  | none => none
  | some last =>
    some { chunk_index := 0,
           max_index := s.collection.chunks.length - 1,
           last_chunk_count := last.size }

/-- Lookup `deleted_entries.find(chunk_index)`. -/
def findDeleted (m : List (Nat × (Nat → Bool))) (chunk_index : Nat) : Option (Nat → Bool) :=
  match m with
  | [] => none
  | (k, d) :: rest => if k = chunk_index then some d else findDeleted rest chunk_index

/-- The loop of `Scan` that builds the selection vector: `n` iterations left,
`i` the loop variable, `sel` the entries `sel_vector[0 .. new_count)` written so
far. -/
def selLoop (deleted : Nat → Bool) : Nat → Nat → List Nat → List Nat
  | 0, _, sel => sel
  | n + 1, i, sel =>
    if !deleted i then selLoop deleted n (i + 1) (sel ++ [i])
    else selLoop deleted n (i + 1) sel

/-- `LocalStorage::Scan(state, column_ids, result)` for the storage `state.storage`
(`none` for `nullptr`): the scanned chunk and the advanced state. -/
def Scan (K : Constants) (storage : Option LocalTableStorage) (state : LocalScanState)
    (column_ids : List Nat) (result : DataChunk) : DataChunk × LocalScanState :=
  match storage with
  | none => (result.Reset, state)
  | some st =>
    if state.chunk_index > state.max_index then (result.Reset, state)
    else
      let chunk := st.collection.chunks.getD state.chunk_index { data := [], sel_vector := none }
      let chunk_count :=
        if state.chunk_index = state.max_index then state.last_chunk_count else chunk.size
      let selcount : Option (List Nat) × Nat :=
        match findDeleted st.deleted_entries state.chunk_index with
        | some deleted =>
          let sel := selLoop deleted chunk_count 0 []
          (some sel, sel.length)
        | none => (none, chunk_count)
      let data := column_ids.map (fun id =>
        if id = K.COLUMN_IDENTIFIER_ROW_ID then
          { data := GenerateSequence chunk_count
              ((K.MAX_ROW_ID : Int) + state.chunk_index * K.STANDARD_VECTOR_SIZE),
            sel_vector := selcount.1, count := selcount.2 }
        else
          { data := (chunk.data.getD id { data := [], sel_vector := none, count := 0 }).data,
            sel_vector := selcount.1, count := selcount.2 })
      ({ data := data, sel_vector := selcount.1 },
       { state with chunk_index := state.chunk_index + 1 })

/-! ## `LocalStorage` -/

/-- An entry of the map `table_storage`. -/
structure Entry where
  table : DataTable
  storage : LocalTableStorage

/-- Class `LocalStorage`. -/
structure LocalStorage where
  table_storage : List Entry

/-- Lookup `table_storage.find(table)`. -/
def LocalStorage.find (ls : LocalStorage) (table : DataTable) : Option LocalTableStorage :=
  (ls.table_storage.find? (fun e => e.table.id == table.id)).map (fun e => e.storage)

/-- The storage `Append` works on: the one found, or a new one. -/
def LocalStorage.storageFor (ls : LocalStorage) (table : DataTable) : LocalTableStorage :=
  match ls.find table with
  | some s => s
  | none => LocalTableStorage.new table

/-- The first lines of `Append`: a table without local storage gets a new one,
inserted into the map. -/
def LocalStorage.ensure (ls : LocalStorage) (table : DataTable) : LocalStorage :=
  match ls.find table with
  | none => { table_storage := ls.table_storage ++
                [{ table := table, storage := LocalTableStorage.new table }] }
  | some _ => ls

/-- Replacement of the storage of a table in the map (the storage is reached
through a pointer and changed in place). -/
def LocalStorage.setStorage (ls : LocalStorage) (table : DataTable) (s : LocalTableStorage) :
    LocalStorage :=
  { table_storage := ls.table_storage.map
      (fun e => if e.table.id == table.id then { e with storage := s } else e) }

/-- The loop of `Append` over `storage->indexes`: every index appends the chunk
in place until one rejects it; the result tells whether all accepted. -/
def appendToLocalIndexes (chunk : DataChunk) (base_id : Int) : List ART → Bool × List ART
  | [] => (true, [])
  | index :: rest =>
    match index.Append chunk base_id with
    | none => (false, index :: rest)
    | some index' =>
      let r := appendToLocalIndexes chunk base_id rest
      (r.1, index' :: r.2)

/-- `LocalStorage::Append(table, chunk)`. -/
def LocalStorage.Append (K : Constants) (ls : LocalStorage) (table : DataTable)
    (chunk : DataChunk) : Option Exn × LocalStorage :=
  let ls1 := ls.ensure table
  let storage := ls.storageFor table
  if storage.indexes.length > 0 then
    let base_id : Int := (K.MAX_ROW_ID : Int) + storage.collection.count
    let r := appendToLocalIndexes chunk base_id storage.indexes
    if !r.1 then
      (some Exn.ConstraintException, ls1.setStorage table { storage with indexes := r.2 })
    else
      (none, ls1.setStorage table
        { storage with indexes := r.2, collection := storage.collection.Append K chunk })
  else
    (none, ls1.setStorage table
      { storage with collection := storage.collection.Append K chunk })

/-- Function `GetChunk`: the chunk a vector of row identifiers belongs to,
computed from its first entry. -/
def GetChunk (K : Constants) (row_identifiers : Vector) : Nat :=
  let first_id : Int := row_identifiers.data.getD 0 0 - K.MAX_ROW_ID
  ArtKey.castU 64 (Int.tdiv first_id K.STANDARD_VECTOR_SIZE)

/-- Assignment `deleted[id] = true`. -/
def setDeleted (deleted : Nat → Bool) (id : Nat) : Nat → Bool :=
  fun j => if j = id then true else deleted j

/-- Replacement of the bitmap of a chunk in `deleted_entries` (the bitmap is
reached through a pointer and changed in place). -/
def replaceDeleted (m : List (Nat × (Nat → Bool))) (chunk_idx : Nat) (d : Nat → Bool) :
    List (Nat × (Nat → Bool)) :=
  match m with
  | [] => []
  | (k, d0) :: rest =>
    if k = chunk_idx then (k, d) :: replaceDeleted rest chunk_idx d
    else (k, d0) :: replaceDeleted rest chunk_idx d

/-- The body of `LocalStorage::Delete` on the storage of the table. -/
def LocalTableStorage.Delete (K : Constants) (storage : LocalTableStorage)
    (row_identifiers : Vector) : LocalTableStorage :=
  let chunk_idx := GetChunk K row_identifiers
  let entries1 : List (Nat × (Nat → Bool)) :=
    match findDeleted storage.deleted_entries chunk_idx with
    | none => storage.deleted_entries ++ [(chunk_idx, fun (_ : Nat) => false)]
    | some _ => storage.deleted_entries
  let deleted : Nat → Bool :=
    match findDeleted storage.deleted_entries chunk_idx with
    | none => fun (_ : Nat) => false
    | some d => d
  let base_index : Int := (K.MAX_ROW_ID : Int) + chunk_idx * K.STANDARD_VECTOR_SIZE
  let deleted' := (execPositions row_identifiers.sel_vector row_identifiers.count).foldl
    (fun d i => setDeleted d (ArtKey.castU 64 (row_identifiers.data.getD i 0 - base_index)))
    deleted
  { storage with deleted_entries := replaceDeleted entries1 chunk_idx deleted' }

/-- `LocalStorage::Delete(table, row_identifiers)`; `none` when the table has no
local storage (the assertion of `GetStorage`). -/
def LocalStorage.Delete (K : Constants) (ls : LocalStorage) (table : DataTable)
    (row_identifiers : Vector) : Option LocalStorage :=
  (ls.find table).map (fun storage =>
    ls.setStorage table (storage.Delete K row_identifiers))

end LocalStore

namespace LocalStore

/-! ## `ScanTableStorage`, `CheckCommit` and `Commit` -/

/-- `DataChunk::Initialize(types)`: one empty column per type. -/
def DataChunk.Initialize (types : Nat) : DataChunk :=
  { data := List.replicate types { data := [], sel_vector := none, count := 0 },
    sel_vector := none }

/-- The `while (true)` loop of `ScanTableStorage`, with at most `n` calls of `Scan`.
The callback `fn` works on the state `σ` of the variables it captures and
returns its result next to the new state. `none`: the bound was too small. -/
def scanLoop {σ : Type} (K : Constants) (storage : LocalTableStorage) (column_ids : List Nat)
    (fn : σ → DataChunk → Bool × σ) :
    Nat → LocalScanState → DataChunk → σ → Option (Bool × σ)
  | 0, _, _, _ => none
  | n + 1, state, chunk, s =>
    let r := Scan K (some storage) state column_ids chunk
    if r.1.size = 0 then some (true, s)
    else
      let fr := fn s r.1
      if !fr.1 then some (false, fr.2)
      else scanLoop K storage column_ids fn n r.2 r.1 fr.2

/-- `LocalStorage::ScanTableStorage(table, storage, fun)`. `Scan` is called at
most `max_index + 2` times: it returns an empty chunk once `chunk_index` has
passed `max_index`. `none`: the scan of a collection without chunks. -/
def ScanTableStorage {σ : Type} (K : Constants) (table : DataTable)
    (storage : LocalTableStorage) (fn : σ → DataChunk → Bool × σ) (s : σ) :
    Option (Bool × σ) :=
  let column_ids := List.range table.types
  let chunk := DataChunk.Initialize table.types
  match storage.InitializeScan with
  | none => none
  | some state => scanLoop K storage column_ids fn (state.max_index + 2) state chunk s

/-- The records of the write-ahead log. -/
inductive WalRecord
  | SetTable (table : Nat)
  | Insert (chunk : DataChunk)
  | Update (chunk : DataChunk) (column_idx : Nat)
  | Delete (chunk : DataChunk)
  | CreateTable (entry : Nat)
  | CreateSchema (entry : Nat)
  | CreateView (entry : Nat)
  | CreateSequence (entry : Nat)
  | DropTable (entry : Nat)
  | DropSchema (entry : Nat)
  | DropView (entry : Nat)
  | DropSequence (entry : Nat)
  | Query (text : String)
  deriving DecidableEq, Repr

/-- The first lambda of `CheckCommit`; it captures `table`, `current_row` and
`success`. -/
def checkAppendFun (s : DataTable × Int × Bool) (chunk : DataChunk) :
    Bool × (DataTable × Int × Bool) :=
  match s.1.AppendToIndexes chunk s.2.1 with
  | none => (false, (s.1, s.2.1, false))
  | some table' => (true, (table', s.2.1 + chunk.size, s.2.2))

/-- The first loop of `CheckCommit` over `table_storage`; `success` is the
variable of that name. The result is the map and `success` after the loop. -/
def checkCommitLoop1 (K : Constants) : List Entry → Bool → Option (List Entry × Bool)
  | [], success => some ([], success)
  | e :: rest, success =>
    let state := e.table.InitializeAppend
    let storage1 := { e.storage with state := some state }
    if e.table.indexes.length = 0 then
      (checkCommitLoop1 K rest success).map
        (fun r => ({ e with storage := storage1 } :: r.1, r.2))
    else
      match ScanTableStorage K e.table storage1 checkAppendFun
          (e.table, state.row_start, success) with
      | none => none
      | some r =>
        let e' : Entry :=
          { table := r.2.1, storage := { storage1 with max_row := r.2.2.1 } }
        if !r.2.2.2 then some (e' :: rest, r.2.2.2)
        else (checkCommitLoop1 K rest r.2.2.2).map (fun q => (e' :: q.1, q.2))

/-- The second lambda of `CheckCommit`; it captures `table` and `current_row`. -/
def checkRemoveFun (max_row : Int) (s : DataTable × Int) (chunk : DataChunk) :
    Bool × (DataTable × Int) :=
  if s.2 ≥ max_row then (false, s)
  else (true, (s.1.RemoveFromIndexes chunk s.2, s.2 + chunk.size))

/-- The second loop of `CheckCommit`, which removes the entries again. `none`:
`storage->state` is a null pointer. -/
def checkCommitLoop2 (K : Constants) : List Entry → Option (List Entry)
  | [] => some []
  | e :: rest =>
    if e.table.indexes.length = 0 ∨ e.storage.max_row = 0 then
      (checkCommitLoop2 K rest).map (fun r => e :: r)
    else
      match e.storage.state with
      | none => none
      | some state =>
        match ScanTableStorage K e.table e.storage (checkRemoveFun e.storage.max_row)
            (e.table, state.row_start) with
        | none => none
        | some r => (checkCommitLoop2 K rest).map (fun q => { e with table := r.2.1 } :: q)

/-- `LocalStorage::CheckCommit`: the exception thrown, if any, and the map it
leaves. `none`: undefined behaviour in a scan. -/
def LocalStorage.CheckCommit (K : Constants) (ls : LocalStorage) :
    Option (Option Exn × LocalStorage) :=
  match checkCommitLoop1 K ls.table_storage true with
  | none => none
  | some r =>
    if !r.2 then
      match checkCommitLoop2 K r.1 with
      | none => none
      | some entries2 =>
        some (some Exn.ConstraintException,
          { table_storage := entries2.map
              (fun e => { e with storage := { e.storage with state := none } }) })
    else some (none, { table_storage := r.1 })

/-- The lambda of `Commit`; it captures `table` and the log (`none` for a null
pointer). -/
def commitFun (s : DataTable × Option (List WalRecord)) (chunk : DataChunk) :
    Bool × (DataTable × Option (List WalRecord)) :=
  let table' := s.1.Append chunk
  let log' :=
    match s.2 with
    | some records => if !s.1.temporary then some (records ++ [WalRecord.Insert chunk]) else s.2
    | none => none
  (true, (table', log'))

/-- The loop of `Commit` over `table_storage`: the tables after the commit, in
the order of the map, and the log. -/
def commitLoop (K : Constants) :
    List Entry → Option (List WalRecord) → Option (List DataTable × Option (List WalRecord))
  | [], log => some ([], log)
  | e :: rest, log =>
    let log1 :=
      match log with
      | some records =>
        if !e.table.temporary then some (records ++ [WalRecord.SetTable e.table.id]) else log
      | none => none
    match ScanTableStorage K e.table e.storage commitFun (e.table, log1) with
    | none => none
    | some r => (commitLoop K rest r.2.2).map (fun q => (r.2.1 :: q.1, q.2))

/-- `LocalStorage::Commit(transaction, log, commit_id)`: the tables after the
commit, the log, and the emptied local storage. -/
def LocalStorage.Commit (K : Constants) (ls : LocalStorage) (log : Option (List WalRecord)) :
    Option (List DataTable × Option (List WalRecord) × LocalStorage) :=
  (commitLoop K ls.table_storage log).map (fun r => (r.1, r.2, { table_storage := [] }))

/-! ## Notions used to state the claims -/

/-- Two states of an index with the same columns and flag and the same entries,
in whatever order. -/
def ART.sameContent (a a' : ART) : Prop :=
  a'.column_ids = a.column_ids ∧ a'.is_unique = a.is_unique ∧ a'.entries.Perm a.entries

/-- Two states of a table whose indexes hold the same entries. -/
def DataTable.sameIndexes (t t' : DataTable) : Prop :=
  t'.id = t.id ∧ List.Forall₂ ART.sameContent t.indexes t'.indexes

/-- The chunks the loop of `ScanTableStorage` hands to its callback, with at
most `n` calls of `Scan`. -/
def scannedChunks (K : Constants) (storage : LocalTableStorage) (column_ids : List Nat) :
    Nat → LocalScanState → DataChunk → List DataChunk
  | 0, _, _ => []
  | n + 1, state, chunk =>
    let r := Scan K (some storage) state column_ids chunk
    if r.1.size = 0 then []
    else r.1 :: scannedChunks K storage column_ids n r.2 r.1

/-- The chunks `ScanTableStorage` hands to its callback, as long as the callback
returns true. -/
def visibleChunks (K : Constants) (table : DataTable) (storage : LocalTableStorage) :
    List DataChunk :=
  match storage.InitializeScan with
  | none => []
  | some state =>
    scannedChunks K storage (List.range table.types) (state.max_index + 2) state
      (DataChunk.Initialize table.types)

/-- A callback applied to a list of chunks until it returns false. -/
def runChunks {σ : Type} (fn : σ → DataChunk → Bool × σ) : List DataChunk → σ → Bool × σ
  | [], s => (true, s)
  | c :: cs, s =>
    let fr := fn s c
    if !fr.1 then (false, fr.2) else runChunks fn cs fr.2

/-- What an index is made of when the order of its entries is left aside: the
columns, the unique flag and the multiset of the entries. -/
def ART.content (a : ART) : List Nat × Bool × Multiset (List Int × Int) :=
  (a.column_ids, a.is_unique, (a.entries : Multiset (List Int × Int)))

/-- The contents of the indexes of a table. -/
def DataTable.content (t : DataTable) : List (List Nat × Bool × Multiset (List Int × Int)) :=
  t.indexes.map ART.content

/-- Sum of the sizes of a list of chunks. -/
def sizeSum : List DataChunk → Int
  | [] => 0
  | c :: cs => (c.size : Int) + sizeSum cs

/-- The entries an index on the columns `cols` gets for a list of chunks appended
one after the other from the row identifier `row_start` on. -/
def totalEntries (cols : List Nat) : List DataChunk → Int → Multiset (List Int × Int)
  | [], _ => 0
  | c :: cs, row_start =>
    ((ART.chunkEntries { column_ids := cols, is_unique := false, entries := [] } c row_start :
        List (List Int × Int)) : Multiset (List Int × Int))
      + totalEntries cols cs (row_start + c.size)

/-- What the second loop of `CheckCommit` does to an entry `e'` restores the
indexes of the table of `e`. -/
def Restorable (K : Constants) (e e' : Entry) : Prop :=
  ((e'.table.indexes.length = 0 ∨ e'.storage.max_row = 0) →
    e'.table.id = e.table.id ∧ e'.table.content = e.table.content) ∧
  (¬ (e'.table.indexes.length = 0 ∨ e'.storage.max_row = 0) →
    e'.storage.collection.chunks ≠ [] ∧
    ∃ state, e'.storage.state = some state ∧
      (runChunks (checkRemoveFun e'.storage.max_row) (visibleChunks K e'.table e'.storage)
        (e'.table, state.row_start)).2.1.id = e.table.id ∧
      (runChunks (checkRemoveFun e'.storage.max_row) (visibleChunks K e'.table e'.storage)
        (e'.table, state.row_start)).2.1.content = e.table.content)

/-! ## Example values -/

/-- Example constants: vectors of 4 rows, local row identifiers from 1000 on. -/
def exampleK : Constants :=
  { STANDARD_VECTOR_SIZE := 4, MAX_ROW_ID := 1000, COLUMN_IDENTIFIER_ROW_ID := 99 }

/-- Example storage: one column, one chunk with the rows 10, 20, 30, of which
the second is deleted. -/
def exampleStorage : LocalTableStorage :=
  { collection := { chunks := [{ data := [{ data := [10, 20, 30], sel_vector := none, count := 3 }],
                                 sel_vector := none }], count := 3 },
    indexes := [],
    deleted_entries := [(0, fun i => i == 1)],
    max_row := 0,
    state := none }

/-- Example table with two columns and two unique indexes, one on each column. -/
def exampleTable2 : DataTable :=
  { id := 7, types := 2,
    indexes := [{ column_ids := [0], is_unique := true, entries := [] },
                { column_ids := [1], is_unique := true, entries := [] }],
    temporary := false, rows := [] }

/-- A chunk of one row with the two values `a` and `b`. -/
def rowChunk (a b : Int) : DataChunk :=
  { data := [{ data := [a], sel_vector := none, count := 1 },
             { data := [b], sel_vector := none, count := 1 }],
    sel_vector := none }

/-- The local storage of a transaction that has inserted the row (1, 1) into
`exampleTable2`. -/
def exampleLS : LocalStorage :=
  (LocalStorage.Append exampleK { table_storage := [] } exampleTable2 (rowChunk 1 1)).2

/-- Example constants with vectors of 2 rows. -/
def exampleK2 : Constants :=
  { STANDARD_VECTOR_SIZE := 2, MAX_ROW_ID := 1000, COLUMN_IDENTIFIER_ROW_ID := 99 }

/-- Example table with one column and a unique index on it, still empty. -/
def exampleTable1 : DataTable :=
  { id := 1, types := 1,
    indexes := [{ column_ids := [0], is_unique := true, entries := [] }],
    temporary := false, rows := [] }

/-- A chunk of one column with the given values. -/
def colChunk (values : List Int) : DataChunk :=
  { data := [{ data := values, sel_vector := none, count := values.length }],
    sel_vector := none }

/-- The local storage of a transaction that has inserted the rows 1, 2 and then
the row 3 into `exampleTable1`: a full chunk (1, 2) and a chunk (3). -/
def exampleLS3 : LocalStorage :=
  (LocalStorage.Append exampleK2
    (LocalStorage.Append exampleK2 { table_storage := [] } exampleTable1 (colChunk [1, 2])).2
    exampleTable1 (colChunk [3])).2

/-- The same transaction after it has deleted its rows 1 and 2 (the local row
identifiers 1000 and 1001) again. -/
def exampleLS3del : LocalStorage :=
  (exampleLS3.Delete exampleK2 exampleTable1
    { data := [1000, 1001], sel_vector := none, count := 2 }).getD exampleLS3

/-- The storage of `exampleLS3` at commit time, when another transaction has
committed the row 3 into the table in the meantime. -/
def exampleLS3conflict : LocalStorage :=
  { table_storage :=
      [{ table := { exampleTable1 with
                      indexes := [{ column_ids := [0], is_unique := true, entries := [([3], 0)] }],
                      rows := [[3]] },
         storage := exampleLS3.storageFor exampleTable1 }] }

/-- The storage of `exampleLS3conflict` after a first insert into `exampleTable2`,
of a chunk that holds the row (5, 6) twice, has been rejected: the table has a
local storage without chunks. -/
def exampleLS3conflictEmpty : LocalStorage :=
  (LocalStorage.Append exampleK2 exampleLS3conflict exampleTable2
    { data := [{ data := [5, 5], sel_vector := none, count := 2 },
               { data := [6, 6], sel_vector := none, count := 2 }],
      sel_vector := none }).2

end LocalStore

/-!
# Committing undo entries (`src/transaction/commit_state.cpp`)

The undo entry of an update and what `CommitState::CommitEntry` does with it.
The write-ahead log is the list of the records written to it, in order; the
null pointer for the log is `none`.
-/

namespace Transaction

open LocalStore (WalRecord DataChunk Vector)

/-- The table a column belongs to, as far as the commit looks at it. -/
structure TableRef where
  id : Nat
  temporary : Bool
  deriving DecidableEq, Repr

/-- Class `ColumnData`, as far as the commit looks at it. -/
structure ColumnData where
  table : TableRef
  type : Nat
  column_idx : Nat
  deriving DecidableEq, Repr

/-- Modelled from the spec: the segment an undo entry points to
(`UncompressedSegment`, not among the sources): its first row and, for a vector
index, the values `Fetch` reads from the base table for that vector. -/
structure SegmentRef where
  row_start : Nat
  fetch : Nat → List Int

/-- Struct `UpdateInfo`, the undo entry of an update of one vector, without the
links to the neighbours in the version chain. `tuples` and `tuple_data` hold
`N` entries; `α` is the type of the values kept in `tuple_data`. -/
structure UpdateInfo (α : Type) where
  column_data : ColumnData
  segment : SegmentRef
  version_number : Nat
  vector_index : Nat
  N : Nat
  tuples : List Nat
  nullmask : Nat → Bool
  tuple_data : List α

/-- Class `CommitState`; `update_chunk` comes with the type of its first column. -/
structure CommitState where
  log : Option (List WalRecord)
  commit_id : Nat
  current_table : Option Nat
  delete_chunk : Option DataChunk
  update_chunk : Option (Nat × DataChunk)

/-- A call `log->Write...(record)`: the record goes to the end of the log. -/
def writeLog (log : Option (List WalRecord)) (record : WalRecord) : Option (List WalRecord) :=
  log.map (fun records => records ++ [record])

/-- `CommitState::SwitchTable(table, new_op)`. -/
def CommitState.SwitchTable (st : CommitState) (table : TableRef) : CommitState :=
  if st.current_table ≠ some table.id then
    { st with log := writeLog st.log (WalRecord.SetTable table.id),
              current_table := some table.id }
  else st

/-- The row-id column of `WriteUpdate` after its loop: position `tuples[i]` holds
`start + tuples[i]` for `i < N`, the other positions keep what they held. -/
def writeRowIds (V : Nat) (old : List Int) (start : Nat) (tuples : List Nat) : List Int :=
  (List.range V).map (fun p => if p ∈ tuples then ((start + p : Nat) : Int) else old.getD p 0)

/-- `CommitState::WriteUpdate(info)`; `V` is `STANDARD_VECTOR_SIZE`. -/
def CommitState.WriteUpdate {α : Type} (V : Nat) (st : CommitState) (info : UpdateInfo α) :
    CommitState :=
  let st1 := st.SwitchTable info.column_data.table
  let fresh : Bool :=
    match st1.update_chunk with
    | none => true
    | some c => decide (info.column_data.type ≠ c.1)
  let chunk0 : DataChunk :=
    match st1.update_chunk with
    | none => DataChunk.Initialize 2
    | some c => if fresh then DataChunk.Initialize 2 else c.2
  let tuples := info.tuples.take info.N
  let start := info.segment.row_start + info.vector_index * V
  let col0 : Vector :=
    { data := info.segment.fetch info.vector_index, sel_vector := some tuples, count := info.N }
  let col1 : Vector :=
    { data := writeRowIds V ((chunk0.data.getD 1 { data := [], sel_vector := none, count := 0 }).data)
        start tuples,
      sel_vector := some tuples, count := info.N }
  let chunk : DataChunk := { data := [col0, col1], sel_vector := some tuples }
  { st1 with
    log := writeLog st1.log (WalRecord.Update chunk info.column_data.column_idx),
    update_chunk := some (info.column_data.type, chunk) }

/-- The case `UndoFlags::UPDATE_TUPLE` of `CommitState::CommitEntry<HAS_LOG>(type,
data)`: the state of the commit and the undo entry afterwards. -/
def CommitEntry_UPDATE_TUPLE {α : Type} (V : Nat) (HAS_LOG : Bool) (st : CommitState)
    (info : UpdateInfo α) : CommitState × UpdateInfo α :=
  let st1 :=
    if HAS_LOG && !info.column_data.table.temporary then st.WriteUpdate V info else st
  (st1, { info with version_number := st.commit_id })

end Transaction

/-!
# String segments (`src/storage/string_segment.cpp`)

A shallow embedding of the update path of `StringSegment`: the overflow string
blocks, the string update list of a vector, the undo entry (`UpdateInfo`),
`Update`, `MergeUpdateInfo` and `RollbackUpdate`.

Conventions of the embedding.

* A string is a Lean `String`; the null pointer is `none`.
* The block of a segment is described by what the code reads from it: the null
  mask and the dictionary offsets of every vector, and for a dictionary offset
  the entry stored there (an inline string, or a big-string marker).
* The arrays `ids`, `block_ids`, `offsets` of a `StringUpdateInfo` are the list
  of their first `count` entries, one triple per entry; a loop that walks such
  an array with an index walks the rest of the list.
* A `nullmask_t` is a function from the row offset to the bit.
* Row identifiers are natural numbers; `ids[i] - vector_offset` is taken for
  rows of the vector (`ids[i] ≥ vector_offset`).
-/

namespace StringSeg

open Transaction (UpdateInfo ColumnData SegmentRef)

/-- Constants declared in headers that are not among the sources at hand. -/
structure Constants where
  INVALID_BLOCK : Int
  BLOCK_ALLOC_SIZE : Int
  deriving DecidableEq, Repr

/-- Struct `string_location_t`. -/
structure string_location_t where
  block_id : Int
  offset : Int
  deriving DecidableEq, Repr

/-! ## Overflow strings: `WriteString`, `ReadString` (lines 386-492) -/

/-- Struct `StringBlock` (without the link `next`, which is the rest of the list). -/
structure StringBlock where
  block_id : Int
  offset : Int
  size : Int
  deriving DecidableEq, Repr

/-- The overflow string blocks of a segment together with the buffers behind
them: the list `head`, the string stored at every (block, offset), and the
block the buffer manager allocates next. -/
structure Heap where
  head : List StringBlock
  mem : Int → Int → Option String
  next_block : Int

/-- The tail of `WriteStringMemory`: the string is copied to the offset of the
head block `blk` and the offset advances; `next` is the next free block. -/
def writeAtHead (h : Heap) (blk : StringBlock) (rest : List StringBlock) (next : Int)
    (string : String) (total_length : Int) : Heap × string_location_t :=
  ({ head := { blk with offset := blk.offset + total_length } :: rest,
     mem := fun b o => if b = blk.block_id ∧ o = blk.offset then some string else h.mem b o,
     next_block := next },
   { block_id := blk.block_id, offset := blk.offset })

/-- `StringSegment::WriteStringMemory(string, result_block, result_offset)`: the
new heap and the location written to. Modelled from the spec as far as the
buffer manager goes (`allocate(size) -> handle`): `Allocate` hands out the block
`next_block`, which is not in use. -/
def WriteStringMemory (C : Constants) (h : Heap) (string : String) :
    Heap × string_location_t :=
  let total_length : Int := string.length + 1 + 4
  let new_block : StringBlock :=
    { block_id := h.next_block, offset := 0, size := max total_length C.BLOCK_ALLOC_SIZE }
  match h.head with
  | [] => writeAtHead h new_block [] (h.next_block + 1) string total_length
  | blk :: rest =>
    if blk.offset + total_length ≥ blk.size then
      writeAtHead h new_block (blk :: rest) (h.next_block + 1) string total_length
    else
      writeAtHead h blk rest h.next_block string total_length

/-- `StringSegment::WriteString`, without overflow writer (`overflow_writer` is
null): the string goes to the in-memory blocks. -/
def WriteString (C : Constants) (h : Heap) (string : String) : Heap × string_location_t :=
  WriteStringMemory C h string

/-- `StringSegment::ReadString(handles, block, offset)`: the null string for
`INVALID_BLOCK`, else the string stored at the location (both for a block on
disk and for a buffer in memory). -/
def ReadString (C : Constants) (h : Heap) (block : Int) (offset : Int) : Option String :=
  if block = C.INVALID_BLOCK then none else h.mem block offset

/-! ## The segment -/

/-- What is stored at an offset of the dictionary: a string with its length, or
a big-string marker with the location of the string. -/
inductive DictEntry
  | inline (s : String)
  | marker (block_id : Int) (offset : Int)
  deriving DecidableEq, Repr

/-- Struct `StringUpdateInfo`: the entries (`ids[i]`, `block_ids[i]`,
`offsets[i]`) for `i < count`. -/
structure StringUpdateInfo where
  entries : List (Nat × string_location_t)
  deriving DecidableEq, Repr

/-- `count` of a `StringUpdateInfo`. -/
def StringUpdateInfo.count (info : StringUpdateInfo) : Nat := info.entries.length

/-- Class `StringSegment`, as far as updates go. -/
structure StringSegment where
  base_nullmask : Nat → Nat → Bool
  base_data : Nat → Nat → Int
  dictionary : Int → DictEntry
  string_updates : Option (Nat → Option StringUpdateInfo)
  heap : Heap

/-- The entry `string_updates[vector_index]`, null when there is no array. -/
def StringSegment.updatesOf (seg : StringSegment) (vector_index : Nat) :
    Option StringUpdateInfo :=
  match seg.string_updates with
  | none => none
  | some arr => arr vector_index

/-- `StringSegment::FetchStringLocation(baseptr, dict_offset)`. -/
def FetchStringLocation (C : Constants) (seg : StringSegment) (dict_offset : Int) :
    string_location_t :=
  if dict_offset = 0 then { block_id := C.INVALID_BLOCK, offset := 0 }
  else
    match seg.dictionary dict_offset with
    | DictEntry.marker b o => { block_id := b, offset := o }
    | DictEntry.inline _ => { block_id := C.INVALID_BLOCK, offset := dict_offset }

/-- `StringSegment::FetchString(handles, baseptr, location)`. -/
def FetchString (C : Constants) (seg : StringSegment) (location : string_location_t) :
    Option String :=
  if location.block_id ≠ C.INVALID_BLOCK then
    ReadString C seg.heap location.block_id location.offset
  else if location.offset = 0 then none
  else
    match seg.dictionary location.offset with
    | DictEntry.inline s => some s
    | DictEntry.marker _ _ => some ""

/-- `StringSegment::FetchStringFromDict(handles, baseptr, dict_offset)`. -/
def FetchStringFromDict (C : Constants) (seg : StringSegment) (dict_offset : Int) :
    Option String :=
  FetchString C seg (FetchStringLocation C seg dict_offset)

/-- The loop of `FetchBaseData` over the rows `i`, `i + 1`, ... (`n` of them)
when the vector has string updates; `info` is the rest of the update list from
`update_idx` on. -/
def fetchBaseLoop (C : Constants) (seg : StringSegment) (vector_index : Nat) :
    Nat → Nat → List (Nat × string_location_t) → List (Option String)
  | 0, _, _ => []
  | n + 1, i, [] =>
    FetchStringFromDict C seg (seg.base_data vector_index i)
      :: fetchBaseLoop C seg vector_index n (i + 1) []
  | n + 1, i, (id, loc) :: info =>
    if id = i then
      ReadString C seg.heap loc.block_id loc.offset
        :: fetchBaseLoop C seg vector_index n (i + 1) info
    else
      FetchStringFromDict C seg (seg.base_data vector_index i)
        :: fetchBaseLoop C seg vector_index n (i + 1) ((id, loc) :: info)

/-- `StringSegment::FetchBaseData(state, baseptr, vector_index, result, count)`: the
strings of the rows `0 .. count` of the vector; the null mask of the result is
the null mask of the vector. -/
def FetchBaseData (C : Constants) (seg : StringSegment) (vector_index count : Nat) :
    List (Option String) :=
  match seg.updatesOf vector_index with
  | some info => fetchBaseLoop C seg vector_index count 0 info.entries
  | none =>
    (List.range count).map
      (fun i => FetchStringFromDict C seg (seg.base_data vector_index i))

/-- The loop of `FetchStringLocations` when the vector has string updates;
`info` is the rest of the update list from `update_idx` on. -/
def fetchLocationsLoop (C : Constants) (seg : StringSegment) (vector_index vector_offset : Nat) :
    List Nat → List (Nat × string_location_t) → List string_location_t
  | [], _ => []
  | rid :: ids, info =>
    let id := rid - vector_offset
    match info.dropWhile (fun e => e.1 < id) with
    | [] =>
      FetchStringLocation C seg (seg.base_data vector_index id)
        :: fetchLocationsLoop C seg vector_index vector_offset ids []
    | (uid, loc) :: info' =>
      if uid = id then
        loc :: fetchLocationsLoop C seg vector_index vector_offset ids info'
      else
        FetchStringLocation C seg (seg.base_data vector_index id)
          :: fetchLocationsLoop C seg vector_index vector_offset ids ((uid, loc) :: info')

/-- `StringSegment::FetchStringLocations(baseptr, ids, vector_index, vector_offset,
count, result)`. -/
def FetchStringLocations (C : Constants) (seg : StringSegment) (ids : List Nat)
    (vector_index vector_offset : Nat) : List string_location_t :=
  match seg.updatesOf vector_index with
  | some info => fetchLocationsLoop C seg vector_index vector_offset ids info.entries
  | none =>
    ids.map (fun rid =>
      FetchStringLocation C seg (seg.base_data vector_index (rid - vector_offset)))

/-! ## String updates (lines 513-560) -/

/-- The body shared by `CreateStringUpdate` and the lambda `pick_new`: a string
that is not null is written to the overflow blocks, a null gets the location
(`INVALID_BLOCK`, 0). -/
def writeUpdate (C : Constants) (h : Heap) (value : Option String) :
    Heap × string_location_t :=
  match value with
  | some s => WriteString C h s
  | none => (h, { block_id := C.INVALID_BLOCK, offset := 0 })

/-- `StringSegment::CreateStringUpdate(stats, update, ids, vector_offset)`; the
update vector is the list of its values, `none` for a null. -/
def CreateStringUpdate (C : Constants) (h : Heap) :
    List (Option String) → List Nat → Nat → Heap × List (Nat × string_location_t)
  | value :: update, rid :: ids, vector_offset =>
    let w := writeUpdate C h value
    let r := CreateStringUpdate C w.1 update ids vector_offset
    (r.1, (rid - vector_offset, w.2) :: r.2)
  | _, _, _ => (h, [])

/-- One step of `merge_loop`: the callback it calls and the arguments. -/
inductive MergeStep
  | merge (id aidx bidx : Nat)
  | pick_a (id aidx : Nat)
  | pick_b (id bidx : Nat)
  deriving DecidableEq, Repr

/-- Modelled from the spec: the loop of `merge_loop(a, b, acount, bcount, aoffset,
merge, pick_a, pick_b)`, which is not among the sources: the ordered two-way
merge of the ascending lists `a[i] - aoffset` and `b[i]`. It calls `merge` for
an id in both lists, `pick_a` for an id of `a` only and `pick_b` for an id of
`b` only, with the positions in the lists; `n` bounds the number of steps. -/
def mergeSteps (aoffset : Nat) : Nat → List Nat → Nat → List Nat → Nat → List MergeStep
  | 0, _, _, _, _ => []
  | _ + 1, [], _, [], _ => []
  | n + 1, x :: a, aidx, [], bidx =>
    MergeStep.pick_a (x - aoffset) aidx :: mergeSteps aoffset n a (aidx + 1) [] bidx
  | n + 1, [], aidx, y :: b, bidx =>
    MergeStep.pick_b y bidx :: mergeSteps aoffset n [] aidx b (bidx + 1)
  | n + 1, x :: a, aidx, y :: b, bidx =>
    if x - aoffset = y then
      MergeStep.merge y aidx bidx :: mergeSteps aoffset n a (aidx + 1) b (bidx + 1)
    else if x - aoffset < y then
      MergeStep.pick_a (x - aoffset) aidx :: mergeSteps aoffset n a (aidx + 1) (y :: b) bidx
    else
      MergeStep.pick_b y bidx :: mergeSteps aoffset n (x :: a) aidx b (bidx + 1)

/-- Modelled from the spec: `merge_loop`, not among the sources; the steps it
takes, in order. The value it returns is their number. -/
def merge_loop (a : List Nat) (b : List Nat) (aoffset : Nat) : List MergeStep :=
  mergeSteps aoffset (a.length + b.length) a 0 b 0

/-- The callbacks of `MergeStringUpdate` applied to the steps of the merge:
`merge` and `pick_new` write the new string, `pick_old` keeps the old entry. -/
def mergeStringSteps (C : Constants) (update : List (Option String))
    (old : List (Nat × string_location_t)) :
    Heap → List MergeStep → Heap × List (Nat × string_location_t)
  | h, [] => (h, [])
  | h, MergeStep.merge id aidx _ :: steps =>
    let w := writeUpdate C h (update.getD aidx none)
    let r := mergeStringSteps C update old w.1 steps
    (r.1, (id, w.2) :: r.2)
  | h, MergeStep.pick_a id aidx :: steps =>
    let w := writeUpdate C h (update.getD aidx none)
    let r := mergeStringSteps C update old w.1 steps
    (r.1, (id, w.2) :: r.2)
  | h, MergeStep.pick_b id bidx :: steps =>
    let r := mergeStringSteps C update old h steps
    (r.1, (id, (old.getD bidx (0, { block_id := C.INVALID_BLOCK, offset := 0 })).2) :: r.2)

/-- `StringSegment::MergeStringUpdate(stats, update, ids, vector_offset, update_info)`. -/
def MergeStringUpdate (C : Constants) (h : Heap) (update : List (Option String))
    (ids : List Nat) (vector_offset : Nat) (update_info : StringUpdateInfo) :
    Heap × List (Nat × string_location_t) :=
  mergeStringSteps C update update_info.entries h
    (merge_loop (ids.take update.length) (update_info.entries.map (fun e => e.1)) vector_offset)

/-! ## The undo entry (lines 565-600) -/

/-- Assignment `mask[id] = bit` on a null mask. -/
def setBit (mask : Nat → Bool) (id : Nat) (bit : Bool) : Nat → Bool :=
  fun j => if j = id then bit else mask j

/-- The callbacks of `MergeUpdateInfo` applied to the steps of the merge: the
entries written to `node->tuples` and `info_data`, and the null mask of the
node. `old_ids`, `old_data` are the copies of the old entries, `base_data` the
locations fetched for the new ids, `base_nullmask` the null mask passed in. -/
def mergeInfoSteps (old_data : List string_location_t) (base_data : List string_location_t)
    (base_nullmask : Nat → Bool) (dflt : string_location_t) :
    (Nat → Bool) → List MergeStep → (Nat → Bool) × List (Nat × string_location_t)
  | mask, [] => (mask, [])
  | mask, MergeStep.merge id _ bidx :: steps =>
    let r := mergeInfoSteps old_data base_data base_nullmask dflt mask steps
    (r.1, (id, old_data.getD bidx dflt) :: r.2)
  | mask, MergeStep.pick_a id aidx :: steps =>
    let r := mergeInfoSteps old_data base_data base_nullmask dflt
      (setBit mask id (base_nullmask aidx)) steps
    (r.1, (id, base_data.getD aidx dflt) :: r.2)
  | mask, MergeStep.pick_b id bidx :: steps =>
    let r := mergeInfoSteps old_data base_data base_nullmask dflt mask steps
    (r.1, (id, old_data.getD bidx dflt) :: r.2)

/-- `StringSegment::MergeUpdateInfo(node, update, ids, vector_offset, base_data,
base_nullmask)`; `count` is `update.count`. -/
def MergeUpdateInfo (C : Constants) (node : UpdateInfo string_location_t) (count : Nat)
    (ids : List Nat)
    (vector_offset : Nat) (base_data : List string_location_t) (base_nullmask : Nat → Bool) :
    UpdateInfo string_location_t :=
  let old_ids := node.tuples.take node.N
  let old_data := node.tuple_data.take node.N
  let r := mergeInfoSteps old_data base_data base_nullmask
    { block_id := C.INVALID_BLOCK, offset := 0 } node.nullmask
    (merge_loop (ids.take count) old_ids vector_offset)
  { node with
    N := r.2.length,
    tuples := r.2.map (fun e => e.1),
    tuple_data := r.2.map (fun e => e.2),
    nullmask := r.1 }

/-- Modelled from the spec: `UncompressedSegment::CreateUpdateInfo(column_data,
transaction, ids, count, vector_index, vector_offset, type_size)`, not among the
sources: a new undo entry of this segment for the rows `ids[i] - vector_offset`,
`i < count`, of the vector, stamped with the id of the transaction; the string
segment fills in the null mask and the tuple data. -/
def CreateUpdateInfo (column_data : ColumnData) (segment : SegmentRef) (transaction_id : Nat)
    (ids : List Nat) (count : Nat) (vector_index vector_offset : Nat) :
    UpdateInfo string_location_t :=
  { column_data := column_data,
    segment := segment,
    version_number := transaction_id,
    vector_index := vector_index,
    N := count,
    tuples := (ids.take count).map (fun rid => rid - vector_offset),
    nullmask := fun _ => false,
    tuple_data := [] }

/-! ## `Update` and `RollbackUpdate` (lines 605-703) -/

/-- The loop of `Update` that writes the null bits of the update into the null
mask of the vector. -/
def updateNullmask (vector_offset : Nat) :
    (Nat → Bool) → List Nat → List (Option String) → (Nat → Bool)
  | mask, rid :: ids, value :: update =>
    updateNullmask vector_offset (setBit mask (rid - vector_offset) value.isNone) ids update
  | mask, _, _ => mask

/-- `StringSegment::Update(column_data, stats, transaction, update, ids,
vector_index, vector_offset, node)`: the segment after the update and the undo
entry (the new one, or `node` with the update merged in). `segment` is the
handle of this segment that a new undo entry points to, `transaction_id` the id
of `transaction`. -/
def Update (C : Constants) (seg : StringSegment) (column_data : ColumnData)
    (segment : SegmentRef) (transaction_id : Nat)
    (update : List (Option String)) (ids : List Nat) (vector_index vector_offset : Nat)
    (node : Option (UpdateInfo string_location_t)) :
    StringSegment × UpdateInfo string_location_t :=
  let arr : Nat → Option StringUpdateInfo :=
    match seg.string_updates with
    | none => fun _ => none
    | some a => a
  let original_nullmask := seg.base_nullmask vector_index
  let string_locations :=
    FetchStringLocations C seg (ids.take update.length) vector_index vector_offset
  let created : Heap × List (Nat × string_location_t) :=
    match arr vector_index with
    | none => CreateStringUpdate C seg.heap update ids vector_offset
    | some info => MergeStringUpdate C seg.heap update ids vector_offset info
  let mask' := updateNullmask vector_offset original_nullmask ids update
  let node' : UpdateInfo string_location_t :=
    match node with
    | none =>
      { CreateUpdateInfo column_data segment transaction_id ids update.length vector_index
          vector_offset with
        nullmask := original_nullmask,
        tuple_data := string_locations }
    | some n =>
      MergeUpdateInfo C n update.length ids vector_offset string_locations original_nullmask
  ({ seg with
     base_nullmask := fun v => if v = vector_index then mask' else seg.base_nullmask v,
     string_updates := some (fun v =>
       if v = vector_index then some { entries := created.2 } else arr v),
     heap := created.1 },
   node')

/-- The first loop of `RollbackUpdate`: the previous null bits are put back. -/
def rollbackNullmask (info_nullmask : Nat → Bool) : (Nat → Bool) → List Nat → (Nat → Bool)
  | mask, [] => mask
  | mask, t :: tuples => rollbackNullmask info_nullmask (setBit mask t (info_nullmask t)) tuples

/-- The second loop of `RollbackUpdate` over the string update list; `undo` is
the rest of the undo entries (`info->tuples`, `string_locations`) from `old_idx`
on. -/
def rollbackLoop (C : Constants) :
    List (Nat × string_location_t) → List (Nat × string_location_t) →
      List (Nat × string_location_t)
  | [], _ => []
  | (id, loc) :: updates, [] => (id, loc) :: rollbackLoop C updates []
  | (id, loc) :: updates, (t, old_location) :: undo =>
    if id ≠ t then (id, loc) :: rollbackLoop C updates ((t, old_location) :: undo)
    else if old_location.block_id ≠ C.INVALID_BLOCK then
      (id, old_location) :: rollbackLoop C updates undo
    else rollbackLoop C updates undo

/-- `StringSegment::RollbackUpdate(info)`; `CleanupUpdate`, which unlinks the undo
entry from the version chain, does not touch the fields modelled here. -/
def RollbackUpdate (C : Constants) (seg : StringSegment) (info : UpdateInfo string_location_t) :
    StringSegment :=
  let update_info : List (Nat × string_location_t) :=
    match seg.updatesOf info.vector_index with
    | some u => u.entries
    | none => []
  let mask' := rollbackNullmask info.nullmask (seg.base_nullmask info.vector_index)
    (info.tuples.take info.N)
  let entries' := rollbackLoop C update_info
    ((info.tuples.zip info.tuple_data).take info.N)
  { seg with
    base_nullmask := fun v => if v = info.vector_index then mask' else seg.base_nullmask v,
    string_updates := seg.string_updates.map (fun arr v =>
      if v = info.vector_index then
        (if entries'.length = 0 then none else some { entries := entries' })
      else arr v) }

end StringSeg

namespace StringSeg

/-! ## Notions used to state the claims about string segments -/

/-- A location of the overflow blocks that has been written: its block was
handed out before, and in the head block it lies below the write offset. -/
def Heap.allocated (h : Heap) (b o : Int) : Prop :=
  b < h.next_block ∧ ∀ blk ∈ h.head.head?, blk.block_id = b → o < blk.offset

/-- The heap `h2` still holds every string written to `h`. -/
def Heap.keeps (h h2 : Heap) : Prop :=
  ∀ b o, h.allocated b o → h2.allocated b o ∧ h2.mem b o = h.mem b o

/-- The location a string update list holds for the row offset `i`, if any. -/
def entryAt : List (Nat × string_location_t) → Nat → Option string_location_t
  | [], _ => none
  | (id, loc) :: rest, i => if id = i then some loc else entryAt rest i

/-- The string update list of a vector, empty when there is none. -/
def StringSegment.entriesOf (seg : StringSegment) (vector_index : Nat) :
    List (Nat × string_location_t) :=
  match seg.updatesOf vector_index with
  | some info => info.entries
  | none => []

/-- The string of row `i` of a vector, given its string update list: from the
list if it has an entry for the row, else from the dictionary. -/
def readRow (C : Constants) (seg : StringSegment) (vector_index : Nat)
    (l : List (Nat × string_location_t)) (i : Nat) : Option String :=
  match entryAt l i with
  | some loc => ReadString C seg.heap loc.block_id loc.offset
  | none => FetchStringFromDict C seg (seg.base_data vector_index i)

/-- The string of row `i` of a vector. -/
def rowString (C : Constants) (seg : StringSegment) (vector_index i : Nat) : Option String :=
  readRow C seg vector_index (seg.entriesOf vector_index) i

/-- The id a step of the merge is about. -/
def MergeStep.id : MergeStep → Nat
  | MergeStep.merge id _ _ => id
  | MergeStep.pick_a id _ => id
  | MergeStep.pick_b id _ => id

/-- A string update list with strictly ascending row offsets. -/
def sortedEntries (l : List (Nat × string_location_t)) : Prop :=
  (l.map (fun e => e.1)).Pairwise (fun x y => x < y)

/-! ## Example values -/

/-- Constants for the examples. -/
def exampleC : Constants := { INVALID_BLOCK := -1, BLOCK_ALLOC_SIZE := 64 }

/-- A segment with one vector of two rows: row 0 holds the inline string "p"
(dictionary offset 8), row 1 is NULL (dictionary offset 0). -/
def exampleSeg : StringSegment :=
  { base_nullmask := fun _ i => decide (i = 1),
    base_data := fun _ i => if i = 0 then 8 else 0,
    dictionary := fun _ => DictEntry.inline "p",
    string_updates := none,
    heap := { head := [], mem := fun _ _ => none, next_block := 100 } }

/-- The column of the example segment. -/
def exampleColumn : Transaction.ColumnData :=
  { table := { id := 1, temporary := false }, type := 0, column_idx := 0 }

/-- The handle of the example segment. -/
def exampleSegmentRef : Transaction.SegmentRef := { row_start := 0, fetch := fun _ => [] }

/-- The first update of a transaction: row 0 becomes "a". -/
def exampleUpdate1 : StringSegment × Transaction.UpdateInfo string_location_t :=
  Update exampleC exampleSeg exampleColumn exampleSegmentRef 7 [some "a"] [0] 0 0 none

/-- The second update of the same transaction: row 1 becomes "b"; the undo entry
of the first update is merged. -/
def exampleUpdate2 : StringSegment × Transaction.UpdateInfo string_location_t :=
  Update exampleC exampleUpdate1.1 exampleColumn exampleSegmentRef 7 [some "b"] [1] 0 0
    (some exampleUpdate1.2)

/-- The segment after the rollback of the transaction. -/
def exampleRollback : StringSegment :=
  RollbackUpdate exampleC exampleUpdate2.1 exampleUpdate2.2

/-- The segment after the first update has been committed: row 0 reads "a" from
the overflow blocks. -/
def exampleSeg1 : StringSegment := exampleUpdate1.1

end StringSeg

namespace LocalStore

/-- The records `Commit` is said to write for one table with a log attached:
nothing for a temporary table, else one select-table record naming the table
followed by one insert record per batch, in order. -/
def tableRecords (table : DataTable) (batches : List DataChunk) : List WalRecord :=
  if table.temporary then []
  else WalRecord.SetTable table.id :: batches.map WalRecord.Insert

end LocalStore

namespace Transaction

open LocalStore (WalRecord DataChunk Vector Exn)

/-! ## Catalog entries, deletions and `CommitEntry` (lines 24-93, 127-173) -/

/-- Enum `CatalogType`, declared in a header that is not among the sources: the
enumerators `WriteCatalogEntry` names, and `other` for every further one. -/
inductive CatalogType
  | TABLE
  | SCHEMA
  | VIEW
  | SEQUENCE
  | DELETED_ENTRY
  | INDEX
  | PREPARED_STATEMENT
  | other (code : Nat)
  deriving DecidableEq, Repr

/-- Class `CatalogEntry`, as far as the commit looks at it; `id` stands for the
entry itself when a log record names it. -/
structure CatalogEntry where
  id : Nat
  type : CatalogType
  temporary : Bool
  timestamp : Nat
  deriving DecidableEq, Repr

/-- Modelled from the spec: the version information of a chunk of rows
(`ChunkInfo`, not among the sources): for every row of the chunk the id of the
transaction that deleted it. -/
structure ChunkInfo where
  deleted : Nat → Nat

/-- Modelled from the spec: `ChunkInfo::CommitDelete(commit_id, rows, count)`, not
among the sources ("mark the underlying visibility bitmap as
committed-deleted"): the rows `rows[i]`, `i < count`, are marked as deleted by
`commit_id`. -/
def ChunkInfo.CommitDelete (vinfo : ChunkInfo) (commit_id : Nat) (rows : List Nat)
    (count : Nat) : ChunkInfo :=
  { deleted := fun r => if r ∈ rows.take count then commit_id else vinfo.deleted r }

/-- Struct `DeleteInfo`, the undo entry of a deletion: `table` and `cardinality`
are the table `GetTable()` returns and its row count (an `index_t`), `rows`
holds the `count` rows of the chunk that were deleted, relative to `base_row`. -/
structure DeleteInfo where
  table : TableRef
  cardinality : Nat
  vinfo : ChunkInfo
  count : Nat
  rows : List Nat
  base_row : Nat

/-- `CommitState::WriteCatalogEntry(entry)`; `parent` is `entry->parent`. The
result is the exception thrown, if any, and the log. -/
def WriteCatalogEntry (log : Option (List WalRecord)) (entry parent : CatalogEntry) :
    Option Exn × Option (List WalRecord) :=
  match parent.type with
  | CatalogType.TABLE =>
    if entry.type = CatalogType.TABLE then (none, log)
    else if parent.temporary then (none, log)
    else (none, writeLog log (WalRecord.CreateTable parent.id))
  | CatalogType.SCHEMA =>
    if entry.type = CatalogType.SCHEMA then (none, log)
    else (none, writeLog log (WalRecord.CreateSchema parent.id))
  | CatalogType.VIEW => (none, writeLog log (WalRecord.CreateView parent.id))
  | CatalogType.SEQUENCE => (none, writeLog log (WalRecord.CreateSequence parent.id))
  | CatalogType.DELETED_ENTRY =>
    if entry.type = CatalogType.TABLE then
      (none, writeLog log (WalRecord.DropTable entry.id))
    else if entry.type = CatalogType.SCHEMA then
      (none, writeLog log (WalRecord.DropSchema entry.id))
    else if entry.type = CatalogType.VIEW then
      (none, writeLog log (WalRecord.DropView entry.id))
    else if entry.type = CatalogType.SEQUENCE then
      (none, writeLog log (WalRecord.DropSequence entry.id))
    else if entry.type = CatalogType.PREPARED_STATEMENT then (none, log)
    else (some Exn.NotImplementedException, log)
  | CatalogType.INDEX => (none, log)
  | CatalogType.PREPARED_STATEMENT => (none, log)
  | CatalogType.other _ => (some Exn.NotImplementedException, log)

/-- The chunk `WriteDelete` hands to the log: the first `count` entries of the
row column are `base_row + rows[i]`, the entries behind them are what the
column held, and the count of the column is `count`. -/
def deleteChunk (old : DataChunk) (info : DeleteInfo) : DataChunk :=
  let col := old.data.getD 0 { data := [], sel_vector := none, count := 0 }
  let rows : List Int :=
    (List.range info.count).map (fun i => ((info.base_row + info.rows.getD i 0 : Nat) : Int))
  { old with
    data := { col with data := rows ++ col.data.drop info.count, count := info.count }
      :: old.data.drop 1 }

/-- `CommitState::WriteDelete(info)`. -/
def CommitState.WriteDelete (st : CommitState) (info : DeleteInfo) : CommitState :=
  let st1 := st.SwitchTable info.table
  let chunk0 : DataChunk :=
    match st1.delete_chunk with
    | none => DataChunk.Initialize 1
    | some c => c
  let chunk := deleteChunk chunk0 info
  { st1 with
    log := writeLog st1.log (WalRecord.Delete chunk),
    delete_chunk := some chunk }

/-- An entry of the undo buffer: the flag `type` that `CommitEntry` switches on
together with what `data` points to for that flag. A catalog entry comes with
its parent; `other` is any flag without a case of its own. -/
inductive UndoEntry (α : Type)
  | CATALOG_ENTRY (entry parent : CatalogEntry)
  | DELETE_TUPLE (info : DeleteInfo)
  | UPDATE_TUPLE (info : UpdateInfo α)
  | QUERY (query : String)
  | DATA
  | other (flag : Nat)

/-- `CommitState::CommitEntry<HAS_LOG>(type, data)`: the exception thrown, if any,
the state of the commit, and the undo entry with the objects it points to as
the call leaves them. `V` is `STANDARD_VECTOR_SIZE`. -/
def CommitEntry {α : Type} (V : Nat) (HAS_LOG : Bool) (st : CommitState) :
    UndoEntry α → Option Exn × CommitState × UndoEntry α
  | UndoEntry.CATALOG_ENTRY entry parent =>
    let parent1 := { parent with timestamp := st.commit_id }
    if HAS_LOG then
      let w := WriteCatalogEntry st.log entry parent1
      (w.1, { st with log := w.2 }, UndoEntry.CATALOG_ENTRY entry parent1)
    else (none, st, UndoEntry.CATALOG_ENTRY entry parent1)
  | UndoEntry.DELETE_TUPLE info =>
    let info1 := { info with
      cardinality := ArtKey.castU 64 ((info.cardinality : Int) - (info.count : Int)) }
    let st1 := if HAS_LOG && !info1.table.temporary then st.WriteDelete info1 else st
    (none, st1, UndoEntry.DELETE_TUPLE
      { info1 with vinfo := info1.vinfo.CommitDelete st.commit_id info1.rows info1.count })
  | UndoEntry.UPDATE_TUPLE info =>
    let r := CommitEntry_UPDATE_TUPLE V HAS_LOG st info
    (none, r.1, UndoEntry.UPDATE_TUPLE r.2)
  | UndoEntry.QUERY query =>
    if HAS_LOG then (none, { st with log := writeLog st.log (WalRecord.Query query) },
      UndoEntry.QUERY query)
    else (none, st, UndoEntry.QUERY query)
  | UndoEntry.DATA => (none, st, UndoEntry.DATA)
  | UndoEntry.other flag => (some Exn.NotImplementedException, st, UndoEntry.other flag)

end Transaction

namespace Transaction

open LocalStore (WalRecord DataChunk Vector Exn)

/-! ## Notions used to state the claims about the commit -/

/-- The records written to the log between two of its states. -/
def recordsSince (before after : Option (List WalRecord)) : List WalRecord :=
  (after.getD []).drop (before.getD []).length

/-- The records `CommitEntry<true>` writes for a catalog entry with the given
parent. -/
def catalogRecords (V : Nat) (st : CommitState) (entry parent : CatalogEntry) :
    List WalRecord :=
  recordsSince st.log
    (CommitEntry V true st (UndoEntry.CATALOG_ENTRY entry parent : UndoEntry Unit)).2.1.log

/-- The undo entries for which `CommitEntry` is said to raise
`NotImplementedException`: a flag other than `CATALOG_ENTRY`, `DELETE_TUPLE`,
`UPDATE_TUPLE`, `QUERY` and `DATA`, and, with a log attached, a catalog entry
whose parent type has no log handling or a dropped entry of an unknown type. -/
def saidToRaise {α : Type} (HAS_LOG : Bool) : UndoEntry α → Bool
  | UndoEntry.other _ => true
  | UndoEntry.CATALOG_ENTRY entry parent =>
    HAS_LOG &&
      (match parent.type with
        | CatalogType.other _ => true
        | CatalogType.DELETED_ENTRY =>
          !(entry.type = CatalogType.TABLE || entry.type = CatalogType.SCHEMA ||
            entry.type = CatalogType.VIEW || entry.type = CatalogType.SEQUENCE ||
            entry.type = CatalogType.PREPARED_STATEMENT)
        | _ => false)
  | _ => false

/-! ## Example values -/

/-- A commit with id 42 and an empty log attached. -/
def exampleCommit : CommitState :=
  { log := some [], commit_id := 42, current_table := none, delete_chunk := none,
    update_chunk := none }

/-- The node a new catalog entry replaces. -/
def exampleDummy : CatalogEntry :=
  { id := 1, type := CatalogType.DELETED_ENTRY, temporary := false, timestamp := 0 }

/-- A temporary table. -/
def exampleTempTable : CatalogEntry :=
  { id := 2, type := CatalogType.TABLE, temporary := true, timestamp := 7 }

/-- A table that is not temporary. -/
def exampleTable : CatalogEntry :=
  { id := 3, type := CatalogType.TABLE, temporary := false, timestamp := 7 }

/-- The node that replaces a dropped catalog entry. -/
def exampleDropped : CatalogEntry :=
  { id := 4, type := CatalogType.DELETED_ENTRY, temporary := false, timestamp := 0 }

/-- A prepared statement. -/
def examplePrepared : CatalogEntry :=
  { id := 6, type := CatalogType.PREPARED_STATEMENT, temporary := false, timestamp := 7 }

/-- The deletion of the rows 1 and 3 of the chunk that starts at row 2048, in a
table of 10 rows. -/
def exampleDelete : DeleteInfo :=
  { table := { id := 5, temporary := false }, cardinality := 10,
    vinfo := { deleted := fun _ => 0 }, count := 2, rows := [1, 3], base_row := 2048 }

end Transaction

/-!
# The TQL front end (`src/main/tigerdb.cpp`)

A shallow embedding of `TigerDB::parse`, `parseTableName` and `parseShow`. A
`std::string` is the list of its characters; a string literal of the source is
the literal itself turned into that list. Reading an element of a vector
behind its end is undefined behaviour, modelled as `none`.
-/

namespace Tql

/-- Struct `TSQLResult` (`sql_result`). -/
structure TSQLResult where
  error : Bool
  eMsg : List Char
  sql : List Char
  stopSQLFlow : Bool
  deriving DecidableEq, Repr

/-- Class `TigerDB`: the two table names. -/
structure TigerDB where
  t1 : List Char
  t2 : List Char
  deriving DecidableEq, Repr

/-- The constructor `TigerDB()`. -/
def TigerDB.new : TigerDB := { t1 := [], t2 := [] }

/-- The delimiter of the tokens, a blank. -/
def blank : Char := Char.ofNat 32

/-- `getline(check1, intermediate, delim)` on a stream with at least one
character left: the characters up to the delimiter, and what is left of the
stream behind the delimiter; `none` when the end of the stream was reached
instead (the stream is at its end and no further read succeeds). -/
def getline (delim : Char) : List Char → List Char × Option (List Char)
  | [] => ([], none)
  | c :: cs =>
    if c = delim then ([], some cs)
    else ((c :: (getline delim cs).1), (getline delim cs).2)

/-- The loop `while (getline(check1, intermediate, ' ')) tokens.push_back(...)`
with at most `n` rounds: a read fails when the stream is at its end or has no
character left. -/
def tokenLoop : Nat → Option (List Char) → List (List Char)
  | 0, _ => []
  | _ + 1, none => []
  | _ + 1, some [] => []
  | n + 1, some (c :: cs) =>
    (getline blank (c :: cs)).1 :: tokenLoop n (getline blank (c :: cs)).2

/-- The tokens `parse` splits its argument into. -/
def tokens (tql : List Char) : List (List Char) :=
  tokenLoop (tql.length + 1) (some tql)

/-- `TigerDB::parseTableName(t)`: the result and the object afterwards. -/
def parseTableName (db : TigerDB) (t : List (List Char)) : Option (TSQLResult × TigerDB) :=
  let tr : TSQLResult :=
    { error := false, eMsg := "None".toList, sql := "".toList, stopSQLFlow := true }
  if t.length ≠ 4 then
    some ({ tr with error := true, eMsg := "TQL Error: Invalid SET statement".toList }, db)
  else
    match t[1]?, t[3]? with
    | some t_1, some t_3 =>
      if t_1 = "t1".toList ∨ t_1 = "T1".toList then some (tr, { db with t1 := t_3 })
      else if t_1 = "t2".toList ∨ t_1 = "T2".toList then some (tr, { db with t2 := t_3 })
      else
        some ({ tr with error := true, eMsg := "TQL Error: Invalid SET statement".toList }, db)
    | _, _ => none

/-- `TigerDB::parseShow(t)`. -/
def parseShow (db : TigerDB) (t : List (List Char)) : Option TSQLResult :=
  let tr : TSQLResult :=
    { error := false, eMsg := "None".toList, sql := "".toList, stopSQLFlow := false }
  let pre := "SELECT * FROM ".toList
  match t[1]? with
  | none => none
  | some t_1 =>
    if t_1 = "DATA".toList ∨ t_1 = "data".toList then
      some { tr with sql := tr.sql ++ (pre ++ db.t2) }
    else if t_1 = "META".toList ∨ t_1 = "meta".toList then
      some { tr with sql := tr.sql ++ (pre ++ db.t1) }
    else some { tr with sql := tr.sql ++ (pre ++ db.t2) }

/-- `TigerDB::parse(tql)`: the result and the object afterwards. -/
def parse (db : TigerDB) (tql : List Char) : Option (TSQLResult × TigerDB) :=
  let t : TSQLResult :=
    { error := false, eMsg := "None".toList, sql := "".toList, stopSQLFlow := false }
  match (tokens tql)[0]? with
  | none => none
  | some tok =>
    if tok = "CREATE".toList ∨ tok = "create".toList then some ({ t with sql := tql }, db)
    else if tok = "INSERT".toList ∨ tok = "insert".toList then some ({ t with sql := tql }, db)
    else if tok = "SET".toList ∨ tok = "set".toList then parseTableName db (tokens tql)
    else if tok = "SHOW".toList ∨ tok = "show".toList then
      if db.t1 = "".toList ∨ db.t2 = "".toList then
        some ({ t with
          error := true,
          eMsg := "TQL Query Error: You have not defined Table 1 and Table 2 Yet".toList }, db)
      else (parseShow db (tokens tql)).map (fun r => (r, db))
    else
      some ({ t with
        error := true,
        eMsg := ("TigerDB V0.1 only supports SHOW TQL queries and " ++
          "CREATE and INSERT SQL queries").toList }, db)

end Tql

/-!
# The dictionary of a string segment, byte by byte

A second embedding of `src/storage/string_segment.cpp`, at the level of the
bytes of the block: `WriteStringMarker`, `ReadStringMarker`,
`FetchStringLocation`, `FetchString`, `FetchStringFromDict` and `AppendData`.

Conventions of the embedding.

* The buffer of the block is a function from the address, counted from
  `baseptr`, to the byte; `end` is the address `BLOCK_SIZE`.
* `memcpy` of an integer object copies its bytes in the byte order of the host
  (`hostLE`).
* A character of a string stands for one byte, its code; a C string ends at its
  first zero character.
* The constants of `string_segment.hpp` and the sizes of the types are
  parameters (`Layout`). The representation of `nullmask_t` is not fixed by the
  sources: setting a bit of the mask is the parameter `setNull`, which maps
  the bytes of the mask to the bytes of the mask after the bit is set.
-/

namespace StringDict

open StringSeg (string_location_t Heap)

/-- Constants and sizes declared in headers that are not among the sources. -/
structure Layout where
  BLOCK_SIZE : Nat
  STANDARD_VECTOR_SIZE : Nat
  BIG_STRING_MARKER : Nat
  BIG_STRING_MARKER_BASE_SIZE : Nat
  BIG_STRING_MARKER_SIZE : Nat
  STRING_BLOCK_LIMIT : Nat
  block_id_size : Nat
  nullmask_size : Nat
  hostLE : Bool
  setNull : List Nat → Nat → List Nat

/-! ## Bytes -/

/-- The buffer after `bytes` have been copied to the address `addr`. -/
def writeBytes (buf : Nat → Nat) (addr : Nat) (bytes : List Nat) : Nat → Nat :=
  fun a => if addr ≤ a ∧ a < addr + bytes.length then bytes.getD (a - addr) 0 else buf a

/-- The `n` bytes of the buffer from the address `addr` on. -/
def readBytes (buf : Nat → Nat) (addr n : Nat) : List Nat :=
  (List.range n).map (fun i => buf (addr + i))

/-- The unsigned integer whose bytes, in the byte order of the host, are `bytes`. -/
def loadUInt (hostLE : Bool) (bytes : List Nat) : Nat :=
  if hostLE then ArtKey.beValue bytes.reverse else ArtKey.beValue bytes

/-- The signed integer (two's complement) whose bytes, in the byte order of the
host, are `bytes`. -/
def loadInt (hostLE : Bool) (bytes : List Nat) : Int :=
  if loadUInt hostLE bytes < 2 ^ (8 * bytes.length - 1) then (loadUInt hostLE bytes : Int)
  else (loadUInt hostLE bytes : Int) - 2 ^ (8 * bytes.length)

/-- The bytes of a list a fixed number of bytes long: cut, or filled with zeros. -/
def fitBytes (n : Nat) (bytes : List Nat) : List Nat :=
  (bytes ++ List.replicate n 0).take n

/-- The characters of a string up to its first zero character: the string as
`strlen` and `memcpy` of a `char *` see it. -/
def cstr (s : String) : String :=
  String.mk (s.toList.takeWhile (fun c => c ≠ Char.ofNat 0))

/-- `strlen(s)`. -/
def strlen (s : String) : Nat := (cstr s).length

/-- The bytes of a C string, without the terminator. -/
def stringBytes (s : String) : List Nat := (cstr s).toList.map Char.toNat

/-! ## Big-string markers (lines 494-508) -/

/-- `StringSegment::WriteStringMarker(target, block_id, offset)`. -/
def WriteStringMarker (L : Layout) (buf : Nat → Nat) (target : Nat) (block_id offset : Int) :
    Nat → Nat :=
  let buf1 := writeBytes buf target (ArtKey.storeUInt L.hostLE 2 L.BIG_STRING_MARKER)
  let buf2 := writeBytes buf1 (target + 2)
    (ArtKey.storeUInt L.hostLE L.block_id_size (ArtKey.castU (8 * L.block_id_size) block_id))
  writeBytes buf2 (target + 2 + L.block_id_size)
    (ArtKey.storeUInt L.hostLE 4 (ArtKey.castU 32 offset))

/-- `StringSegment::ReadStringMarker(target, block_id, offset)`: the block id and
the offset read. -/
def ReadStringMarker (L : Layout) (buf : Nat → Nat) (target : Nat) : Int × Int :=
  (loadInt L.hostLE (readBytes buf (target + 2) L.block_id_size),
   loadInt L.hostLE (readBytes buf (target + 2 + L.block_id_size) 4))

/-! ## Reading the dictionary (lines 170-212) -/

/-- `StringSegment::FetchStringLocation(baseptr, dict_offset)`. -/
def FetchStringLocation (L : Layout) (C : StringSeg.Constants) (buf : Nat → Nat)
    (dict_offset : Int) : string_location_t :=
  if dict_offset = 0 then { block_id := C.INVALID_BLOCK, offset := 0 }
  else
    let dict_pos := ((L.BLOCK_SIZE : Int) - dict_offset).toNat
    let string_length := loadUInt L.hostLE (readBytes buf dict_pos 2)
    if string_length = L.BIG_STRING_MARKER then
      { block_id := (ReadStringMarker L buf dict_pos).1,
        offset := (ReadStringMarker L buf dict_pos).2 }
    else { block_id := C.INVALID_BLOCK, offset := dict_offset }

/-- `StringSegment::FetchString(handles, baseptr, location)`: the string the
result points to, `none` for the null pointer. -/
def FetchString (L : Layout) (C : StringSeg.Constants) (buf : Nat → Nat) (heap : Heap)
    (location : string_location_t) : Option String :=
  if location.block_id ≠ C.INVALID_BLOCK then
    StringSeg.ReadString C heap location.block_id location.offset
  else if location.offset = 0 then none
  else
    let dict_pos := ((L.BLOCK_SIZE : Int) - location.offset).toNat
    let string_length := loadUInt L.hostLE (readBytes buf dict_pos 2)
    some (String.mk ((readBytes buf (dict_pos + 2) string_length).map Char.ofNat))

/-- `StringSegment::FetchStringFromDict(handles, baseptr, dict_offset)`. -/
def FetchStringFromDict (L : Layout) (C : StringSeg.Constants) (buf : Nat → Nat) (heap : Heap)
    (dict_offset : Int) : Option String :=
  FetchString L C buf heap (FetchStringLocation L C buf dict_offset)

/-! ## `AppendData` (lines 320-384) -/

/-- Class `StringSegment`, as far as `AppendData` goes: the buffer of the block,
the overflow blocks, and the counters. -/
structure Segment where
  buf : Nat → Nat
  heap : Heap
  dictionary_offset : Nat
  tuple_count : Nat
  max_vector_count : Nat

/-- Struct `SegmentStatistics`, the fields `AppendData` writes. -/
structure SegmentStatistics where
  has_null : Bool
  has_overflow_strings : Bool
  max_string_length : Nat
  deriving DecidableEq, Repr

/-- The field `vector_size` of the segment, as the constructor sets it:
`STANDARD_VECTOR_SIZE * sizeof(int32_t) + sizeof(nullmask_t)`. -/
def vector_size (L : Layout) : Nat := L.STANDARD_VECTOR_SIZE * 4 + L.nullmask_size

/-- Modelled from the spec: `StringSegment::RemainingSpace()`, declared in a header
that is not among the sources: the bytes of the block between the vectors, which
grow forward, and the dictionary, which grows backward from the end of the block
(an `index_t`). -/
def RemainingSpace (L : Layout) (seg : Segment) : Nat :=
  ArtKey.castU 64 ((L.BLOCK_SIZE : Int) - (seg.dictionary_offset : Int)
    - ((seg.max_vector_count * vector_size L : Nat) : Int))

/-- The address of `result_data[idx]` for the vector at `target`. -/
def slotAddr (L : Layout) (target idx : Nat) : Nat := target + L.nullmask_size + 4 * idx

/-- The value of `result_data[idx]` (an `int32_t`) for the vector at `target`. -/
def slotValue (L : Layout) (buf : Nat → Nat) (target idx : Nat) : Int :=
  loadInt L.hostLE (readBytes buf (slotAddr L target idx) 4)

/-- The variables the callback of `AppendData` works on: the segment, the
statistics and `remaining_strings`. -/
structure AppendState where
  seg : Segment
  stats : SegmentStatistics
  remaining_strings : Nat

/-- The test of `AppendData` that sends a string of `total_length` bytes to the
overflow blocks. -/
def toOverflow (L : Layout) (st : AppendState) (total_length : Nat) : Bool :=
  decide (total_length > L.BIG_STRING_MARKER_BASE_SIZE) &&
    (decide (total_length ≥ L.STRING_BLOCK_LIMIT) ||
      decide (total_length + st.remaining_strings * L.BIG_STRING_MARKER_SIZE
        > RemainingSpace L st.seg))

/-- The callback of `AppendData` for one value of the source (`none` for a null)
that goes to `result_data[idx]`, `idx = k - offset + target_offset`; `endp` is
the parameter `end`. -/
def appendValue (L : Layout) (C : StringSeg.Constants) (target endp idx : Nat)
    (st : AppendState) (value : Option String) : AppendState :=
  match value with
  | none =>
    let buf1 := writeBytes st.seg.buf (slotAddr L target idx)
      (ArtKey.storeUInt L.hostLE 4 (ArtKey.castU 32 0))
    let buf2 := writeBytes buf1 target
      (fitBytes L.nullmask_size (L.setNull (readBytes buf1 target L.nullmask_size) idx))
    { seg := { st.seg with buf := buf2 },
      stats := { st.stats with has_null := true },
      remaining_strings := st.remaining_strings - 1 }
  | some s =>
    let string_length := strlen s
    let total_length := string_length + 1 + 2
    let stats1 : SegmentStatistics :=
      if string_length > st.stats.max_string_length then
        { st.stats with max_string_length := string_length }
      else st.stats
    if toOverflow L st total_length then
      let w := StringSeg.WriteString C st.seg.heap (cstr s)
      let dictionary_offset := st.seg.dictionary_offset + L.BIG_STRING_MARKER_SIZE
      let dict_pos := endp - dictionary_offset
      let buf1 := WriteStringMarker L st.seg.buf dict_pos w.2.block_id w.2.offset
      let buf2 := writeBytes buf1 (slotAddr L target idx)
        (ArtKey.storeUInt L.hostLE 4 (ArtKey.castU 32 dictionary_offset))
      { seg := { st.seg with buf := buf2, heap := w.1, dictionary_offset := dictionary_offset },
        stats := { stats1 with has_overflow_strings := true },
        remaining_strings := st.remaining_strings - 1 }
    else
      let dictionary_offset := st.seg.dictionary_offset + total_length
      let dict_pos := endp - dictionary_offset
      let buf1 := writeBytes st.seg.buf dict_pos
        (ArtKey.storeUInt L.hostLE 2 (ArtKey.castU 16 string_length))
      let buf2 := writeBytes buf1 (dict_pos + 2) (stringBytes s ++ [0])
      let buf3 := writeBytes buf2 (slotAddr L target idx)
        (ArtKey.storeUInt L.hostLE 4 (ArtKey.castU 32 dictionary_offset))
      { seg := { st.seg with buf := buf3, dictionary_offset := dictionary_offset },
        stats := stats1,
        remaining_strings := st.remaining_strings - 1 }

/-- The value `ldata[i]` / `source.nullmask[i]` of the source for the position
`k` of the loop: `i` is `sel_vector[k]`, or `k` without selection vector. -/
def sourceValue (source : List (Option String)) (sel_vector : Option (List Nat)) (k : Nat) :
    Option String :=
  match sel_vector with
  | some sel => source.getD (sel.getD k 0) none
  | none => source.getD k none

/-- Modelled from the spec as far as `VectorOperations::Exec` goes (not among the
sources: the callback is called for `k = offset, ..., offset + count - 1` in this
order): the loop of `AppendData` over its first `count` positions. -/
def appendLoop (L : Layout) (C : StringSeg.Constants) (target endp target_offset : Nat)
    (source : List (Option String)) (sel_vector : Option (List Nat)) (offset : Nat) :
    Nat → AppendState → AppendState
  | 0, st => st
  | count + 1, st =>
    appendValue L C target endp (offset + count - offset + target_offset)
      (appendLoop L C target endp target_offset source sel_vector offset count st)
      (sourceValue source sel_vector (offset + count))

/-- `StringSegment::AppendData(stats, target, end, target_offset, source, offset,
count)`; `endp` is the parameter `end`, for which `Append` passes the end of the
block. The source vector is the list of its values (`none` for a null) and its
selection vector. -/
def AppendData (L : Layout) (C : StringSeg.Constants) (seg : Segment)
    (stats : SegmentStatistics) (target endp target_offset : Nat)
    (source : List (Option String)) (sel_vector : Option (List Nat)) (offset count : Nat) :
    AppendState :=
  appendLoop L C target endp target_offset source sel_vector offset count
    { seg := seg, stats := stats,
      remaining_strings := L.STANDARD_VECTOR_SIZE - seg.tuple_count % L.STANDARD_VECTOR_SIZE }

end StringDict

namespace StringDict

/-! ## Notions used to state the claims about the dictionary -/

/-- What the code relies on about the constants: a small string is not longer
than a marker, a marker fits the bytes reserved for it, the length of a string
kept in the block is below the marker value, which is a `uint16_t`, and an
offset in the block fits an `int32_t`. -/
def Layout.wellFormed (L : Layout) : Prop :=
  L.BIG_STRING_MARKER_BASE_SIZE ≤ L.BIG_STRING_MARKER_SIZE ∧
  2 + L.block_id_size + 4 ≤ L.BIG_STRING_MARKER_SIZE ∧
  L.BIG_STRING_MARKER_BASE_SIZE ≤ L.BIG_STRING_MARKER ∧
  L.STRING_BLOCK_LIMIT ≤ L.BIG_STRING_MARKER ∧
  L.BIG_STRING_MARKER < 2 ^ 16 ∧
  L.BLOCK_SIZE < 2 ^ 31

/-- The vectors, the dictionary and a marker for each of the strings that may
still be appended to the current vector fit the block. -/
def roomFor (L : Layout) (st : AppendState) : Prop :=
  st.seg.max_vector_count * vector_size L + st.seg.dictionary_offset
    + st.remaining_strings * L.BIG_STRING_MARKER_SIZE ≤ L.BLOCK_SIZE

/-- The dictionary holds at the offset `d` the entry of the string `s` kept in
the block: its length as a `uint16_t` followed by its bytes, all of it inside
the block. -/
def inlineAt (L : Layout) (buf : Nat → Nat) (d : Nat) (s : String) : Prop :=
  strlen s + 3 ≤ d ∧ d ≤ L.BLOCK_SIZE ∧
  readBytes buf (L.BLOCK_SIZE - d) 2 = ArtKey.storeUInt L.hostLE 2 (strlen s) ∧
  readBytes buf (L.BLOCK_SIZE - d + 2) (strlen s) = stringBytes s

end StringDict

namespace StringDict

/-! ## Example values -/

/-- A small block of 256 bytes with vectors of 4 rows, and the other constants
as `string_segment.hpp` of the project this code belongs to declares them. -/
def exampleL : Layout :=
  { BLOCK_SIZE := 256, STANDARD_VECTOR_SIZE := 4, BIG_STRING_MARKER := 65535,
    BIG_STRING_MARKER_BASE_SIZE := 12, BIG_STRING_MARKER_SIZE := 14,
    STRING_BLOCK_LIMIT := 4096, block_id_size := 8, nullmask_size := 1, hostLE := true,
    setNull := fun bytes k => bytes.map (fun b => b ||| 2 ^ k) }

/-- The constants of the overflow blocks for the examples. -/
def exampleC : StringSeg.Constants := { INVALID_BLOCK := -1, BLOCK_ALLOC_SIZE := 64 }

/-- An empty segment with one vector. -/
def exampleSegment : Segment :=
  { buf := fun _ => 0,
    heap := { head := [], mem := fun _ _ => none, next_block := 100 },
    dictionary_offset := 0, tuple_count := 0, max_vector_count := 1 }

/-- Statistics of an empty segment. -/
def exampleStats : SegmentStatistics :=
  { has_null := false, has_overflow_strings := false, max_string_length := 0 }

/-- The segment after the strings "ab", a null and "c" have been appended to
its first vector. -/
def exampleAppended : AppendState :=
  AppendData exampleL exampleC exampleSegment exampleStats 0 256 0
    [some "ab", none, some "c"] none 0 3

end StringDict

namespace ArtKey

/-! ## The other comparison operators and the element access of `Key` -/

/-- The loop of `Key::operator>=`, `n` bytes from index `i` on; behind the loop
the operator returns `len >= k.len`. -/
def Key.geLoop (a k : Key) : Nat → Nat → Bool
  | 0, _ => decide (a.len ≥ k.len)
  | n + 1, i =>
    if a.at i > k.at i then true
    else if a.at i < k.at i then false
    else Key.geLoop a k n (i + 1)

/-- `Key::operator>=`. -/
def Key.ge (a k : Key) : Bool := Key.geLoop a k (min a.len k.len) 0

/-- The loop of `Key::operator==`, `n` bytes from index `i` on. -/
def Key.eqLoop (a k : Key) : Nat → Nat → Bool
  | 0, _ => true
  | n + 1, i =>
    if a.at i ≠ k.at i then false
    else Key.eqLoop a k n (i + 1)

/-- `Key::operator==`: keys of different `len` are different, keys of one `len`
are compared byte by byte. -/
def Key.eq (a k : Key) : Bool :=
  if a.len ≠ k.len then false
  else Key.eqLoop a k a.len 0

/-- What an element access does. -/
inductive Access where
  /-- The assertion of the operator fails. -/
  | assertion_failed
  /-- The assertion holds and the access reads behind the buffer. -/
  | outside_buffer
  /-- The assertion holds and the access reads this byte of the buffer. -/
  | byte (b : Nat)
  deriving DecidableEq, Repr

/-- `Key::operator[]`: `assert(i <= len); return data[i];`, on a buffer that
holds the bytes `data`. -/
def Key.subscript (k : Key) (i : Nat) : Access :=
  if i ≤ k.len then
    match k.data[i]? with
    | some b => Access.byte b
    | none => Access.outside_buffer
  else Access.assertion_failed

/-- The key of the 32 bit integer `1`: four bytes in a buffer of four. -/
def exampleKeyOne : Key := ⟨4, [0x80, 0, 0, 1]⟩

/-- The key of the 32 bit integer `2`. -/
def exampleKeyTwo : Key := ⟨4, [0x80, 0, 0, 2]⟩

/-- The key of the 32 bit integer `3`. -/
def exampleKeyThree : Key := ⟨4, [0x80, 0, 0, 3]⟩

end ArtKey

namespace StringSeg

open Transaction (UpdateInfo ColumnData SegmentRef)

/-! ## Fetching into a result vector (lines 83-113, 214-282) -/

/-- A result vector of strings: `data` holds the `count` strings of the vector,
the null pointer being `none`. -/
structure StringVector where
  data : List (Option String)
  nullmask : Nat → Bool
  count : Nat

/-- The vector `result` after `FetchBaseData(state, baseptr, vector_index, result,
count)`: the strings fetched, `result.nullmask = base_nullmask` and
`result.count = count`. -/
def FetchBaseData_result (C : Constants) (seg : StringSegment) (vector_index count : Nat) :
    StringVector :=
  { data := FetchBaseData C seg vector_index count,
    nullmask := seg.base_nullmask vector_index,
    count := count }

/-- The loop of the callback of `FetchRow` over the tuples of one undo entry
(`current->tuples[i]`, `info_data[i]`), from index `i` on: the string and the
null bit it assigns to the result, `none` when it leaves the loop without an
assignment. The tuples are compared with `row_id`. -/
def fetchRowTuples (C : Constants) (seg : StringSegment) (current_nullmask : Nat → Bool)
    (row_id : Nat) : List (Nat × string_location_t) → Option (Option String × Bool)
  | [] => none
  | (t, loc) :: rest =>
    if t = row_id then some (FetchString C seg loc, current_nullmask t)
    else if t > row_id then none
    else fetchRowTuples C seg current_nullmask row_id rest

/-- The callback of `FetchRow` called for the undo entries of the walk, in
order; `slot` is what `result_data[result.count]` and
`result.nullmask[result.count]` hold. -/
def fetchRowWalk (C : Constants) (seg : StringSegment) (row_id : Nat) :
    Option String × Bool → List (UpdateInfo string_location_t) → Option String × Bool
  | slot, [] => slot
  | slot, current :: walk =>
    match fetchRowTuples C seg current.nullmask row_id
        ((current.tuples.zip current.tuple_data).take current.N) with
    | some assigned => fetchRowWalk C seg row_id assigned walk
    | none => fetchRowWalk C seg row_id slot walk

/-- The loop of `FetchRow` over the string update list of the vector, from index
`i` on: the string it assigns, the null pointer when it leaves the loop without
an assignment. -/
def fetchRowUpdates (C : Constants) (seg : StringSegment) (id_in_vector : Nat) :
    List (Nat × string_location_t) → Option String
  | [] => none
  | (id, loc) :: rest =>
    if id = id_in_vector then ReadString C seg.heap loc.block_id loc.offset
    else if id > id_in_vector then none
    else fetchRowUpdates C seg id_in_vector rest

/-- `StringSegment::FetchRow(state, transaction, row_id, result)`: the vector
`result` afterwards. `V` is `STANDARD_VECTOR_SIZE`; `walk` lists the undo entries
that `UpdateInfo::UpdatesForTransaction(versions[vector_index], transaction, ...)`
(not among the sources) calls the callback with, in order, and is empty when
there is no version chain for the vector. -/
def FetchRow (V : Nat) (C : Constants) (seg : StringSegment)
    (walk : List (UpdateInfo string_location_t)) (row_id : Nat) (result : StringVector) :
    StringVector :=
  let vector_index := row_id / V
  let id_in_vector := row_id - vector_index * V
  let slot := fetchRowWalk C seg row_id (none, result.nullmask result.count) walk
  let string : Option String :=
    match slot.1 with
    | some s => some s
    | none =>
      match seg.updatesOf vector_index with
      | some info => fetchRowUpdates C seg id_in_vector info.entries
      | none => FetchStringFromDict C seg (seg.base_data vector_index id_in_vector)
  { data := result.data ++ [string],
    nullmask := setBit result.nullmask result.count (seg.base_nullmask vector_index id_in_vector),
    count := result.count + 1 }

/-- The string an undo entry holds for the row offset `id`, if it has an entry
for it. -/
def UndoString (C : Constants) (seg : StringSegment) (info : UpdateInfo string_location_t)
    (id : Nat) : Option (Option String) :=
  (entryAt ((info.tuples.zip info.tuple_data).take info.N) id).map (FetchString C seg)

/-! ## Example values for `FetchRow` -/

/-- A segment with vectors of four rows: in every vector row 0 holds the inline
string "p" (dictionary offset 8) and the other rows hold "q" (offset 16); no row
is NULL. -/
def exampleSeg2 : StringSegment :=
  { base_nullmask := fun _ _ => false,
    base_data := fun _ i => if i = 0 then 8 else 16,
    dictionary := fun o => if o = 8 then DictEntry.inline "p" else DictEntry.inline "q",
    string_updates := none,
    heap := { head := [], mem := fun _ _ => none, next_block := 100 } }

/-- An empty result vector. -/
def exampleResult : StringVector := { data := [], nullmask := fun _ => false, count := 0 }

/-- Row 0 of vector 0 becomes "a". -/
def exampleUpdateA : StringSegment × UpdateInfo string_location_t :=
  Update exampleC exampleSeg2 exampleColumn exampleSegmentRef 7 [some "a"] [0] 0 0 none

/-- Row 1 of vector 0 becomes "b". -/
def exampleUpdateB0 : StringSegment × UpdateInfo string_location_t :=
  Update exampleC exampleSeg2 exampleColumn exampleSegmentRef 7 [some "b"] [1] 0 0 none

/-- Row 5 of the segment, the row at offset 1 of vector 1 (vectors of four rows),
becomes "b". -/
def exampleUpdateB1 : StringSegment × UpdateInfo string_location_t :=
  Update exampleC exampleSeg2 exampleColumn exampleSegmentRef 7 [some "b"] [5] 1 4 none

/-- Row 1 of vector 0 becomes NULL. -/
def exampleUpdateNull : StringSegment × UpdateInfo string_location_t :=
  Update exampleC exampleSeg2 exampleColumn exampleSegmentRef 7 [none] [1] 0 0 none

end StringSeg

namespace LocalStore

/-! ## `LocalStorage::InitializeScan` (lines 43-52) -/

/-- `LocalStorage::InitializeScan(table, state)`: the storage the scan state
points to (the null pointer for a table without local storage, with the state
left as it was) and the scan state. `none`: the storage found has no chunks and
`LocalTableStorage::InitializeScan` is undefined. -/
def LocalStorage.InitializeScan (ls : LocalStorage) (table : DataTable)
    (state : LocalScanState) : Option (Option LocalTableStorage × LocalScanState) :=
  match ls.find table with
  | none => some (none, state)
  | some storage => storage.InitializeScan.map (fun st => (some storage, st))

/-- The local storage of a transaction whose first insert into `exampleTable1`,
the rows 5 and 5 in one chunk, was rejected by the unique index. -/
def exampleLSrejected : Option Exn × LocalStorage :=
  LocalStorage.Append exampleK2 { table_storage := [] } exampleTable1 (colChunk [5, 5])

end LocalStore

/-!
# The radix index

Modelled from the spec: the adaptive radix tree (`RadixIndex`, `RadixNode`), whose
implementation is not among the sources. Keys are the byte sequences of the key
codec, row identifiers are integers.
-/

namespace RadixIndex

/-- Modelled from the spec: the variants of an inner node, distinguished by
fanout capacity. -/
inductive NodeType
  | N4
  | N16
  | N48
  | N256
  deriving DecidableEq, Repr

/-- Modelled from the spec: the fanout capacity of a variant (4, 16, 48, 256
children). -/
def NodeType.capacity : NodeType → Nat
  | N4 => 4
  | N16 => 16
  | N48 => 48
  | N256 => 256

/-- Modelled from the spec: the next larger variant. -/
def NodeType.larger : NodeType → NodeType
  | N4 => N16
  | N16 => N48
  | N48 => N256
  | N256 => N256

/-- Modelled from the spec: the next smaller variant. -/
def NodeType.smaller : NodeType → NodeType
  | N4 => N4
  | N16 => N4
  | N48 => N16
  | N256 => N48

/-- Modelled from the spec: the variant of a node whose population has become
`count`: it upsizes when the count exceeds its capacity (4/16/48) and downsizes
when the count drops below the capacity of the next smaller variant. -/
def NodeType.fit (t : NodeType) (count : Nat) : NodeType :=
  if count > t.capacity then t.larger
  else if count < t.smaller.capacity then t.smaller
  else t

/-- Modelled from the spec: a node of the trie: a leaf holding a key with the
chain of row identifiers inserted under it, or an inner node with its variant,
its compressed key prefix and its populated child slots, indexed by the next key
byte. The count of populated slots is the length of `children`. -/
inductive RadixNode
  | Leaf (key : List Nat) (row_ids : List Int)
  | Inner (type : NodeType) (pre : List Nat) (children : List (Nat × RadixNode))

/-- The variant of an inner node. -/
def RadixNode.type? : RadixNode → Option NodeType
  | RadixNode.Leaf _ _ => none
  | RadixNode.Inner t _ _ => some t

/-- The count of populated child slots of a node. -/
def RadixNode.count : RadixNode → Nat
  | RadixNode.Leaf _ _ => 0
  | RadixNode.Inner _ _ children => children.length

/-- Modelled from the spec: the child slot indexed by the key byte `b`. -/
def findChild {α : Type} : List (Nat × α) → Nat → Option α
  | [], _ => none
  | (b1, c) :: rest, b => if b1 = b then some c else findChild rest b

/-- Modelled from the spec: the child slot indexed by the key byte `b` gets a new
content. -/
def setChild {α : Type} : List (Nat × α) → Nat → α → List (Nat × α)
  | [], _, _ => []
  | (b1, c1) :: rest, b, c =>
    if b1 = b then (b1, c) :: rest else (b1, c1) :: setChild rest b c

/-- Modelled from the spec: the child slot indexed by the key byte `b` is emptied. -/
def eraseChild {α : Type} (children : List (Nat × α)) (b : Nat) : List (Nat × α) :=
  children.filter (fun e => e.1 ≠ b)

/-- Modelled from the spec: the descent through a compressed prefix: when the rest
of the key starts with the prefix and goes on, the next key byte and what follows
it. -/
def descend : List Nat → List Nat → Option (Nat × List Nat)
  | [], [] => none
  | [], b :: t => some (b, t)
  | _ :: _, [] => none
  | p :: pre, x :: rest => if p = x then descend pre rest else none

/-- Modelled from the spec: the point where two byte sequences diverge: their
common part and what is left of either. -/
def splitCommon : List Nat → List Nat → List Nat × List Nat × List Nat
  | a :: as, b :: bs =>
    if a = b then (a :: (splitCommon as bs).1, (splitCommon as bs).2.1, (splitCommon as bs).2.2)
    else ([], a :: as, b :: bs)
  | as, bs => ([], as, bs)

/-- Modelled from the spec: `lookup(key)`, an exact descent from a node; `rest` is
the part of the key below the node, `fuel` bounds the number of nodes visited. It
returns the row identifiers of the matching leaf, and nothing if no leaf
matches. -/
def lookupAt : Nat → RadixNode → List Nat → List Nat → List Int
  | 0, _, _, _ => []
  | _ + 1, RadixNode.Leaf key row_ids, k, _ => if key = k then row_ids else []
  | fuel + 1, RadixNode.Inner _ pre children, k, rest =>
    match descend pre rest with
    | none => []
    | some (b, t) =>
      match findChild children b with
      | none => []
      | some child => lookupAt fuel child k t

/-- Modelled from the spec: `insert(key, row_id)` below a node: the descent follows
the key bytes; where the prefix of a node or the key of a leaf diverges from the
key, a new inner node of the smallest variant is put at the divergence point,
holding the old subtree and a new leaf; a new child grows the node across the
capacity thresholds; for an equal key the row identifier is chained to the leaf,
or the insert is rejected (`false`) when the index enforces uniqueness. A key
that ends inside the tree, which keys none of which is a prefix of another never
do, is rejected. -/
def insertAt (is_unique : Bool) :
    Nat → RadixNode → List Nat → Int → List Nat → Bool × RadixNode
  | 0, node, _, _, _ => (false, node)
  | _ + 1, RadixNode.Leaf key row_ids, k, row_id, rest =>
    if key = k then
      if is_unique then (false, RadixNode.Leaf key row_ids)
      else (true, RadixNode.Leaf key (row_ids ++ [row_id]))
    else
      match splitCommon (key.drop (k.length - rest.length)) rest with
      | (c, a :: _, b :: _) =>
        (true, RadixNode.Inner NodeType.N4 c
          [(a, RadixNode.Leaf key row_ids), (b, RadixNode.Leaf k [row_id])])
      | _ => (false, RadixNode.Leaf key row_ids)
  | fuel + 1, RadixNode.Inner type pre children, k, row_id, rest =>
    match descend pre rest with
    | some (b, t) =>
      match findChild children b with
      | none =>
        (true, RadixNode.Inner (type.fit (children.length + 1)) pre
          (children ++ [(b, RadixNode.Leaf k [row_id])]))
      | some child =>
        ((insertAt is_unique fuel child k row_id t).1,
          RadixNode.Inner type pre
            (setChild children b (insertAt is_unique fuel child k row_id t).2))
    | none =>
      match splitCommon pre rest with
      | (c, a :: pre1, b :: _) =>
        (true, RadixNode.Inner NodeType.N4 c
          [(a, RadixNode.Inner type pre1 children), (b, RadixNode.Leaf k [row_id])])
      | _ => (false, RadixNode.Inner type pre children)

/-- Modelled from the spec: a single-child node is merged with its parent (path
compression): the child takes the place of the node, its prefix extended by the
prefix of the node and the byte of the slot. -/
def mergeUp (pre : List Nat) (b : Nat) : RadixNode → RadixNode
  | RadixNode.Leaf key row_ids => RadixNode.Leaf key row_ids
  | RadixNode.Inner type pre1 children => RadixNode.Inner type (pre ++ b :: pre1) children

/-- Modelled from the spec: `remove(key, row_id)` below a node: the descent goes
to the matching leaf and removes the row identifier from its chain; a leaf whose
chain is empty is dropped (`none`), and the node above it collapses to a smaller
variant, or is merged with its parent when a single child is left. -/
def removeAt : Nat → RadixNode → List Nat → Int → List Nat → Option RadixNode
  | 0, node, _, _, _ => some node
  | _ + 1, RadixNode.Leaf key row_ids, k, row_id, _ =>
    if key = k then
      if row_ids.erase row_id = [] then none
      else some (RadixNode.Leaf key (row_ids.erase row_id))
    else some (RadixNode.Leaf key row_ids)
  | fuel + 1, RadixNode.Inner type pre children, k, row_id, rest =>
    match descend pre rest with
    | none => some (RadixNode.Inner type pre children)
    | some (b, t) =>
      match findChild children b with
      | none => some (RadixNode.Inner type pre children)
      | some child =>
        match removeAt fuel child k row_id t with
        | some child1 => some (RadixNode.Inner type pre (setChild children b child1))
        | none =>
          match eraseChild children b with
          | [] => none
          | [(b1, c1)] => some (mergeUp pre b1 c1)
          | left => some (RadixNode.Inner (type.fit left.length) pre left)

end RadixIndex

/-- Modelled from the spec: the radix index (`RadixIndex (ART)`): the flag of an
index enforcing uniqueness and the one owning reference to the root of the
tree. -/
structure RadixIndex where
  is_unique : Bool
  root : Option RadixIndex.RadixNode

namespace RadixIndex

/-- An index without entries. -/
def empty (is_unique : Bool) : RadixIndex := { is_unique := is_unique, root := none }

/-- Modelled from the spec: `lookup(key) -> set of row_id`. -/
def lookup (idx : RadixIndex) (key : List Nat) : List Int :=
  match idx.root with
  | none => []
  | some node => lookupAt (key.length + 1) node key key

/-- Modelled from the spec: `insert(key, row_id) -> success | duplicate_rejected`. -/
def insert (idx : RadixIndex) (key : List Nat) (row_id : Int) : Bool × RadixIndex :=
  match idx.root with
  | none => (true, { idx with root := some (RadixNode.Leaf key [row_id]) })
  | some node =>
    ((insertAt idx.is_unique (key.length + 1) node key row_id key).1,
      { idx with root := some (insertAt idx.is_unique (key.length + 1) node key row_id key).2 })

/-- Modelled from the spec: `remove(key, row_id)`. -/
def remove (idx : RadixIndex) (key : List Nat) (row_id : Int) : RadixIndex :=
  match idx.root with
  | none => idx
  | some node => { idx with root := removeAt (key.length + 1) node key row_id key }

/-- An insert or a delete on the index. -/
inductive Op
  | insert (key : List Nat) (row_id : Int)
  | remove (key : List Nat) (row_id : Int)
  deriving DecidableEq, Repr

/-- The key of an operation. -/
def Op.key : Op → List Nat
  | Op.insert key _ => key
  | Op.remove key _ => key

/-- The index after an operation. -/
def apply (idx : RadixIndex) : Op → RadixIndex
  | Op.insert key row_id => (idx.insert key row_id).2
  | Op.remove key row_id => idx.remove key row_id

/-- The index after a sequence of operations. -/
def run (idx : RadixIndex) (ops : List Op) : RadixIndex := ops.foldl apply idx

/-- The row identifiers inserted under `key` after one more operation, `current`
being those inserted before it: an insert under the key adds its row identifier,
unless the index enforces uniqueness and the key is taken; a delete under the
key removes its row identifier. -/
def insertedStep (is_unique : Bool) (key : List Nat) (current : List Int) : Op → List Int
  | Op.insert k row_id =>
    if k = key then
      if is_unique ∧ current ≠ [] then current else current ++ [row_id]
    else current
  | Op.remove k row_id => if k = key then current.erase row_id else current

/-- The row identifiers currently inserted under `key` after a sequence of
operations on an index without entries. -/
def inserted (is_unique : Bool) (key : List Nat) (ops : List Op) : List Int :=
  ops.foldl (insertedStep is_unique key) []

/-- No key of the list is a proper prefix of another. -/
def prefixFree (keys : List (List Nat)) : Prop :=
  ∀ a ∈ keys, ∀ b ∈ keys, a <+: b → a = b

/-- Inserts of the keys `[0x80, 0, 0, i]` for `i = 1 .. 5`, each with the row
identifier `i`, and of the key `[0x80, 0, 1, 0]` with the row identifier 6,
followed by the delete of the key of `2`. -/
def exampleOps : List Op :=
  [Op.insert [0x80, 0, 0, 1] 1, Op.insert [0x80, 0, 0, 2] 2, Op.insert [0x80, 0, 0, 3] 3,
   Op.insert [0x80, 0, 0, 4] 4, Op.insert [0x80, 0, 0, 5] 5, Op.insert [0x80, 0, 1, 0] 6,
   Op.remove [0x80, 0, 0, 2] 2]

end RadixIndex

namespace RadixIndex

/-- A node below the key bytes `path`, in a tree over keys of the set `S`: a leaf
holds a key of `S` that starts with `path`, with at least one row identifier; the
prefix of an inner node, put behind `path`, is continued by a key of `S`, and the
child in the slot of a byte is such a node below the path extended by the prefix
and that byte. -/
inductive WF (S : List Nat → Prop) : List Nat → RadixNode → Prop
  | leaf (path key : List Nat) (row_ids : List Int) :
      S key → path <+: key → row_ids ≠ [] → WF S path (RadixNode.Leaf key row_ids)
  | inner (path : List Nat) (type : NodeType) (pre : List Nat)
      (children : List (Nat × RadixNode)) :
      (∃ key x t, S key ∧ key = path ++ pre ++ x :: t) →
      (∀ b c, findChild children b = some c → WF S (path ++ pre ++ [b]) c) →
      WF S path (RadixNode.Inner type pre children)

/-- The tree of an index is well formed over the keys of `S`. -/
def wellFormed (S : List Nat → Prop) (idx : RadixIndex) : Prop :=
  ∀ node, idx.root = some node → WF S [] node

end RadixIndex

namespace RadixIndex

/-- What the insert of the key `k = path ++ rest` with the row identifier `r0`
below a node has to achieve, `res` being its result: the new node is well formed,
a lookup of `k` finds the row identifier behind the ones found before if the
insert was accepted and the same as before otherwise, the insert is rejected
exactly when the index enforces uniqueness and the key is taken, and the lookup
of another key finds what it found before. -/
def InsertSpec (S : List Nat → Prop) (is_unique : Bool) (k : List Nat) (r0 : Int)
    (path rest : List Nat) (f : Nat) (node : RadixNode) (res : Bool × RadixNode) : Prop :=
  WF S path res.2 ∧
  (∀ g, rest.length < g →
    lookupAt g res.2 k rest =
      if res.1 then lookupAt g node k rest ++ [r0] else lookupAt g node k rest) ∧
  (res.1 = false ↔ (is_unique = true ∧ lookupAt f node k rest ≠ [])) ∧
  (∀ k2 rest2 g, S k2 → k2 = path ++ rest2 → k2 ≠ k → rest2.length < g →
    lookupAt g res.2 k2 rest2 = lookupAt g node k2 rest2)

/-- What the removal of the row identifier `r0` from the key `k = path ++ rest`
below a node has to achieve, `res` being its result: a node that is left is well
formed, a lookup of `k` finds the row identifiers found before without `r0`, and
the lookup of another key finds what it found before; when no node is left,
nothing but `r0` was below the node. -/
def RemoveSpec (S : List Nat → Prop) (k : List Nat) (r0 : Int)
    (path rest : List Nat) (node : RadixNode) (res : Option RadixNode) : Prop :=
  match res with
  | some node1 =>
    WF S path node1 ∧
    (∀ g, rest.length < g → lookupAt g node1 k rest = (lookupAt g node k rest).erase r0) ∧
    (∀ k2 rest2 g, S k2 → k2 = path ++ rest2 → k2 ≠ k → rest2.length < g →
      lookupAt g node1 k2 rest2 = lookupAt g node k2 rest2)
  | none =>
    (∀ g, rest.length < g → (lookupAt g node k rest).erase r0 = []) ∧
    (∀ k2 rest2 g, S k2 → k2 = path ++ rest2 → k2 ≠ k → rest2.length < g →
      lookupAt g node k2 rest2 = [])

end RadixIndex

/-! # Lemmas -/

set_option maxRecDepth 100000
set_option exponentiation.threshold 4096

namespace ArtKey

/-! ## Bytes and big-endian numbers -/

theorem foldl_acc (l : List Nat) (acc : Nat) :
    l.foldl (fun acc b => acc * 256 + b) acc = acc * 256 ^ l.length + beValue l := by
  induction l generalizing acc with
  | nil => simp [beValue]
  | cons b l ih =>
    simp only [List.foldl_cons, beValue, List.length_cons]
    rw [ih, ih (0 * 256 + b)]
    ring

theorem beValue_cons (b : Nat) (l : List Nat) :
    beValue (b :: l) = b * 256 ^ l.length + beValue l := by
  simp only [beValue, List.foldl_cons]
  rw [foldl_acc]
  simp [beValue]

theorem beValue_lt (l : List Nat) (h : ∀ b ∈ l, b < 256) : beValue l < 256 ^ l.length := by
  induction l with
  | nil => simp [beValue]
  | cons b l ih =>
    rw [beValue_cons, List.length_cons, pow_succ]
    have hb : b < 256 := h b (List.mem_cons_self _ _)
    have hl := ih (fun c hc => h c (List.mem_cons_of_mem _ hc))
    nlinarith

/-- On byte strings of one length, lexicographic order is the order of the
big-endian numbers. -/
theorem lex_iff_beValue (l₁ l₂ : List Nat) (hlen : l₁.length = l₂.length)
    (h₁ : ∀ b ∈ l₁, b < 256) (h₂ : ∀ b ∈ l₂, b < 256) :
    List.Lex (· < ·) l₁ l₂ ↔ beValue l₁ < beValue l₂ := by
  induction l₁ generalizing l₂ with
  | nil =>
    cases l₂ with
    | nil => simp [beValue]
    | cons => simp at hlen
  | cons a l₁ ih =>
    cases l₂ with
    | nil => simp at hlen
    | cons b l₂ =>
      have hlen' : l₁.length = l₂.length := by simpa using hlen
      have ih' := ih l₂ hlen' (fun c hc => h₁ c (List.mem_cons_of_mem _ hc))
        (fun c hc => h₂ c (List.mem_cons_of_mem _ hc))
      have b1 := beValue_lt l₁ (fun c hc => h₁ c (List.mem_cons_of_mem _ hc))
      have b2 := beValue_lt l₂ (fun c hc => h₂ c (List.mem_cons_of_mem _ hc))
      rw [beValue_cons, beValue_cons, hlen'] at *
      have hP : 0 < 256 ^ l₂.length := by positivity
      generalize 256 ^ l₂.length = P at *
      constructor
      · intro h
        cases h with
        | cons h' => have := ih'.1 h'; omega
        | rel h' => nlinarith
      · intro h
        rcases Nat.lt_trichotomy a b with hab | hab | hab
        · exact List.Lex.rel hab
        · subst hab
          exact List.Lex.cons (ih'.2 (by omega))
        · exfalso; nlinarith

theorem leBytes_length (w n : Nat) : (leBytes w n).length = w := by
  induction w generalizing n with
  | zero => rfl
  | succ w ih => simp [leBytes, ih]

theorem leBytes_lt (w n : Nat) : ∀ b ∈ leBytes w n, b < 256 := by
  induction w generalizing n with
  | zero => simp [leBytes]
  | succ w ih =>
    intro b hb
    simp only [leBytes, List.mem_cons] at hb
    rcases hb with rfl | hb
    · exact Nat.mod_lt _ (by norm_num)
    · exact ih _ b hb

theorem beBytes_length (w n : Nat) : (beBytes w n).length = w := by
  simp [beBytes, leBytes_length]

theorem beBytes_lt (w n : Nat) : ∀ b ∈ beBytes w n, b < 256 := by
  intro b hb
  exact leBytes_lt w n b (by simpa [beBytes] using hb)

theorem beValue_beBytes (w n : Nat) : beValue (beBytes w n) = n % 256 ^ w := by
  induction w generalizing n with
  | zero => simp [beBytes, leBytes, beValue, Nat.mod_one]
  | succ w ih =>
    have ih' := ih (n / 256)
    simp only [beBytes, leBytes, List.reverse_cons, beValue, List.foldl_append, List.foldl_cons,
      List.foldl_nil] at ih' ⊢
    rw [ih', pow_succ, Nat.mul_comm (256 ^ w) 256, Nat.mod_mul]
    ring

theorem leBytes_snoc (w n : Nat) :
    leBytes (w + 1) n = leBytes w n ++ [n / 256 ^ w % 256] := by
  induction w generalizing n with
  | zero => simp [leBytes]
  | succ w ih =>
    have e : n / 256 / 256 ^ w = n / 256 ^ (w + 1) := by
      rw [Nat.div_div_eq_div_mul, pow_succ, Nat.mul_comm]
    rw [leBytes, ih (n / 256), e]
    simp [leBytes]

theorem beBytes_succ (w n : Nat) :
    beBytes (w + 1) n = (n / 256 ^ w % 256) :: beBytes w n := by
  simp [beBytes, leBytes_snoc]

theorem flipSign_eq : ∀ b, b < 256 → FlipSign b = (b + 128) % 256 := by
  unfold FlipSign
  set_option maxRecDepth 100000 in decide

theorem flipSign_xor : ∀ b, b < 256 → FlipSign b = b ^^^ 128 := by
  unfold FlipSign
  set_option maxRecDepth 100000 in decide

theorem flipFirst_length (l : List Nat) : (flipFirst l).length = l.length := by
  cases l <;> simp [flipFirst]

theorem flipFirst_lt (l : List Nat) (h : ∀ b ∈ l, b < 256) : ∀ b ∈ flipFirst l, b < 256 := by
  cases l with
  | nil => simp [flipFirst]
  | cons a l =>
    intro b hb
    simp only [flipFirst, List.mem_cons] at hb
    rcases hb with rfl | hb
    · exact Nat.mod_lt _ (by norm_num)
    · exact h b (List.mem_cons_of_mem _ hb)

/-- Flipping the top bit of the first of `w + 1` big-endian bytes adds
`2^(8w+7)` modulo `2^(8w+8)`. -/
theorem beValue_flipFirst (w n : Nat) :
    beValue (flipFirst (beBytes (w + 1) n)) = (n + 128 * 256 ^ w) % 256 ^ (w + 1) := by
  rw [beBytes_succ, flipFirst, beValue_cons, beBytes_length, beValue_beBytes,
    flipSign_eq _ (Nat.mod_lt _ (by norm_num)), pow_succ, Nat.mod_mul,
    Nat.add_mul_mod_self_right, Nat.add_mul_div_right _ _ (by positivity)]
  rw [Nat.mod_add_mod]
  ring

end ArtKey

namespace ArtKey

/-! ## The byte-swap macros in arithmetic form -/

theorem land_shifted_mask (x k : Nat) : x &&& (2 ^ k * 255) = 2 ^ k * (x / 2 ^ k % 256) := by
  apply Nat.eq_of_testBit_eq
  intro i
  have h255 : (255 : Nat) = 2 ^ 8 - 1 := by norm_num
  have h256 : (256 : Nat) = 2 ^ 8 := by norm_num
  rw [Nat.testBit_and, Nat.testBit_mul_pow_two, Nat.testBit_mul_pow_two, h256,
    Nat.testBit_mod_two_pow, h255, Nat.testBit_two_pow_sub_one, ← Nat.shiftRight_eq_div_pow,
    Nat.testBit_shiftRight]
  by_cases h : i ≥ k
  · have : k + (i - k) = i := by omega
    simp [h, this, Bool.and_comm]
  · simp [h]

theorem lor_byte (k a b : Nat) (hb : b < 2 ^ k) : 2 ^ k * a ||| b = 2 ^ k * a + b :=
  (Nat.mul_add_lt_is_or hb a).symm

theorem castU_lt (w : Nat) (x : Int) : castU w x < 2 ^ w := by
  unfold castU
  have h : (0 : Int) < 2 ^ w := by positivity
  have h1 := Int.emod_lt_of_pos x h
  have h2 := Int.emod_nonneg x h.ne'
  zify
  rw [Int.toNat_of_nonneg h2]
  exact_mod_cast h1

theorem castU_natCast (w n : Nat) : castU w (n : Int) = n % 2 ^ w := by
  unfold castU
  zify
  rw [Int.toNat_of_nonneg (Int.emod_nonneg _ (by positivity))]

theorem bswap16_arith (x : Int) :
    BSWAP16 x = castU 16 x / 2 ^ 8 % 256 + 256 * (castU 16 x % 256) := by
  unfold BSWAP16
  generalize castU 16 x = n
  have m1 : n &&& 0xff00 = 2 ^ 8 * (n / 2 ^ 8 % 256) := land_shifted_mask n 8
  have m0 : n &&& 0x00ff = 2 ^ 0 * (n / 2 ^ 0 % 256) := land_shifted_mask n 0
  rw [m1, m0]
  simp only [Nat.shiftRight_eq_div_pow, Nat.shiftLeft_eq]
  have a1 : 2 ^ 8 * (n / 2 ^ 8 % 256) / 2 ^ 8 = n / 2 ^ 8 % 256 :=
    Nat.mul_div_cancel_left _ (by norm_num)
  have a0 : 2 ^ 0 * (n / 2 ^ 0 % 256) * 2 ^ 8 = 2 ^ 8 * (n % 256) := by
    rw [pow_zero, Nat.div_one]; ring
  rw [a1, a0, Nat.lor_comm, lor_byte 8 _ _ (by omega)]
  omega

theorem bswap32_arith (x : Int) :
    BSWAP32 x = castU 32 x / 2 ^ 24 % 256 + 256 * (castU 32 x / 2 ^ 16 % 256 +
      256 * (castU 32 x / 2 ^ 8 % 256 + 256 * (castU 32 x % 256))) := by
  unfold BSWAP32
  generalize castU 32 x = n
  have m3 : n &&& 0xff000000 = 2 ^ 24 * (n / 2 ^ 24 % 256) := land_shifted_mask n 24
  have m2 : n &&& 0x00ff0000 = 2 ^ 16 * (n / 2 ^ 16 % 256) := land_shifted_mask n 16
  have m1 : n &&& 0x0000ff00 = 2 ^ 8 * (n / 2 ^ 8 % 256) := land_shifted_mask n 8
  have m0 : n &&& 0x000000ff = 2 ^ 0 * (n / 2 ^ 0 % 256) := land_shifted_mask n 0
  rw [m3, m2, m1, m0]
  simp only [Nat.shiftRight_eq_div_pow, Nat.shiftLeft_eq]
  have a3 : 2 ^ 24 * (n / 2 ^ 24 % 256) / 2 ^ 24 = n / 2 ^ 24 % 256 :=
    Nat.mul_div_cancel_left _ (by norm_num)
  have a2 : 2 ^ 16 * (n / 2 ^ 16 % 256) / 2 ^ 8 = 2 ^ 8 * (n / 2 ^ 16 % 256) := by omega
  have a1 : 2 ^ 8 * (n / 2 ^ 8 % 256) * 2 ^ 8 = 2 ^ 16 * (n / 2 ^ 8 % 256) := by omega
  have a0 : 2 ^ 0 * (n / 2 ^ 0 % 256) * 2 ^ 24 = 2 ^ 24 * (n % 256) := by omega
  rw [a3, a2, a1, a0, Nat.lor_comm (n / 2 ^ 24 % 256), lor_byte _ _ _ (by omega),
    Nat.lor_comm _ (2 ^ 16 * _), lor_byte _ _ _ (by omega),
    Nat.lor_comm _ (2 ^ 24 * _), lor_byte _ _ _ (by omega)]
  omega

theorem bswap64_arith (x : Int) :
    BSWAP64 x = castU 64 x / 2 ^ 56 % 256 + 256 * (castU 64 x / 2 ^ 48 % 256 +
      256 * (castU 64 x / 2 ^ 40 % 256 + 256 * (castU 64 x / 2 ^ 32 % 256 +
      256 * (castU 64 x / 2 ^ 24 % 256 + 256 * (castU 64 x / 2 ^ 16 % 256 +
      256 * (castU 64 x / 2 ^ 8 % 256 + 256 * (castU 64 x % 256))))))) := by
  unfold BSWAP64
  generalize castU 64 x = n
  have m7 : n &&& 0xff00000000000000 = 2 ^ 56 * (n / 2 ^ 56 % 256) := land_shifted_mask n 56
  have m6 : n &&& 0x00ff000000000000 = 2 ^ 48 * (n / 2 ^ 48 % 256) := land_shifted_mask n 48
  have m5 : n &&& 0x0000ff0000000000 = 2 ^ 40 * (n / 2 ^ 40 % 256) := land_shifted_mask n 40
  have m4 : n &&& 0x000000ff00000000 = 2 ^ 32 * (n / 2 ^ 32 % 256) := land_shifted_mask n 32
  have m3 : n &&& 0x00000000ff000000 = 2 ^ 24 * (n / 2 ^ 24 % 256) := land_shifted_mask n 24
  have m2 : n &&& 0x0000000000ff0000 = 2 ^ 16 * (n / 2 ^ 16 % 256) := land_shifted_mask n 16
  have m1 : n &&& 0x000000000000ff00 = 2 ^ 8 * (n / 2 ^ 8 % 256) := land_shifted_mask n 8
  have m0 : n &&& 0x00000000000000ff = 2 ^ 0 * (n / 2 ^ 0 % 256) := land_shifted_mask n 0
  rw [m7, m6, m5, m4, m3, m2, m1, m0]
  simp only [Nat.shiftRight_eq_div_pow, Nat.shiftLeft_eq]
  have a7 : 2 ^ 56 * (n / 2 ^ 56 % 256) / 2 ^ 56 = n / 2 ^ 56 % 256 :=
    Nat.mul_div_cancel_left _ (by norm_num)
  have a6 : 2 ^ 48 * (n / 2 ^ 48 % 256) / 2 ^ 40 = 2 ^ 8 * (n / 2 ^ 48 % 256) := by omega
  have a5 : 2 ^ 40 * (n / 2 ^ 40 % 256) / 2 ^ 24 = 2 ^ 16 * (n / 2 ^ 40 % 256) := by omega
  have a4 : 2 ^ 32 * (n / 2 ^ 32 % 256) / 2 ^ 8 = 2 ^ 24 * (n / 2 ^ 32 % 256) := by omega
  have a3 : 2 ^ 24 * (n / 2 ^ 24 % 256) * 2 ^ 8 = 2 ^ 32 * (n / 2 ^ 24 % 256) := by omega
  have a2 : 2 ^ 16 * (n / 2 ^ 16 % 256) * 2 ^ 24 = 2 ^ 40 * (n / 2 ^ 16 % 256) := by omega
  have a1 : 2 ^ 8 * (n / 2 ^ 8 % 256) * 2 ^ 40 = 2 ^ 48 * (n / 2 ^ 8 % 256) := by omega
  have a0 : 2 ^ 0 * (n / 2 ^ 0 % 256) * 2 ^ 56 = 2 ^ 56 * (n % 256) := by omega
  rw [a7, a6, a5, a4, a3, a2, a1, a0, Nat.lor_comm (n / 2 ^ 56 % 256), lor_byte _ _ _ (by omega),
    Nat.lor_comm _ (2 ^ 16 * _), lor_byte _ _ _ (by omega),
    Nat.lor_comm _ (2 ^ 24 * _), lor_byte _ _ _ (by omega),
    Nat.lor_comm _ (2 ^ 32 * _), lor_byte _ _ _ (by omega),
    Nat.lor_comm _ (2 ^ 40 * _), lor_byte _ _ _ (by omega),
    Nat.lor_comm _ (2 ^ 48 * _), lor_byte _ _ _ (by omega),
    Nat.lor_comm _ (2 ^ 56 * _), lor_byte _ _ _ (by omega)]
  omega

theorem leBytes_horner (w b q : Nat) (hb : b < 256) :
    leBytes (w + 1) (b + 256 * q) = b :: leBytes w q := by
  have h1 : (b + 256 * q) % 256 = b := by omega
  have h2 : (b + 256 * q) / 256 = q := by omega
  rw [leBytes, h1, h2]

/-- Storing `BSWAP16(x)` on a little-endian host lays down the big-endian bytes. -/
theorem leBytes_bswap16 (x : Int) : leBytes 2 (BSWAP16 x) = beBytes 2 (castU 16 x) := by
  rw [bswap16_arith]
  generalize castU 16 x = n
  rw [leBytes_horner _ _ _ (Nat.mod_lt _ (by norm_num))]
  simp only [leBytes, beBytes, List.reverse_cons, List.reverse_nil, List.nil_append,
    List.cons_append, Nat.div_div_eq_div_mul, Nat.reducePow, Nat.reduceMul, Nat.mod_mod]

theorem leBytes_bswap32 (x : Int) : leBytes 4 (BSWAP32 x) = beBytes 4 (castU 32 x) := by
  rw [bswap32_arith]
  generalize castU 32 x = n
  rw [leBytes_horner _ _ _ (Nat.mod_lt _ (by norm_num)),
    leBytes_horner _ _ _ (Nat.mod_lt _ (by norm_num)),
    leBytes_horner _ _ _ (Nat.mod_lt _ (by norm_num))]
  simp only [leBytes, beBytes, List.reverse_cons, List.reverse_nil, List.nil_append,
    List.cons_append, Nat.div_div_eq_div_mul, Nat.reducePow, Nat.reduceMul, Nat.mod_mod]

theorem leBytes_bswap64 (x : Int) : leBytes 8 (BSWAP64 x) = beBytes 8 (castU 64 x) := by
  rw [bswap64_arith]
  generalize castU 64 x = n
  rw [leBytes_horner _ _ _ (Nat.mod_lt _ (by norm_num)),
    leBytes_horner _ _ _ (Nat.mod_lt _ (by norm_num)),
    leBytes_horner _ _ _ (Nat.mod_lt _ (by norm_num)),
    leBytes_horner _ _ _ (Nat.mod_lt _ (by norm_num)),
    leBytes_horner _ _ _ (Nat.mod_lt _ (by norm_num)),
    leBytes_horner _ _ _ (Nat.mod_lt _ (by norm_num)),
    leBytes_horner _ _ _ (Nat.mod_lt _ (by norm_num))]
  simp only [leBytes, beBytes, List.reverse_cons, List.reverse_nil, List.nil_append,
    List.cons_append, Nat.div_div_eq_div_mul, Nat.reducePow, Nat.reduceMul, Nat.mod_mod]

end ArtKey

namespace ArtKey

/-! ## Integer keys -/

/-- With the flag equal to the host byte order, the buffer written by
`Key::CreateData` holds the big-endian bytes of the value, sign bit flipped. -/
theorem createData_int_eq (t : IntType) (hostLE : Bool) (v : Int) :
    CreateData_int t hostLE v hostLE
      = flipFirst (beBytes t.bytes (castU (8 * t.bytes) v)) := by
  cases t <;> cases hostLE
  all_goals
    simp only [CreateData_int, CreateData_int8, CreateData_int16, CreateData_int32,
      CreateData_int64, storeUInt, IntType.bytes, if_true, if_false, Bool.false_eq_true,
      leBytes_bswap16, leBytes_bswap32, leBytes_bswap64, Nat.reduceMul]
  all_goals
    have h := castU_lt 8 v
    simp only [beBytes, leBytes, List.reverse_cons, List.reverse_nil, List.nil_append]
    rw [Nat.mod_eq_of_lt (by simpa using h)]

theorem castU_offset (t : IntType) (v : Int) (h : InRange t.bytes v) :
    (((castU (8 * t.bytes) v + 128 * 256 ^ (t.bytes - 1)) % 256 ^ t.bytes : Nat) : Int)
      = v + 2 ^ (8 * t.bytes - 1) := by
  cases t <;> simp only [IntType.bytes, InRange, castU] at * <;> omega

theorem beValue_createData_int (t : IntType) (hostLE : Bool) (v : Int)
    (h : InRange t.bytes v) :
    (beValue (CreateData_int t hostLE v hostLE) : Int) = v + 2 ^ (8 * t.bytes - 1) := by
  rw [createData_int_eq, ← castU_offset t v h]
  have hb : t.bytes = (t.bytes - 1) + 1 := by cases t <;> rfl
  rw [hb, beValue_flipFirst]
  simp

theorem createData_int_length (t : IntType) (hostLE : Bool) (v : Int) :
    (CreateData_int t hostLE v hostLE).length = t.bytes := by
  rw [createData_int_eq, flipFirst_length, beBytes_length]

theorem createData_int_lt (t : IntType) (hostLE : Bool) (v : Int) :
    ∀ b ∈ CreateData_int t hostLE v hostLE, b < 256 := by
  rw [createData_int_eq]
  exact flipFirst_lt _ (beBytes_lt _ _)

end ArtKey

namespace ArtKey

/-! ## Key comparison -/

theorem gtLoop_spec (a k : Key) (n i : Nat) :
    Key.gtLoop a k n i = true ↔
      (∃ p, i ≤ p ∧ p < i + n ∧ (∀ j, i ≤ j → j < p → a.at j = k.at j) ∧ a.at p > k.at p) ∨
      ((∀ j, i ≤ j → j < i + n → a.at j = k.at j) ∧ a.len > k.len) := by
  induction n generalizing i with
  | zero =>
    simp only [Key.gtLoop, decide_eq_true_eq, Nat.add_zero]
    constructor
    · intro h
      exact Or.inr ⟨fun j h1 h2 => absurd h1 (by omega), h⟩
    · rintro (⟨p, h1, h2, _⟩ | ⟨_, h⟩)
      · omega
      · exact h
  | succ n ih =>
    unfold Key.gtLoop
    by_cases hgt : a.at i > k.at i
    · simp only [hgt, if_true, true_iff]
      exact Or.inl ⟨i, le_refl _, by omega, fun j h1 h2 => absurd h1 (by omega), hgt⟩
    · by_cases hlt : a.at i < k.at i
      · simp only [hgt, hlt, if_true, if_false, Bool.false_eq_true, false_iff]
        rintro (⟨p, h1, h2, h3, h4⟩ | ⟨h3, _⟩)
        · rcases Nat.eq_or_lt_of_le h1 with rfl | h1'
          · omega
          · have := h3 i (le_refl _) h1'
            omega
        · have := h3 i (le_refl _) (by omega)
          omega
      · have heq : a.at i = k.at i := by omega
        simp only [hgt, hlt, if_false]
        rw [ih (i + 1)]
        constructor
        · rintro (⟨p, h1, h2, h3, h4⟩ | ⟨h3, h4⟩)
          · refine Or.inl ⟨p, by omega, by omega, fun j hj1 hj2 => ?_, h4⟩
            rcases Nat.eq_or_lt_of_le hj1 with rfl | hj1'
            · exact heq
            · exact h3 j hj1' hj2
          · refine Or.inr ⟨fun j hj1 hj2 => ?_, h4⟩
            rcases Nat.eq_or_lt_of_le hj1 with rfl | hj1'
            · exact heq
            · exact h3 j hj1' (by omega)
        · rintro (⟨p, h1, h2, h3, h4⟩ | ⟨h3, h4⟩)
          · rcases Nat.eq_or_lt_of_le h1 with rfl | h1'
            · omega
            · exact Or.inl ⟨p, h1', by omega, fun j hj1 hj2 => h3 j (by omega) hj2, h4⟩
          · exact Or.inr ⟨fun j hj1 hj2 => h3 j (by omega) (by omega), h4⟩

theorem gtLoop_shift (x y l₁ l₂ : Nat) (xs ys : List Nat) (n i : Nat) :
    Key.gtLoop ⟨l₁ + 1, x :: xs⟩ ⟨l₂ + 1, y :: ys⟩ n (i + 1)
      = Key.gtLoop ⟨l₁, xs⟩ ⟨l₂, ys⟩ n i := by
  induction n generalizing i with
  | zero => simp [Key.gtLoop]
  | succ n ih =>
    simp only [Key.gtLoop, Key.at, List.getD_cons_succ]
    rw [ih]

theorem lex_cons_cons (a b : Nat) (l₁ l₂ : List Nat) :
    List.Lex (· < ·) (a :: l₁) (b :: l₂) ↔ a < b ∨ (a = b ∧ List.Lex (· < ·) l₁ l₂) := by
  constructor
  · intro h
    cases h with
    | cons h => exact Or.inr ⟨rfl, h⟩
    | rel h => exact Or.inl h
  · rintro (h | ⟨rfl, h⟩)
    · exact List.Lex.rel h
    · exact List.Lex.cons h

/-- On keys whose `len` is the size of the buffer, `operator>` is the
lexicographic order of the buffers (a proper prefix being smaller). -/
theorem gt_iff_lex (la lb : List Nat) :
    Key.gt ⟨la.length, la⟩ ⟨lb.length, lb⟩ = true ↔ List.Lex (· < ·) lb la := by
  induction la generalizing lb with
  | nil =>
    simp [Key.gt, Key.gtLoop]
  | cons x xs ih =>
    cases lb with
    | nil => simp [Key.gt, Key.gtLoop, List.Lex.nil]
    | cons y ys =>
      have hmin : min (xs.length + 1) (ys.length + 1) = min xs.length ys.length + 1 := by
        omega
      simp only [Key.gt, List.length_cons, hmin, Key.gtLoop, Key.at, List.getD_cons_zero]
      rw [lex_cons_cons]
      by_cases hgt : x > y
      · simp [hgt]
      · by_cases hlt : x < y
        · have hne : ¬ (y < x ∨ y = x ∧ List.Lex (· < ·) ys xs) := by
            rintro (h | ⟨h, _⟩) <;> omega
          rw [if_neg hgt, if_pos hlt]
          exact ⟨fun h => absurd h (by simp), fun h => absurd h hne⟩
        · have heq : y = x := by omega
          subst heq
          simp only [hgt, if_false, Nat.zero_add, gtLoop_shift]
          have := ih ys
          simp only [Key.gt] at this
          rw [this]
          simp

theorem lex_append_zero (s t : List Nat) :
    List.Lex (· < ·) (s ++ [0]) (t ++ [0]) ↔ List.Lex (· < ·) s t := by
  induction s generalizing t with
  | nil =>
    cases t with
    | nil => simp [lex_cons_cons]
    | cons y ys =>
      simp only [List.nil_append, List.cons_append, lex_cons_cons, List.Lex.nil, iff_true]
      rcases Nat.eq_zero_or_pos y with h | h
      · right
        refine ⟨h.symm, ?_⟩
        cases ys <;> exact List.Lex.nil
      · exact Or.inl h
  | cons x xs ih =>
    cases t with
    | nil =>
      simp only [List.nil_append, List.cons_append, lex_cons_cons]
      constructor
      · rintro (h | ⟨_, h⟩)
        · omega
        · exact absurd h (List.Lex.not_nil_right _ _)
      · intro h
        exact absurd h (List.Lex.not_nil_right _ _)
    | cons y ys =>
      simp only [List.cons_append, lex_cons_cons, ih]

theorem createKey_string_eq (s : List Nat) (le : Bool) :
    CreateKey_string s le = ⟨(s ++ [0]).length, s ++ [0]⟩ := by
  simp [CreateKey_string]

/-! ## Floating-point keys -/

theorem flipSign_inj (a b : Nat) (ha : a < 256) (hb : b < 256) (h : FlipSign a = FlipSign b) :
    a = b := by
  rw [flipSign_eq a ha, flipSign_eq b hb] at h
  omega

theorem flipFirst_inj (l₁ l₂ : List Nat) (h₁ : ∀ b ∈ l₁, b < 256) (h₂ : ∀ b ∈ l₂, b < 256)
    (h : flipFirst l₁ = flipFirst l₂) : l₁ = l₂ := by
  cases l₁ with
  | nil => cases l₂ with
    | nil => rfl
    | cons b l₂ => simp [flipFirst] at h
  | cons a l₁ => cases l₂ with
    | nil => simp [flipFirst] at h
    | cons b l₂ =>
      simp only [flipFirst, List.cons.injEq] at h
      rw [flipSign_inj a b (h₁ a (List.mem_cons_self _ _)) (h₂ b (List.mem_cons_self _ _)) h.1,
        h.2]

theorem beBytes_inj (w a b : Nat) (ha : a < 256 ^ w) (hb : b < 256 ^ w)
    (h : beBytes w a = beBytes w b) : a = b := by
  have := congrArg beValue h
  rwa [beValue_beBytes, beValue_beBytes, Nat.mod_eq_of_lt ha, Nat.mod_eq_of_lt hb] at this

theorem leBytes_inj (w a b : Nat) (ha : a < 256 ^ w) (hb : b < 256 ^ w)
    (h : leBytes w a = leBytes w b) : a = b :=
  beBytes_inj w a b ha hb (by simp [beBytes, h])

theorem storeUInt_lt (hostLE : Bool) (w n : Nat) : ∀ b ∈ storeUInt hostLE w n, b < 256 := by
  cases hostLE
  · simpa [storeUInt] using beBytes_lt w n
  · simpa [storeUInt] using leBytes_lt w n

theorem beBytes_bswap32 (x : Int) : beBytes 4 (BSWAP32 x) = leBytes 4 (castU 32 x) := by
  rw [beBytes, leBytes_bswap32, beBytes, List.reverse_reverse]

theorem beBytes_bswap64 (x : Int) : beBytes 8 (BSWAP64 x) = leBytes 8 (castU 64 x) := by
  rw [beBytes, leBytes_bswap64, beBytes, List.reverse_reverse]

/-- The buffer of a `float` key determines the encoded 32-bit value, for every
host byte order and every value of the flag. -/
theorem floatBuffer_inj (hostLE le : Bool) (a b : Nat) (ha : a < 2 ^ 32) (hb : b < 2 ^ 32)
    (h : flipFirst (storeUInt hostLE 4 (if le then BSWAP32 (a : Int) else a))
       = flipFirst (storeUInt hostLE 4 (if le then BSWAP32 (b : Int) else b))) : a = b := by
  have h' := flipFirst_inj _ _ (storeUInt_lt _ _ _) (storeUInt_lt _ _ _) h
  have ea : castU 32 (a : Int) = a := by rw [castU_natCast, Nat.mod_eq_of_lt ha]
  have eb : castU 32 (b : Int) = b := by rw [castU_natCast, Nat.mod_eq_of_lt hb]
  have ha' : a < 256 ^ 4 := by norm_num at ha ⊢; exact ha
  have hb' : b < 256 ^ 4 := by norm_num at hb ⊢; exact hb
  cases hostLE <;> cases le <;>
    simp only [storeUInt, if_true, if_false, Bool.false_eq_true, leBytes_bswap32,
      beBytes_bswap32, ea, eb] at h'
  · exact beBytes_inj 4 a b ha' hb' h'
  · exact leBytes_inj 4 a b ha' hb' h'
  · exact leBytes_inj 4 a b ha' hb' h'
  · exact beBytes_inj 4 a b ha' hb' h'

/-- The buffer of a `double` key determines the encoded 64-bit value. -/
theorem doubleBuffer_inj (hostLE le : Bool) (a b : Nat) (ha : a < 2 ^ 64) (hb : b < 2 ^ 64)
    (h : flipFirst (storeUInt hostLE 8 (if le then BSWAP64 (a : Int) else a))
       = flipFirst (storeUInt hostLE 8 (if le then BSWAP64 (b : Int) else b))) : a = b := by
  have h' := flipFirst_inj _ _ (storeUInt_lt _ _ _) (storeUInt_lt _ _ _) h
  have ea : castU 64 (a : Int) = a := by rw [castU_natCast, Nat.mod_eq_of_lt ha]
  have eb : castU 64 (b : Int) = b := by rw [castU_natCast, Nat.mod_eq_of_lt hb]
  have ha' : a < 256 ^ 8 := by norm_num at ha ⊢; exact ha
  have hb' : b < 256 ^ 8 := by norm_num at hb ⊢; exact hb
  cases hostLE <;> cases le <;>
    simp only [storeUInt, if_true, if_false, Bool.false_eq_true, leBytes_bswap64,
      beBytes_bswap64, ea, eb] at h'
  · exact beBytes_inj 8 a b ha' hb' h'
  · exact leBytes_inj 8 a b ha' hb' h'
  · exact leBytes_inj 8 a b ha' hb' h'
  · exact beBytes_inj 8 a b ha' hb' h'

/-- The pattern `EncodeFloat` returns for a NaN. -/
theorem encodeFloat_nan (dm : DataModel) (x : F32) (h : x.isNaN = true) :
    EncodeFloat dm x = some 2139096274 := by
  unfold EncodeFloat
  simp only [F32.eq, F32.lt, h, Bool.not_true, Bool.and_false, Bool.false_and, Bool.not_false,
    if_true, if_false, Bool.false_eq_true]
  cases dm <;> decide

/-- The pattern `EncodeDouble` returns for a NaN. -/
theorem encodeDouble_nan (dm : DataModel) (x : F64) (h : x.isNaN = true) :
    EncodeDouble dm x = some 9218868437227406546 := by
  unfold EncodeDouble
  simp only [F64.eq, F64.lt, h, Bool.not_true, Bool.and_false, Bool.false_and, Bool.not_false,
    if_true, if_false, Bool.false_eq_true]
  cases dm <;> decide

/-- The integer part of a finite `float` is below `2^30` or a multiple of 128. -/
theorem f32_trunc_shape (x : F32) :
    x.mag / 2 ^ 149 < 2 ^ 30 ∨ (2 ^ 7 : Nat) ∣ x.mag / 2 ^ 149 := by
  unfold F32.mag
  have hm := x.hman
  split_ifs with h0
  · left
    have : x.man / 2 ^ 149 = 0 := Nat.div_eq_of_lt (lt_of_lt_of_le hm (by norm_num))
    omega
  · by_cases hk : x.exp ≤ 156
    · left
      have hp : 2 ^ (x.exp - 1) ≤ 2 ^ 155 := Nat.pow_le_pow_right (by norm_num) (by omega)
      have hs : 2 ^ 23 + x.man < 2 ^ 24 := by omega
      have hlt : (2 ^ 23 + x.man) * 2 ^ (x.exp - 1) < 2 ^ 149 * 2 ^ 30 := by
        calc (2 ^ 23 + x.man) * 2 ^ (x.exp - 1) ≤ (2 ^ 23 + x.man) * 2 ^ 155 :=
              Nat.mul_le_mul_left _ hp
          _ < 2 ^ 24 * 2 ^ 155 := Nat.mul_lt_mul_of_pos_right hs (by positivity)
          _ = 2 ^ 149 * 2 ^ 30 := by norm_num
      exact Nat.div_lt_of_lt_mul hlt
    · right
      obtain ⟨k, hk'⟩ : ∃ k, x.exp - 1 = 149 + (7 + k) := ⟨x.exp - 157, by omega⟩
      rw [hk', pow_add, pow_add, ← Nat.mul_assoc, Nat.mul_comm _ (2 ^ 149), Nat.mul_assoc,
        Nat.mul_div_cancel_left _ (by positivity)]
      exact Dvd.dvd.mul_left (Dvd.dvd.mul_right (dvd_refl _) _) _

/-- The integer part of a finite `double` is below `2^62` or a multiple of 1024. -/
theorem f64_trunc_shape (x : F64) :
    x.mag / 2 ^ 1074 < 2 ^ 62 ∨ (2 ^ 10 : Nat) ∣ x.mag / 2 ^ 1074 := by
  unfold F64.mag
  have hm := x.hman
  split_ifs with h0
  · left
    have : x.man / 2 ^ 1074 = 0 :=
      Nat.div_eq_of_lt (lt_of_lt_of_le hm (Nat.pow_le_pow_right (by norm_num) (by norm_num)))
    omega
  · by_cases hk : x.exp ≤ 1084
    · left
      have hp : 2 ^ (x.exp - 1) ≤ 2 ^ 1083 := Nat.pow_le_pow_right (by norm_num) (by omega)
      have hs : 2 ^ 52 + x.man < 2 ^ 53 := by omega
      have hlt : (2 ^ 52 + x.man) * 2 ^ (x.exp - 1) < 2 ^ 1074 * 2 ^ 62 := by
        calc (2 ^ 52 + x.man) * 2 ^ (x.exp - 1) ≤ (2 ^ 52 + x.man) * 2 ^ 1083 :=
              Nat.mul_le_mul_left _ hp
          _ < 2 ^ 53 * 2 ^ 1083 := Nat.mul_lt_mul_of_pos_right hs (by positivity)
          _ = 2 ^ 1074 * 2 ^ 62 := by rw [← pow_add, ← pow_add]
      exact Nat.div_lt_of_lt_mul hlt
    · right
      obtain ⟨k, hk'⟩ : ∃ k, x.exp - 1 = 1074 + (10 + k) := ⟨x.exp - 1085, by omega⟩
      rw [hk', pow_add, pow_add, ← Nat.mul_assoc, Nat.mul_comm _ (2 ^ 1074), Nat.mul_assoc,
        Nat.mul_div_cancel_left _ (by positivity)]
      exact Dvd.dvd.mul_left (Dvd.dvd.mul_right (dvd_refl _) _) _

/-- The conversion of a `float` returns a value for every input. -/
theorem f32_toUInt_isSome (w : Nat) (x : F32) : (F32.toUInt w x).isSome = true := by
  unfold F32.toUInt
  split_ifs <;> rfl

/-- The conversion of a `double` returns a value for every input. -/
theorem f64_toUInt_isSome (w : Nat) (x : F64) : (F64.toUInt w x).isSome = true := by
  unfold F64.toUInt
  split_ifs <;> rfl

theorem f32_toUInt_ne (x : F32) : F32.toUInt 32 x ≠ some 2139096274 := by
  have hshape := f32_trunc_shape x
  unfold F32.toUInt
  generalize x.mag / 2 ^ 149 = m at hshape
  split_ifs with h1 h2 h3 h4
  · decide
  · simp
  · intro h
    have ht := Option.some.inj h
    unfold castU cvtt64 at ht
    have e32 : ((2 : Int) ^ 32) = 4294967296 := by norm_num
    have e63 : ((2 : Int) ^ 63) = 9223372036854775808 := by norm_num
    rw [e32, e63] at ht
    have e30 : (2 : Nat) ^ 30 = 1073741824 := by norm_num
    rw [e30] at hshape
    rcases hshape with hs | ⟨q, hq⟩
    · split_ifs at ht <;> omega
    · have e7 : (2 : Nat) ^ 7 = 128 := by norm_num
      rw [e7] at hq
      split_ifs at ht <;> omega
  · intro h
    have ht : m = 2139096274 := Option.some.inj h
    have e30 : (2 : Nat) ^ 30 = 1073741824 := by norm_num
    rw [e30] at hshape
    rcases hshape with hs | ⟨q, hq⟩
    · omega
    · have e7 : (2 : Nat) ^ 7 = 128 := by norm_num
      rw [e7] at hq
      omega
  · intro h
    have ht := Option.some.inj h
    unfold castU cvtt64 at ht
    have e32 : ((2 : Int) ^ 32) = 4294967296 := by norm_num
    have e63 : ((2 : Int) ^ 63) = 9223372036854775808 := by norm_num
    have e32n : ((2 : Nat) ^ 32) = 4294967296 := by norm_num
    rw [e32, e63] at ht
    rw [e32n] at h4
    have e30 : (2 : Nat) ^ 30 = 1073741824 := by norm_num
    rw [e30] at hshape
    rcases hshape with hs | ⟨q, hq⟩
    · omega
    · have e7 : (2 : Nat) ^ 7 = 128 := by norm_num
      rw [e7] at hq
      split_ifs at ht <;> omega

theorem f64_toUInt_ne (x : F64) : F64.toUInt 64 x ≠ some 9218868437227406546 := by
  have hshape := f64_trunc_shape x
  unfold F64.toUInt
  generalize x.mag / 2 ^ 1074 = m at hshape
  split_ifs with h1 h2 h3 h4 h5
  · simp
  · decide
  · simp
  · intro h
    have ht := Option.some.inj h
    unfold castU cvtt64 at ht
    have e64 : ((2 : Int) ^ 64) = 18446744073709551616 := by norm_num
    have e63 : ((2 : Int) ^ 63) = 9223372036854775808 := by norm_num
    rw [e64, e63] at ht
    split_ifs at ht <;> omega
  · intro h
    have ht : m = 9218868437227406546 := Option.some.inj h
    have e62 : (2 : Nat) ^ 62 = 4611686018427387904 := by norm_num
    rw [e62] at hshape
    rcases hshape with hs | ⟨q, hq⟩
    · omega
    · have e10 : (2 : Nat) ^ 10 = 1024 := by norm_num
      rw [e10] at hq
      omega
  · simp

theorem encodeFloat_ne_nan (dm : DataModel) (y : F32) (h : y.isNaN = false) :
    EncodeFloat dm y ≠ some 2139096274 := by
  have heq : F32.eq y y = true := by simp [F32.eq, h]
  unfold EncodeFloat
  simp only [heq, Bool.not_true, Bool.false_eq_true, if_false]
  split_ifs
  · decide
  · cases dm <;> decide
  · cases dm <;> decide
  · exact f32_toUInt_ne y

theorem encodeDouble_ne_nan (dm : DataModel) (y : F64) (h : y.isNaN = false) :
    EncodeDouble dm y ≠ some 9218868437227406546 := by
  have heq : F64.eq y y = true := by simp [F64.eq, h]
  unfold EncodeDouble
  simp only [heq, Bool.not_true, Bool.false_eq_true, if_false]
  split_ifs
  · decide
  · cases dm <;> decide
  · cases dm <;> decide
  · exact f64_toUInt_ne y

/-- `EncodeFloat` returns a value for every input. -/
theorem encodeFloat_isSome (dm : DataModel) (x : F32) : (EncodeFloat dm x).isSome = true := by
  unfold EncodeFloat
  dsimp only
  split_ifs
  · rfl
  · rfl
  · rfl
  · rfl
  · exact f32_toUInt_isSome 32 x

/-- `EncodeDouble` returns a value for every input. -/
theorem encodeDouble_isSome (dm : DataModel) (x : F64) : (EncodeDouble dm x).isSome = true := by
  unfold EncodeDouble
  dsimp only
  split_ifs
  · rfl
  · rfl
  · rfl
  · rfl
  · exact f64_toUInt_isSome 64 x

theorem encodeFloat_lt (dm : DataModel) (x : F32) (c : Nat) (h : EncodeFloat dm x = some c) :
    c < 2 ^ 32 := by
  unfold EncodeFloat at h
  dsimp only at h
  split_ifs at h
  · rw [← Option.some.inj h]; decide
  · rw [← Option.some.inj h]; exact castU_lt _ _
  · rw [← Option.some.inj h]; exact castU_lt _ _
  · rw [← Option.some.inj h]; exact castU_lt _ _
  · unfold F32.toUInt at h
    split_ifs at h with h1 h2 h3 h4
    · rw [← Option.some.inj h]; exact castU_lt _ _
    · rw [← Option.some.inj h]; decide
    · rw [← Option.some.inj h]; exact castU_lt _ _
    · rw [← Option.some.inj h]; exact h4
    · rw [← Option.some.inj h]; exact castU_lt _ _

theorem encodeDouble_lt (dm : DataModel) (x : F64) (c : Nat) (h : EncodeDouble dm x = some c) :
    c < 2 ^ 64 := by
  unfold EncodeDouble at h
  dsimp only at h
  split_ifs at h
  · rw [← Option.some.inj h]; decide
  · rw [← Option.some.inj h]; exact Nat.mod_lt _ (by positivity)
  · rw [← Option.some.inj h]; exact Nat.mod_lt _ (by positivity)
  · rw [← Option.some.inj h]; exact Nat.mod_lt _ (by positivity)
  · unfold F64.toUInt at h
    split_ifs at h with h1 h2 h3 h4 h5
    · rw [← Option.some.inj h]; decide
    · rw [← Option.some.inj h]; exact castU_lt _ _
    · rw [← Option.some.inj h]; decide
    · rw [← Option.some.inj h]; exact castU_lt _ _
    · rw [← Option.some.inj h]; exact h5
    · rw [← Option.some.inj h]; decide

end ArtKey

namespace LocalStore

/-! ## The scan of one chunk -/

theorem selLoop_eq (deleted : Nat → Bool) (n i : Nat) (sel : List Nat) :
    selLoop deleted n i sel = sel ++ (List.range' i n).filter (fun j => !deleted j) := by
  induction n generalizing i sel with
  | zero => simp [selLoop]
  | succ n ih =>
    rw [selLoop, List.range'_succ]
    by_cases h : deleted i = true
    · simp [h, ih]
    · have h' : deleted i = false := by simpa using h
      simp [h', ih]

theorem selLoop_sorted (deleted : Nat → Bool) (n : Nat) :
    (selLoop deleted n 0 []).Pairwise (· < ·) := by
  rw [selLoop_eq, List.nil_append]
  exact List.Pairwise.filter _ (List.pairwise_lt_range' 0 n)

theorem mem_selLoop (deleted : Nat → Bool) (n i : Nat) :
    i ∈ selLoop deleted n 0 [] ↔ i < n ∧ deleted i = false := by
  rw [selLoop_eq, List.nil_append, List.mem_filter, List.mem_range'_1]
  simp

theorem initializeScan_spec (st : LocalTableStorage) (s0 : LocalScanState)
    (h : st.InitializeScan = some s0) :
    s0.chunk_index = 0 ∧ s0.max_index + 1 = st.collection.chunks.length ∧
    st.collection.chunks.get? s0.max_index
      = some (st.collection.chunks.getD s0.max_index { data := [], sel_vector := none }) ∧
    s0.last_chunk_count
      = (st.collection.chunks.getD s0.max_index { data := [], sel_vector := none }).size := by
  unfold LocalTableStorage.InitializeScan at h
  cases hl : st.collection.chunks.getLast? with
  | none => rw [hl] at h; simp at h
  | some last =>
    rw [hl] at h
    simp only [Option.some.injEq] at h
    subst h
    have hne : st.collection.chunks ≠ [] := by
      intro h0; rw [h0] at hl; simp at hl
    have hlen : 0 < st.collection.chunks.length := List.length_pos.mpr hne
    have hlast : st.collection.chunks.getLast? = st.collection.chunks.get? (st.collection.chunks.length - 1) := by
      rw [List.getLast?_eq_getElem?]; simp
    have hget : st.collection.chunks.get? (st.collection.chunks.length - 1) = some last := by
      rw [← hlast, hl]
    refine ⟨rfl, by simp only; omega, ?_, ?_⟩
    · simp only [List.getD_eq_getElem?_getD]
      simp only [List.get?_eq_getElem?] at hget
      simp [hget]
    · simp only [List.getD_eq_getElem?_getD]
      simp only [List.get?_eq_getElem?] at hget
      simp [hget]

/-- The row count `Scan` works with is the size of the chunk it scans, for every
chunk of a scan started by `InitializeScan`. -/
theorem chunk_count_eq (st : LocalTableStorage) (s0 : LocalScanState)
    (h : st.InitializeScan = some s0) (c : Nat) :
    (if c = s0.max_index then s0.last_chunk_count
      else (st.collection.chunks.getD c { data := [], sel_vector := none }).size)
      = (st.collection.chunks.getD c { data := [], sel_vector := none }).size := by
  obtain ⟨_, _, _, h4⟩ := initializeScan_spec st s0 h
  split_ifs with hc
  · rw [hc, h4]
  · rfl

end LocalStore

namespace LocalStore

/-! ## Row identifiers of local rows -/

theorem getChunk_local (K : Constants) (c p : Nat) (rest : List Int)
    (sel : Option (List Nat)) (n : Nat)
    (hp : p < K.STANDARD_VECTOR_SIZE)
    (hfit : K.MAX_ROW_ID + c * K.STANDARD_VECTOR_SIZE + p < 2 ^ 63) :
    GetChunk K { data := ((K.MAX_ROW_ID : Int) + c * K.STANDARD_VECTOR_SIZE + p) :: rest,
                 sel_vector := sel, count := n } = c := by
  unfold GetChunk
  simp only [List.getD_cons_zero]
  have hV : 0 < K.STANDARD_VECTOR_SIZE := by omega
  have e1 : ((K.MAX_ROW_ID : Int) + c * K.STANDARD_VECTOR_SIZE + p - K.MAX_ROW_ID)
      = ((c * K.STANDARD_VECTOR_SIZE + p : Nat) : Int) := by push_cast; ring
  rw [e1, Int.tdiv_eq_ediv (by positivity) (by positivity), ← Int.ofNat_ediv, ArtKey.castU_natCast]
  have e2 : (c * K.STANDARD_VECTOR_SIZE + p) / K.STANDARD_VECTOR_SIZE = c := by
    rw [Nat.add_comm, Nat.add_mul_div_right _ _ hV, Nat.div_eq_of_lt hp, Nat.zero_add]
  rw [e2]
  apply Nat.mod_eq_of_lt
  have : c ≤ c * K.STANDARD_VECTOR_SIZE := Nat.le_mul_of_pos_right c hV
  omega

theorem findDeleted_replace_same (m : List (Nat × (Nat → Bool))) (c : Nat) (d : Nat → Bool)
    (h : (findDeleted m c).isSome = true) :
    findDeleted (replaceDeleted m c d) c = some d := by
  induction m with
  | nil => simp [findDeleted] at h
  | cons e m ih =>
    obtain ⟨k, d0⟩ := e
    by_cases hk : k = c
    · simp [replaceDeleted, findDeleted, hk]
    · simp only [findDeleted, hk, if_false] at h
      simpa [replaceDeleted, findDeleted, hk] using ih h

theorem findDeleted_replace_other (m : List (Nat × (Nat → Bool))) (c c' : Nat)
    (d : Nat → Bool) (h : c' ≠ c) :
    findDeleted (replaceDeleted m c d) c' = findDeleted m c' := by
  induction m with
  | nil => rfl
  | cons e m ih =>
    obtain ⟨k, d0⟩ := e
    by_cases hk : k = c
    · have hk' : ¬ k = c' := by omega
      have hk'' : ¬ c = c' := by omega
      simpa [replaceDeleted, findDeleted, hk, hk', hk''] using ih
    · by_cases hk' : k = c'
      · subst hk'
        simp [replaceDeleted, findDeleted, h]
      · simpa [replaceDeleted, findDeleted, hk, hk'] using ih

theorem findDeleted_append (m : List (Nat × (Nat → Bool))) (c c' : Nat) (d : Nat → Bool) :
    findDeleted (m ++ [(c, d)]) c'
      = match findDeleted m c' with
        | some x => some x
        | none => if c = c' then some d else none := by
  induction m with
  | nil => simp [findDeleted]
  | cons e m ih =>
    obtain ⟨k, d0⟩ := e
    by_cases hk : k = c'
    · simp [findDeleted, hk]
    · simpa [findDeleted, hk] using ih

/-- What `Delete` of one local row identifier leaves in `deleted_entries`. -/
theorem delete_one (K : Constants) (st : LocalTableStorage) (c p : Nat)
    (hp : p < K.STANDARD_VECTOR_SIZE)
    (hfit : K.MAX_ROW_ID + c * K.STANDARD_VECTOR_SIZE + p < 2 ^ 63) :
    findDeleted (st.Delete K
        { data := [(K.MAX_ROW_ID : Int) + c * K.STANDARD_VECTOR_SIZE + p],
          sel_vector := none, count := 1 }).deleted_entries c
      = some (setDeleted ((findDeleted st.deleted_entries c).getD (fun _ => false)) p) ∧
    (∀ c', c' ≠ c →
      findDeleted (st.Delete K
        { data := [(K.MAX_ROW_ID : Int) + c * K.STANDARD_VECTOR_SIZE + p],
          sel_vector := none, count := 1 }).deleted_entries c'
      = findDeleted st.deleted_entries c') ∧
    (st.Delete K
        { data := [(K.MAX_ROW_ID : Int) + c * K.STANDARD_VECTOR_SIZE + p],
          sel_vector := none, count := 1 }).collection = st.collection := by
  have hg := getChunk_local K c p [] none 1 hp hfit
  have hid : ArtKey.castU 64 ((K.MAX_ROW_ID : Int) + c * K.STANDARD_VECTOR_SIZE + p
      - ((K.MAX_ROW_ID : Int) + c * K.STANDARD_VECTOR_SIZE)) = p := by
    have e : ((K.MAX_ROW_ID : Int) + c * K.STANDARD_VECTOR_SIZE + p
      - ((K.MAX_ROW_ID : Int) + c * K.STANDARD_VECTOR_SIZE)) = (p : Int) := by ring
    rw [e, ArtKey.castU_natCast]
    apply Nat.mod_eq_of_lt
    omega
  have hr : List.range 1 = [0] := rfl
  unfold LocalTableStorage.Delete
  simp only [hg, execPositions, hr, List.foldl_cons, List.foldl_nil,
    List.getD_cons_zero, hid]
  refine ⟨?_, ?_, ?_⟩
  rotate_left 2
  · trivial
  · cases hf : findDeleted st.deleted_entries c with
    | none =>
      simp only [Option.getD_none]
      apply findDeleted_replace_same
      rw [findDeleted_append, hf]
      simp
    | some d =>
      simp only [Option.getD_some]
      apply findDeleted_replace_same
      rw [hf]; rfl
  · intro c' hc'
    rw [findDeleted_replace_other _ _ _ _ hc']
    cases hf : findDeleted st.deleted_entries c with
    | none =>
      simp only
      rw [findDeleted_append]
      have : ¬ c = c' := by omega
      cases findDeleted st.deleted_entries c' <;> simp [this]
    | some d => rfl

end LocalStore

namespace LocalStore

/-! ## `LocalStorage::Append` -/

theorem appendToLocalIndexes_reject (chunk : DataChunk) (base_id : Int) (l : List ART)
    (h : ∃ index ∈ l, index.Append chunk base_id = none) :
    (appendToLocalIndexes chunk base_id l).1 = false := by
  induction l with
  | nil => simp at h
  | cons index rest ih =>
    unfold appendToLocalIndexes
    cases hi : index.Append chunk base_id with
    | none => rfl
    | some index' =>
      simp only
      apply ih
      obtain ⟨x, hx, hx'⟩ := h
      rcases List.mem_cons.mp hx with rfl | hx
      · rw [hi] at hx'; cases hx'
      · exact ⟨x, hx, hx'⟩

theorem find_setStorage (ls : LocalStorage) (table : DataTable) (s : LocalTableStorage) :
    (ls.setStorage table s).find table = (ls.find table).map (fun _ => s) := by
  obtain ⟨l⟩ := ls
  simp only [LocalStorage.find, LocalStorage.setStorage]
  induction l with
  | nil => rfl
  | cons e rest ih =>
    by_cases he : (e.table.id == table.id) = true
    · simp [List.find?, he]
    · have he' : (e.table.id == table.id) = false := by simpa using he
      simp only [List.map_cons, he', Bool.false_eq_true, if_false, List.find?, ih]

theorem find_append_new (ls : LocalStorage) (table : DataTable) (s : LocalTableStorage)
    (h : ls.find table = none) :
    LocalStorage.find { table_storage := ls.table_storage ++ [{ table := table, storage := s }] }
      table = some s := by
  obtain ⟨l⟩ := ls
  simp only [LocalStorage.find] at h ⊢
  induction l with
  | nil => simp [List.find?]
  | cons e rest ih =>
    by_cases he : (e.table.id == table.id) = true
    · simp [List.find?, he] at h
    · have he' : (e.table.id == table.id) = false := by simpa using he
      simp only [List.find?, he'] at h
      simp only [List.cons_append, List.find?, he']
      exact ih h

/-- After `Append` the storage of the table is the one `Append` wrote. -/
theorem storageFor_after_set (ls : LocalStorage) (table : DataTable) (s : LocalTableStorage) :
    ((ls.ensure table).setStorage table s).storageFor table = s := by
  unfold LocalStorage.storageFor LocalStorage.ensure
  rw [find_setStorage]
  cases h : ls.find table with
  | none => simp only; rw [find_append_new ls table _ h]; rfl
  | some s0 => simp only; rw [h]; rfl

end LocalStore

namespace LocalStore

/-! ## The loop of `ScanTableStorage` -/

theorem reset_size (c : DataChunk) : c.Reset.size = 0 := by
  obtain ⟨data, sel⟩ := c
  cases data <;> rfl

theorem scan_past_end (K : Constants) (st : LocalTableStorage) (state : LocalScanState)
    (cols : List Nat) (chunk : DataChunk) (h : state.chunk_index > state.max_index) :
    (Scan K (some st) state cols chunk).1.size = 0 := by
  simp only [Scan, h, if_true]
  exact reset_size chunk

theorem scan_state (K : Constants) (st : LocalTableStorage) (state : LocalScanState)
    (cols : List Nat) (chunk : DataChunk) (h : ¬ state.chunk_index > state.max_index) :
    (Scan K (some st) state cols chunk).2
      = { state with chunk_index := state.chunk_index + 1 } := by
  simp only [Scan, h, if_false]

theorem scan_congr (K : Constants) (st st' : LocalTableStorage) (state : LocalScanState)
    (cols : List Nat) (chunk : DataChunk) (h1 : st'.collection = st.collection)
    (h2 : st'.deleted_entries = st.deleted_entries) :
    Scan K (some st') state cols chunk = Scan K (some st) state cols chunk := by
  simp only [Scan, h1, h2]

theorem scannedChunks_congr (K : Constants) (st st' : LocalTableStorage) (cols : List Nat)
    (h1 : st'.collection = st.collection) (h2 : st'.deleted_entries = st.deleted_entries)
    (n : Nat) (state : LocalScanState) (chunk : DataChunk) :
    scannedChunks K st' cols n state chunk = scannedChunks K st cols n state chunk := by
  induction n generalizing state chunk with
  | zero => rfl
  | succ n ih =>
    simp only [scannedChunks, scan_congr K st st' state cols chunk h1 h2, ih]

theorem scannedChunks_size (K : Constants) (st : LocalTableStorage) (cols : List Nat)
    (n : Nat) (state : LocalScanState) (chunk : DataChunk) :
    ∀ c ∈ scannedChunks K st cols n state chunk, c.size ≠ 0 := by
  induction n generalizing state chunk with
  | zero => simp [scannedChunks]
  | succ n ih =>
    intro c hc
    simp only [scannedChunks] at hc
    split_ifs at hc with h0
    · simp at hc
    · rcases List.mem_cons.mp hc with rfl | hc
      · exact h0
      · exact ih _ _ c hc

/-- With enough calls of `Scan` allowed the loop returns, and it returns what
the callback makes of the scanned chunks. -/
theorem scanLoop_eq {σ : Type} (K : Constants) (st : LocalTableStorage) (cols : List Nat)
    (fn : σ → DataChunk → Bool × σ) (n : Nat) (state : LocalScanState) (chunk : DataChunk)
    (s : σ) (hn : state.max_index + 1 - state.chunk_index < n) :
    scanLoop K st cols fn n state chunk s
      = some (runChunks fn (scannedChunks K st cols n state chunk) s) := by
  induction n generalizing state chunk s with
  | zero => omega
  | succ n ih =>
    simp only [scanLoop, scannedChunks]
    by_cases h0 : (Scan K (some st) state cols chunk).1.size = 0
    · simp only [h0, if_true, runChunks]
    · simp only [h0, if_false, runChunks]
      by_cases hf : (fn s (Scan K (some st) state cols chunk).1).1 = true
      · simp only [hf, Bool.not_true, Bool.false_eq_true, if_false]
        apply ih
        have hle : ¬ state.chunk_index > state.max_index := by
          intro hgt
          exact h0 (scan_past_end K st state cols chunk hgt)
        rw [scan_state K st state cols chunk hle]
        simp only
        omega
      · have hf' : (fn s (Scan K (some st) state cols chunk).1).1 = false := by simpa using hf
        simp only [hf', Bool.not_false, if_true]

theorem scanTableStorage_eq {σ : Type} (K : Constants) (table : DataTable)
    (st : LocalTableStorage) (fn : σ → DataChunk → Bool × σ) (s : σ)
    (h : st.collection.chunks ≠ []) :
    ScanTableStorage K table st fn s = some (runChunks fn (visibleChunks K table st) s) := by
  unfold ScanTableStorage visibleChunks
  cases hi : st.InitializeScan with
  | none =>
    unfold LocalTableStorage.InitializeScan at hi
    cases hl : st.collection.chunks.getLast? with
    | none => exact absurd (List.getLast?_eq_none_iff.mp hl) h
    | some last => rw [hl] at hi; simp at hi
  | some state =>
    simp only
    apply scanLoop_eq
    omega

theorem visibleChunks_congr (K : Constants) (table : DataTable) (st st' : LocalTableStorage)
    (h1 : st'.collection = st.collection) (h2 : st'.deleted_entries = st.deleted_entries) :
    visibleChunks K table st' = visibleChunks K table st := by
  unfold visibleChunks LocalTableStorage.InitializeScan
  rw [h1]
  cases st.collection.chunks.getLast? with
  | none => rfl
  | some last => simp only; exact scannedChunks_congr K st st' _ h1 h2 _ _ _

theorem visibleChunks_size (K : Constants) (table : DataTable) (st : LocalTableStorage) :
    ∀ c ∈ visibleChunks K table st, c.size ≠ 0 := by
  unfold visibleChunks
  cases st.InitializeScan with
  | none => simp
  | some state => exact scannedChunks_size K st _ _ _ _

end LocalStore

namespace LocalStore

/-! ## Appending chunks to the indexes and removing them again -/

theorem chunkEntries_cols (a : ART) (c : DataChunk) (r : Int) :
    a.chunkEntries c r
      = ART.chunkEntries { column_ids := a.column_ids, is_unique := false, entries := [] } c r :=
  rfl

theorem insert_fold (l : List (List Int × Int)) (a a' : ART)
    (h : l.foldlM ART.Insert a = some a') :
    a'.column_ids = a.column_ids ∧ a'.is_unique = a.is_unique ∧ a'.entries = a.entries ++ l := by
  induction l generalizing a with
  | nil =>
    simp only [List.foldlM_nil, pure, Option.some.injEq] at h
    subst h; simp
  | cons e l ih =>
    simp only [List.foldlM_cons, bind, Option.bind] at h
    cases hi : ART.Insert a e with
    | none => rw [hi] at h; simp at h
    | some a1 =>
      rw [hi] at h
      obtain ⟨h1, h2, h3⟩ := ih a1 h
      unfold ART.Insert at hi
      split_ifs at hi
      simp only [Option.some.injEq] at hi
      subst hi
      exact ⟨h1, h2, by rw [h3]; simp⟩

theorem append_content (a a' : ART) (c : DataChunk) (r : Int) (h : a.Append c r = some a') :
    a'.content = (a.content.1, a.content.2.1,
      a.content.2.2 + totalEntries a.content.1 [c] r) := by
  obtain ⟨h1, h2, h3⟩ := insert_fold _ a a' h
  simp only [ART.content, h1, h2, h3, totalEntries, add_zero, ← Multiset.coe_add]
  rfl

theorem delete_content (a : ART) (c : DataChunk) (r : Int) :
    (a.Delete c r).content = (a.content.1, a.content.2.1,
      a.content.2.2 - totalEntries a.content.1 [c] r) := by
  have hb : (instBEqProd : BEq (List Int × Int)) = instBEqOfDecidableEq := by
    apply beq_ext
    intro x y
    obtain ⟨k, i⟩ := x
    obtain ⟨k', i'⟩ := y
    show (k == k' && i == i') = decide ((k, i) = (k', i'))
    by_cases h1 : k = k' <;> by_cases h2 : i = i' <;> simp [h1, h2]
  simp only [ART.content, ART.Delete, totalEntries, add_zero, Multiset.coe_sub]
  rw [hb]
  rfl

theorem appendToAll_content (c : DataChunk) (r : Int) (l l' : List ART)
    (h : appendToAll c r l = some l') :
    l'.map ART.content
      = (l.map ART.content).map (fun x => (x.1, x.2.1, x.2.2 + totalEntries x.1 [c] r)) := by
  induction l generalizing l' with
  | nil =>
    simp only [appendToAll, Option.some.injEq] at h
    subst h; rfl
  | cons a rest ih =>
    simp only [appendToAll] at h
    cases ha : a.Append c r with
    | none => rw [ha] at h; simp at h
    | some a1 =>
      rw [ha] at h
      cases hr : appendToAll c r rest with
      | none => rw [hr] at h; simp at h
      | some rest1 =>
        rw [hr] at h
        simp only [Option.map_some', Option.some.injEq] at h
        subst h
        simp only [List.map_cons, ih rest1 hr, append_content a a1 c r ha]

theorem appendToIndexes_spec (t t' : DataTable) (c : DataChunk) (r : Int)
    (h : t.AppendToIndexes c r = some t') :
    t' = { t with indexes := t'.indexes } ∧
    t'.content = t.content.map (fun x => (x.1, x.2.1, x.2.2 + totalEntries x.1 [c] r)) := by
  unfold DataTable.AppendToIndexes at h
  cases hr : appendToAll c r t.indexes with
  | none => rw [hr] at h; simp at h
  | some idxs =>
    rw [hr] at h
    simp only [Option.map_some', Option.some.injEq] at h
    subst h
    exact ⟨rfl, appendToAll_content c r _ _ hr⟩

theorem removeFromIndexes_spec (t : DataTable) (c : DataChunk) (r : Int) :
    (t.RemoveFromIndexes c r).content
      = t.content.map (fun x => (x.1, x.2.1, x.2.2 - totalEntries x.1 [c] r)) := by
  simp only [DataTable.RemoveFromIndexes, DataTable.content, List.map_map]
  apply List.map_congr_left
  intro a _
  exact delete_content a c r

theorem totalEntries_append (cols : List Nat) (cs1 cs2 : List DataChunk) (r : Int) :
    totalEntries cols (cs1 ++ cs2) r
      = totalEntries cols cs1 r + totalEntries cols cs2 (r + sizeSum cs1) := by
  induction cs1 generalizing r with
  | nil => simp [totalEntries, sizeSum]
  | cons c cs1 ih =>
    simp only [List.cons_append, totalEntries, sizeSum, List.append_eq, ih, add_assoc]

/-- The first lambda of `CheckCommit` run over a list of chunks: the chunks up
to the rejected one are in the indexes, and `current_row` is the row identifier
of the rejected chunk (or the end). -/
theorem appendRun_spec (cs : List DataChunk) (t : DataTable) (r : Int) (succ : Bool) :
    ∃ cs1 cs2, cs = cs1 ++ cs2 ∧
      (runChunks checkAppendFun cs (t, r, succ)).2.1
        = { t with indexes := (runChunks checkAppendFun cs (t, r, succ)).2.1.indexes } ∧
      (runChunks checkAppendFun cs (t, r, succ)).2.1.content
        = t.content.map (fun x => (x.1, x.2.1, x.2.2 + totalEntries x.1 cs1 r)) ∧
      (runChunks checkAppendFun cs (t, r, succ)).2.2.1 = r + sizeSum cs1 := by
  induction cs generalizing t r with
  | nil =>
    refine ⟨[], [], rfl, rfl, ?_, ?_⟩
    · simp [runChunks, totalEntries]
    · simp [runChunks, sizeSum]
  | cons c cs ih =>
    simp only [runChunks, checkAppendFun]
    cases ha : t.AppendToIndexes c r with
    | none =>
      refine ⟨[], c :: cs, rfl, rfl, ?_, ?_⟩
      · simp [totalEntries]
      · simp [sizeSum]
    | some t1 =>
      simp only [Bool.not_true, Bool.false_eq_true, if_false]
      obtain ⟨hs1, hs2⟩ := appendToIndexes_spec t t1 c r ha
      obtain ⟨cs1, cs2, h1, h2, h3, h4⟩ := ih t1 (r + c.size)
      refine ⟨c :: cs1, cs2, by rw [h1]; rfl, ?_, ?_, ?_⟩
      · rw [h2, hs1]
      · rw [h3, hs2, List.map_map]
        apply List.map_congr_left
        intro x _
        simp only [Function.comp, totalEntries, add_zero, add_assoc]
      · rw [h4]; simp only [sizeSum]; ring

/-- The second lambda of `CheckCommit` run over the same chunks with `max_row`
the row identifier reached by the first: the chunks that were appended are
removed, and no other. -/
theorem removeRun_spec (cs1 cs2 : List DataChunk) (T : DataTable) (r : Int)
    (hpos : ∀ c ∈ cs1, c.size ≠ 0) :
    (runChunks (checkRemoveFun (r + sizeSum cs1)) (cs1 ++ cs2) (T, r)).2.1
      = { T with indexes :=
          (runChunks (checkRemoveFun (r + sizeSum cs1)) (cs1 ++ cs2) (T, r)).2.1.indexes } ∧
    (runChunks (checkRemoveFun (r + sizeSum cs1)) (cs1 ++ cs2) (T, r)).2.1.content
      = T.content.map (fun x => (x.1, x.2.1, x.2.2 - totalEntries x.1 cs1 r)) := by
  induction cs1 generalizing T r with
  | nil =>
    cases cs2 with
    | nil => simp [runChunks, totalEntries]
    | cons c cs2 => simp [runChunks, checkRemoveFun, sizeSum, totalEntries]
  | cons c cs1 ih =>
    have hc : c.size ≠ 0 := hpos c (List.mem_cons_self _ _)
    have hnn : 0 ≤ sizeSum cs1 := by
      clear ih hpos hc
      induction cs1 with
      | nil => simp [sizeSum]
      | cons d ds ihd => simp only [sizeSum]; omega
    have hlt : ¬ (r ≥ r + sizeSum (c :: cs1)) := by
      simp only [sizeSum]; omega
    have hmax : r + sizeSum (c :: cs1) = (r + c.size) + sizeSum cs1 := by
      simp only [sizeSum]; ring
    simp only [List.cons_append, runChunks, checkRemoveFun, hlt, if_false, Bool.not_true,
      Bool.false_eq_true, List.append_eq]
    rw [hmax]
    obtain ⟨h1, h2⟩ := ih (T.RemoveFromIndexes c r) (r + c.size)
      (fun d hd => hpos d (List.mem_cons_of_mem _ hd))
    refine ⟨?_, ?_⟩
    · rw [h1]; rfl
    · rw [h2, removeFromIndexes_spec, List.map_map]
      apply List.map_congr_left
      intro x _
      simp only [Function.comp, totalEntries, add_zero, tsub_tsub]

end LocalStore

namespace LocalStore

/-! ## The two loops of `CheckCommit` -/

theorem sizeSum_nonneg (cs : List DataChunk) : 0 ≤ sizeSum cs := by
  induction cs with
  | nil => simp [sizeSum]
  | cons d ds ih => simp only [sizeSum]; omega

theorem sizeSum_eq_zero (cs : List DataChunk) (hpos : ∀ c ∈ cs, c.size ≠ 0)
    (h : sizeSum cs = 0) : cs = [] := by
  cases cs with
  | nil => rfl
  | cons c cs =>
    have h1 := hpos c (List.mem_cons_self _ _)
    have h2 := sizeSum_nonneg cs
    simp only [sizeSum] at h
    omega

theorem content_sameIndexes (t t' : DataTable) (hid : t'.id = t.id)
    (h : t'.content = t.content) : t.sameIndexes t' := by
  refine ⟨hid, ?_⟩
  unfold DataTable.content at h
  generalize t.indexes = l at h
  generalize t'.indexes = l' at h
  induction l generalizing l' with
  | nil =>
    cases l' with
    | nil => exact List.Forall₂.nil
    | cons a l' => simp at h
  | cons a l ih =>
    cases l' with
    | nil => simp at h
    | cons a' l' =>
      simp only [List.map_cons, List.cons.injEq] at h
      refine List.Forall₂.cons ?_ (ih l' h.2)
      have h1 := h.1
      simp only [ART.content, Prod.mk.injEq] at h1
      exact ⟨h1.1, h1.2.1, Multiset.coe_eq_coe.mp h1.2.2⟩

theorem restorable_untouched (K : Constants) (e : Entry)
    (h : e.storage.max_row = 0) : Restorable K e e :=
  ⟨fun _ => ⟨rfl, rfl⟩, fun hn => absurd (Or.inr h) hn⟩

/-- The scan of a storage without chunks has no result. -/
theorem scanTableStorage_none {σ : Type} (K : Constants) (table : DataTable)
    (st : LocalTableStorage) (fn : σ → DataChunk → Bool × σ) (s : σ)
    (h : st.collection.chunks = []) :
    ScanTableStorage K table st fn s = none := by
  unfold ScanTableStorage LocalTableStorage.InitializeScan
  rw [h]
  rfl

theorem restorable_processed (K : Constants) (e : Entry) (succ : Bool)
    (h : e.storage.collection.chunks ≠ [])
    (hidx : ¬ e.table.indexes.length = 0) :
    Restorable K e
      { table := (runChunks checkAppendFun
            (visibleChunks K e.table { e.storage with state := some e.table.InitializeAppend })
            (e.table, e.table.InitializeAppend.row_start, succ)).2.1,
        storage := { e.storage with
          state := some e.table.InitializeAppend,
          max_row := (runChunks checkAppendFun
            (visibleChunks K e.table { e.storage with state := some e.table.InitializeAppend })
            (e.table, e.table.InitializeAppend.row_start, succ)).2.2.1 } } := by
  have hvis : visibleChunks K e.table { e.storage with state := some e.table.InitializeAppend }
      = visibleChunks K e.table e.storage := visibleChunks_congr K e.table e.storage _ rfl rfl
  rw [hvis]
  obtain ⟨cs1, cs2, hcs, hA1, hA2, hA3⟩ :=
    appendRun_spec (visibleChunks K e.table e.storage) e.table
      e.table.InitializeAppend.row_start succ
  have hpos : ∀ c ∈ cs1, c.size ≠ 0 := by
    intro c hc
    apply visibleChunks_size K e.table e.storage
    rw [hcs]; exact List.mem_append_left _ hc
  generalize (runChunks checkAppendFun (visibleChunks K e.table e.storage)
    (e.table, e.table.InitializeAppend.row_start, succ)) = A at hA1 hA2 hA3
  have hid : A.2.1.id = e.table.id := by rw [hA1]
  have htypes : A.2.1.types = e.table.types := by rw [hA1]
  refine ⟨?_, ?_⟩
  · rintro (h0 | h0)
    · exfalso
      simp only at h0
      have : A.2.1.content.length = e.table.content.length := by rw [hA2]; simp
      simp only [DataTable.content, List.length_map] at this
      omega
    · simp only at h0
      rw [hA3] at h0
      have hr : (0 : Int) ≤ e.table.InitializeAppend.row_start := by
        simp [DataTable.InitializeAppend]
      have hs := sizeSum_nonneg cs1
      have hz : sizeSum cs1 = 0 := by omega
      have hnil := sizeSum_eq_zero cs1 hpos hz
      subst hnil
      refine ⟨hid, ?_⟩
      rw [hA2]
      simp [totalEntries]
  · intro _
    refine ⟨h, e.table.InitializeAppend, rfl, ?_⟩
    simp only
    have hvis2 : visibleChunks K A.2.1
        { e.storage with state := some e.table.InitializeAppend, max_row := A.2.2.1 }
        = visibleChunks K e.table e.storage := by
      have := visibleChunks_congr K A.2.1 e.storage
        { e.storage with state := some e.table.InitializeAppend, max_row := A.2.2.1 } rfl rfl
      rw [this]
      unfold visibleChunks
      rw [htypes]
    rw [hvis2, hcs, hA3]
    obtain ⟨hR1, hR2⟩ := removeRun_spec cs1 cs2 A.2.1 e.table.InitializeAppend.row_start hpos
    constructor
    · rw [hR1]; exact hid
    · rw [hR2, hA2, List.map_map]
      conv_rhs => rw [← List.map_id e.table.content]
      apply List.map_congr_left
      intro x _
      simp only [Function.comp, id, add_tsub_cancel_right]

/-- The first loop of `CheckCommit` has a result when every storage holds a chunk. -/
theorem loop1_defined (K : Constants) (entries : List Entry) (success : Bool)
    (hwf : ∀ e ∈ entries, e.storage.collection.chunks ≠ []) :
    (checkCommitLoop1 K entries success).isSome = true := by
  induction entries generalizing success with
  | nil => rfl
  | cons e rest ih =>
    have he := hwf e (List.mem_cons_self _ _)
    have hrest : ∀ x ∈ rest, x.storage.collection.chunks ≠ [] :=
      fun x hx => hwf x (List.mem_cons_of_mem _ hx)
    unfold checkCommitLoop1
    by_cases hidx : e.table.indexes.length = 0
    · simp only [hidx, if_true, Option.isSome_map']
      exact ih success hrest
    · simp only [hidx, if_false]
      have he1 : ({ e.storage with state := some e.table.InitializeAppend } :
          LocalTableStorage).collection.chunks ≠ [] := he
      rw [scanTableStorage_eq K e.table _ checkAppendFun _ he1]
      simp only
      split_ifs
      · rfl
      · simp only [Option.isSome_map']
        exact ih _ hrest

theorem loop1_spec (K : Constants) (entries : List Entry) (success : Bool)
    (hmax : ∀ e ∈ entries, e.storage.max_row = 0) :
    ∀ out, checkCommitLoop1 K entries success = some out →
      List.Forall₂ (Restorable K) entries out.1 := by
  induction entries generalizing success with
  | nil =>
    intro out h
    simp only [checkCommitLoop1, Option.some.injEq] at h
    rw [← h]
    exact List.Forall₂.nil
  | cons e rest ih =>
    intro out h
    have hrest : ∀ x ∈ rest, x.storage.max_row = 0 :=
      fun x hx => hmax x (List.mem_cons_of_mem _ hx)
    have hrest_ok : List.Forall₂ (Restorable K) rest rest := by
      clear ih hmax h
      induction rest with
      | nil => exact List.Forall₂.nil
      | cons x xs ihx =>
        exact List.Forall₂.cons (restorable_untouched K x (hrest x (List.mem_cons_self _ _)))
          (ihx (fun y hy => hrest y (List.mem_cons_of_mem _ hy)))
    unfold checkCommitLoop1 at h
    by_cases hidx : e.table.indexes.length = 0
    · simp only [hidx, if_true] at h
      obtain ⟨q, hq, hout⟩ := Option.map_eq_some'.mp h
      rw [← hout]
      refine List.Forall₂.cons ⟨fun _ => ⟨rfl, rfl⟩, fun hn => ?_⟩ (ih success hrest q hq)
      exact absurd (Or.inl hidx) hn
    · simp only [hidx, if_false] at h
      by_cases hch : e.storage.collection.chunks = []
      · have he0 : ({ e.storage with state := some e.table.InitializeAppend } :
            LocalTableStorage).collection.chunks = [] := hch
        rw [scanTableStorage_none K e.table _ checkAppendFun _ he0] at h
        simp at h
      · have he1 : ({ e.storage with state := some e.table.InitializeAppend } :
            LocalTableStorage).collection.chunks ≠ [] := hch
        rw [scanTableStorage_eq K e.table _ checkAppendFun _ he1] at h
        simp only at h
        have hproc := restorable_processed K e success hch hidx
        by_cases hs : (runChunks checkAppendFun
              (visibleChunks K e.table { e.storage with state := some e.table.InitializeAppend })
              (e.table, e.table.InitializeAppend.row_start, success)).2.2.2 = true
        · simp only [hs, Bool.not_true, Bool.false_eq_true, if_false] at h
          obtain ⟨q, hq, hout⟩ := Option.map_eq_some'.mp h
          rw [← hout]
          exact List.Forall₂.cons hproc (ih true hrest q hq)
        · have hs' : (runChunks checkAppendFun
              (visibleChunks K e.table { e.storage with state := some e.table.InitializeAppend })
              (e.table, e.table.InitializeAppend.row_start, success)).2.2.2 = false := by
            simpa using hs
          simp only [hs', Bool.not_false, if_true, Option.some.injEq] at h
          rw [← h]
          exact List.Forall₂.cons hproc hrest_ok

theorem loop2_spec (K : Constants) (entries out : List Entry)
    (h : List.Forall₂ (Restorable K) entries out) :
    ∃ out2, checkCommitLoop2 K out = some out2 ∧
      List.Forall₂ (fun e e2 => e.table.sameIndexes e2.table) entries out2 := by
  induction h with
  | nil => exact ⟨[], rfl, List.Forall₂.nil⟩
  | @cons e e' rest rest' hr _ ih =>
    obtain ⟨out2, ho, hf⟩ := ih
    obtain ⟨h1, h2⟩ := hr
    unfold checkCommitLoop2
    by_cases hskip : e'.table.indexes.length = 0 ∨ e'.storage.max_row = 0
    · simp only [hskip, if_true, ho, Option.map_some']
      obtain ⟨hid, hc⟩ := h1 hskip
      exact ⟨_, rfl, List.Forall₂.cons (content_sameIndexes _ _ hid hc) hf⟩
    · simp only [hskip, if_false]
      obtain ⟨hne, state, hst, hid, hc⟩ := h2 hskip
      rw [hst]
      simp only
      rw [scanTableStorage_eq K e'.table e'.storage _ _ hne]
      simp only [ho, Option.map_some']
      exact ⟨_, rfl, List.Forall₂.cons (content_sameIndexes _ _ hid hc) hf⟩

end LocalStore

namespace LocalStore

/-! ## Helpers for the row-id column -/

theorem initializeScan_congr (st st' : LocalTableStorage)
    (h : st'.collection = st.collection) : st'.InitializeScan = st.InitializeScan := by
  unfold LocalTableStorage.InitializeScan
  rw [h]

theorem generateSequence_get (n : Nat) (start : Int) (p : Nat) (h : p < n) :
    (GenerateSequence n start).get? p = some (start + p) := by
  rw [GenerateSequence, List.get?_eq_getElem?, List.getElem?_map, List.getElem?_range h]
  rfl

end LocalStore

namespace StringSeg

theorem zip_map_fst_snd {α β : Type} (l : List (α × β)) :
    (l.map (fun e => e.1)).zip (l.map (fun e => e.2)) = l := by
  induction l with
  | nil => rfl
  | cons x xs ih => simp [ih]

/-- The entries written by the callbacks of `MergeUpdateInfo` along an ordered
merge: the ids are the union of both lists in ascending order, the old ids keep
their data and the ids that are only new get the base data. -/
theorem mergeInfoSteps_spec (old_data base_data : List string_location_t)
    (bn : Nat → Bool) (d : string_location_t) (off : Nat) :
    ∀ (n : Nat) (a : List Nat) (ai : Nat) (b : List Nat) (bi : Nat) (mask : Nat → Bool),
      a.length + b.length ≤ n →
      (a.map (fun rid => rid - off)).Pairwise (fun x y => x < y) →
      b.Pairwise (fun x y => x < y) →
      (∀ id, id ∈ (mergeInfoSteps old_data base_data bn d mask
            (mergeSteps off n a ai b bi)).2.map (fun e => e.1) ↔
          id ∈ a.map (fun rid => rid - off) ∨ id ∈ b) ∧
      ((mergeInfoSteps old_data base_data bn d mask
            (mergeSteps off n a ai b bi)).2.map (fun e => e.1)).Pairwise (fun x y => x < y) ∧
      (∀ k, k < b.length → (b.getD k 0, old_data.getD (bi + k) d) ∈
          (mergeInfoSteps old_data base_data bn d mask (mergeSteps off n a ai b bi)).2) ∧
      (∀ j, j < a.length → a.getD j 0 - off ∉ b →
          (a.getD j 0 - off, base_data.getD (ai + j) d) ∈
          (mergeInfoSteps old_data base_data bn d mask (mergeSteps off n a ai b bi)).2) := by
  intro n
  induction n with
  | zero =>
    intro a ai b bi mask hn ha hb
    have ha0 : a = [] := List.length_eq_zero.mp (by omega)
    have hb0 : b = [] := List.length_eq_zero.mp (by omega)
    subst ha0; subst hb0
    simp [mergeSteps, mergeInfoSteps]
  | succ n ih =>
    intro a ai b bi mask hn ha hb
    cases a with
    | nil =>
      cases b with
      | nil => simp [mergeSteps, mergeInfoSteps]
      | cons y b =>
        have hb' := List.pairwise_cons.mp hb
        obtain ⟨h1, h2, h3, h4⟩ := ih [] ai b (bi + 1) mask
          (by simp at hn ⊢; omega) (by simp) hb'.2
        simp only [mergeSteps, mergeInfoSteps]
        refine ⟨?_, ?_, ?_, ?_⟩
        · intro id
          simp only [List.map_cons, List.mem_cons, h1 id]
          simp
        · simp only [List.map_cons, List.pairwise_cons]
          refine ⟨?_, h2⟩
          intro x hx
          rcases (h1 x).mp hx with hx | hx
          · simp at hx
          · exact hb'.1 x hx
        · intro k hk
          cases k with
          | zero => simp
          | succ k =>
            have := h3 k (by simp at hk; omega)
            simp only [List.getD_cons_succ, List.mem_cons]
            right
            have e : bi + (k + 1) = bi + 1 + k := by omega
            rw [e]; exact this
        · intro j hj
          simp at hj
    | cons x a =>
      have ha' := List.pairwise_cons.mp (by simpa only [List.map_cons] using ha)
      cases b with
      | nil =>
        obtain ⟨h1, h2, h3, h4⟩ := ih a (ai + 1) [] bi
          (setBit mask (x - off) (bn ai))
          (by simp at hn ⊢; omega) ha'.2 (by simp)
        simp only [mergeSteps, mergeInfoSteps]
        refine ⟨?_, ?_, ?_, ?_⟩
        · intro id
          simp only [List.map_cons, List.mem_cons, h1 id]
          simp
        · simp only [List.map_cons, List.pairwise_cons]
          refine ⟨?_, h2⟩
          intro z hz
          rcases (h1 z).mp hz with hz | hz
          · exact ha'.1 z hz
          · simp at hz
        · intro k hk
          simp at hk
        · intro j hj hnot
          cases j with
          | zero => simp
          | succ j =>
            have := h4 j (by simp at hj; omega) (by simp)
            simp only [List.getD_cons_succ, List.mem_cons]
            right
            have e : ai + (j + 1) = ai + 1 + j := by omega
            rw [e]; exact this
      | cons y b =>
        have hb' := List.pairwise_cons.mp hb
        simp only [mergeSteps]
        by_cases hxy : x - off = y
        · -- merge
          obtain ⟨h1, h2, h3, h4⟩ := ih a (ai + 1) b (bi + 1) mask
            (by simp at hn ⊢; omega) ha'.2 hb'.2
          simp only [hxy, if_true, mergeInfoSteps]
          refine ⟨?_, ?_, ?_, ?_⟩
          · intro id
            simp only [List.map_cons, List.mem_cons, h1 id, hxy]
            tauto
          · simp only [List.map_cons, List.pairwise_cons]
            refine ⟨?_, h2⟩
            intro z hz
            rcases (h1 z).mp hz with hz | hz
            · have : x - off < z := ha'.1 z hz
              omega
            · exact hb'.1 z hz
          · intro k hk
            cases k with
            | zero => simp
            | succ k =>
              have := h3 k (by simp at hk; omega)
              simp only [List.getD_cons_succ, List.mem_cons]
              right
              have e : bi + (k + 1) = bi + 1 + k := by omega
              rw [e]; exact this
          · intro j hj hnot
            cases j with
            | zero =>
              exfalso
              apply hnot
              simp [hxy]
            | succ j =>
              have := h4 j (by simp at hj; omega)
                (by
                  intro hmem
                  apply hnot
                  simp only [List.getD_cons_succ]
                  exact List.mem_cons_of_mem _ hmem)
              simp only [List.getD_cons_succ, List.mem_cons]
              right
              have e : ai + (j + 1) = ai + 1 + j := by omega
              rw [e]; exact this
        · by_cases hlt : x - off < y
          · -- pick_a
            obtain ⟨h1, h2, h3, h4⟩ := ih a (ai + 1) (y :: b) bi
              (setBit mask (x - off) (bn ai))
              (by simp at hn ⊢; omega) ha'.2 hb
            simp only [hxy, hlt, if_true, if_false, mergeInfoSteps]
            refine ⟨?_, ?_, ?_, ?_⟩
            · intro id
              simp only [List.map_cons, List.mem_cons, h1 id]
              tauto
            · simp only [List.map_cons, List.pairwise_cons]
              refine ⟨?_, h2⟩
              intro z hz
              rcases (h1 z).mp hz with hz | hz
              · exact ha'.1 z hz
              · rcases List.mem_cons.mp hz with hz | hz
                · omega
                · have : y < z := hb'.1 z hz
                  omega
            · intro k hk
              exact List.mem_cons_of_mem _ (h3 k hk)
            · intro j hj hnot
              cases j with
              | zero => simp
              | succ j =>
                have := h4 j (by simp at hj; omega)
                  (by simpa only [List.getD_cons_succ] using hnot)
                simp only [List.getD_cons_succ, List.mem_cons]
                right
                have e : ai + (j + 1) = ai + 1 + j := by omega
                rw [e]; exact this
          · -- pick_b
            obtain ⟨h1, h2, h3, h4⟩ := ih (x :: a) ai b (bi + 1) mask
              (by simp at hn ⊢; omega) ha hb'.2
            simp only [hxy, hlt, if_false, mergeInfoSteps]
            refine ⟨?_, ?_, ?_, ?_⟩
            · intro id
              simp only [List.map_cons, List.mem_cons, h1 id]
              tauto
            · simp only [List.map_cons, List.pairwise_cons]
              refine ⟨?_, h2⟩
              intro z hz
              rcases (h1 z).mp hz with hz | hz
              · simp only [List.map_cons, List.mem_cons] at hz
                rcases hz with hz | hz
                · omega
                · have : x - off < z := ha'.1 z hz
                  omega
              · exact hb'.1 z hz
            · intro k hk
              cases k with
              | zero => simp
              | succ k =>
                have := h3 k (by simp at hk; omega)
                simp only [List.getD_cons_succ, List.mem_cons]
                right
                have e : bi + (k + 1) = bi + 1 + k := by omega
                rw [e]; exact this
            · intro j hj hnot
              have hnot' : (x :: a).getD j 0 - off ∉ b := by
                intro hmem
                exact hnot (List.mem_cons_of_mem _ hmem)
              exact List.mem_cons_of_mem _ (h4 j hj hnot')

end StringSeg

namespace StringSeg

/-! ### Heap writes keep what was written -/

theorem keeps_refl (h : Heap) : h.keeps h := fun _ _ ha => ⟨ha, rfl⟩

theorem keeps_trans {h1 h2 h3 : Heap} (h12 : h1.keeps h2) (h23 : h2.keeps h3) : h1.keeps h3 := by
  intro b o ha
  obtain ⟨ha2, e2⟩ := h12 b o ha
  obtain ⟨ha3, e3⟩ := h23 b o ha2
  exact ⟨ha3, e3.trans e2⟩

theorem writeStringMemory_keeps (C : Constants) (h : Heap) (s : String) :
    h.keeps (WriteStringMemory C h s).1 := by
  intro b o ha
  obtain ⟨hb, ho⟩ := ha
  have hpos : (0 : Int) < (s.length : Int) + 1 + 4 := by positivity
  unfold WriteStringMemory
  cases hh : h.head with
  | nil =>
    simp only [writeAtHead, Heap.allocated, List.head?_cons, Option.mem_def, Option.some.injEq]
    refine ⟨⟨by omega, ?_⟩, ?_⟩
    · intro blk hblk hid
      subst hblk
      simp only at hid
      omega
    · have : ¬ (b = h.next_block ∧ o = 0) := by intro hx; omega
      simp [this]
  | cons blk rest =>
    have ho' := ho blk (by simp [hh])
    by_cases hfit : blk.offset + ((s.length : Int) + 1 + 4) ≥ blk.size
    · simp only [hfit, if_true, writeAtHead, Heap.allocated, List.head?_cons, Option.mem_def,
        Option.some.injEq]
      refine ⟨⟨by omega, ?_⟩, ?_⟩
      · intro blk2 hblk hid
        subst hblk
        simp only at hid
        omega
      · have : ¬ (b = h.next_block ∧ o = 0) := by intro hx; omega
        simp [this]
    · simp only [hfit, if_false, writeAtHead, Heap.allocated, List.head?_cons, Option.mem_def,
        Option.some.injEq]
      refine ⟨⟨hb, ?_⟩, ?_⟩
      · intro blk2 hblk hid
        subst hblk
        simp only at hid
        have := ho' hid
        simp only
        omega
      · have : ¬ (b = blk.block_id ∧ o = blk.offset) := by
          intro hx
          have := ho' hx.1.symm
          omega
        simp [this]

theorem writeUpdate_keeps (C : Constants) (h : Heap) (value : Option String) :
    h.keeps (writeUpdate C h value).1 := by
  cases value with
  | none => exact keeps_refl h
  | some s => exact writeStringMemory_keeps C h s

theorem createStringUpdate_keeps (C : Constants) (off : Nat) :
    ∀ (update : List (Option String)) (ids : List Nat) (h : Heap),
      h.keeps (CreateStringUpdate C h update ids off).1 := by
  intro update
  induction update with
  | nil => intro ids h; simp only [CreateStringUpdate]; exact keeps_refl h
  | cons value update ih =>
    intro ids h
    cases ids with
    | nil => simp only [CreateStringUpdate]; exact keeps_refl h
    | cons rid ids =>
      simp only [CreateStringUpdate]
      exact keeps_trans (writeUpdate_keeps C h value) (ih ids _)

theorem createStringUpdate_keys (C : Constants) (off : Nat) :
    ∀ (update : List (Option String)) (ids : List Nat) (h : Heap),
      update.length = ids.length →
      (CreateStringUpdate C h update ids off).2.map (fun e => e.1)
        = ids.map (fun rid => rid - off) := by
  intro update
  induction update with
  | nil =>
    intro ids h hl
    have : ids = [] := List.length_eq_zero.mp (by simpa using hl.symm)
    subst this
    simp [CreateStringUpdate]
  | cons value update ih =>
    intro ids h hl
    cases ids with
    | nil => simp at hl
    | cons rid ids =>
      simp only [CreateStringUpdate, List.map_cons]
      rw [ih ids _ (by simpa using hl)]

theorem mergeStringSteps_keeps (C : Constants) (update : List (Option String))
    (old : List (Nat × string_location_t)) :
    ∀ (steps : List MergeStep) (h : Heap),
      h.keeps (mergeStringSteps C update old h steps).1 := by
  intro steps
  induction steps with
  | nil => intro h; simp only [mergeStringSteps]; exact keeps_refl h
  | cons step steps ih =>
    intro h
    cases step with
    | merge id aidx bidx =>
      simp only [mergeStringSteps]
      exact keeps_trans (writeUpdate_keeps C h _) (ih _)
    | pick_a id aidx =>
      simp only [mergeStringSteps]
      exact keeps_trans (writeUpdate_keeps C h _) (ih _)
    | pick_b id bidx =>
      simp only [mergeStringSteps]
      exact ih _

theorem mergeStringSteps_keys (C : Constants) (update : List (Option String))
    (old : List (Nat × string_location_t)) :
    ∀ (steps : List MergeStep) (h : Heap),
      (mergeStringSteps C update old h steps).2.map (fun e => e.1) = steps.map MergeStep.id := by
  intro steps
  induction steps with
  | nil => intro h; simp [mergeStringSteps]
  | cons step steps ih =>
    intro h
    cases step <;> simp [mergeStringSteps, MergeStep.id, ih]

theorem mergeStringSteps_pick_b (C : Constants) (update : List (Option String))
    (old : List (Nat × string_location_t)) (id bidx : Nat) :
    ∀ (steps : List MergeStep) (h : Heap),
      MergeStep.pick_b id bidx ∈ steps →
      (id, (old.getD bidx (0, { block_id := C.INVALID_BLOCK, offset := 0 })).2)
        ∈ (mergeStringSteps C update old h steps).2 := by
  intro steps
  induction steps with
  | nil => intro h hm; simp at hm
  | cons step steps ih =>
    intro h hm
    rcases List.mem_cons.mp hm with hm1 | hm1
    · subst hm1
      simp [mergeStringSteps]
    · clear hm
      cases step <;> simp only [mergeStringSteps, List.mem_cons] <;> right <;> exact ih _ hm1

end StringSeg

namespace StringSeg

/-- The steps of the ordered merge: their ids are the union of both lists in
ascending order, and an id of the second list only is picked from it. -/
theorem mergeSteps_spec (off : Nat) :
    ∀ (n : Nat) (a : List Nat) (ai : Nat) (b : List Nat) (bi : Nat),
      a.length + b.length ≤ n →
      (a.map (fun rid => rid - off)).Pairwise (fun x y => x < y) →
      b.Pairwise (fun x y => x < y) →
      (∀ id, id ∈ (mergeSteps off n a ai b bi).map MergeStep.id ↔
          id ∈ a.map (fun rid => rid - off) ∨ id ∈ b) ∧
      ((mergeSteps off n a ai b bi).map MergeStep.id).Pairwise (fun x y => x < y) ∧
      (∀ k, k < b.length → b.getD k 0 ∉ a.map (fun rid => rid - off) →
          MergeStep.pick_b (b.getD k 0) (bi + k) ∈ mergeSteps off n a ai b bi) := by
  intro n
  induction n with
  | zero =>
    intro a ai b bi hn ha hb
    have ha0 : a = [] := List.length_eq_zero.mp (by omega)
    have hb0 : b = [] := List.length_eq_zero.mp (by omega)
    subst ha0; subst hb0
    simp [mergeSteps]
  | succ n ih =>
    intro a ai b bi hn ha hb
    cases a with
    | nil =>
      cases b with
      | nil => simp [mergeSteps]
      | cons y b =>
        have hb' := List.pairwise_cons.mp hb
        obtain ⟨h1, h2, h3⟩ := ih [] ai b (bi + 1) (by simp at hn ⊢; omega) (by simp) hb'.2
        simp only [mergeSteps]
        refine ⟨?_, ?_, ?_⟩
        · intro id
          simp only [List.map_cons, List.mem_cons, h1 id, MergeStep.id]
          simp
        · simp only [List.map_cons, List.pairwise_cons, MergeStep.id]
          refine ⟨?_, h2⟩
          intro x hx
          rcases (h1 x).mp hx with hx | hx
          · simp at hx
          · exact hb'.1 x hx
        · intro k hk hnot
          cases k with
          | zero => simp
          | succ k =>
            have := h3 k (by simp at hk; omega) (by simp)
            simp only [List.getD_cons_succ, List.mem_cons]
            right
            have e : bi + (k + 1) = bi + 1 + k := by omega
            rw [e]; exact this
    | cons x a =>
      have ha' := List.pairwise_cons.mp (by simpa only [List.map_cons] using ha)
      cases b with
      | nil =>
        obtain ⟨h1, h2, h3⟩ := ih a (ai + 1) [] bi (by simp at hn ⊢; omega) ha'.2 (by simp)
        simp only [mergeSteps]
        refine ⟨?_, ?_, ?_⟩
        · intro id
          simp only [List.map_cons, List.mem_cons, h1 id, MergeStep.id]
          simp
        · simp only [List.map_cons, List.pairwise_cons, MergeStep.id]
          refine ⟨?_, h2⟩
          intro z hz
          rcases (h1 z).mp hz with hz | hz
          · exact ha'.1 z hz
          · simp at hz
        · intro k hk
          simp at hk
      | cons y b =>
        have hb' := List.pairwise_cons.mp hb
        simp only [mergeSteps]
        by_cases hxy : x - off = y
        · obtain ⟨h1, h2, h3⟩ := ih a (ai + 1) b (bi + 1) (by simp at hn ⊢; omega) ha'.2 hb'.2
          simp only [hxy, if_true]
          refine ⟨?_, ?_, ?_⟩
          · intro id
            simp only [List.map_cons, List.mem_cons, h1 id, hxy, MergeStep.id]
            tauto
          · simp only [List.map_cons, List.pairwise_cons, MergeStep.id]
            refine ⟨?_, h2⟩
            intro z hz
            rcases (h1 z).mp hz with hz | hz
            · have : x - off < z := ha'.1 z hz
              omega
            · exact hb'.1 z hz
          · intro k hk hnot
            cases k with
            | zero =>
              exfalso
              apply hnot
              simp [hxy]
            | succ k =>
              have := h3 k (by simp at hk; omega)
                (by
                  intro hmem
                  apply hnot
                  simp only [List.getD_cons_succ, List.map_cons]
                  exact List.mem_cons_of_mem _ hmem)
              simp only [List.getD_cons_succ, List.mem_cons]
              right
              have e : bi + (k + 1) = bi + 1 + k := by omega
              rw [e]; exact this
        · by_cases hlt : x - off < y
          · obtain ⟨h1, h2, h3⟩ := ih a (ai + 1) (y :: b) bi (by simp at hn ⊢; omega) ha'.2 hb
            simp only [hxy, hlt, if_true, if_false]
            refine ⟨?_, ?_, ?_⟩
            · intro id
              simp only [List.map_cons, List.mem_cons, h1 id, MergeStep.id]
              tauto
            · simp only [List.map_cons, List.pairwise_cons, MergeStep.id]
              refine ⟨?_, h2⟩
              intro z hz
              rcases (h1 z).mp hz with hz | hz
              · exact ha'.1 z hz
              · rcases List.mem_cons.mp hz with hz | hz
                · omega
                · have : y < z := hb'.1 z hz
                  omega
            · intro k hk hnot
              have hnot' : (y :: b).getD k 0 ∉ a.map (fun rid => rid - off) := by
                intro hmem
                apply hnot
                simp only [List.map_cons]
                exact List.mem_cons_of_mem _ hmem
              exact List.mem_cons_of_mem _ (h3 k hk hnot')
          · obtain ⟨h1, h2, h3⟩ := ih (x :: a) ai b (bi + 1) (by simp at hn ⊢; omega) ha hb'.2
            simp only [hxy, hlt, if_false]
            refine ⟨?_, ?_, ?_⟩
            · intro id
              simp only [List.map_cons, List.mem_cons, h1 id, MergeStep.id]
              tauto
            · simp only [List.map_cons, List.pairwise_cons, MergeStep.id]
              refine ⟨?_, h2⟩
              intro z hz
              rcases (h1 z).mp hz with hz | hz
              · simp only [List.map_cons, List.mem_cons] at hz
                rcases hz with hz | hz
                · omega
                · have : x - off < z := ha'.1 z hz
                  omega
              · exact hb'.1 z hz
            · intro k hk hnot
              cases k with
              | zero => simp
              | succ k =>
                have := h3 k (by simp at hk; omega)
                  (by simpa only [List.getD_cons_succ] using hnot)
                simp only [List.getD_cons_succ, List.mem_cons]
                right
                have e : bi + (k + 1) = bi + 1 + k := by omega
                rw [e]; exact this

/-! ### Lookup in a string update list -/

theorem entryAt_none {l : List (Nat × string_location_t)} {i : Nat}
    (h : i ∉ l.map (fun e => e.1)) : entryAt l i = none := by
  induction l with
  | nil => rfl
  | cons e l ih =>
    obtain ⟨id, loc⟩ := e
    simp only [List.map_cons, List.mem_cons, not_or] at h
    simp only [entryAt]
    rw [if_neg (fun hx => h.1 hx.symm)]
    exact ih h.2

theorem entryAt_mem {l : List (Nat × string_location_t)} (hs : sortedEntries l)
    {i : Nat} {loc : string_location_t} (h : (i, loc) ∈ l) : entryAt l i = some loc := by
  induction l with
  | nil => simp at h
  | cons e l ih =>
    obtain ⟨id, loc1⟩ := e
    have hs' := List.pairwise_cons.mp (by simpa only [sortedEntries, List.map_cons] using hs)
    simp only [entryAt]
    rcases List.mem_cons.mp h with h | h
    · simp only [Prod.mk.injEq] at h
      simp [h.1, h.2]
    · have hlt : id < i := hs'.1 i (List.mem_map.mpr ⟨(i, loc), h, rfl⟩)
      rw [if_neg (by omega)]
      exact ih hs'.2 h

theorem entryAt_some_mem {l : List (Nat × string_location_t)} {i : Nat}
    {loc : string_location_t} (h : entryAt l i = some loc) : (i, loc) ∈ l := by
  induction l with
  | nil => simp [entryAt] at h
  | cons e l ih =>
    obtain ⟨id, loc1⟩ := e
    simp only [entryAt] at h
    by_cases hid : id = i
    · rw [if_pos hid] at h
      simp only [Option.some.injEq] at h
      simp [hid, h]
    · rw [if_neg hid] at h
      exact List.mem_cons_of_mem _ (ih h)

theorem entryAt_map (off : Nat) (G : Nat → string_location_t) (ids : List Nat) (i : Nat) :
    entryAt (ids.map (fun rid => (rid - off, G (rid - off)))) i
      = if i ∈ ids.map (fun rid => rid - off) then some (G i) else none := by
  induction ids with
  | nil => simp [entryAt]
  | cons rid ids ih =>
    simp only [List.map_cons, entryAt, List.mem_cons]
    by_cases h : rid - off = i
    · simp [h]
    · rw [if_neg h, ih]
      have : ¬ i = rid - off := fun hx => h hx.symm
      simp [this]

end StringSeg

namespace StringSeg

theorem sortedEntries_cons {e : Nat × string_location_t} {l : List (Nat × string_location_t)}
    (hs : sortedEntries (e :: l)) : (∀ e' ∈ l, e.1 < e'.1) ∧ sortedEntries l := by
  have hs' := List.pairwise_cons.mp (by simpa only [sortedEntries, List.map_cons] using hs)
  refine ⟨?_, hs'.2⟩
  intro e' he'
  exact hs'.1 e'.1 (List.mem_map.mpr ⟨e', he', rfl⟩)

/-- The loop of `FetchBaseData` reads every row from its entry of the update
list, or from the dictionary when it has none. -/
theorem fetchBaseLoop_get (C : Constants) (seg : StringSegment) (v : Nat) :
    ∀ (n i0 : Nat) (l : List (Nat × string_location_t)),
      sortedEntries l → (∀ e ∈ l, i0 ≤ e.1) →
      ∀ j, (fetchBaseLoop C seg v n i0 l)[j]? =
        if j < n then some (readRow C seg v l (i0 + j)) else none := by
  intro n
  induction n with
  | zero => intro i0 l _ _ j; cases l <;> simp [fetchBaseLoop]
  | succ n ih =>
    intro i0 l hs hlow j
    cases l with
    | nil =>
      simp only [fetchBaseLoop]
      cases j with
      | zero => simp [readRow, entryAt]
      | succ j =>
        simp only [List.getElem?_cons_succ]
        rw [ih (i0 + 1) [] hs (by simp) j]
        have e : i0 + 1 + j = i0 + (j + 1) := by omega
        simp [e, readRow, entryAt]
    | cons e l =>
      obtain ⟨id, loc⟩ := e
      obtain ⟨hgt, hs'⟩ := sortedEntries_cons hs
      have hid : i0 ≤ id := hlow (id, loc) (List.mem_cons_self _ _)
      simp only [fetchBaseLoop]
      by_cases h : id = i0
      · rw [if_pos h]
        cases j with
        | zero => simp [readRow, entryAt, h]
        | succ j =>
          simp only [List.getElem?_cons_succ]
          rw [ih (i0 + 1) l hs' (by intro e' he'; have := hgt e' he'; simp only at this; omega) j]
          have e : i0 + 1 + j = i0 + (j + 1) := by omega
          have hne : ¬ id = i0 + (j + 1) := by omega
          simp [e, readRow, entryAt, hne]
      · rw [if_neg h]
        cases j with
        | zero =>
          have hnone : entryAt ((id, loc) :: l) i0 = none := by
            apply entryAt_none
            simp only [List.map_cons, List.mem_cons, List.mem_map, not_or, not_exists, not_and]
            refine ⟨fun hx => h hx.symm, ?_⟩
            intro e' he' hx
            have := hgt e' he'
            simp only at this
            omega
          simp [readRow, hnone]
        | succ j =>
          simp only [List.getElem?_cons_succ]
          rw [ih (i0 + 1) ((id, loc) :: l) hs (by
            intro e' he'
            rcases List.mem_cons.mp he' with he' | he'
            · subst he'; simp only; omega
            · have := hgt e' he'; simp only at this; omega) j]
          have e : i0 + 1 + j = i0 + (j + 1) := by omega
          simp [e]

/-- `FetchBaseData` returns the string of every row below `count`. -/
theorem fetchBaseData_get (C : Constants) (seg : StringSegment) (v count : Nat)
    (hs : sortedEntries (seg.entriesOf v)) (i : Nat) :
    (FetchBaseData C seg v count)[i]? = if i < count then some (rowString C seg v i) else none := by
  unfold FetchBaseData rowString
  unfold StringSegment.entriesOf at hs ⊢
  cases hu : seg.updatesOf v with
  | none =>
    simp only [hu] at hs ⊢
    by_cases hi : i < count
    · simp [hi, readRow, entryAt, List.getElem?_range]
    · simp only [hi, if_false]
      apply List.getElem?_eq_none
      simp only [List.length_map, List.length_range]
      omega
  | some info =>
    simp only [hu] at hs ⊢
    rw [fetchBaseLoop_get C seg v count 0 info.entries hs (by simp) i]
    simp

/-! ### The locations fetched for the rows of an update -/

theorem entryAt_dropWhile {l : List (Nat × string_location_t)} (hs : sortedEntries l)
    {id i : Nat} (hi : id ≤ i) :
    entryAt (l.dropWhile (fun e => decide (e.1 < id))) i = entryAt l i := by
  induction l with
  | nil => rfl
  | cons e l ih =>
    obtain ⟨uid, loc⟩ := e
    obtain ⟨_, hs'⟩ := sortedEntries_cons hs
    by_cases h : uid < id
    · rw [List.dropWhile_cons_of_pos (by simpa using h), ih hs']
      simp only [entryAt]
      rw [if_neg (by omega)]
    · rw [List.dropWhile_cons_of_neg (by simpa using h)]

theorem sortedEntries_dropWhile {l : List (Nat × string_location_t)} (hs : sortedEntries l)
    (id : Nat) : sortedEntries (l.dropWhile (fun e => decide (e.1 < id))) := by
  induction l with
  | nil => exact hs
  | cons e l ih =>
    obtain ⟨_, hs'⟩ := sortedEntries_cons hs
    by_cases h : e.1 < id
    · rw [List.dropWhile_cons_of_pos (by simpa using h)]
      exact ih hs'
    · rw [List.dropWhile_cons_of_neg (by simpa using h)]
      exact hs

theorem fetchLocationsLoop_spec (C : Constants) (seg : StringSegment) (v off : Nat) :
    ∀ (ids : List Nat) (l : List (Nat × string_location_t)),
      sortedEntries l →
      (ids.map (fun rid => rid - off)).Pairwise (fun x y => x < y) →
      fetchLocationsLoop C seg v off ids l =
        ids.map (fun rid => (entryAt l (rid - off)).getD
          (FetchStringLocation C seg (seg.base_data v (rid - off)))) := by
  intro ids
  induction ids with
  | nil => intro l _ _; simp [fetchLocationsLoop]
  | cons rid ids ih =>
    intro l hs hids
    have hids' := List.pairwise_cons.mp (by simpa only [List.map_cons] using hids)
    have hd := entryAt_dropWhile hs (le_refl (rid - off))
    have hsd := sortedEntries_dropWhile hs (rid - off)
    have hrest : ∀ rid2 ∈ ids, entryAt (l.dropWhile (fun e => decide (e.1 < rid - off)))
        (rid2 - off) = entryAt l (rid2 - off) := by
      intro rid2 h2
      have : rid - off < rid2 - off := hids'.1 _ (List.mem_map.mpr ⟨rid2, h2, rfl⟩)
      exact entryAt_dropWhile hs (by omega)
    simp only [fetchLocationsLoop, List.map_cons]
    cases hdw : l.dropWhile (fun e => decide (e.1 < rid - off)) with
    | nil =>
      rw [hdw] at hd hrest
      simp only
      rw [ih [] (by simp [sortedEntries]) hids'.2, ← hd]
      simp only [entryAt, Option.getD_none, List.cons.injEq, true_and]
      apply List.map_congr_left
      intro rid2 h2
      rw [← hrest rid2 h2]
      simp [entryAt]
    | cons e l' =>
      obtain ⟨uid, loc⟩ := e
      rw [hdw] at hd hrest hsd
      obtain ⟨hgt, hs'⟩ := sortedEntries_cons hsd
      simp only
      by_cases hu : uid = rid - off
      · rw [if_pos hu, ih l' hs' hids'.2, ← hd]
        simp only [entryAt, hu, if_true, Option.getD_some, List.cons.injEq, true_and]
        apply List.map_congr_left
        intro rid2 h2
        rw [← hrest rid2 h2]
        have : rid - off < rid2 - off := hids'.1 _ (List.mem_map.mpr ⟨rid2, h2, rfl⟩)
        simp only [entryAt]
        rw [if_neg (by omega)]
      · rw [if_neg hu, ih ((uid, loc) :: l') hsd hids'.2, ← hd]
        simp only [entryAt, if_neg hu]
        have hnone : entryAt l' (rid - off) = none := by
          apply entryAt_none
          intro hmem
          obtain ⟨e', he', hx⟩ := List.mem_map.mp hmem
          have h1 := hgt e' he'
          simp only at h1 hx
          have h2 : ¬ uid < rid - off := by
            have := List.head_dropWhile_not (fun (e : Nat × string_location_t) =>
              decide (e.1 < rid - off)) l (by rw [hdw]; simp)
            simpa [hdw] using this
          omega
        simp only [hnone, Option.getD_none, List.cons.injEq, true_and]
        apply List.map_congr_left
        intro rid2 h2
        rw [← hrest rid2 h2]
        simp only [entryAt, if_neg hu]

theorem fetchStringLocations_spec (C : Constants) (seg : StringSegment) (v off : Nat)
    (ids : List Nat) (hs : sortedEntries (seg.entriesOf v))
    (hids : (ids.map (fun rid => rid - off)).Pairwise (fun x y => x < y)) :
    FetchStringLocations C seg ids v off =
      ids.map (fun rid => (entryAt (seg.entriesOf v) (rid - off)).getD
        (FetchStringLocation C seg (seg.base_data v (rid - off)))) := by
  unfold FetchStringLocations
  unfold StringSegment.entriesOf at hs ⊢
  cases hu : seg.updatesOf v with
  | none => simp [entryAt]
  | some info =>
    simp only [hu] at hs ⊢
    exact fetchLocationsLoop_spec C seg v off ids info.entries hs hids

end StringSeg

namespace StringSeg

/-! ### The loops of `RollbackUpdate` -/

theorem rollbackLoop_spec (C : Constants) :
    ∀ (l undo : List (Nat × string_location_t)),
      sortedEntries l → sortedEntries undo →
      (∀ t ∈ undo.map (fun e => e.1), t ∈ l.map (fun e => e.1)) →
      (∀ t ∈ (rollbackLoop C l undo).map (fun e => e.1), t ∈ l.map (fun e => e.1)) ∧
      sortedEntries (rollbackLoop C l undo) ∧
      ∀ i, entryAt (rollbackLoop C l undo) i =
        match entryAt undo i with
        | some old => if old.block_id ≠ C.INVALID_BLOCK then some old else none
        | none => entryAt l i := by
  intro l
  induction l with
  | nil =>
    intro undo _ _ hsub
    have hu : undo = [] := by
      cases undo with
      | nil => rfl
      | cons e undo => simpa using hsub e.1 (by simp)
    subst hu
    simp [rollbackLoop, sortedEntries, entryAt]
  | cons e l ih =>
    intro undo hs hsu hsub
    obtain ⟨id, loc⟩ := e
    obtain ⟨hgt, hs'⟩ := sortedEntries_cons hs
    have hgt' : ∀ t ∈ l.map (fun e => e.1), id < t := by
      intro t ht
      obtain ⟨e', he', hx⟩ := List.mem_map.mp ht
      have := hgt e' he'
      simp only at this hx
      omega
    cases undo with
    | nil =>
      obtain ⟨h1, h2, h3⟩ := ih [] hs' (by simp [sortedEntries]) (by simp)
      simp only [rollbackLoop]
      refine ⟨?_, ?_, ?_⟩
      · intro t ht
        simp only [List.map_cons, List.mem_cons] at ht ⊢
        rcases ht with ht | ht
        · exact Or.inl ht
        · exact Or.inr (h1 t ht)
      · simp only [sortedEntries, List.map_cons, List.pairwise_cons]
        exact ⟨fun t ht => hgt' t (h1 t ht), h2⟩
      · intro i
        simp only [entryAt]
        by_cases hi : id = i
        · simp [hi]
        · simp only [if_neg hi, h3 i, entryAt]
    | cons u undo =>
      obtain ⟨t, old⟩ := u
      obtain ⟨hugt, hsu'⟩ := sortedEntries_cons hsu
      have hugt' : ∀ x ∈ undo.map (fun e => e.1), t < x := by
        intro x hx
        obtain ⟨e', he', hx'⟩ := List.mem_map.mp hx
        have := hugt e' he'
        simp only at this hx'
        omega
      have ht_mem : t = id ∨ t ∈ l.map (fun e => e.1) := by
        simpa using hsub t (by simp)
      simp only [rollbackLoop]
      by_cases hid : id = t
      · -- the entry is rolled back
        subst hid
        have hsub' : ∀ x ∈ undo.map (fun e => e.1), x ∈ l.map (fun e => e.1) := by
          intro x hx
          have h1 := hsub x (by simp only [List.map_cons]; exact List.mem_cons_of_mem _ hx)
          simp only [List.map_cons, List.mem_cons] at h1
          rcases h1 with h1 | h1
          · have := hugt' x hx
            omega
          · exact h1
        obtain ⟨h1, h2, h3⟩ := ih undo hs' hsu' hsub'
        have hnone : entryAt (rollbackLoop C l undo) id = none := by
          apply entryAt_none
          intro hm
          have := hgt' id (h1 id hm)
          omega
        have hunone : ∀ i, ¬ id = i → entryAt ((id, old) :: undo) i = entryAt undo i := by
          intro i hi
          simp only [entryAt, if_neg hi]
        simp only [ne_eq, not_true_eq_false, if_false]
        by_cases hb : old.block_id = C.INVALID_BLOCK
        · simp only [hb, not_true_eq_false, if_false]
          refine ⟨?_, h2, ?_⟩
          · intro x hx
            simp only [List.map_cons]
            exact List.mem_cons_of_mem _ (h1 x hx)
          · intro i
            by_cases hi : id = i
            · subst hi
              simp [hnone, entryAt, hb]
            · rw [hunone i hi, h3 i]
              simp only [entryAt, if_neg hi]
        · simp only [hb, not_false_eq_true, if_true]
          refine ⟨?_, ?_, ?_⟩
          · intro x hx
            simp only [List.map_cons, List.mem_cons] at hx ⊢
            rcases hx with hx | hx
            · exact Or.inl hx
            · exact Or.inr (h1 x hx)
          · simp only [sortedEntries, List.map_cons, List.pairwise_cons]
            exact ⟨fun x hx => hgt' x (h1 x hx), h2⟩
          · intro i
            by_cases hi : id = i
            · subst hi
              simp [entryAt, hb]
            · rw [hunone i hi]
              simp only [entryAt, if_neg hi, h3 i]
      · -- the entry is kept
        have htl : t ∈ l.map (fun e => e.1) := by
          rcases ht_mem with h | h
          · exact absurd h.symm hid
          · exact h
        have hlt : id < t := hgt' t htl
        have hsub' : ∀ x ∈ ((t, old) :: undo).map (fun e => e.1), x ∈ l.map (fun e => e.1) := by
          intro x hx
          have h1 := hsub x hx
          simp only [List.map_cons, List.mem_cons] at h1 hx
          rcases h1 with h1 | h1
          · rcases hx with hx | hx
            · omega
            · have := hugt' x hx
              omega
          · exact h1
        obtain ⟨h1, h2, h3⟩ := ih ((t, old) :: undo) hs' hsu hsub'
        simp only [ne_eq, hid, not_false_eq_true, if_true]
        refine ⟨?_, ?_, ?_⟩
        · intro x hx
          simp only [List.map_cons, List.mem_cons] at hx ⊢
          rcases hx with hx | hx
          · exact Or.inl hx
          · exact Or.inr (h1 x hx)
        · simp only [sortedEntries, List.map_cons, List.pairwise_cons]
          exact ⟨fun x hx => hgt' x (h1 x hx), h2⟩
        · intro i
          by_cases hi : id = i
          · subst hi
            have hnone : entryAt ((t, old) :: undo) id = none := by
              apply entryAt_none
              intro hm
              have := hgt' id (hsub' id hm)
              omega
            rw [hnone]
            simp [entryAt]
          · simp only [entryAt, if_neg hi] at h3 ⊢
            exact h3 i

theorem rollbackNullmask_apply (im : Nat → Bool) :
    ∀ (tuples : List Nat) (mask : Nat → Bool) (j : Nat),
      rollbackNullmask im mask tuples j = if j ∈ tuples then im j else mask j := by
  intro tuples
  induction tuples with
  | nil => intro mask j; simp [rollbackNullmask]
  | cons t tuples ih =>
    intro mask j
    simp only [rollbackNullmask, ih, setBit, List.mem_cons]
    by_cases h1 : j ∈ tuples
    · simp [h1]
    · by_cases h2 : j = t
      · simp [h1, h2]
      · simp [h1, h2]

theorem updateNullmask_other (off : Nat) :
    ∀ (ids : List Nat) (update : List (Option String)) (mask : Nat → Bool) (j : Nat),
      j ∉ ids.map (fun rid => rid - off) →
      updateNullmask off mask ids update j = mask j := by
  intro ids
  induction ids with
  | nil => intro update mask j _; simp [updateNullmask]
  | cons rid ids ih =>
    intro update mask j hj
    simp only [List.map_cons, List.mem_cons, not_or] at hj
    cases update with
    | nil => simp [updateNullmask]
    | cons value update =>
      simp only [updateNullmask]
      rw [ih update _ j hj.2]
      simp [setBit, hj.1]

end StringSeg

namespace StringSeg

open Transaction (UpdateInfo ColumnData SegmentRef)

/-! ### The string update list written by `Update` -/

theorem create_facts (C : Constants) (h : Heap) (update : List (Option String)) (ids : List Nat)
    (off : Nat) (hlen : update.length = ids.length)
    (hids : (ids.map (fun rid => rid - off)).Pairwise (fun x y => x < y)) :
    sortedEntries (CreateStringUpdate C h update ids off).2 ∧
    (∀ t ∈ ids.map (fun rid => rid - off),
      t ∈ (CreateStringUpdate C h update ids off).2.map (fun e => e.1)) ∧
    (∀ i, i ∉ ids.map (fun rid => rid - off) →
      entryAt (CreateStringUpdate C h update ids off).2 i = none) ∧
    h.keeps (CreateStringUpdate C h update ids off).1 := by
  have hk := createStringUpdate_keys C off update ids h hlen
  refine ⟨?_, ?_, ?_, createStringUpdate_keeps C off update ids h⟩
  · simp only [sortedEntries, hk]; exact hids
  · intro t ht; rw [hk]; exact ht
  · intro i hi
    apply entryAt_none
    rw [hk]; exact hi

theorem merge_facts (C : Constants) (h : Heap) (update : List (Option String)) (ids : List Nat)
    (off : Nat) (info : StringUpdateInfo) (hlen : update.length = ids.length)
    (hids : (ids.map (fun rid => rid - off)).Pairwise (fun x y => x < y))
    (hs : sortedEntries info.entries) :
    sortedEntries (MergeStringUpdate C h update ids off info).2 ∧
    (∀ t ∈ ids.map (fun rid => rid - off),
      t ∈ (MergeStringUpdate C h update ids off info).2.map (fun e => e.1)) ∧
    (∀ i, i ∉ ids.map (fun rid => rid - off) →
      entryAt (MergeStringUpdate C h update ids off info).2 i = entryAt info.entries i) ∧
    h.keeps (MergeStringUpdate C h update ids off info).1 := by
  have htake : ids.take update.length = ids := by rw [hlen]; exact List.take_length _
  have hs0 : (info.entries.map (fun e => e.1)).Pairwise (fun x y => x < y) := hs
  obtain ⟨h1, h2, h3⟩ := mergeSteps_spec off (ids.length + (info.entries.map (fun e => e.1)).length)
    ids 0 (info.entries.map (fun e => e.1)) 0 (le_refl _) hids hs0
  have hk := mergeStringSteps_keys C update info.entries
    (merge_loop ids (info.entries.map (fun e => e.1)) off) h
  have hsorted : sortedEntries (MergeStringUpdate C h update ids off info).2 := by
    simp only [sortedEntries, MergeStringUpdate, htake, hk]
    exact h2
  refine ⟨hsorted, ?_, ?_, ?_⟩
  · intro t ht
    simp only [MergeStringUpdate, htake, hk]
    exact (h1 t).mpr (Or.inl ht)
  · intro i hi
    by_cases hmem : i ∈ info.entries.map (fun e => e.1)
    · obtain ⟨k, hk1, hk2⟩ := List.getElem_of_mem hmem
      have hkl : k < info.entries.length := by simpa using hk1
      have hget : (info.entries.map (fun e => e.1)).getD k 0 = i := by
        rw [List.getD_eq_getElem _ _ hk1]; exact hk2
      have hstep := h3 k hk1 (by rw [hget]; exact hi)
      rw [hget, Nat.zero_add] at hstep
      have hin := mergeStringSteps_pick_b C update info.entries i k _ h hstep
      rw [List.getD_eq_getElem _ _ hkl] at hin
      have hfst : (info.entries[k]).1 = i := by
        rw [← hk2]; simp
      have hU : (i, (info.entries[k]).2) ∈ info.entries := by
        have := List.getElem_mem hkl
        rw [← hfst]
        exact this
      rw [entryAt_mem hs hU]
      exact entryAt_mem hsorted (by simpa only [MergeStringUpdate, htake] using hin)
    · rw [entryAt_none hmem]
      apply entryAt_none
      simp only [MergeStringUpdate, htake, hk]
      intro hx
      rcases (h1 i).mp hx with hx | hx
      · exact hi hx
      · exact hmem hx
  · exact mergeStringSteps_keeps C update info.entries _ h

/-! ### Reading after the heap has grown -/

theorem readString_keeps (C : Constants) {h h2 : Heap} (hk : h.keeps h2) (b o : Int)
    (ha : b ≠ C.INVALID_BLOCK → h.allocated b o) :
    ReadString C h2 b o = ReadString C h b o := by
  unfold ReadString
  by_cases hb : b = C.INVALID_BLOCK
  · simp [hb]
  · simp only [hb, if_false]
    exact (hk b o (ha hb)).2

theorem fetchStringFromDict_keeps (C : Constants) (seg seg2 : StringSegment)
    (hd : seg2.dictionary = seg.dictionary) (hk : seg.heap.keeps seg2.heap) (d : Int)
    (ha : ∀ b o, d ≠ 0 → seg.dictionary d = DictEntry.marker b o → b ≠ C.INVALID_BLOCK →
      seg.heap.allocated b o) :
    FetchStringFromDict C seg2 d = FetchStringFromDict C seg d := by
  unfold FetchStringFromDict FetchString FetchStringLocation
  rw [hd]
  by_cases h0 : d = 0
  · simp [h0]
  · simp only [h0, if_false]
    cases hdict : seg.dictionary d with
    | inline s => simp [h0, hdict]
    | marker b o =>
      simp only
      by_cases hb : b = C.INVALID_BLOCK
      · simp only [hb, ne_eq, not_true_eq_false, if_false]
      · simp only [ne_eq, hb, not_false_eq_true, if_true]
        exact readString_keeps C hk b o (fun _ => ha b o h0 hdict hb)

end StringSeg

namespace StringSeg

open Transaction (UpdateInfo ColumnData SegmentRef)

/-! ### What `Update` and `RollbackUpdate` leave in the segment -/

theorem rollbackLoop_nil (C : Constants) (undo : List (Nat × string_location_t)) :
    rollbackLoop C [] undo = [] := by
  cases undo <;> rfl

theorem rollback_entries (C : Constants) (seg : StringSegment)
    (info : UpdateInfo string_location_t) :
    (RollbackUpdate C seg info).entriesOf info.vector_index =
      rollbackLoop C (seg.entriesOf info.vector_index)
        ((info.tuples.zip info.tuple_data).take info.N) := by
  unfold RollbackUpdate StringSegment.entriesOf StringSegment.updatesOf
  cases hsu : seg.string_updates with
  | none => simp [rollbackLoop_nil]
  | some arr =>
    simp only [Option.map_some', if_true]
    cases harr : arr info.vector_index with
    | none => simp [rollbackLoop_nil]
    | some u =>
      simp only
      by_cases h0 : (rollbackLoop C u.entries
          ((info.tuples.zip info.tuple_data).take info.N)).length = 0
      · simp only [h0, if_true]
        exact (List.length_eq_zero.mp h0).symm
      · simp only [h0, if_false]

theorem rollback_mask (C : Constants) (seg : StringSegment)
    (info : UpdateInfo string_location_t) :
    (RollbackUpdate C seg info).base_nullmask info.vector_index =
      rollbackNullmask info.nullmask (seg.base_nullmask info.vector_index)
        (info.tuples.take info.N) := by
  simp [RollbackUpdate]

theorem update_entries (C : Constants) (seg : StringSegment) (cd : ColumnData)
    (sref : SegmentRef) (tid : Nat) (update : List (Option String)) (ids : List Nat)
    (v off : Nat) (node : Option (UpdateInfo string_location_t)) :
    (Update C seg cd sref tid update ids v off node).1.entriesOf v =
      (match seg.updatesOf v with
        | none => CreateStringUpdate C seg.heap update ids off
        | some info => MergeStringUpdate C seg.heap update ids off info).2 ∧
    (Update C seg cd sref tid update ids v off node).1.heap =
      (match seg.updatesOf v with
        | none => CreateStringUpdate C seg.heap update ids off
        | some info => MergeStringUpdate C seg.heap update ids off info).1 := by
  unfold Update StringSegment.entriesOf StringSegment.updatesOf
  cases hsu : seg.string_updates with
  | none => simp
  | some arr => cases harr : arr v <;> simp [harr]

theorem update_mask (C : Constants) (seg : StringSegment) (cd : ColumnData)
    (sref : SegmentRef) (tid : Nat) (update : List (Option String)) (ids : List Nat)
    (v off : Nat) (node : Option (UpdateInfo string_location_t)) :
    (Update C seg cd sref tid update ids v off node).1.base_nullmask v =
      updateNullmask off (seg.base_nullmask v) ids update := by
  simp [Update]

/-- `Update` without an earlier undo entry followed by `RollbackUpdate` of the
new undo entry: the null bits of the vector and the string of every row that is
not null are as before. -/
theorem update_rollback_spec (C : Constants) (seg : StringSegment) (cd : ColumnData)
    (sref : SegmentRef) (tid : Nat) (update : List (Option String)) (ids : List Nat)
    (v off : Nat)
    (hlen : update.length = ids.length)
    (hids : (ids.map (fun rid => rid - off)).Pairwise (fun x y => x < y))
    (hs : sortedEntries (seg.entriesOf v))
    (hnull : ∀ e ∈ seg.entriesOf v, e.2.block_id = C.INVALID_BLOCK →
      seg.base_nullmask v e.1 = true)
    (hupd : ∀ e ∈ seg.entriesOf v, e.2.block_id ≠ C.INVALID_BLOCK →
      seg.heap.allocated e.2.block_id e.2.offset)
    (hdict : ∀ i b o, seg.base_data v i ≠ 0 →
      seg.dictionary (seg.base_data v i) = DictEntry.marker b o → b ≠ C.INVALID_BLOCK →
      seg.heap.allocated b o) :
    (∀ i, (RollbackUpdate C (Update C seg cd sref tid update ids v off none).1
        (Update C seg cd sref tid update ids v off none).2).base_nullmask v i
        = seg.base_nullmask v i) ∧
    sortedEntries ((RollbackUpdate C (Update C seg cd sref tid update ids v off none).1
        (Update C seg cd sref tid update ids v off none).2).entriesOf v) ∧
    (∀ i, seg.base_nullmask v i = false →
      rowString C (RollbackUpdate C (Update C seg cd sref tid update ids v off none).1
        (Update C seg cd sref tid update ids v off none).2) v i = rowString C seg v i) := by
  have htake : ids.take update.length = ids := by rw [hlen]; exact List.take_length _
  obtain ⟨G, hG⟩ : ∃ G : Nat → string_location_t, ∀ i, G i =
      (entryAt (seg.entriesOf v) i).getD (FetchStringLocation C seg (seg.base_data v i)) :=
    ⟨_, fun _ => rfl⟩
  -- the undo entry
  have hv : (Update C seg cd sref tid update ids v off none).2.vector_index = v := rfl
  have hN : (Update C seg cd sref tid update ids v off none).2.N = ids.length := hlen
  have htuples : (Update C seg cd sref tid update ids v off none).2.tuples
      = ids.map (fun rid => rid - off) := by
    show (ids.take update.length).map (fun rid => rid - off) = _
    rw [htake]
  have hnm : (Update C seg cd sref tid update ids v off none).2.nullmask
      = seg.base_nullmask v := rfl
  have hdata : (Update C seg cd sref tid update ids v off none).2.tuple_data
      = ids.map (fun rid => G (rid - off)) := by
    show FetchStringLocations C seg (ids.take update.length) v off = _
    rw [htake, fetchStringLocations_spec C seg v off ids hs hids]
    apply List.map_congr_left
    intro rid _
    rw [hG]
  have hundo : ((Update C seg cd sref tid update ids v off none).2.tuples.zip
      (Update C seg cd sref tid update ids v off none).2.tuple_data).take
        (Update C seg cd sref tid update ids v off none).2.N
      = ids.map (fun rid => (rid - off, G (rid - off))) := by
    rw [htuples, hdata, hN, List.zip_map']
    apply List.take_of_length_le
    simp
  -- the segment after the update
  obtain ⟨hent1, hheap1⟩ := update_entries C seg cd sref tid update ids v off none
  have hfacts : sortedEntries ((Update C seg cd sref tid update ids v off none).1.entriesOf v) ∧
      (∀ t ∈ ids.map (fun rid => rid - off),
        t ∈ ((Update C seg cd sref tid update ids v off none).1.entriesOf v).map (fun e => e.1)) ∧
      (∀ i, i ∉ ids.map (fun rid => rid - off) →
        entryAt ((Update C seg cd sref tid update ids v off none).1.entriesOf v) i
          = entryAt (seg.entriesOf v) i) ∧
      seg.heap.keeps (Update C seg cd sref tid update ids v off none).1.heap := by
    rw [hent1, hheap1]
    unfold StringSegment.entriesOf at hs ⊢
    cases hu : seg.updatesOf v with
    | none =>
      simp only
      obtain ⟨f1, f2, f3, f4⟩ := create_facts C seg.heap update ids off hlen hids
      exact ⟨f1, f2, fun i hi => by rw [f3 i hi]; rfl, f4⟩
    | some info =>
      simp only [hu] at hs ⊢
      exact merge_facts C seg.heap update ids off info hlen hids hs
  obtain ⟨hs1, hkeys1, hother1, hkeep⟩ := hfacts
  -- the segment after the rollback
  have hent2 := rollback_entries C (Update C seg cd sref tid update ids v off none).1
    (Update C seg cd sref tid update ids v off none).2
  rw [hv, hundo] at hent2
  have hmask2 := rollback_mask C (Update C seg cd sref tid update ids v off none).1
    (Update C seg cd sref tid update ids v off none).2
  rw [hv, hnm, htuples, hN, update_mask] at hmask2
  have hbd : (RollbackUpdate C (Update C seg cd sref tid update ids v off none).1
      (Update C seg cd sref tid update ids v off none).2).base_data = seg.base_data := rfl
  have hdd : (RollbackUpdate C (Update C seg cd sref tid update ids v off none).1
      (Update C seg cd sref tid update ids v off none).2).dictionary = seg.dictionary := rfl
  have hkeep2 : seg.heap.keeps (RollbackUpdate C (Update C seg cd sref tid update ids v off none).1
      (Update C seg cd sref tid update ids v off none).2).heap := hkeep
  generalize RollbackUpdate C (Update C seg cd sref tid update ids v off none).1
      (Update C seg cd sref tid update ids v off none).2 = seg2 at hent2 hmask2 hbd hdd hkeep2 ⊢
  generalize (Update C seg cd sref tid update ids v off none).1.entriesOf v = l1
    at hent2 hs1 hkeys1 hother1
  have hundo_sorted : sortedEntries (ids.map (fun rid => (rid - off, G (rid - off)))) := by
    simp only [sortedEntries, List.map_map]
    exact hids
  obtain ⟨_, hs2, hlook⟩ := rollbackLoop_spec C l1 _ hs1 hundo_sorted (by
    intro t ht
    apply hkeys1
    simpa only [List.map_map] using ht)
  refine ⟨?_, ?_, ?_⟩
  · intro i
    rw [hmask2, rollbackNullmask_apply]
    by_cases hi : i ∈ ids.map (fun rid => rid - off)
    · have : i ∈ List.take ids.length (ids.map (fun rid => rid - off)) := by
        rw [List.take_of_length_le (by simp)]; exact hi
      simp [this]
    · have : i ∉ List.take ids.length (ids.map (fun rid => rid - off)) := by
        rw [List.take_of_length_le (by simp)]; exact hi
      simp only [this, if_false]
      exact updateNullmask_other off ids update _ i hi
  · rw [hent2]; exact hs2
  · intro i hnn
    have hdict2 : FetchStringFromDict C seg2 (seg.base_data v i)
        = FetchStringFromDict C seg (seg.base_data v i) :=
      fetchStringFromDict_keeps C seg seg2 hdd hkeep2 (seg.base_data v i)
        (fun b o h0 hd hb => hdict i b o h0 hd hb)
    have hread : ∀ loc : string_location_t,
        (loc.block_id ≠ C.INVALID_BLOCK → seg.heap.allocated loc.block_id loc.offset) →
        ReadString C seg2.heap loc.block_id loc.offset
        = ReadString C seg.heap loc.block_id loc.offset :=
      fun loc ha => readString_keeps C hkeep2 loc.block_id loc.offset ha
    unfold rowString readRow
    rw [hent2, hlook i, entryAt_map off G ids i, hbd, hdict2]
    by_cases hi : i ∈ ids.map (fun rid => rid - off)
    · simp only [hi, if_true]
      rw [hG i]
      cases hU : entryAt (seg.entriesOf v) i with
      | some loc =>
        have hmem := entryAt_some_mem hU
        simp only [Option.getD_some]
        by_cases hb : loc.block_id = C.INVALID_BLOCK
        · have := hnull (i, loc) hmem hb
          simp only at this
          rw [hnn] at this
          exact absurd this (by simp)
        · simp only [ne_eq, hb, not_false_eq_true, if_true]
          exact hread loc (fun h => hupd (i, loc) hmem h)
      | none =>
        simp only [Option.getD_none]
        by_cases hb : (FetchStringLocation C seg (seg.base_data v i)).block_id = C.INVALID_BLOCK
        · simp only [ne_eq, hb, not_true_eq_false, if_false]
        · simp only [ne_eq, hb, not_false_eq_true, if_true]
          rw [hread _ (by
            intro _
            unfold FetchStringLocation at hb ⊢
            by_cases h0 : seg.base_data v i = 0
            · simp [h0] at hb
            · simp only [h0, if_false] at hb ⊢
              cases hd : seg.dictionary (seg.base_data v i) with
              | inline s => simp [hd] at hb
              | marker b o =>
                simp only [hd] at hb ⊢
                exact hdict i b o h0 hd hb)]
          unfold FetchStringFromDict FetchString
          simp only [ne_eq, hb, not_false_eq_true, if_true]
    · simp only [hi, if_false]
      rw [hother1 i hi]
      cases hU : entryAt (seg.entriesOf v) i with
      | some loc =>
        have hmem := entryAt_some_mem hU
        simp only
        exact hread loc (fun h => hupd (i, loc) hmem h)
      | none => rfl

end StringSeg

namespace LocalStore

/-! ## The log written by `Commit` -/

theorem foldl_append_temporary (cs : List DataChunk) (t : DataTable) :
    (cs.foldl DataTable.Append t).temporary = t.temporary ∧
    (cs.foldl DataTable.Append t).id = t.id := by
  induction cs generalizing t with
  | nil => exact ⟨rfl, rfl⟩
  | cons c cs ih => exact ih (t.Append c)

theorem runChunks_commitFun (cs : List DataChunk) (t : DataTable)
    (log : Option (List WalRecord)) :
    runChunks commitFun cs (t, log) =
      (true, (cs.foldl DataTable.Append t,
        log.map (fun records =>
          if t.temporary then records else records ++ cs.map WalRecord.Insert))) := by
  induction cs generalizing t log with
  | nil => cases log <;> simp [runChunks]
  | cons c cs ih =>
    simp only [runChunks, commitFun, Bool.not_true, Bool.false_eq_true, if_false,
      List.foldl_cons]
    rw [ih]
    have ht : (t.Append c).temporary = t.temporary := rfl
    cases log with
    | none => simp
    | some records =>
      cases h : t.temporary <;> simp [ht, h]

/-- The loop of `Commit` has a result only when every storage holds a chunk. -/
theorem commitLoop_chunks (K : Constants) :
    ∀ (entries : List Entry) (log : Option (List WalRecord))
      (out : List DataTable × Option (List WalRecord)),
      commitLoop K entries log = some out →
      ∀ e ∈ entries, e.storage.collection.chunks ≠ [] := by
  intro entries
  induction entries with
  | nil => intro _ _ _ e he; simp at he
  | cons e rest ih =>
    intro log out h x hx
    simp only [commitLoop] at h
    by_cases hch : e.storage.collection.chunks = []
    · rw [scanTableStorage_none K e.table e.storage commitFun _ hch] at h
      simp at h
    · rw [scanTableStorage_eq K e.table e.storage commitFun _ hch] at h
      simp only at h
      obtain ⟨q, hq, _⟩ := Option.map_eq_some'.mp h
      rcases List.mem_cons.mp hx with rfl | hx'
      · exact hch
      · exact ih _ q hq x hx'

theorem commitLoop_spec (K : Constants) :
    ∀ (entries : List Entry) (log : Option (List WalRecord)),
      (∀ e ∈ entries, e.storage.collection.chunks ≠ []) →
      commitLoop K entries log =
        some (entries.map (fun e => (visibleChunks K e.table e.storage).foldl DataTable.Append
                e.table),
          log.map (fun records => records ++
            entries.flatMap (fun e => tableRecords e.table
              (visibleChunks K e.table e.storage)))) := by
  intro entries
  induction entries with
  | nil => intro log _; cases log <;> simp [commitLoop]
  | cons e rest ih =>
    intro log hwf
    have he := hwf e (List.mem_cons_self _ _)
    have hrest : ∀ e' ∈ rest, e'.storage.collection.chunks ≠ [] :=
      fun e' h => hwf e' (List.mem_cons_of_mem _ h)
    simp only [commitLoop]
    rw [scanTableStorage_eq K e.table e.storage commitFun _ he, runChunks_commitFun]
    simp only [ih _ hrest, Option.map_some', List.map_cons, List.flatMap_cons]
    cases log with
    | none => simp
    | some records =>
      cases h : e.table.temporary <;> simp [tableRecords, h]

/-- `LocalStorage::Commit`, whenever it has a result: each table has got the
batches the scan of its storage hands to the callback appended in scan order, and
a log that is attached has got, table after table in the order of the map,
nothing for a temporary table and for any other table one select-table record
naming it followed by one insert record per batch appended, in the same order,
with no other record in between; without a log nothing is written. `Commit` has
a result exactly when every local table storage holds a chunk. -/
theorem commit_spec (K : Constants) (ls : LocalStorage) (log : Option (List WalRecord)) :
    (∀ r, ls.Commit K log = some r →
      r = (ls.table_storage.map (fun e =>
              (visibleChunks K e.table e.storage).foldl DataTable.Append e.table),
            log.map (fun records => records ++ ls.table_storage.flatMap (fun e =>
              tableRecords e.table (visibleChunks K e.table e.storage))),
            { table_storage := [] })) ∧
    ((ls.Commit K log).isSome = true ↔
      ∀ e ∈ ls.table_storage, e.storage.collection.chunks ≠ []) := by
  have hdef : (∀ e ∈ ls.table_storage, e.storage.collection.chunks ≠ []) →
      ls.Commit K log =
        some (ls.table_storage.map (fun e =>
              (visibleChunks K e.table e.storage).foldl DataTable.Append e.table),
            log.map (fun records => records ++ ls.table_storage.flatMap (fun e =>
              tableRecords e.table (visibleChunks K e.table e.storage))),
            { table_storage := [] }) := by
    intro hwf
    unfold LocalStorage.Commit
    rw [commitLoop_spec K ls.table_storage log hwf]
    rfl
  have hch : ∀ r, ls.Commit K log = some r →
      ∀ e ∈ ls.table_storage, e.storage.collection.chunks ≠ [] := by
    intro r hr
    unfold LocalStorage.Commit at hr
    obtain ⟨q, hq, _⟩ := Option.map_eq_some'.mp hr
    exact commitLoop_chunks K ls.table_storage log q hq
  refine ⟨fun r hr => ?_, ?_, fun hwf => ?_⟩
  · rw [hdef (hch r hr)] at hr
    exact (Option.some.inj hr).symm
  · intro hs
    cases hc : ls.Commit K log with
    | none =>
      rw [hc] at hs
      exact absurd hs (by simp)
    | some r => exact hch r hc
  · rw [hdef hwf]
    rfl

end LocalStore

namespace Tql

/-! ## Splitting a statement into tokens -/

theorem getline_word (w rest : List Char) (hw : blank ∉ w) :
    getline blank (w ++ blank :: rest) = (w, some rest) := by
  induction w with
  | nil => simp [getline]
  | cons c w ih =>
    have hc : c ≠ blank := fun h => hw (by simp [h])
    have hw' : blank ∉ w := fun h => hw (List.mem_cons_of_mem _ h)
    simp [getline, hc, ih hw']

theorem getline_last (w : List Char) (hw : blank ∉ w) : getline blank w = (w, none) := by
  induction w with
  | nil => simp [getline]
  | cons c w ih =>
    have hc : c ≠ blank := fun h => hw (by simp [h])
    have hw' : blank ∉ w := fun h => hw (List.mem_cons_of_mem _ h)
    simp [getline, hc, ih hw']

theorem tokenLoop_word (n : Nat) (w rest : List Char) (hw : blank ∉ w) :
    tokenLoop (n + 1) (some (w ++ blank :: rest)) = w :: tokenLoop n (some rest) := by
  have h := getline_word w rest hw
  cases hl : w ++ blank :: rest with
  | nil => simp at hl
  | cons c cs =>
    rw [hl] at h
    simp only [tokenLoop, h]

theorem tokenLoop_last (n : Nat) (w : List Char) (hw : blank ∉ w) (hne : w ≠ []) :
    tokenLoop (n + 1) (some w) = [w] := by
  have h := getline_last w hw
  cases w with
  | nil => exact absurd rfl hne
  | cons c cs =>
    simp only [tokenLoop, h]
    cases n <;> rfl

/-- The tokens of a statement of three words without blanks followed by a name. -/
theorem tokens_four (w1 w2 w3 a : List Char) (h1 : blank ∉ w1) (h2 : blank ∉ w2)
    (h3 : blank ∉ w3) (ha : blank ∉ a) (hne : a ≠ []) :
    tokens (w1 ++ blank :: (w2 ++ blank :: (w3 ++ blank :: a))) = [w1, w2, w3, a] := by
  unfold tokens
  have hf : (w1 ++ blank :: (w2 ++ blank :: (w3 ++ blank :: a))).length + 1
      = (w1.length + w2.length + w3.length + a.length) + 1 + 1 + 1 + 1 := by
    simp only [List.length_append, List.length_cons]
    omega
  rw [hf, tokenLoop_word _ _ _ h1, tokenLoop_word _ _ _ h2, tokenLoop_word _ _ _ h3,
    tokenLoop_last _ _ ha hne]

/-- The tokens of a statement of two words without blanks. -/
theorem tokens_two (w1 w2 : List Char) (h1 : blank ∉ w1) (h2 : blank ∉ w2) (hne : w2 ≠ []) :
    tokens (w1 ++ blank :: w2) = [w1, w2] := by
  unfold tokens
  have hf : (w1 ++ blank :: w2).length + 1 = (w1.length + w2.length) + 1 + 1 := by
    simp only [List.length_append, List.length_cons]
    omega
  rw [hf, tokenLoop_word _ _ _ h1, tokenLoop_last _ _ h2 hne]

end Tql

namespace StringDict

open StringSeg (string_location_t Heap)

/-! ## Reading and writing bytes -/

theorem readBytes_length (buf : Nat → Nat) (a n : Nat) : (readBytes buf a n).length = n := by
  simp [readBytes]

theorem writeBytes_outside (buf : Nat → Nat) (a : Nat) (bs : List Nat) (x : Nat)
    (h : x < a ∨ a + bs.length ≤ x) : writeBytes buf a bs x = buf x := by
  unfold writeBytes
  rw [if_neg]
  omega

theorem readBytes_writeBytes_same (buf : Nat → Nat) (a : Nat) (bs : List Nat) :
    readBytes (writeBytes buf a bs) a bs.length = bs := by
  apply List.ext_getElem
  · simp [readBytes]
  · intro i h1 h2
    simp only [readBytes, List.getElem_map, List.getElem_range, writeBytes]
    rw [if_pos ⟨by omega, by omega⟩]
    have e : a + i - a = i := by omega
    rw [e, List.getD_eq_getElem _ _ h2]

theorem readBytes_writeBytes_disjoint (buf : Nat → Nat) (a : Nat) (bs : List Nat) (a' n : Nat)
    (h : a' + n ≤ a ∨ a + bs.length ≤ a') :
    readBytes (writeBytes buf a bs) a' n = readBytes buf a' n := by
  unfold readBytes
  apply List.map_congr_left
  intro i hi
  have hi' : i < n := List.mem_range.mp hi
  exact writeBytes_outside buf a bs (a' + i) (by omega)

theorem readBytes_congr (buf buf' : Nat → Nat) (a n : Nat)
    (h : ∀ x, a ≤ x → x < a + n → buf' x = buf x) : readBytes buf' a n = readBytes buf a n := by
  unfold readBytes
  apply List.map_congr_left
  intro i hi
  have hi' : i < n := List.mem_range.mp hi
  exact h (a + i) (by omega) (by omega)

theorem storeUInt_length (hostLE : Bool) (n x : Nat) :
    (ArtKey.storeUInt hostLE n x).length = n := by
  cases hostLE
  · simp [ArtKey.storeUInt, ArtKey.beBytes_length]
  · simp [ArtKey.storeUInt, ArtKey.leBytes_length]

theorem loadUInt_storeUInt (hostLE : Bool) (n x : Nat) (h : x < 256 ^ n) :
    loadUInt hostLE (ArtKey.storeUInt hostLE n x) = x := by
  cases hostLE
  · simp only [loadUInt, ArtKey.storeUInt, Bool.false_eq_true, if_false]
    rw [ArtKey.beValue_beBytes, Nat.mod_eq_of_lt h]
  · simp only [loadUInt, ArtKey.storeUInt, if_true]
    have : (ArtKey.leBytes n x).reverse = ArtKey.beBytes n x := rfl
    rw [this, ArtKey.beValue_beBytes, Nat.mod_eq_of_lt h]

theorem pow256 (n : Nat) : (256 : Nat) ^ n = 2 ^ (8 * n) := by
  rw [pow_mul]
  norm_num

/-- The bytes of a signed integer of `n` bytes read back as a signed integer. -/
theorem loadInt_storeUInt (hostLE : Bool) (n : Nat) (v : Int) (hn : 0 < n)
    (hlo : -(2 : Int) ^ (8 * n - 1) ≤ v) (hhi : v < (2 : Int) ^ (8 * n - 1)) :
    loadInt hostLE (ArtKey.storeUInt hostLE n (ArtKey.castU (8 * n) v)) = v := by
  have hp : (2 : Int) ^ (8 * n) = 2 * 2 ^ (8 * n - 1) := by
    have e : 8 * n = (8 * n - 1) + 1 := by omega
    conv_lhs => rw [e]
    rw [pow_succ]
    ring
  have hpos : (0 : Int) < 2 ^ (8 * n - 1) := by positivity
  have hlt := ArtKey.castU_lt (8 * n) v
  have hload : loadUInt hostLE (ArtKey.storeUInt hostLE n (ArtKey.castU (8 * n) v))
      = ArtKey.castU (8 * n) v :=
    loadUInt_storeUInt hostLE n _ (by rw [pow256]; exact hlt)
  unfold loadInt
  rw [hload, storeUInt_length]
  have hcast : ((ArtKey.castU (8 * n) v : Nat) : Int) = v % 2 ^ (8 * n) := by
    unfold ArtKey.castU
    exact Int.toNat_of_nonneg (Int.emod_nonneg _ (by positivity))
  by_cases hv : 0 ≤ v
  · have hmod : v % 2 ^ (8 * n) = v := Int.emod_eq_of_lt hv (by omega)
    have hc : (ArtKey.castU (8 * n) v : Int) = v := by rw [hcast, hmod]
    have hlt2 : ArtKey.castU (8 * n) v < 2 ^ (8 * n - 1) := by
      zify
      rw [hc]
      exact hhi
    rw [if_pos hlt2, hc]
  · have hmod : v % 2 ^ (8 * n) = v + 2 ^ (8 * n) := by
      have h1 : (v + 2 ^ (8 * n)) % 2 ^ (8 * n) = v + 2 ^ (8 * n) :=
        Int.emod_eq_of_lt (by omega) (by omega)
      rw [← h1, Int.add_emod_self]
    have hc : (ArtKey.castU (8 * n) v : Int) = v + 2 ^ (8 * n) := by rw [hcast, hmod]
    have hge : ¬ ArtKey.castU (8 * n) v < 2 ^ (8 * n - 1) := by
      zify
      rw [hc]
      omega
    rw [if_neg hge, hc]
    ring

end StringDict

namespace StringDict

open StringSeg (string_location_t Heap)

/-! ## Reading an entry kept in the block -/

theorem stringBytes_length (s : String) : (stringBytes s).length = strlen s := by
  unfold stringBytes strlen
  rw [List.length_map]
  rfl

theorem string_of_bytes (s : String) :
    String.mk ((stringBytes s).map Char.ofNat) = cstr s := by
  have h : (stringBytes s).map Char.ofNat = (cstr s).toList := by
    unfold stringBytes
    rw [List.map_map]
    conv_rhs => rw [← List.map_id (cstr s).toList]
    apply List.map_congr_left
    intro c _
    simp [Char.ofNat_toNat]
  rw [h]
  rfl

theorem fetch_inline (L : Layout) (C : StringSeg.Constants) (buf : Nat → Nat) (heap : Heap)
    (d : Nat) (s : String) (h : inlineAt L buf d s) (h16 : strlen s < 2 ^ 16)
    (hm : strlen s ≠ L.BIG_STRING_MARKER) :
    FetchStringFromDict L C buf heap (d : Int) = some (cstr s) := by
  obtain ⟨h3, hB, hlen, hdata⟩ := h
  have hd0 : (d : Int) ≠ 0 := by omega
  have hpos : ((L.BLOCK_SIZE : Int) - (d : Int)).toNat = L.BLOCK_SIZE - d := by omega
  have h256 : strlen s < 256 ^ 2 := by
    have : (256 : Nat) ^ 2 = 2 ^ 16 := by norm_num
    omega
  have hload : loadUInt L.hostLE (readBytes buf (L.BLOCK_SIZE - d) 2) = strlen s := by
    rw [hlen, loadUInt_storeUInt L.hostLE 2 _ h256]
  have hloc : FetchStringLocation L C buf (d : Int)
      = { block_id := C.INVALID_BLOCK, offset := (d : Int) } := by
    unfold FetchStringLocation
    rw [if_neg hd0]
    simp only [hpos, hload]
    rw [if_neg hm]
  unfold FetchStringFromDict
  rw [hloc]
  unfold FetchString
  simp only [ne_eq, not_true_eq_false, if_false]
  rw [if_neg hd0]
  simp only [hpos, hload, hdata, string_of_bytes]

theorem inlineAt_congr (L : Layout) (buf buf' : Nat → Nat) (d : Nat) (s : String)
    (h : inlineAt L buf d s) (hsame : ∀ x, L.BLOCK_SIZE - d ≤ x → buf' x = buf x) :
    inlineAt L buf' d s := by
  obtain ⟨h3, hB, hlen, hdata⟩ := h
  refine ⟨h3, hB, ?_, ?_⟩
  · rw [← hlen]
    exact readBytes_congr buf buf' _ _ (fun x hx _ => hsame x hx)
  · rw [← hdata]
    exact readBytes_congr buf buf' _ _ (fun x hx _ => hsame x (by omega))

end StringDict

namespace StringDict

open StringSeg (string_location_t Heap)

/-! ## One value appended -/

theorem fitBytes_length (n : Nat) (bytes : List Nat) : (fitBytes n bytes).length = n := by
  simp [fitBytes]

theorem remainingSpace_eq (L : Layout) (st : AppendState) (hwf : L.wellFormed)
    (hroom : roomFor L st) :
    RemainingSpace L st.seg
      = L.BLOCK_SIZE - st.seg.dictionary_offset - st.seg.max_vector_count * vector_size L := by
  unfold roomFor at hroom
  have hB : L.BLOCK_SIZE < 2 ^ 31 := hwf.2.2.2.2.2
  unfold RemainingSpace
  have h1 : ((L.BLOCK_SIZE : Int) - (st.seg.dictionary_offset : Int)
      - ((st.seg.max_vector_count * vector_size L : Nat) : Int))
      = ((L.BLOCK_SIZE - st.seg.dictionary_offset
          - st.seg.max_vector_count * vector_size L : Nat) : Int) := by
    omega
  rw [h1, ArtKey.castU_natCast]
  apply Nat.mod_eq_of_lt
  have : (2 : Nat) ^ 31 < 2 ^ 64 := by norm_num
  omega

theorem appendValue_counts (L : Layout) (C : StringSeg.Constants) (target endp idx : Nat)
    (st : AppendState) (value : Option String) :
    (appendValue L C target endp idx st value).seg.max_vector_count
      = st.seg.max_vector_count ∧
    (appendValue L C target endp idx st value).seg.tuple_count = st.seg.tuple_count ∧
    (appendValue L C target endp idx st value).remaining_strings
      = st.remaining_strings - 1 := by
  cases value with
  | none => exact ⟨rfl, rfl, rfl⟩
  | some s =>
    simp only [appendValue]
    split <;> exact ⟨rfl, rfl, rfl⟩

theorem appendValue_offset (L : Layout) (C : StringSeg.Constants) (target endp idx : Nat)
    (st : AppendState) (value : Option String) :
    (appendValue L C target endp idx st value).seg.dictionary_offset =
      match value with
      | none => st.seg.dictionary_offset
      | some s =>
        if toOverflow L st (strlen s + 1 + 2) then
          st.seg.dictionary_offset + L.BIG_STRING_MARKER_SIZE
        else st.seg.dictionary_offset + (strlen s + 1 + 2) := by
  cases value with
  | none => rfl
  | some s =>
    simp only [appendValue]
    split <;> rfl

/-- What the test for the overflow blocks says about a string kept in the
block. -/
theorem not_toOverflow (L : Layout) (st : AppendState) (n : Nat) (hwf : L.wellFormed)
    (hroom : roomFor L st) (h : toOverflow L st n = false) :
    n ≤ L.BIG_STRING_MARKER ∧
    (n ≤ L.BIG_STRING_MARKER_SIZE ∨
      st.seg.max_vector_count * vector_size L + st.seg.dictionary_offset + n
        + st.remaining_strings * L.BIG_STRING_MARKER_SIZE ≤ L.BLOCK_SIZE) := by
  have hrs := remainingSpace_eq L st hwf hroom
  obtain ⟨h1, _, h3, h4, _, _⟩ := hwf
  unfold roomFor at hroom
  unfold toOverflow at h
  rw [hrs] at h
  simp only [Bool.and_eq_false_iff, Bool.or_eq_false_iff, decide_eq_false_iff_not, not_lt,
    not_le, gt_iff_lt, ge_iff_le] at h
  rcases h with h | ⟨h5, h6⟩
  · exact ⟨by omega, Or.inl (by omega)⟩
  · exact ⟨by omega, Or.inr (by omega)⟩

theorem appendValue_room (L : Layout) (C : StringSeg.Constants) (target endp idx : Nat)
    (st : AppendState) (value : Option String) (hwf : L.wellFormed) (hroom : roomFor L st)
    (hrem : 1 ≤ st.remaining_strings) :
    roomFor L (appendValue L C target endp idx st value) ∧
    st.seg.dictionary_offset ≤ (appendValue L C target endp idx st value).seg.dictionary_offset := by
  obtain ⟨hc1, _, hc3⟩ := appendValue_counts L C target endp idx st value
  have hoff := appendValue_offset L C target endp idx st value
  obtain ⟨r, hr⟩ : ∃ r, st.remaining_strings = r + 1 := ⟨st.remaining_strings - 1, by omega⟩
  have hroom' := hroom
  unfold roomFor at hroom ⊢
  rw [hc1, hc3, hoff, hr, Nat.add_sub_cancel]
  rw [hr, Nat.succ_mul] at hroom
  cases value with
  | none =>
    simp only
    exact ⟨by omega, le_refl _⟩
  | some s =>
    simp only
    by_cases ho : toOverflow L st (strlen s + 1 + 2) = true
    · rw [if_pos ho]
      exact ⟨by omega, by omega⟩
    · rw [if_neg ho]
      have hno := not_toOverflow L st (strlen s + 1 + 2) hwf hroom' (by simpa using ho)
      rw [hr, Nat.succ_mul] at hno
      rcases hno.2 with h | h
      · exact ⟨by omega, by omega⟩
      · exact ⟨by omega, by omega⟩

/-- A value appended changes the bytes of its slot, of the null mask of the
vector and of the new dictionary entry, and no other byte. -/
theorem appendValue_frame (L : Layout) (C : StringSeg.Constants) (target idx : Nat)
    (st : AppendState) (value : Option String) (hwf : L.wellFormed) (hroom : roomFor L st)
    (hrem : 1 ≤ st.remaining_strings) (x : Nat)
    (h1 : x < slotAddr L target idx ∨ slotAddr L target idx + 4 ≤ x)
    (h2 : x < target ∨ target + L.nullmask_size ≤ x)
    (h3 : x < L.BLOCK_SIZE
          - (appendValue L C target L.BLOCK_SIZE idx st value).seg.dictionary_offset ∨
        L.BLOCK_SIZE - st.seg.dictionary_offset ≤ x) :
    (appendValue L C target L.BLOCK_SIZE idx st value).seg.buf x = st.seg.buf x := by
  obtain ⟨hroom1, hmono⟩ := appendValue_room L C target L.BLOCK_SIZE idx st value hwf hroom hrem
  have hoff := appendValue_offset L C target L.BLOCK_SIZE idx st value
  have hB' : (appendValue L C target L.BLOCK_SIZE idx st value).seg.dictionary_offset
      ≤ L.BLOCK_SIZE := by
    unfold roomFor at hroom1
    omega
  rw [hoff] at h3 hB'
  cases value with
  | none =>
    simp only [appendValue]
    rw [writeBytes_outside _ _ _ _ (by rw [fitBytes_length]; exact h2),
      writeBytes_outside _ _ _ _ (by rw [storeUInt_length]; exact h1)]
  | some s =>
    simp only at h3 hB'
    by_cases ho : toOverflow L st (strlen s + 1 + 2) = true
    · rw [if_pos ho] at h3 hB'
      have hm : 2 + L.block_id_size + 4 ≤ L.BIG_STRING_MARKER_SIZE := hwf.2.1
      simp only [appendValue, ho, if_true, WriteStringMarker]
      rw [writeBytes_outside _ _ _ _ (by rw [storeUInt_length]; exact h1),
        writeBytes_outside _ _ _ _ (by rw [storeUInt_length]; omega),
        writeBytes_outside _ _ _ _ (by rw [storeUInt_length]; omega),
        writeBytes_outside _ _ _ _ (by rw [storeUInt_length]; omega)]
    · rw [if_neg ho] at h3 hB'
      simp only [appendValue, ho, Bool.false_eq_true, if_false]
      rw [writeBytes_outside _ _ _ _ (by rw [storeUInt_length]; exact h1),
        writeBytes_outside _ _ _ _ (by
          rw [List.length_append, stringBytes_length, List.length_singleton]; omega),
        writeBytes_outside _ _ _ _ (by rw [storeUInt_length]; omega)]

theorem readBytes_writeBytes_front (buf : Nat → Nat) (a : Nat) (bs cs : List Nat) :
    readBytes (writeBytes buf a (bs ++ cs)) a bs.length = bs := by
  apply List.ext_getElem
  · simp [readBytes]
  · intro i h1 h2
    simp only [readBytes, List.getElem_map, List.getElem_range, writeBytes]
    rw [if_pos ⟨by omega, by rw [List.length_append]; omega⟩]
    have e : a + i - a = i := by omega
    rw [e, List.getD_eq_getElem _ _ (by rw [List.length_append]; omega),
      List.getElem_append_left h2]

/-- A string kept in the block: the entry lies directly below the dictionary as
it was, the slot holds the new dictionary offset, and the entry holds the
length and the bytes of the string. -/
theorem appendValue_inline (L : Layout) (C : StringSeg.Constants) (target idx : Nat)
    (st : AppendState) (s : String) (hwf : L.wellFormed) (hroom : roomFor L st)
    (hrem : 1 ≤ st.remaining_strings)
    (htarget : target + vector_size L ≤ st.seg.max_vector_count * vector_size L)
    (hidx : idx < L.STANDARD_VECTOR_SIZE)
    (ho : toOverflow L st (strlen s + 1 + 2) = false) :
    (appendValue L C target L.BLOCK_SIZE idx st (some s)).seg.dictionary_offset
      = st.seg.dictionary_offset + strlen s + 3 ∧
    strlen s < L.BIG_STRING_MARKER ∧
    slotValue L (appendValue L C target L.BLOCK_SIZE idx st (some s)).seg.buf target idx
      = ((st.seg.dictionary_offset + strlen s + 3 : Nat) : Int) ∧
    inlineAt L (appendValue L C target L.BLOCK_SIZE idx st (some s)).seg.buf
      (st.seg.dictionary_offset + strlen s + 3) s := by
  obtain ⟨hroom1, _⟩ := appendValue_room L C target L.BLOCK_SIZE idx st (some s) hwf hroom hrem
  have hoff := appendValue_offset L C target L.BLOCK_SIZE idx st (some s)
  simp only [ho, Bool.false_eq_true, if_false] at hoff
  have hoff' : (appendValue L C target L.BLOCK_SIZE idx st (some s)).seg.dictionary_offset
      = st.seg.dictionary_offset + strlen s + 3 := by rw [hoff]; omega
  have hno := not_toOverflow L st (strlen s + 1 + 2) hwf hroom ho
  have hM : L.BIG_STRING_MARKER < 2 ^ 16 := hwf.2.2.2.2.1
  have hB : L.BLOCK_SIZE < 2 ^ 31 := hwf.2.2.2.2.2
  have hlen : strlen s < L.BIG_STRING_MARKER := by omega
  have hd : st.seg.max_vector_count * vector_size L
      + (st.seg.dictionary_offset + strlen s + 3) ≤ L.BLOCK_SIZE := by
    unfold roomFor at hroom1
    rw [hoff', (appendValue_counts L C target L.BLOCK_SIZE idx st (some s)).1] at hroom1
    omega
  have hslot : slotAddr L target idx + 4 ≤ target + vector_size L := by
    unfold slotAddr vector_size
    omega
  have hbuf : (appendValue L C target L.BLOCK_SIZE idx st (some s)).seg.buf =
      writeBytes
        (writeBytes
          (writeBytes st.seg.buf (L.BLOCK_SIZE - (st.seg.dictionary_offset + (strlen s + 1 + 2)))
            (ArtKey.storeUInt L.hostLE 2 (ArtKey.castU 16 (strlen s))))
          (L.BLOCK_SIZE - (st.seg.dictionary_offset + (strlen s + 1 + 2)) + 2)
          (stringBytes s ++ [0]))
        (slotAddr L target idx)
        (ArtKey.storeUInt L.hostLE 4
          (ArtKey.castU 32 ((st.seg.dictionary_offset + (strlen s + 1 + 2) : Nat) : Int))) := by
    simp only [appendValue, ho, Bool.false_eq_true, if_false]
  have he : st.seg.dictionary_offset + (strlen s + 1 + 2)
      = st.seg.dictionary_offset + strlen s + 3 := by omega
  rw [he] at hbuf
  have hc16 : ArtKey.castU 16 (strlen s) = strlen s := by
    rw [ArtKey.castU_natCast]
    exact Nat.mod_eq_of_lt (by omega)
  refine ⟨hoff', hlen, ?_, ?_, ?_, ?_, ?_⟩
  · unfold slotValue
    rw [hbuf]
    have h1 := readBytes_writeBytes_same
      (writeBytes
        (writeBytes st.seg.buf (L.BLOCK_SIZE - (st.seg.dictionary_offset + strlen s + 3))
          (ArtKey.storeUInt L.hostLE 2 (ArtKey.castU 16 (strlen s))))
        (L.BLOCK_SIZE - (st.seg.dictionary_offset + strlen s + 3) + 2)
        (stringBytes s ++ [0]))
      (slotAddr L target idx)
      (ArtKey.storeUInt L.hostLE 4
        (ArtKey.castU 32 ((st.seg.dictionary_offset + strlen s + 3 : Nat) : Int)))
    rw [storeUInt_length] at h1
    rw [h1]
    have h2 := loadInt_storeUInt L.hostLE 4
      ((st.seg.dictionary_offset + strlen s + 3 : Nat) : Int) (by norm_num)
      (by
        have : (0 : Int) ≤ ((st.seg.dictionary_offset + strlen s + 3 : Nat) : Int) :=
          Int.natCast_nonneg _
        have hp : (0 : Int) < 2 ^ (8 * 4 - 1) := by positivity
        omega)
      (by
        have : ((2 : Nat) ^ 31 : Int) = (2 : Int) ^ (8 * 4 - 1) := by norm_num
        have h3 : st.seg.dictionary_offset + strlen s + 3 < 2 ^ 31 := by omega
        have h4 : ((st.seg.dictionary_offset + strlen s + 3 : Nat) : Int) < ((2 ^ 31 : Nat) : Int) :=
          Int.ofNat_lt.mpr h3
        rw [← this]
        exact_mod_cast h4)
    exact h2
  · omega
  · omega
  · rw [hbuf, readBytes_writeBytes_disjoint _ _ _ _ _ (by rw [storeUInt_length]; omega),
      readBytes_writeBytes_disjoint _ _ _ _ _ (by omega)]
    have h1 := readBytes_writeBytes_same st.seg.buf
      (L.BLOCK_SIZE - (st.seg.dictionary_offset + strlen s + 3))
      (ArtKey.storeUInt L.hostLE 2 (ArtKey.castU 16 (strlen s)))
    rw [storeUInt_length] at h1
    rw [h1, hc16]
  · rw [hbuf, readBytes_writeBytes_disjoint _ _ _ _ _ (by rw [storeUInt_length]; omega)]
    have h1 := readBytes_writeBytes_front
      (writeBytes st.seg.buf (L.BLOCK_SIZE - (st.seg.dictionary_offset + strlen s + 3))
        (ArtKey.storeUInt L.hostLE 2 (ArtKey.castU 16 (strlen s))))
      (L.BLOCK_SIZE - (st.seg.dictionary_offset + strlen s + 3) + 2) (stringBytes s) [0]
    rw [stringBytes_length] at h1
    exact h1

end StringDict

namespace StringDict

open StringSeg (string_location_t Heap)

/-! ## The loop of `AppendData` -/

theorem appendLoop_add (L : Layout) (C : StringSeg.Constants) (target endp tof : Nat)
    (source : List (Option String)) (sel : Option (List Nat)) (offset j : Nat)
    (st : AppendState) :
    ∀ m, appendLoop L C target endp tof source sel offset (j + m) st =
      appendLoop L C target endp (tof + j) source sel (offset + j) m
        (appendLoop L C target endp tof source sel offset j st) := by
  intro m
  induction m with
  | zero => rfl
  | succ m ih =>
    have e1 : j + (m + 1) = (j + m) + 1 := by omega
    rw [e1]
    simp only [appendLoop]
    rw [ih]
    have e2 : offset + (j + m) - offset + tof = offset + j + m - (offset + j) + (tof + j) := by
      omega
    have e3 : offset + (j + m) = offset + j + m := by omega
    rw [e2, e3]

/-- The loop of `AppendData` keeps the room for the strings still tof come, and
it leaves alone the dictionary as it was and the slots below the first one it
writes. -/
theorem appendLoop_spec (L : Layout) (C : StringSeg.Constants) (target tof : Nat)
    (source : List (Option String)) (sel : Option (List Nat)) (offset : Nat)
    (st : AppendState) (hwf : L.wellFormed) (hroom : roomFor L st)
    (htarget : target + vector_size L ≤ st.seg.max_vector_count * vector_size L) :
    ∀ j, j ≤ st.remaining_strings → tof + j ≤ L.STANDARD_VECTOR_SIZE →
      roomFor L (appendLoop L C target L.BLOCK_SIZE tof source sel offset j st) ∧
      (appendLoop L C target L.BLOCK_SIZE tof source sel offset j st).seg.max_vector_count
        = st.seg.max_vector_count ∧
      (appendLoop L C target L.BLOCK_SIZE tof source sel offset j st).remaining_strings
        = st.remaining_strings - j ∧
      st.seg.dictionary_offset
        ≤ (appendLoop L C target L.BLOCK_SIZE tof source sel offset j st).seg.dictionary_offset ∧
      (∀ x, L.BLOCK_SIZE - st.seg.dictionary_offset ≤ x →
        (appendLoop L C target L.BLOCK_SIZE tof source sel offset j st).seg.buf x
          = st.seg.buf x) ∧
      (∀ x, target + L.nullmask_size ≤ x → x < slotAddr L target tof →
        (appendLoop L C target L.BLOCK_SIZE tof source sel offset j st).seg.buf x
          = st.seg.buf x) := by
  intro j
  induction j with
  | zero =>
    intro _ _
    exact ⟨hroom, rfl, rfl, le_refl _, fun _ _ => rfl, fun _ _ _ => rfl⟩
  | succ j ih =>
    intro hj htof
    obtain ⟨p1, p2, p3, p4, p5, p6⟩ := ih (by omega) (by omega)
    have hrem : 1 ≤ (appendLoop L C target L.BLOCK_SIZE tof source sel offset j
        st).remaining_strings := by rw [p3]; omega
    simp only [appendLoop]
    have eidx : offset + j - offset + tof = tof + j := by omega
    rw [eidx]
    obtain ⟨q1, q2⟩ := appendValue_room L C target L.BLOCK_SIZE (tof + j) _
      (sourceValue source sel (offset + j)) hwf p1 hrem
    obtain ⟨c1, _, c3⟩ := appendValue_counts L C target L.BLOCK_SIZE (tof + j)
      (appendLoop L C target L.BLOCK_SIZE tof source sel offset j st)
      (sourceValue source sel (offset + j))
    have hvec : (appendLoop L C target L.BLOCK_SIZE tof source sel offset j
        st).seg.max_vector_count * vector_size L
        + (appendValue L C target L.BLOCK_SIZE (tof + j)
            (appendLoop L C target L.BLOCK_SIZE tof source sel offset j st)
            (sourceValue source sel (offset + j))).seg.dictionary_offset ≤ L.BLOCK_SIZE := by
      unfold roomFor at q1
      rw [c1] at q1
      omega
    rw [p2] at hvec
    have hslot : slotAddr L target (tof + j) + 4 ≤ target + vector_size L := by
      unfold slotAddr vector_size
      omega
    refine ⟨q1, by rw [c1, p2], by rw [c3, p3]; omega, by omega, ?_, ?_⟩
    · intro x hx
      rw [appendValue_frame L C target (tof + j) _ _ hwf p1 hrem x (by omega)
        (by unfold slotAddr at hslot; omega) (by omega)]
      exact p5 x hx
    · intro x hx1 hx2
      rw [appendValue_frame L C target (tof + j) _ _ hwf p1 hrem x
        (by unfold slotAddr at hx2 ⊢; omega) (by omega)
        (by unfold slotAddr at hx2 hslot; omega)]
      exact p6 x hx1 hx2

end StringDict

namespace ArtKey

/-! ## The comparison operators of `Key`, in closed form -/

theorem geLoop_spec (a k : Key) (n i : Nat) :
    Key.geLoop a k n i = true ↔
      (∃ p, i ≤ p ∧ p < i + n ∧ (∀ j, i ≤ j → j < p → a.at j = k.at j) ∧ a.at p > k.at p) ∨
      ((∀ j, i ≤ j → j < i + n → a.at j = k.at j) ∧ a.len ≥ k.len) := by
  induction n generalizing i with
  | zero =>
    simp only [Key.geLoop, decide_eq_true_eq, Nat.add_zero]
    constructor
    · intro h
      exact Or.inr ⟨fun j h1 h2 => absurd h1 (by omega), h⟩
    · rintro (⟨p, h1, h2, _⟩ | ⟨_, h⟩)
      · omega
      · exact h
  | succ n ih =>
    unfold Key.geLoop
    by_cases hgt : a.at i > k.at i
    · simp only [hgt, if_true, true_iff]
      exact Or.inl ⟨i, le_refl _, by omega, fun j h1 h2 => absurd h1 (by omega), hgt⟩
    · by_cases hlt : a.at i < k.at i
      · simp only [hgt, hlt, if_true, if_false, Bool.false_eq_true, false_iff]
        rintro (⟨p, h1, h2, h3, h4⟩ | ⟨h3, _⟩)
        · rcases Nat.eq_or_lt_of_le h1 with rfl | h1'
          · omega
          · have := h3 i (le_refl _) h1'
            omega
        · have := h3 i (le_refl _) (by omega)
          omega
      · have heq : a.at i = k.at i := by omega
        simp only [hgt, hlt, if_false]
        rw [ih (i + 1)]
        constructor
        · rintro (⟨p, h1, h2, h3, h4⟩ | ⟨h3, h4⟩)
          · refine Or.inl ⟨p, by omega, by omega, fun j hj1 hj2 => ?_, h4⟩
            rcases Nat.eq_or_lt_of_le hj1 with rfl | hj1'
            · exact heq
            · exact h3 j hj1' hj2
          · refine Or.inr ⟨fun j hj1 hj2 => ?_, h4⟩
            rcases Nat.eq_or_lt_of_le hj1 with rfl | hj1'
            · exact heq
            · exact h3 j hj1' (by omega)
        · rintro (⟨p, h1, h2, h3, h4⟩ | ⟨h3, h4⟩)
          · rcases Nat.eq_or_lt_of_le h1 with rfl | h1'
            · omega
            · exact Or.inl ⟨p, h1', by omega, fun j hj1 hj2 => h3 j (by omega) hj2, h4⟩
          · exact Or.inr ⟨fun j hj1 hj2 => h3 j (by omega) (by omega), h4⟩

theorem eqLoop_spec (a k : Key) (n i : Nat) :
    Key.eqLoop a k n i = true ↔ ∀ j, i ≤ j → j < i + n → a.at j = k.at j := by
  induction n generalizing i with
  | zero =>
    simp only [Key.eqLoop, Nat.add_zero, true_iff]
    intro j h1 h2
    omega
  | succ n ih =>
    unfold Key.eqLoop
    by_cases h : a.at i = k.at i
    · simp only [h, ne_eq, not_true_eq_false, if_false]
      rw [ih (i + 1)]
      constructor
      · intro h3 j hj1 hj2
        rcases Nat.eq_or_lt_of_le hj1 with rfl | hj1'
        · exact h
        · exact h3 j hj1' (by omega)
      · intro h3 j hj1 hj2
        exact h3 j (by omega) (by omega)
    · simp only [h, ne_eq, not_false_eq_true, if_true, Bool.false_eq_true, false_iff]
      intro h3
      exact h (h3 i (le_refl _) (by omega))

/-- `operator>` in closed form: a first byte that differs is larger on the left,
or the shorter key is a prefix of the longer and the left key is the longer. -/
theorem gt_spec (a k : Key) :
    Key.gt a k = true ↔
      (∃ p, p < min a.len k.len ∧ (∀ j, j < p → a.at j = k.at j) ∧ a.at p > k.at p) ∨
      ((∀ j, j < min a.len k.len → a.at j = k.at j) ∧ a.len > k.len) := by
  unfold Key.gt
  rw [gtLoop_spec]
  simp only [Nat.zero_le, true_and, Nat.zero_add, forall_const]

/-- `operator>=` in closed form. -/
theorem ge_spec (a k : Key) :
    Key.ge a k = true ↔
      (∃ p, p < min a.len k.len ∧ (∀ j, j < p → a.at j = k.at j) ∧ a.at p > k.at p) ∨
      ((∀ j, j < min a.len k.len → a.at j = k.at j) ∧ a.len ≥ k.len) := by
  unfold Key.ge
  rw [geLoop_spec]
  simp only [Nat.zero_le, true_and, Nat.zero_add, forall_const]

/-- `operator==` in closed form. -/
theorem eq_spec (a k : Key) :
    Key.eq a k = true ↔ a.len = k.len ∧ ∀ j, j < a.len → a.at j = k.at j := by
  unfold Key.eq
  by_cases h : a.len = k.len
  · simp only [h, ne_eq, not_true_eq_false, if_false, true_and]
    rw [eqLoop_spec]
    simp only [Nat.zero_le, true_and, Nat.zero_add, forall_const, h]
  · simp [h]

/-- Two keys agree on their first `m` bytes or have a first byte that differs. -/
theorem first_difference (a k : Key) (m : Nat) :
    (∀ j, j < m → a.at j = k.at j) ∨
      ∃ p, p < m ∧ (∀ j, j < p → a.at j = k.at j) ∧ a.at p ≠ k.at p := by
  induction m with
  | zero => exact Or.inl (fun j h => absurd h (by omega))
  | succ m ih =>
    rcases ih with h | ⟨p, h1, h2, h3⟩
    · by_cases hm : a.at m = k.at m
      · refine Or.inl (fun j hj => ?_)
        rcases Nat.eq_or_lt_of_le (Nat.le_of_lt_succ hj) with rfl | hj'
        · exact hm
        · exact h j hj'
      · exact Or.inr ⟨m, by omega, h, hm⟩
    · exact Or.inr ⟨p, by omega, h2, h3⟩

theorem gt_trans (a b c : Key) (h1 : Key.gt a b = true) (h2 : Key.gt b c = true) :
    Key.gt a c = true := by
  rw [gt_spec] at h1 h2 ⊢
  rcases h1 with ⟨p, hp, hpa, hpg⟩ | ⟨hab, hl1⟩
  · rcases h2 with ⟨q, hq, hqa, hqg⟩ | ⟨hbc, hl2⟩
    · rcases Nat.lt_trichotomy p q with hpq | hpq | hpq
      · refine Or.inl ⟨p, by omega, fun j hj => ?_, ?_⟩
        · rw [hpa j hj, hqa j (by omega)]
        · rw [← hqa p hpq]
          exact hpg
      · subst hpq
        refine Or.inl ⟨p, by omega, fun j hj => ?_, by omega⟩
        rw [hpa j hj, hqa j hj]
      · refine Or.inl ⟨q, by omega, fun j hj => ?_, ?_⟩
        · rw [hpa j (by omega), hqa j hj]
        · rw [hpa q hpq]
          exact hqg
    · by_cases hpc : p < c.len
      · refine Or.inl ⟨p, by omega, fun j hj => ?_, ?_⟩
        · rw [hpa j hj, hbc j (by omega)]
        · rw [← hbc p (by omega)]
          exact hpg
      · refine Or.inr ⟨fun j hj => ?_, by omega⟩
        rw [hpa j (by omega), hbc j (by omega)]
  · rcases h2 with ⟨q, hq, hqa, hqg⟩ | ⟨hbc, hl2⟩
    · refine Or.inl ⟨q, by omega, fun j hj => ?_, ?_⟩
      · rw [hab j (by omega), hqa j hj]
      · rw [hab q (by omega)]
        exact hqg
    · refine Or.inr ⟨fun j hj => ?_, by omega⟩
      rw [hab j (by omega), hbc j (by omega)]

theorem gt_asymm (a b : Key) (h1 : Key.gt a b = true) : Key.gt b a = false := by
  cases h : Key.gt b a with
  | false => rfl
  | true =>
    exfalso
    rw [gt_spec] at h1 h
    rcases h1 with ⟨p, hp, hpa, hpg⟩ | ⟨hab, hl1⟩
    · rcases h with ⟨q, hq, hqa, hqg⟩ | ⟨hba, hl2⟩
      · rcases Nat.lt_trichotomy p q with hpq | hpq | hpq
        · have := hqa p hpq
          omega
        · subst hpq
          omega
        · have := hpa q hpq
          omega
      · have := hba p (by omega)
        omega
    · rcases h with ⟨q, hq, hqa, hqg⟩ | ⟨hba, hl2⟩
      · have := hab q (by omega)
        omega
      · omega

theorem gt_not_eq (a b : Key) (h1 : Key.gt a b = true) : Key.eq a b = false := by
  cases h : Key.eq a b with
  | false => rfl
  | true =>
    exfalso
    rw [gt_spec] at h1
    rw [eq_spec] at h
    rcases h1 with ⟨p, hp, hpa, hpg⟩ | ⟨hab, hl1⟩
    · have := h.2 p (by omega)
      omega
    · omega

theorem eq_symm (a b : Key) (h1 : Key.eq a b = true) : Key.eq b a = true := by
  rw [eq_spec] at h1 ⊢
  exact ⟨h1.1.symm, fun j hj => (h1.2 j (by omega)).symm⟩

/-- Of two keys one is greater or they are equal. -/
theorem gt_or_eq (a b : Key) :
    Key.gt a b = true ∨ Key.gt b a = true ∨ Key.eq a b = true := by
  rcases first_difference a b (min a.len b.len) with h | ⟨p, hp, hpa, hne⟩
  · rcases Nat.lt_trichotomy a.len b.len with hl | hl | hl
    · refine Or.inr (Or.inl ?_)
      rw [gt_spec]
      exact Or.inr ⟨fun j hj => (h j (by omega)).symm, hl⟩
    · refine Or.inr (Or.inr ?_)
      rw [eq_spec]
      exact ⟨hl, fun j hj => h j (by omega)⟩
    · refine Or.inl ?_
      rw [gt_spec]
      exact Or.inr ⟨h, hl⟩
  · rcases Nat.lt_or_gt_of_ne hne with hlt | hgt
    · refine Or.inr (Or.inl ?_)
      rw [gt_spec]
      exact Or.inl ⟨p, by omega, fun j hj => (hpa j hj).symm, hlt⟩
    · refine Or.inl ?_
      rw [gt_spec]
      exact Or.inl ⟨p, hp, hpa, hgt⟩

end ArtKey

namespace RadixIndex

/-! ## The radix index: child slots and prefixes -/

theorem findChild_setChild {α : Type} (children : List (Nat × α)) (b x : Nat) (c : α) :
    findChild (setChild children b c) x =
      if x = b then (findChild children b).map (fun _ => c) else findChild children x := by
  induction children with
  | nil => simp [setChild, findChild]
  | cons e rest ih =>
    obtain ⟨b1, c1⟩ := e
    by_cases h1 : b1 = b
    · subst h1
      by_cases h2 : x = b1
      · subst h2
        simp [setChild, findChild]
      · have h3 : ¬ b1 = x := fun h => h2 h.symm
        simp [setChild, findChild, h2, h3]
    · by_cases h2 : x = b
      · subst h2
        simp only [setChild, findChild, h1, if_false, if_true] at ih ⊢
        exact ih
      · simp only [setChild, findChild, h1, h2, if_false] at ih ⊢
        rw [ih]

theorem findChild_append_single {α : Type} (children : List (Nat × α)) (b x : Nat) (c : α) :
    findChild (children ++ [(b, c)]) x =
      match findChild children x with
      | some y => some y
      | none => if b = x then some c else none := by
  induction children with
  | nil => simp [findChild]
  | cons e rest ih =>
    obtain ⟨b1, c1⟩ := e
    by_cases h1 : b1 = x
    · simp [findChild, h1]
    · simp only [List.cons_append, findChild, h1, if_false]
      exact ih

theorem findChild_eraseChild {α : Type} (children : List (Nat × α)) (b x : Nat) :
    findChild (eraseChild children b) x = if x = b then none else findChild children x := by
  induction children with
  | nil => simp [eraseChild, findChild]
  | cons e rest ih =>
    obtain ⟨b1, c1⟩ := e
    unfold eraseChild at ih ⊢
    by_cases h1 : b1 = b
    · subst h1
      by_cases h2 : x = b1
      · subst h2
        simp only [List.filter, ne_eq, not_true_eq_false, decide_False, if_true] at ih ⊢
        exact ih
      · have h3 : ¬ b1 = x := fun h => h2 h.symm
        simp only [List.filter, ne_eq, not_true_eq_false, decide_False, h2, if_false, findChild,
          h3] at ih ⊢
        exact ih
    · by_cases h2 : x = b
      · subst h2
        simp only [List.filter, ne_eq, h1, not_false_eq_true, decide_True, findChild, if_true,
          if_false] at ih ⊢
        exact ih
      · simp only [List.filter, ne_eq, h1, not_false_eq_true, decide_True, findChild, h2,
          if_false] at ih ⊢
        rw [ih]

theorem descend_eq_some (pre rest : List Nat) (b : Nat) (t : List Nat) :
    descend pre rest = some (b, t) ↔ rest = pre ++ b :: t := by
  induction pre generalizing rest with
  | nil =>
    cases rest with
    | nil => simp [descend]
    | cons x xs =>
      simp only [descend, Option.some.injEq, Prod.mk.injEq, List.nil_append, List.cons.injEq]
  | cons p pre ih =>
    cases rest with
    | nil => simp [descend]
    | cons x xs =>
      by_cases h : p = x
      · subst h
        simp only [descend, if_true, ih, List.cons_append, List.cons.injEq, true_and]
      · simp only [descend, h, if_false, List.cons_append, List.cons.injEq]
        constructor
        · intro h1
          exact absurd h1 (by simp)
        · intro h1
          exact absurd h1.1.symm h

theorem descend_cons_ne (a b : Nat) (pre rest : List Nat) (h : a ≠ b) :
    descend (a :: pre) (b :: rest) = none := by
  simp [descend, h]

theorem descend_cons_same (a : Nat) (pre rest : List Nat) :
    descend (a :: pre) (a :: rest) = descend pre rest := by
  simp [descend]

theorem descend_append (c pre rest : List Nat) :
    descend (c ++ pre) (c ++ rest) = descend pre rest := by
  induction c with
  | nil => rfl
  | cons x c ih =>
    show descend (x :: (c ++ pre)) (x :: (c ++ rest)) = descend pre rest
    rw [descend_cons_same]
    exact ih

theorem splitCommon_spec (as bs : List Nat) :
    as = (splitCommon as bs).1 ++ (splitCommon as bs).2.1 ∧
    bs = (splitCommon as bs).1 ++ (splitCommon as bs).2.2 ∧
    (∀ x y xs ys, (splitCommon as bs).2.1 = x :: xs → (splitCommon as bs).2.2 = y :: ys →
      x ≠ y) := by
  induction as generalizing bs with
  | nil => simp [splitCommon]
  | cons a as ih =>
    cases bs with
    | nil => simp [splitCommon]
    | cons b bs =>
      by_cases h : a = b
      · subst h
        obtain ⟨h1, h2, h3⟩ := ih bs
        simp only [splitCommon, if_true, List.cons_append, List.cons.injEq, true_and]
        exact ⟨h1, h2, h3⟩
      · simp only [splitCommon, h, if_false, List.nil_append, true_and]
        intro x y xs ys hx hy
        simp only [List.cons.injEq] at hx hy
        rw [← hx.1, ← hy.1]
        exact h

/-- Fuel beyond the length of the rest of the key does not change a lookup. -/
theorem lookupAt_fuel (k : List Nat) :
    ∀ (f g : Nat) (node : RadixNode) (rest : List Nat), rest.length < f → rest.length < g →
      lookupAt f node k rest = lookupAt g node k rest := by
  intro f
  induction f with
  | zero => intro g node rest h; omega
  | succ f ih =>
    intro g node rest hf hg
    cases g with
    | zero => omega
    | succ g =>
      cases node with
      | Leaf key row_ids => simp only [lookupAt]
      | Inner type pre children =>
        simp only [lookupAt]
        cases hd : descend pre rest with
        | none => rfl
        | some bt =>
          obtain ⟨b, t⟩ := bt
          simp only
          cases hc : findChild children b with
          | none => rfl
          | some child =>
            simp only
            have hrest := (descend_eq_some pre rest b t).1 hd
            have hl : t.length < rest.length := by
              rw [hrest]
              simp only [List.length_append, List.length_cons]
              omega
            exact ih g child t (by omega) (by omega)

/-- A lookup below an inner node that starts further up, with the bytes in
between in front of its prefix. -/
theorem lookupAt_longer_pre (k : List Nat) (type : NodeType) (c pre : List Nat) (a : Nat)
    (children : List (Nat × RadixNode)) (t : List Nat) (f g : Nat)
    (hf : (c ++ a :: t).length < f) (hg : t.length < g) :
    lookupAt f (RadixNode.Inner type (c ++ a :: pre) children) k (c ++ a :: t) =
      lookupAt g (RadixNode.Inner type pre children) k t := by
  cases f with
  | zero => omega
  | succ f =>
    cases g with
    | zero => omega
    | succ g =>
      simp only [lookupAt, descend_append, descend_cons_same]
      cases hd : descend pre t with
      | none => rfl
      | some bt =>
        obtain ⟨b, t2⟩ := bt
        simp only
        cases hc : findChild children b with
        | none => rfl
        | some child =>
          simp only
          have hrest := (descend_eq_some pre t b t2).1 hd
          have hl : t2.length < t.length := by
            rw [hrest]
            simp only [List.length_append, List.length_cons]
            omega
          simp only [List.length_append, List.length_cons] at hf
          exact lookupAt_fuel k f g child t2 (by omega) (by omega)

theorem lookupAt_leaf (k key : List Nat) (row_ids : List Int) (rest : List Nat) (f : Nat)
    (hf : 0 < f) :
    lookupAt f (RadixNode.Leaf key row_ids) k rest = if key = k then row_ids else [] := by
  cases f with
  | zero => omega
  | succ f => simp only [lookupAt]

theorem lookupAt_inner (k : List Nat) (type : NodeType) (pre : List Nat)
    (children : List (Nat × RadixNode)) (rest : List Nat) (f : Nat) :
    lookupAt (f + 1) (RadixNode.Inner type pre children) k rest =
      match descend pre rest with
      | none => []
      | some bt =>
        match findChild children bt.1 with
        | none => []
        | some child => lookupAt f child k bt.2 := by
  simp only [lookupAt]
  cases hd : descend pre rest with
  | none => rfl
  | some bt => rfl

theorem WF_leaf_inv {S : List Nat → Prop} {path key : List Nat} {row_ids : List Int}
    (h : WF S path (RadixNode.Leaf key row_ids)) : S key ∧ path <+: key ∧ row_ids ≠ [] := by
  cases h with
  | leaf _ _ _ h1 h2 h3 => exact ⟨h1, h2, h3⟩

theorem WF_inner_inv {S : List Nat → Prop} {path : List Nat} {type : NodeType} {pre : List Nat}
    {children : List (Nat × RadixNode)} (h : WF S path (RadixNode.Inner type pre children)) :
    (∃ key x t, S key ∧ key = path ++ pre ++ x :: t) ∧
    (∀ b c, findChild children b = some c → WF S (path ++ pre ++ [b]) c) := by
  cases h with
  | inner _ _ _ _ h1 h2 => exact ⟨h1, h2⟩

end RadixIndex

namespace RadixIndex

/-! ## The radix index: insert -/

theorem insertAt_leaf (S : List Nat → Prop) (hS : ∀ a b, S a → S b → a <+: b → a = b)
    (u : Bool) (k : List Nat) (r0 : Int) (hk : S k) (f : Nat) (key : List Nat)
    (ids : List Int) (path rest : List Nat) (hkr : k = path ++ rest)
    (hw : WF S path (RadixNode.Leaf key ids)) :
    InsertSpec S u k r0 path rest (f + 1) (RadixNode.Leaf key ids)
      (insertAt u (f + 1) (RadixNode.Leaf key ids) k r0 rest) := by
  obtain ⟨hSkey, ⟨kr, hkey⟩, hids⟩ := WF_leaf_inv hw
  have hg0 : ∀ g, rest.length < g → 0 < g := fun g h => by omega
  by_cases hkk : key = k
  · subst hkk
    cases u with
    | true =>
      simp only [insertAt, if_true]
      refine ⟨hw, fun g hg => ?_, ?_, fun k2 rest2 g _ _ _ _ => rfl⟩
      · simp only [Bool.false_eq_true, if_false]
      · simp only [lookupAt, if_true, true_and, true_iff]
        exact hids
    | false =>
      simp only [insertAt, if_true, Bool.false_eq_true, if_false]
      refine ⟨WF.leaf _ _ _ hk ⟨kr, hkey⟩ (by simp), fun g hg => ?_, ?_,
        fun k2 rest2 g _ _ h3 h4 => ?_⟩
      · rw [lookupAt_leaf _ _ _ _ _ (hg0 g hg), lookupAt_leaf _ _ _ _ _ (hg0 g hg)]
        simp
      · simp
      · have hne : ¬ key = k2 := fun h => h3 h.symm
        have hg2 : 0 < g := by omega
        rw [lookupAt_leaf _ _ _ _ _ hg2, lookupAt_leaf _ _ _ _ _ hg2]
        simp [hne]
  · have hlen : k.length - rest.length = path.length := by
      rw [hkr]
      simp
    have hdrop : key.drop (k.length - rest.length) = kr := by
      rw [hlen, ← hkey]
      exact List.drop_left _ _
    obtain ⟨c, ra, rb, hsc⟩ : ∃ c ra rb, splitCommon kr rest = (c, ra, rb) := ⟨_, _, _, rfl⟩
    obtain ⟨h1, h2, h3⟩ := splitCommon_spec kr rest
    rw [hsc] at h1 h2 h3
    simp only at h1 h2 h3
    cases ra with
    | nil =>
      exfalso
      apply hkk
      apply hS key k hSkey hk
      refine ⟨rb, ?_⟩
      rw [← hkey, hkr, h1, h2]
      simp
    | cons a ra1 =>
      cases rb with
      | nil =>
        exfalso
        apply hkk
        symm
        apply hS k key hk hSkey
        refine ⟨a :: ra1, ?_⟩
        rw [← hkey, hkr, h1, h2]
        simp
      | cons b rb1 =>
        have hab : a ≠ b := h3 a b ra1 rb1 rfl rfl
        have hba : ¬ b = a := fun h => hab h.symm
        have hins : insertAt u (f + 1) (RadixNode.Leaf key ids) k r0 rest =
            (true, RadixNode.Inner NodeType.N4 c
              [(a, RadixNode.Leaf key ids), (b, RadixNode.Leaf k [r0])]) := by
          simp only [insertAt, hkk, if_false, hdrop, hsc]
        rw [hins]
        have hkeyc : key = path ++ c ++ a :: ra1 := by
          rw [← hkey, h1]
          simp
        have hkc : k = path ++ c ++ b :: rb1 := by
          rw [hkr, h2]
          simp
        refine ⟨WF.inner _ _ _ _ ⟨k, b, rb1, hk, hkc⟩ ?_, fun g hg => ?_, ?_,
          fun k2 rest2 g hS2 hk2 hne hg2 => ?_⟩
        · intro x cc hx
          simp only [findChild] at hx
          by_cases hax : a = x
          · simp only [hax, if_true, Option.some.injEq] at hx
            rw [← hx, ← hax]
            exact WF.leaf _ _ _ hSkey ⟨ra1, by rw [hkeyc]; simp⟩ hids
          · by_cases hbx : b = x
            · simp only [hax, hbx, if_true, if_false, Option.some.injEq] at hx
              rw [← hx, ← hbx]
              exact WF.leaf _ _ _ hk ⟨rb1, by rw [hkc]; simp⟩ (by simp)
            · simp [hax, hbx] at hx
        · have hd : descend c rest = some (b, rb1) := (descend_eq_some _ _ _ _).2 h2
          have hgl : 1 < g := by
            rw [h2] at hg
            simp only [List.length_append, List.length_cons] at hg
            omega
          obtain ⟨g1, hg1⟩ : ∃ g1, g = g1 + 1 + 1 := ⟨g - 2, by omega⟩
          subst hg1
          simp only [lookupAt, hd, findChild, hab, if_false, if_true, hkk, List.nil_append]
        · simp [lookupAt, hkk]
        · have hg0 : 0 < g := by omega
          rw [lookupAt_leaf _ _ _ _ _ hg0]
          obtain ⟨g1, hg1⟩ : ∃ g1, g = g1 + 1 := ⟨g - 1, by omega⟩
          subst hg1
          rw [lookupAt_inner]
          have hkne : ¬ k = k2 := fun h => hne h.symm
          cases hd : descend c rest2 with
          | none =>
            simp only
            by_cases hk2key : key = k2
            · exfalso
              have : rest2 = c ++ a :: ra1 := by
                have h5 : path ++ rest2 = path ++ (c ++ a :: ra1) := by
                  rw [← hk2, ← hk2key, hkeyc]
                  simp
                exact List.append_cancel_left h5
              rw [(descend_eq_some _ _ _ _).2 this] at hd
              exact absurd hd (by simp)
            · simp [hk2key]
          | some bt =>
            obtain ⟨x, t2⟩ := bt
            have hr2 := (descend_eq_some _ _ _ _).1 hd
            have hg1l : 0 < g1 := by
              rw [hr2] at hg2
              simp only [List.length_append, List.length_cons] at hg2
              omega
            have hk2c : k2 = path ++ c ++ x :: t2 := by
              rw [hk2, hr2]
              simp
            simp only [findChild]
            by_cases hax : a = x
            · simp only [hax, if_true]
              rw [lookupAt_leaf _ _ _ _ _ hg1l]
            · by_cases hbx : b = x
              · simp only [hax, hbx, if_true, if_false]
                rw [lookupAt_leaf _ _ _ _ _ hg1l]
                have hk2key : ¬ key = k2 := by
                  intro h
                  rw [hkeyc, hk2c] at h
                  have h6 := List.append_cancel_left h
                  simp only [List.cons.injEq] at h6
                  exact hax h6.1
                simp [hkne, hk2key]
              · simp only [hax, hbx, if_false]
                have hk2key : ¬ key = k2 := by
                  intro h
                  rw [hkeyc, hk2c] at h
                  have h6 := List.append_cancel_left h
                  simp only [List.cons.injEq] at h6
                  exact hax h6.1
                simp [hk2key]

end RadixIndex

namespace RadixIndex

theorem lookupAt_leaf_ne (k k2 : List Nat) (row_ids : List Int) (rest : List Nat) (f : Nat)
    (h : ¬ k = k2) : lookupAt f (RadixNode.Leaf k row_ids) k2 rest = [] := by
  cases f with
  | zero => rfl
  | succ f => simp [lookupAt, h]

theorem insertAt_inner_new_child (S : List Nat → Prop)
    (u : Bool) (k : List Nat) (r0 : Int) (hk : S k) (f : Nat) (type : NodeType)
    (pre : List Nat) (children : List (Nat × RadixNode)) (path rest : List Nat)
    (hkr : k = path ++ rest)
    (hw : WF S path (RadixNode.Inner type pre children))
    (b : Nat) (t : List Nat) (hd : descend pre rest = some (b, t))
    (hc : findChild children b = none) :
    InsertSpec S u k r0 path rest (f + 1) (RadixNode.Inner type pre children)
      (insertAt u (f + 1) (RadixNode.Inner type pre children) k r0 rest) := by
  obtain ⟨⟨key0, x0, t0, hS0, hkey0⟩, hch⟩ := WF_inner_inv hw
  have hrest := (descend_eq_some _ _ _ _).1 hd
  have hkb : path ++ pre ++ [b] ++ t = k := by
    rw [hkr, hrest]
    simp
  have hins : insertAt u (f + 1) (RadixNode.Inner type pre children) k r0 rest =
      (true, RadixNode.Inner (type.fit (children.length + 1)) pre
        (children ++ [(b, RadixNode.Leaf k [r0])])) := by
    simp only [insertAt, hd, hc]
  rw [hins]
  refine ⟨WF.inner _ _ _ _ ⟨key0, x0, t0, hS0, hkey0⟩ ?_, fun g hg => ?_, ?_,
    fun k2 rest2 g hS2 hk2 hne hg2 => ?_⟩
  · intro x cc hx
    rw [findChild_append_single] at hx
    cases hcx : findChild children x with
    | some y =>
      rw [hcx] at hx
      simp only [Option.some.injEq] at hx
      rw [← hx]
      exact hch x y hcx
    | none =>
      rw [hcx] at hx
      simp only at hx
      by_cases hbx : b = x
      · simp only [hbx, if_true, Option.some.injEq] at hx
        rw [← hx, ← hbx]
        exact WF.leaf _ _ _ hk ⟨t, hkb⟩ (by simp)
      · simp [hbx] at hx
  · have hgl : 1 < g := by
      rw [hrest] at hg
      simp only [List.length_append, List.length_cons] at hg
      omega
    obtain ⟨g1, hg1⟩ : ∃ g1, g = g1 + 1 + 1 := ⟨g - 2, by omega⟩
    subst hg1
    simp only [lookupAt, hd, findChild_append_single, hc, if_true, List.nil_append]
  · simp [lookupAt, hd, hc]
  · obtain ⟨g1, hg1⟩ : ∃ g1, g = g1 + 1 := ⟨g - 1, by omega⟩
    subst hg1
    have hkne : ¬ k = k2 := fun h => hne h.symm
    rw [lookupAt_inner, lookupAt_inner]
    cases hd2 : descend pre rest2 with
    | none => rfl
    | some bt2 =>
      obtain ⟨x, t2⟩ := bt2
      simp only
      rw [findChild_append_single]
      cases hcx : findChild children x with
      | some y => rfl
      | none =>
        simp only
        by_cases hbx : b = x
        · simp only [hbx, if_true]
          exact lookupAt_leaf_ne k k2 _ _ _ hkne
        · simp only [hbx, if_false]

theorem insertAt_inner_split (S : List Nat → Prop) (hS : ∀ a b, S a → S b → a <+: b → a = b)
    (u : Bool) (k : List Nat) (r0 : Int) (hk : S k) (f : Nat) (type : NodeType)
    (pre : List Nat) (children : List (Nat × RadixNode)) (path rest : List Nat)
    (hkr : k = path ++ rest)
    (hw : WF S path (RadixNode.Inner type pre children))
    (hd : descend pre rest = none) :
    InsertSpec S u k r0 path rest (f + 1) (RadixNode.Inner type pre children)
      (insertAt u (f + 1) (RadixNode.Inner type pre children) k r0 rest) := by
  obtain ⟨⟨key0, x0, t0, hS0, hkey0⟩, hch⟩ := WF_inner_inv hw
  obtain ⟨c, ra, rb, hsc⟩ : ∃ c ra rb, splitCommon pre rest = (c, ra, rb) := ⟨_, _, _, rfl⟩
  obtain ⟨h1, h2, h3⟩ := splitCommon_spec pre rest
  rw [hsc] at h1 h2 h3
  simp only at h1 h2 h3
  have hlen0 : key0.length = path.length + pre.length + 1 + t0.length := by
    rw [hkey0]
    simp only [List.length_append, List.length_cons]
    omega
  have hlenk : k.length = path.length + rest.length := by
    rw [hkr]
    simp
  cases ra with
  | nil =>
    exfalso
    simp only [List.append_nil] at h1
    cases rb with
    | nil =>
      simp only [List.append_nil] at h2
      have hpre : k <+: key0 := ⟨x0 :: t0, by rw [hkr, hkey0, h2, ← h1]⟩
      have := hS k key0 hk hS0 hpre
      rw [this] at hlenk
      rw [h2, ← h1] at hlenk
      omega
    | cons b t =>
      rw [← h1] at h2
      rw [(descend_eq_some _ _ _ _).2 h2] at hd
      exact absurd hd (by simp)
  | cons a pre1 =>
    cases rb with
    | nil =>
      exfalso
      simp only [List.append_nil] at h2
      have hpre : k <+: key0 := ⟨a :: pre1 ++ x0 :: t0, by rw [hkr, hkey0, h2, h1]; simp⟩
      have := hS k key0 hk hS0 hpre
      rw [this] at hlenk
      rw [h2] at hlenk
      rw [h1] at hlen0
      simp only [List.length_append, List.length_cons] at hlen0
      omega
    | cons b t =>
      have hab : a ≠ b := h3 a b pre1 t rfl rfl
      have hins : insertAt u (f + 1) (RadixNode.Inner type pre children) k r0 rest =
          (true, RadixNode.Inner NodeType.N4 c
            [(a, RadixNode.Inner type pre1 children), (b, RadixNode.Leaf k [r0])]) := by
        simp only [insertAt, hd, hsc]
      rw [hins]
      have hkc : k = path ++ c ++ b :: t := by
        rw [hkr, h2]
        simp
      have hdc : descend c rest = some (b, t) := (descend_eq_some _ _ _ _).2 h2
      refine ⟨WF.inner _ _ _ _ ⟨k, b, t, hk, hkc⟩ ?_, fun g hg => ?_, ?_,
        fun k2 rest2 g hS2 hk2 hne hg2 => ?_⟩
      · intro x cc hx
        simp only [findChild] at hx
        by_cases hax : a = x
        · simp only [hax, if_true, Option.some.injEq] at hx
          rw [← hx, ← hax]
          refine WF.inner _ _ _ _ ⟨key0, x0, t0, hS0, ?_⟩ ?_
          · rw [hkey0, h1]
            simp
          · intro y cy hy
            have e : path ++ c ++ [a] ++ pre1 ++ [y] = path ++ pre ++ [y] := by
              rw [h1]
              simp
            rw [e]
            exact hch y cy hy
        · by_cases hbx : b = x
          · simp only [hax, hbx, if_true, if_false, Option.some.injEq] at hx
            rw [← hx, ← hbx]
            exact WF.leaf _ _ _ hk ⟨t, by rw [hkc]; simp⟩ (by simp)
          · simp [hax, hbx] at hx
      · have hgl : 1 < g := by
          rw [h2] at hg
          simp only [List.length_append, List.length_cons] at hg
          omega
        obtain ⟨g1, hg1⟩ : ∃ g1, g = g1 + 1 + 1 := ⟨g - 2, by omega⟩
        subst hg1
        simp only [lookupAt, hd, hdc, findChild, hab, if_false, if_true, List.nil_append]
      · simp [lookupAt, hd]
      · obtain ⟨g1, hg1⟩ : ∃ g1, g = g1 + 1 := ⟨g - 1, by omega⟩
        subst hg1
        have hkne : ¬ k = k2 := fun h => hne h.symm
        rw [lookupAt_inner k2 NodeType.N4 c]
        cases hd2 : descend c rest2 with
        | none =>
          simp only
          rw [lookupAt_inner]
          cases hd3 : descend pre rest2 with
          | none => rfl
          | some bt3 =>
            exfalso
            obtain ⟨x, t3⟩ := bt3
            have h5 := (descend_eq_some _ _ _ _).1 hd3
            rw [h1] at h5
            have h6 : rest2 = c ++ a :: (pre1 ++ x :: t3) := by
              rw [h5]
              simp
            rw [(descend_eq_some _ _ _ _).2 h6] at hd2
            exact absurd hd2 (by simp)
        | some bt2 =>
          obtain ⟨x, t2⟩ := bt2
          have hr2 := (descend_eq_some _ _ _ _).1 hd2
          simp only [findChild]
          by_cases hax : a = x
          · simp only [hax, if_true]
            rw [hr2, h1, ← hax]
            symm
            apply lookupAt_longer_pre
            · rw [hr2, ← hax] at hg2
              exact hg2
            · rw [hr2] at hg2
              simp only [List.length_append, List.length_cons] at hg2
              omega
          · have hdn : descend pre rest2 = none := by
              rw [hr2, h1, descend_append]
              exact descend_cons_ne _ _ _ _ hax
            rw [lookupAt_inner, hdn]
            by_cases hbx : b = x
            · simp only [hax, hbx, if_true, if_false]
              exact lookupAt_leaf_ne k k2 _ _ _ hkne
            · simp only [hax, hbx, if_false]

theorem insertAt_inner_descend (S : List Nat → Prop)
    (u : Bool) (k : List Nat) (r0 : Int) (f : Nat) (type : NodeType)
    (pre : List Nat) (children : List (Nat × RadixNode)) (path rest : List Nat)
    (hw : WF S path (RadixNode.Inner type pre children))
    (b : Nat) (t : List Nat) (hd : descend pre rest = some (b, t))
    (child : RadixNode) (hc : findChild children b = some child)
    (ih : InsertSpec S u k r0 (path ++ pre ++ [b]) t f child (insertAt u f child k r0 t)) :
    InsertSpec S u k r0 path rest (f + 1) (RadixNode.Inner type pre children)
      (insertAt u (f + 1) (RadixNode.Inner type pre children) k r0 rest) := by
  obtain ⟨⟨key0, x0, t0, hS0, hkey0⟩, hch⟩ := WF_inner_inv hw
  have hrest := (descend_eq_some _ _ _ _).1 hd
  have hins : insertAt u (f + 1) (RadixNode.Inner type pre children) k r0 rest =
      ((insertAt u f child k r0 t).1, RadixNode.Inner type pre
        (setChild children b (insertAt u f child k r0 t).2)) := by
    simp only [insertAt, hd, hc]
  rw [hins]
  obtain ⟨I1, I2, I3, I4⟩ := ih
  generalize insertAt u f child k r0 t = ins at I1 I2 I3 I4 ⊢
  refine ⟨WF.inner _ _ _ _ ⟨key0, x0, t0, hS0, hkey0⟩ ?_, fun g hg => ?_, ?_,
    fun k2 rest2 g hS2 hk2 hne hg2 => ?_⟩
  · intro x cc hx
    rw [findChild_setChild] at hx
    by_cases hxb : x = b
    · simp only [hxb, if_true, hc, Option.map_some', Option.some.injEq] at hx
      rw [← hx, hxb]
      exact I1
    · simp only [hxb, if_false] at hx
      exact hch x cc hx
  · obtain ⟨g1, hg1⟩ : ∃ g1, g = g1 + 1 := ⟨g - 1, by omega⟩
    subst hg1
    have htl : t.length < g1 := by
      rw [hrest] at hg
      simp only [List.length_append, List.length_cons] at hg
      omega
    simp only [lookupAt, hd, findChild_setChild, if_true, hc, Option.map_some']
    exact I2 g1 htl
  · simp only [lookupAt, hd, hc]
    exact I3
  · obtain ⟨g1, hg1⟩ : ∃ g1, g = g1 + 1 := ⟨g - 1, by omega⟩
    subst hg1
    rw [lookupAt_inner, lookupAt_inner]
    cases hd2 : descend pre rest2 with
    | none => rfl
    | some bt2 =>
      obtain ⟨x, t2⟩ := bt2
      have hr2 := (descend_eq_some _ _ _ _).1 hd2
      simp only
      rw [findChild_setChild]
      by_cases hxb : x = b
      · simp only [hxb, if_true, hc, Option.map_some']
        apply I4 k2 t2 g1 hS2 _ hne
        · rw [hr2] at hg2
          simp only [List.length_append, List.length_cons] at hg2
          omega
        · rw [hk2, hr2, hxb]
          simp
      · simp only [hxb, if_false]

/-- The insert below a well-formed node does what `InsertSpec` asks for. -/
theorem insertAt_spec (S : List Nat → Prop) (hS : ∀ a b, S a → S b → a <+: b → a = b)
    (u : Bool) (k : List Nat) (r0 : Int) (hk : S k) :
    ∀ (f : Nat) (node : RadixNode) (path rest : List Nat), k = path ++ rest →
      rest.length < f → WF S path node →
      InsertSpec S u k r0 path rest f node (insertAt u f node k r0 rest) := by
  intro f
  induction f with
  | zero =>
    intro node path rest _ h
    omega
  | succ f ih =>
    intro node path rest hkr hf hw
    cases node with
    | Leaf key ids => exact insertAt_leaf S hS u k r0 hk f key ids path rest hkr hw
    | Inner type pre children =>
      cases hd : descend pre rest with
      | none => exact insertAt_inner_split S hS u k r0 hk f type pre children path rest hkr hw hd
      | some bt =>
        obtain ⟨b, t⟩ := bt
        cases hc : findChild children b with
        | none =>
          exact insertAt_inner_new_child S u k r0 hk f type pre children path rest hkr hw b t hd hc
        | some child =>
          have hrest := (descend_eq_some _ _ _ _).1 hd
          apply insertAt_inner_descend S u k r0 f type pre children path rest hw b t hd child hc
          apply ih child (path ++ pre ++ [b]) t
          · rw [hkr, hrest]
            simp
          · rw [hrest] at hf
            simp only [List.length_append, List.length_cons] at hf
            omega
          · exact (WF_inner_inv hw).2 b child hc

end RadixIndex

namespace RadixIndex

/-! ## The radix index: remove -/

theorem removeAt_leaf (S : List Nat → Prop)
    (k : List Nat) (r0 : Int) (f : Nat) (key : List Nat)
    (ids : List Int) (path rest : List Nat)
    (hw : WF S path (RadixNode.Leaf key ids)) :
    RemoveSpec S k r0 path rest (RadixNode.Leaf key ids)
      (removeAt (f + 1) (RadixNode.Leaf key ids) k r0 rest) := by
  obtain ⟨hSkey, hpre, hids⟩ := WF_leaf_inv hw
  by_cases hkk : key = k
  · subst hkk
    by_cases he : ids.erase r0 = []
    · have hrem : removeAt (f + 1) (RadixNode.Leaf key ids) key r0 rest = none := by
        simp only [removeAt, if_true, he]
      rw [hrem]
      refine ⟨fun g hg => ?_, fun k2 rest2 g _ _ hne _ => ?_⟩
      · rw [lookupAt_leaf _ _ _ _ _ (by omega)]
        simp only [if_true]
        exact he
      · exact lookupAt_leaf_ne key k2 _ _ _ (fun h => hne h.symm)
    · have hrem : removeAt (f + 1) (RadixNode.Leaf key ids) key r0 rest =
          some (RadixNode.Leaf key (ids.erase r0)) := by
        simp only [removeAt, if_true, he, if_false]
      rw [hrem]
      refine ⟨WF.leaf _ _ _ hSkey hpre he, fun g hg => ?_, fun k2 rest2 g _ _ hne _ => ?_⟩
      · rw [lookupAt_leaf _ _ _ _ _ (by omega), lookupAt_leaf _ _ _ _ _ (by omega)]
        simp only [if_true]
      · rw [lookupAt_leaf_ne key k2 _ _ _ (fun h => hne h.symm),
          lookupAt_leaf_ne key k2 _ _ _ (fun h => hne h.symm)]
  · have hrem : removeAt (f + 1) (RadixNode.Leaf key ids) k r0 rest =
        some (RadixNode.Leaf key ids) := by
      simp only [removeAt, hkk, if_false]
    rw [hrem]
    refine ⟨hw, fun g hg => ?_, fun k2 rest2 g _ _ hne _ => rfl⟩
    rw [lookupAt_leaf_ne key k _ _ _ hkk]
    rfl

theorem removeAt_inner_same (S : List Nat → Prop)
    (k : List Nat) (r0 : Int) (type : NodeType)
    (pre : List Nat) (children : List (Nat × RadixNode)) (path rest : List Nat)
    (hw : WF S path (RadixNode.Inner type pre children))
    (hnone : ∀ g, lookupAt g (RadixNode.Inner type pre children) k rest = []) :
    RemoveSpec S k r0 path rest (RadixNode.Inner type pre children)
      (some (RadixNode.Inner type pre children)) := by
  refine ⟨hw, fun g hg => ?_, fun k2 rest2 g _ _ hne _ => rfl⟩
  rw [hnone g]
  rfl

theorem removeAt_inner_descend (S : List Nat → Prop)
    (k : List Nat) (r0 : Int) (f : Nat) (type : NodeType)
    (pre : List Nat) (children : List (Nat × RadixNode)) (path rest : List Nat)
    (hw : WF S path (RadixNode.Inner type pre children))
    (b : Nat) (t : List Nat) (hd : descend pre rest = some (b, t))
    (child : RadixNode) (hc : findChild children b = some child)
    (child1 : RadixNode) (hr : removeAt f child k r0 t = some child1)
    (ih : RemoveSpec S k r0 (path ++ pre ++ [b]) t child (some child1)) :
    RemoveSpec S k r0 path rest (RadixNode.Inner type pre children)
      (removeAt (f + 1) (RadixNode.Inner type pre children) k r0 rest) := by
  obtain ⟨⟨key0, x0, t0, hS0, hkey0⟩, hch⟩ := WF_inner_inv hw
  have hrest := (descend_eq_some _ _ _ _).1 hd
  have hrem : removeAt (f + 1) (RadixNode.Inner type pre children) k r0 rest =
      some (RadixNode.Inner type pre (setChild children b child1)) := by
    simp only [removeAt, hd, hc, hr]
  rw [hrem]
  obtain ⟨I1, I2, I4⟩ := ih
  refine ⟨WF.inner _ _ _ _ ⟨key0, x0, t0, hS0, hkey0⟩ ?_, fun g hg => ?_,
    fun k2 rest2 g hS2 hk2 hne hg2 => ?_⟩
  · intro x cc hx
    rw [findChild_setChild] at hx
    by_cases hxb : x = b
    · simp only [hxb, if_true, hc, Option.map_some', Option.some.injEq] at hx
      rw [← hx, hxb]
      exact I1
    · simp only [hxb, if_false] at hx
      exact hch x cc hx
  · obtain ⟨g1, hg1⟩ : ∃ g1, g = g1 + 1 := ⟨g - 1, by omega⟩
    subst hg1
    have htl : t.length < g1 := by
      rw [hrest] at hg
      simp only [List.length_append, List.length_cons] at hg
      omega
    simp only [lookupAt, hd, findChild_setChild, if_true, hc, Option.map_some']
    exact I2 g1 htl
  · obtain ⟨g1, hg1⟩ : ∃ g1, g = g1 + 1 := ⟨g - 1, by omega⟩
    subst hg1
    rw [lookupAt_inner, lookupAt_inner]
    cases hd2 : descend pre rest2 with
    | none => rfl
    | some bt2 =>
      obtain ⟨x, t2⟩ := bt2
      have hr2 := (descend_eq_some _ _ _ _).1 hd2
      simp only
      rw [findChild_setChild]
      by_cases hxb : x = b
      · simp only [hxb, if_true, hc, Option.map_some']
        apply I4 k2 t2 g1 hS2 _ hne
        · rw [hr2] at hg2
          simp only [List.length_append, List.length_cons] at hg2
          omega
        · rw [hk2, hr2, hxb]
          simp
      · simp only [hxb, if_false]

/-- What is below an inner node when the child on the way of the key `k` is
dropped: the lookups in the node, in terms of the slots that are left. -/
theorem lookupAt_child_dropped (S : List Nat → Prop)
    (k : List Nat) (r0 : Int) (type : NodeType)
    (pre : List Nat) (children : List (Nat × RadixNode)) (path rest : List Nat)
    (b : Nat) (t : List Nat) (hd : descend pre rest = some (b, t))
    (child : RadixNode) (hc : findChild children b = some child)
    (ih : RemoveSpec S k r0 (path ++ pre ++ [b]) t child none) :
    (∀ g, rest.length < g →
      (lookupAt g (RadixNode.Inner type pre children) k rest).erase r0 = []) ∧
    (∀ k2 rest2 g x t2, S k2 → k2 = path ++ rest2 → k2 ≠ k → rest2.length < g →
      descend pre rest2 = some (x, t2) →
      lookupAt g (RadixNode.Inner type pre children) k2 rest2 =
        match findChild (eraseChild children b) x with
        | none => []
        | some c => lookupAt (g - 1) c k2 t2) := by
  have hrest := (descend_eq_some _ _ _ _).1 hd
  obtain ⟨I2, I4⟩ := ih
  refine ⟨fun g hg => ?_, fun k2 rest2 g x t2 hS2 hk2 hne hg2 hd2 => ?_⟩
  · obtain ⟨g1, hg1⟩ : ∃ g1, g = g1 + 1 := ⟨g - 1, by omega⟩
    subst hg1
    simp only [lookupAt, hd, hc]
    apply I2
    rw [hrest] at hg
    simp only [List.length_append, List.length_cons] at hg
    omega
  · obtain ⟨g1, hg1⟩ : ∃ g1, g = g1 + 1 := ⟨g - 1, by omega⟩
    subst hg1
    have hr2 := (descend_eq_some _ _ _ _).1 hd2
    rw [lookupAt_inner, hd2, findChild_eraseChild]
    simp only [Nat.add_sub_cancel]
    by_cases hxb : x = b
    · simp only [hxb, if_true, hc]
      apply I4 k2 t2 g1 hS2 _ hne
      · rw [hr2] at hg2
        simp only [List.length_append, List.length_cons] at hg2
        omega
      · rw [hk2, hr2, hxb]
        simp
    · simp only [hxb, if_false]

end RadixIndex

namespace RadixIndex

theorem removeAt_inner_drop (S : List Nat → Prop)
    (k : List Nat) (r0 : Int) (f : Nat) (type : NodeType)
    (pre : List Nat) (children : List (Nat × RadixNode)) (path rest : List Nat)
    (hkr : k = path ++ rest)
    (hw : WF S path (RadixNode.Inner type pre children))
    (b : Nat) (t : List Nat) (hd : descend pre rest = some (b, t))
    (child : RadixNode) (hc : findChild children b = some child)
    (hr : removeAt f child k r0 t = none)
    (ih : RemoveSpec S k r0 (path ++ pre ++ [b]) t child none) :
    RemoveSpec S k r0 path rest (RadixNode.Inner type pre children)
      (removeAt (f + 1) (RadixNode.Inner type pre children) k r0 rest) := by
  obtain ⟨⟨key0, x0, t0, hS0, hkey0⟩, hch⟩ := WF_inner_inv hw
  have hrest := (descend_eq_some _ _ _ _).1 hd
  obtain ⟨D1, D2⟩ := lookupAt_child_dropped S k r0 type pre children path rest b t hd child hc ih
  have hfe := findChild_eraseChild children b
  have hkc : k = path ++ pre ++ b :: t := by
    rw [hkr, hrest]
    simp
  cases he : eraseChild children b with
  | nil =>
    have hrem : removeAt (f + 1) (RadixNode.Inner type pre children) k r0 rest = none := by
      simp only [removeAt, hd, hc, hr, he]
    rw [hrem]
    refine ⟨D1, fun k2 rest2 g hS2 hk2 hne hg2 => ?_⟩
    cases hd2 : descend pre rest2 with
    | none =>
      obtain ⟨g1, hg1⟩ : ∃ g1, g = g1 + 1 := ⟨g - 1, by omega⟩
      subst hg1
      rw [lookupAt_inner, hd2]
    | some bt2 =>
      obtain ⟨x, t2⟩ := bt2
      rw [D2 k2 rest2 g x t2 hS2 hk2 hne hg2 hd2, he]
      rfl
  | cons e1 l1 =>
    cases l1 with
    | nil =>
      obtain ⟨b1, c1⟩ := e1
      have hrem : removeAt (f + 1) (RadixNode.Inner type pre children) k r0 rest =
          some (mergeUp pre b1 c1) := by
        simp only [removeAt, hd, hc, hr, he]
      rw [hrem]
      have h1 := hfe b1
      rw [he] at h1
      simp only [findChild, if_true] at h1
      have hb1 : b1 ≠ b := by
        intro h
        rw [h] at h1
        simp at h1
      simp only [hb1, if_false] at h1
      have hw1 := hch b1 c1 h1.symm
      have hbb1 : ¬ b = b1 := fun h => hb1 h.symm
      cases c1 with
      | Leaf key1 ids1 =>
        obtain ⟨hS1, ⟨s1, hs1⟩, hids1⟩ := WF_leaf_inv hw1
        have hkey1 : key1 = path ++ pre ++ b1 :: s1 := by
          rw [← hs1]
          simp
        have hne1 : ¬ key1 = k := by
          intro h
          rw [hkey1, hkc] at h
          have h6 := List.append_cancel_left h
          simp only [List.cons.injEq] at h6
          exact hb1 h6.1
        refine ⟨WF.leaf _ _ _ hS1 ⟨pre ++ b1 :: s1, by rw [hkey1]; simp⟩ hids1, fun g hg => ?_,
          fun k2 rest2 g hS2 hk2 hne hg2 => ?_⟩
        · rw [D1 g hg]
          exact lookupAt_leaf_ne key1 k _ _ _ hne1
        · show lookupAt g (RadixNode.Leaf key1 ids1) k2 rest2 = _
          cases hd2 : descend pre rest2 with
          | none =>
            obtain ⟨g1, hg1⟩ : ∃ g1, g = g1 + 1 := ⟨g - 1, by omega⟩
            subst hg1
            rw [lookupAt_inner, hd2]
            apply lookupAt_leaf_ne
            intro h
            have h5 : path ++ rest2 = path ++ (pre ++ b1 :: s1) := by
              rw [← hk2, ← h, hkey1]
              simp
            have h6 := List.append_cancel_left h5
            rw [(descend_eq_some _ _ _ _).2 h6] at hd2
            exact absurd hd2 (by simp)
          | some bt2 =>
            obtain ⟨x, t2⟩ := bt2
            have hr2 := (descend_eq_some _ _ _ _).1 hd2
            rw [D2 k2 rest2 g x t2 hS2 hk2 hne hg2 hd2, he]
            simp only [findChild]
            have hg1 : 0 < g - 1 := by
              rw [hr2] at hg2
              simp only [List.length_append, List.length_cons] at hg2
              omega
            by_cases hx : b1 = x
            · simp only [hx, if_true]
              rw [lookupAt_leaf _ _ _ _ _ (by omega), lookupAt_leaf _ _ _ _ _ hg1]
            · simp only [hx, if_false]
              apply lookupAt_leaf_ne
              intro h
              have h5 : path ++ pre ++ b1 :: s1 = path ++ pre ++ x :: t2 := by
                rw [← hkey1, h, hk2, hr2]
                simp
              have h6 := List.append_cancel_left h5
              simp only [List.cons.injEq] at h6
              exact hx h6.1
      | Inner t1 pre1 ch1 =>
        obtain ⟨⟨key1, x1, s1, hS1, hkey1⟩, hch1⟩ := WF_inner_inv hw1
        refine ⟨WF.inner _ _ _ _ ⟨key1, x1, s1, hS1, by rw [hkey1]; simp⟩ ?_, fun g hg => ?_,
          fun k2 rest2 g hS2 hk2 hne hg2 => ?_⟩
        · intro y cy hy
          have e : path ++ (pre ++ b1 :: pre1) ++ [y] = path ++ pre ++ [b1] ++ pre1 ++ [y] := by
            simp
          rw [e]
          exact hch1 y cy hy
        · rw [D1 g hg]
          show lookupAt g (RadixNode.Inner t1 (pre ++ b1 :: pre1) ch1) k rest = []
          obtain ⟨g1, hg1⟩ : ∃ g1, g = g1 + 1 := ⟨g - 1, by omega⟩
          subst hg1
          rw [lookupAt_inner, hrest, descend_append, descend_cons_ne _ _ _ _ hb1]
        · show lookupAt g (RadixNode.Inner t1 (pre ++ b1 :: pre1) ch1) k2 rest2 = _
          cases hd2 : descend pre rest2 with
          | none =>
            obtain ⟨g1, hg1⟩ : ∃ g1, g = g1 + 1 := ⟨g - 1, by omega⟩
            subst hg1
            rw [lookupAt_inner, lookupAt_inner, hd2]
            cases hd3 : descend (pre ++ b1 :: pre1) rest2 with
            | none => rfl
            | some bt3 =>
              exfalso
              obtain ⟨y, t3⟩ := bt3
              have h5 := (descend_eq_some _ _ _ _).1 hd3
              have h6 : rest2 = pre ++ b1 :: (pre1 ++ y :: t3) := by
                rw [h5]
                simp
              rw [(descend_eq_some _ _ _ _).2 h6] at hd2
              exact absurd hd2 (by simp)
          | some bt2 =>
            obtain ⟨x, t2⟩ := bt2
            have hr2 := (descend_eq_some _ _ _ _).1 hd2
            rw [D2 k2 rest2 g x t2 hS2 hk2 hne hg2 hd2, he]
            simp only [findChild]
            by_cases hx : b1 = x
            · simp only [hx, if_true]
              rw [hr2, ← hx]
              apply lookupAt_longer_pre
              · rw [hr2, ← hx] at hg2
                exact hg2
              · rw [hr2] at hg2
                simp only [List.length_append, List.length_cons] at hg2
                omega
            · simp only [hx, if_false]
              obtain ⟨g1, hg1⟩ : ∃ g1, g = g1 + 1 := ⟨g - 1, by omega⟩
              subst hg1
              rw [lookupAt_inner, hr2, descend_append, descend_cons_ne _ _ _ _ hx]
    | cons e2 l2 =>
      have hrem : removeAt (f + 1) (RadixNode.Inner type pre children) k r0 rest =
          some (RadixNode.Inner (type.fit (e1 :: e2 :: l2).length) pre (e1 :: e2 :: l2)) := by
        simp only [removeAt, hd, hc, hr, he]
      rw [hrem, ← he]
      refine ⟨WF.inner _ _ _ _ ⟨key0, x0, t0, hS0, hkey0⟩ ?_, fun g hg => ?_,
        fun k2 rest2 g hS2 hk2 hne hg2 => ?_⟩
      · intro x cc hx
        rw [hfe x] at hx
        by_cases hxb : x = b
        · simp [hxb] at hx
        · simp only [hxb, if_false] at hx
          exact hch x cc hx
      · rw [D1 g hg]
        obtain ⟨g1, hg1⟩ : ∃ g1, g = g1 + 1 := ⟨g - 1, by omega⟩
        subst hg1
        rw [lookupAt_inner, hd]
        simp only [hfe b, if_true]
      · cases hd2 : descend pre rest2 with
        | none =>
          obtain ⟨g1, hg1⟩ : ∃ g1, g = g1 + 1 := ⟨g - 1, by omega⟩
          subst hg1
          rw [lookupAt_inner, lookupAt_inner, hd2]
        | some bt2 =>
          obtain ⟨x, t2⟩ := bt2
          rw [D2 k2 rest2 g x t2 hS2 hk2 hne hg2 hd2]
          obtain ⟨g1, hg1⟩ : ∃ g1, g = g1 + 1 := ⟨g - 1, by omega⟩
          subst hg1
          rw [lookupAt_inner, hd2]
          simp only [Nat.add_sub_cancel]

/-- The removal below a well-formed node does what `RemoveSpec` asks for. -/
theorem removeAt_spec (S : List Nat → Prop) (k : List Nat) (r0 : Int) :
    ∀ (f : Nat) (node : RadixNode) (path rest : List Nat), k = path ++ rest →
      rest.length < f → WF S path node →
      RemoveSpec S k r0 path rest node (removeAt f node k r0 rest) := by
  intro f
  induction f with
  | zero =>
    intro node path rest _ h
    omega
  | succ f ih =>
    intro node path rest hkr hf hw
    cases node with
    | Leaf key ids => exact removeAt_leaf S k r0 f key ids path rest hw
    | Inner type pre children =>
      cases hd : descend pre rest with
      | none =>
        have hrem : removeAt (f + 1) (RadixNode.Inner type pre children) k r0 rest =
            some (RadixNode.Inner type pre children) := by
          simp only [removeAt, hd]
        rw [hrem]
        apply removeAt_inner_same S k r0 type pre children path rest hw
        intro g
        cases g with
        | zero => rfl
        | succ g => rw [lookupAt_inner, hd]
      | some bt =>
        obtain ⟨b, t⟩ := bt
        cases hc : findChild children b with
        | none =>
          have hrem : removeAt (f + 1) (RadixNode.Inner type pre children) k r0 rest =
              some (RadixNode.Inner type pre children) := by
            simp only [removeAt, hd, hc]
          rw [hrem]
          apply removeAt_inner_same S k r0 type pre children path rest hw
          intro g
          cases g with
          | zero => rfl
          | succ g => rw [lookupAt_inner, hd]; simp only [hc]
        | some child =>
          have hrest := (descend_eq_some _ _ _ _).1 hd
          have hkb : k = path ++ pre ++ [b] ++ t := by
            rw [hkr, hrest]
            simp
          have htl : t.length < f := by
            rw [hrest] at hf
            simp only [List.length_append, List.length_cons] at hf
            omega
          have IH := ih child (path ++ pre ++ [b]) t hkb htl ((WF_inner_inv hw).2 b child hc)
          cases hr : removeAt f child k r0 t with
          | some child1 =>
            rw [hr] at IH
            exact removeAt_inner_descend S k r0 f type pre children path rest hw b t hd child hc
              child1 hr IH
          | none =>
            rw [hr] at IH
            exact removeAt_inner_drop S k r0 f type pre children path rest hkr hw b t hd child hc
              hr IH

end RadixIndex

namespace RadixIndex

/-! ## The radix index: operations on the index -/

theorem insert_spec (S : List Nat → Prop) (hS : ∀ a b, S a → S b → a <+: b → a = b)
    (idx : RadixIndex) (k : List Nat) (r0 : Int) (hk : S k) (hw : wellFormed S idx) :
    wellFormed S (idx.insert k r0).2 ∧
    (idx.insert k r0).2.is_unique = idx.is_unique ∧
    (idx.insert k r0).2.lookup k =
      (if idx.is_unique = true ∧ idx.lookup k ≠ [] then idx.lookup k
        else idx.lookup k ++ [r0]) ∧
    (∀ k2, S k2 → k2 ≠ k → (idx.insert k r0).2.lookup k2 = idx.lookup k2) := by
  cases hroot : idx.root with
  | none =>
    have hins : idx.insert k r0 =
        (true, { idx with root := some (RadixNode.Leaf k [r0]) }) := by
      simp only [insert, hroot]
    rw [hins]
    refine ⟨?_, rfl, ?_, fun k2 _ hne => ?_⟩
    · intro node hnode
      simp only [Option.some.injEq] at hnode
      rw [← hnode]
      exact WF.leaf _ _ _ hk ⟨k, rfl⟩ (by simp)
    · simp [lookup, hroot, lookupAt]
    · simp only [lookup, hroot]
      exact lookupAt_leaf_ne k k2 _ _ _ (fun h => hne h.symm)
  | some node =>
    have hins : idx.insert k r0 =
        ((insertAt idx.is_unique (k.length + 1) node k r0 k).1,
          { idx with root := some (insertAt idx.is_unique (k.length + 1) node k r0 k).2 }) := by
      simp only [insert, hroot]
    rw [hins]
    obtain ⟨I1, I2, I3, I4⟩ := insertAt_spec S hS idx.is_unique k r0 hk (k.length + 1) node [] k
      rfl (by omega) (hw node hroot)
    generalize insertAt idx.is_unique (k.length + 1) node k r0 k = ins at I1 I2 I3 I4 ⊢
    refine ⟨?_, rfl, ?_, fun k2 hS2 hne => ?_⟩
    · intro node1 hnode
      simp only [Option.some.injEq] at hnode
      rw [← hnode]
      exact I1
    · simp only [lookup, hroot]
      rw [I2 (k.length + 1) (by omega)]
      cases h1 : ins.1 with
      | true =>
        have h2 : ¬ (idx.is_unique = true ∧ lookupAt (k.length + 1) node k k ≠ []) := by
          intro h
          have := I3.2 h
          rw [h1] at this
          exact absurd this (by simp)
        simp only [if_true, h2, if_false]
      | false =>
        have h2 := I3.1 h1
        rw [if_neg (by simp), if_pos h2]
    · simp only [lookup, hroot]
      exact I4 k2 k2 (k2.length + 1) hS2 rfl hne (by omega)

theorem remove_spec (S : List Nat → Prop)
    (idx : RadixIndex) (k : List Nat) (r0 : Int) (hw : wellFormed S idx) :
    wellFormed S (idx.remove k r0) ∧
    (idx.remove k r0).is_unique = idx.is_unique ∧
    (idx.remove k r0).lookup k = (idx.lookup k).erase r0 ∧
    (∀ k2, S k2 → k2 ≠ k → (idx.remove k r0).lookup k2 = idx.lookup k2) := by
  cases hroot : idx.root with
  | none =>
    have hrem : idx.remove k r0 = idx := by
      simp only [remove, hroot]
    rw [hrem]
    refine ⟨hw, rfl, ?_, fun k2 _ _ => rfl⟩
    simp [lookup, hroot]
  | some node =>
    have hrem : idx.remove k r0 =
        { idx with root := removeAt (k.length + 1) node k r0 k } := by
      simp only [remove, hroot]
    rw [hrem]
    have R := removeAt_spec S k r0 (k.length + 1) node [] k rfl (by omega) (hw node hroot)
    cases hr : removeAt (k.length + 1) node k r0 k with
    | none =>
      rw [hr] at R
      obtain ⟨R1, R2⟩ := R
      refine ⟨?_, rfl, ?_, fun k2 hS2 hne => ?_⟩
      · intro node1 hnode
        simp at hnode
      · simp only [lookup, hroot]
        exact (R1 (k.length + 1) (by omega)).symm
      · simp only [lookup, hroot]
        exact (R2 k2 k2 (k2.length + 1) hS2 rfl hne (by omega)).symm
    | some node1 =>
      rw [hr] at R
      obtain ⟨R0, R1, R2⟩ := R
      refine ⟨?_, rfl, ?_, fun k2 hS2 hne => ?_⟩
      · intro node2 hnode
        simp only [Option.some.injEq] at hnode
        rw [← hnode]
        exact R0
      · simp only [lookup, hroot]
        exact R1 (k.length + 1) (by omega)
      · simp only [lookup, hroot]
        exact R2 k2 k2 (k2.length + 1) hS2 rfl hne (by omega)

/-- One operation on a well-formed index: the lookups afterwards are the row
identifiers inserted before, changed by the operation. -/
theorem apply_spec (S : List Nat → Prop) (hS : ∀ a b, S a → S b → a <+: b → a = b)
    (idx : RadixIndex) (op : Op) (hk : S op.key) (hw : wellFormed S idx) :
    wellFormed S (idx.apply op) ∧
    (idx.apply op).is_unique = idx.is_unique ∧
    (∀ k, S k → (idx.apply op).lookup k = insertedStep idx.is_unique k (idx.lookup k) op) := by
  cases op with
  | insert k0 r0 =>
    obtain ⟨h1, h2, h3, h4⟩ := insert_spec S hS idx k0 r0 hk hw
    refine ⟨h1, h2, fun k hSk => ?_⟩
    by_cases hkk : k0 = k
    · subst hkk
      simp only [apply, insertedStep, if_true]
      rw [h3]
    · simp only [apply, insertedStep, hkk, if_false]
      exact h4 k hSk (fun h => hkk h.symm)
  | remove k0 r0 =>
    obtain ⟨h1, h2, h3, h4⟩ := remove_spec S idx k0 r0 hw
    refine ⟨h1, h2, fun k hSk => ?_⟩
    by_cases hkk : k0 = k
    · subst hkk
      simp only [apply, insertedStep, if_true]
      rw [h3]
    · simp only [apply, insertedStep, hkk, if_false]
      exact h4 k hSk (fun h => hkk h.symm)

/-- A sequence of operations on a well-formed index. -/
theorem run_spec (S : List Nat → Prop) (hS : ∀ a b, S a → S b → a <+: b → a = b)
    (ops : List Op) :
    ∀ (idx : RadixIndex), wellFormed S idx → (∀ op, op ∈ ops → S op.key) →
      ∀ k, S k → (idx.run ops).lookup k =
        ops.foldl (insertedStep idx.is_unique k) (idx.lookup k) := by
  induction ops with
  | nil =>
    intro idx _ _ k _
    rfl
  | cons op ops ih =>
    intro idx hw hops k hSk
    obtain ⟨h1, h2, h3⟩ := apply_spec S hS idx op (hops op (List.mem_cons_self _ _)) hw
    have := ih (idx.apply op) h1 (fun o ho => hops o (List.mem_cons_of_mem _ ho)) k hSk
    simp only [run, List.foldl_cons] at this ⊢
    rw [this, h2, h3 k hSk]

end RadixIndex

/-! # The claims -/

namespace ArtKey

/-- C1: for each signed integer type and all values `a`, `b` of that type,
with `is_little_endian` equal to the host byte order, the key bytes of `a` are
lexicographically (unsigned, byte by byte) less than those of `b` if and only
if `a < b`; in particular a negative value sorts before a non-negative one. -/
theorem CreateData_int_order (t : IntType) (hostLE : Bool) (a b : Int)
    (ha : InRange t.bytes a) (hb : InRange t.bytes b) :
    (List.Lex (· < ·) (CreateData_int t hostLE a hostLE) (CreateData_int t hostLE b hostLE)
      ↔ a < b) ∧
    (a < 0 → 0 ≤ b →
      List.Lex (· < ·) (CreateData_int t hostLE a hostLE) (CreateData_int t hostLE b hostLE)) := by
  have key : List.Lex (· < ·) (CreateData_int t hostLE a hostLE)
      (CreateData_int t hostLE b hostLE) ↔ a < b := by
    rw [lex_iff_beValue _ _ (by simp only [createData_int_length])
      (createData_int_lt t hostLE a) (createData_int_lt t hostLE b)]
    have h1 := beValue_createData_int t hostLE a ha
    have h2 := beValue_createData_int t hostLE b hb
    omega
  exact ⟨key, fun h1 h2 => key.2 (by omega)⟩

theorem CreateData_int_order_witness :
    InRange IntType.int32.bytes (-2) ∧ InRange IntType.int32.bytes 1 ∧
    ((List.Lex (· < ·) (CreateData_int .int32 true (-2) true) (CreateData_int .int32 true 1 true)
      ↔ (-2 : Int) < 1) ∧
    ((-2 : Int) < 0 → (0 : Int) ≤ 1 →
      List.Lex (· < ·) (CreateData_int .int32 true (-2) true)
        (CreateData_int .int32 true 1 true))) :=
  ⟨by decide, by decide, CreateData_int_order .int32 true (-2) 1 (by decide) (by decide)⟩

/-- C2: for every signed integer `v` of width `w` bytes, the key produced by
`Key::CreateData` (flag equal to the host byte order) has `w` bytes and is the
big-endian two's-complement representation of `v` with only the top bit
(`^ 128`) of the first byte inverted; read as a big-endian unsigned number it
equals `v + 2^(8w-1)`. -/
theorem CreateData_int_bigEndian (t : IntType) (hostLE : Bool) (v : Int)
    (hv : InRange t.bytes v) :
    (∃ h tl, beBytes t.bytes (castU (8 * t.bytes) v) = h :: tl ∧
      CreateData_int t hostLE v hostLE = (h ^^^ 128) :: tl) ∧
    (CreateData_int t hostLE v hostLE).length = t.bytes ∧
    (beValue (CreateData_int t hostLE v hostLE) : Int) = v + 2 ^ (8 * t.bytes - 1) := by
  refine ⟨?_, createData_int_length t hostLE v, beValue_createData_int t hostLE v hv⟩
  rw [createData_int_eq]
  have hb : t.bytes = (t.bytes - 1) + 1 := by cases t <;> rfl
  rw [hb, beBytes_succ]
  exact ⟨_, _, rfl, by rw [flipFirst, flipSign_xor _ (Nat.mod_lt _ (by norm_num))]⟩

theorem CreateData_int_bigEndian_witness :
    InRange IntType.int16.bytes (-2) ∧
    ((∃ h tl, beBytes IntType.int16.bytes (castU (8 * IntType.int16.bytes) (-2)) = h :: tl ∧
      CreateData_int .int16 true (-2) true = (h ^^^ 128) :: tl) ∧
    (CreateData_int .int16 true (-2) true).length = IntType.int16.bytes ∧
    (beValue (CreateData_int .int16 true (-2) true) : Int)
      = -2 + 2 ^ (8 * IntType.int16.bytes - 1)) :=
  ⟨by decide, CreateData_int_bigEndian .int16 true (-2) (by decide)⟩

/-- C3 (evaluation at a failing input): `0.25 < 0.5`, as `float` and as
`double`, yet both values get the key of zero, so neither key is
lexicographically less than the other. -/
theorem float_key_order_fails :
    (F32.quarter.isNaN = false ∧ F32.half.isNaN = false ∧ F32.lt F32.quarter F32.half = true ∧
      ∀ hostLE dm,
        CreateData_float hostLE dm F32.quarter hostLE = some [128, 0, 0, 0] ∧
        CreateData_float hostLE dm F32.half hostLE = some [128, 0, 0, 0]) ∧
    (F64.quarter.isNaN = false ∧ F64.half.isNaN = false ∧ F64.lt F64.quarter F64.half = true ∧
      ∀ hostLE dm,
        CreateData_double hostLE dm F64.quarter hostLE = some [128, 0, 0, 0, 0, 0, 0, 0] ∧
        CreateData_double hostLE dm F64.half hostLE = some [128, 0, 0, 0, 0, 0, 0, 0]) ∧
    ¬ List.Lex (· < ·) [128, 0, 0, 0] [128, 0, 0, 0] ∧
    ¬ List.Lex (· < ·) [128, 0, 0, 0, 0, 0, 0, 0] [128, 0, 0, 0, 0, 0, 0, 0] := by
  refine ⟨⟨by decide, by decide, by decide, ?_⟩, ⟨by decide, by decide, by decide, ?_⟩,
    by decide, by decide⟩
  · intro hostLE dm; cases hostLE <;> cases dm <;> decide
  · intro hostLE dm; cases hostLE <;> cases dm <;> decide

/-- C4 (evaluation at a failing input): the `float` values `3.45` and `3.5`
are not equal, yet both get the key of the integer 3; likewise as `double`. -/
theorem float_key_collision :
    (F32.v3_45.isFinite = true ∧ F32.v3_5.isFinite = true ∧
      F32.eq F32.v3_45 F32.v3_5 = false ∧
      ∀ hostLE dm,
        CreateData_float hostLE dm F32.v3_45 hostLE = some [128, 0, 0, 3] ∧
        CreateData_float hostLE dm F32.v3_5 hostLE = some [128, 0, 0, 3]) ∧
    (F64.v3_45.isFinite = true ∧ F64.v3_5.isFinite = true ∧
      F64.eq F64.v3_45 F64.v3_5 = false ∧
      ∀ hostLE dm,
        CreateData_double hostLE dm F64.v3_45 hostLE = some [128, 0, 0, 0, 0, 0, 0, 3] ∧
        CreateData_double hostLE dm F64.v3_5 hostLE = some [128, 0, 0, 0, 0, 0, 0, 3]) := by
  refine ⟨⟨by decide, by decide, by decide, ?_⟩, ⟨by decide, by decide, by decide, ?_⟩⟩
  · intro hostLE dm; cases hostLE <;> cases dm <;> decide
  · intro hostLE dm; cases hostLE <;> cases dm <;> decide

/-- C5 (evaluation at a failing input): the finite `float` `2^31` gets the
all-zero key, which is not above the key of `-infinity`, and the finite `float`
`2139095040` gets the very key of `+infinity`; the finite `double` `2^63` gets
the all-zero key, which is not above the key of `-infinity`. -/
theorem float_infinity_bounds_fail :
    (F32.two31.isFinite = true ∧ F32.v2139095040.isFinite = true ∧
      ∀ hostLE dm,
        CreateData_float hostLE dm F32.two31 hostLE = some [0, 0, 0, 0] ∧
        CreateData_float hostLE dm (F32.neg F32.inf) hostLE = some [127, 128, 0, 0] ∧
        CreateData_float hostLE dm F32.v2139095040 hostLE = some [255, 128, 0, 0] ∧
        CreateData_float hostLE dm F32.inf hostLE = some [255, 128, 0, 0]) ∧
    (F64.two63.isFinite = true ∧
      ∀ hostLE dm,
        CreateData_double hostLE dm F64.two63 hostLE = some [0, 0, 0, 0, 0, 0, 0, 0] ∧
        CreateData_double hostLE dm (F64.neg F64.inf) hostLE
          = some [127, 240, 0, 0, 0, 0, 0, 0]) ∧
    ¬ List.Lex (· < ·) [127, 128, 0, 0] [0, 0, 0, 0] ∧
    ¬ List.Lex (· < ·) [255, 128, 0, 0] [255, 128, 0, 0] ∧
    ¬ List.Lex (· < ·) [127, 240, 0, 0, 0, 0, 0, 0] [0, 0, 0, 0, 0, 0, 0, 0] := by
  refine ⟨⟨by decide, by decide, ?_⟩, ⟨by decide, ?_⟩, by decide, by decide, by decide⟩
  · intro hostLE dm; cases hostLE <;> cases dm <;> decide
  · intro hostLE dm; cases hostLE <;> cases dm <;> decide

/-- C6: every NaN input, whatever its bit pattern, produces one and the same
key, and that key differs from the key of every non-NaN value (zero, finite or
infinite), for FLOAT and for DOUBLE. Here `x`, `x'` are NaNs and `y` is not;
every one of them has a key, and the statement holds for every host byte order,
data model and flag. For a finite value whose conversion to the unsigned type
C++ leaves undefined, the key is the one the code compiled for x86-64 produces. -/
theorem NaN_key_fixed_and_distinct (hostLE le : Bool) (dm : DataModel)
    (x x' y : F32) (u u' v : F64)
    (hx : x.isNaN = true) (hx' : x'.isNaN = true) (hy : y.isNaN = false)
    (hu : u.isNaN = true) (hu' : u'.isNaN = true) (hv : v.isNaN = false) :
    ((CreateData_float hostLE dm x le).isSome = true ∧
      CreateData_float hostLE dm x le = CreateData_float hostLE dm x' le ∧
      (CreateData_float hostLE dm y le).isSome = true ∧
      CreateData_float hostLE dm y le ≠ CreateData_float hostLE dm x le) ∧
    ((CreateData_double hostLE dm u le).isSome = true ∧
      CreateData_double hostLE dm u le = CreateData_double hostLE dm u' le ∧
      (CreateData_double hostLE dm v le).isSome = true ∧
      CreateData_double hostLE dm v le ≠ CreateData_double hostLE dm u le) := by
  constructor
  · unfold CreateData_float
    rw [encodeFloat_nan dm x hx, encodeFloat_nan dm x' hx']
    have hsome := encodeFloat_isSome dm y
    cases hc : EncodeFloat dm y with
    | none =>
      rw [hc] at hsome
      exact absurd hsome (by simp)
    | some c =>
      refine ⟨rfl, rfl, rfl, ?_⟩
      simp only [Option.map_some', ne_eq, Option.some.injEq]
      intro hk
      have := floatBuffer_inj hostLE le c 2139096274 (encodeFloat_lt dm y c hc) (by norm_num) hk
      exact encodeFloat_ne_nan dm y hy (by rw [hc, this])
  · unfold CreateData_double
    rw [encodeDouble_nan dm u hu, encodeDouble_nan dm u' hu']
    have hsome := encodeDouble_isSome dm v
    cases hc : EncodeDouble dm v with
    | none =>
      rw [hc] at hsome
      exact absurd hsome (by simp)
    | some c =>
      refine ⟨rfl, rfl, rfl, ?_⟩
      simp only [Option.map_some', ne_eq, Option.some.injEq]
      intro hk
      have := doubleBuffer_inj hostLE le c 9218868437227406546 (encodeDouble_lt dm v c hc)
        (by norm_num) hk
      exact encodeDouble_ne_nan dm v hv (by rw [hc, this])

theorem NaN_key_fixed_and_distinct_witness :
    F32.nan1.isNaN = true ∧ F32.nan2.isNaN = true ∧ (F32.neg F32.v3_5).isNaN = false ∧
    F64.nan1.isNaN = true ∧ F64.nan2.isNaN = true ∧ (F64.neg F64.v3_5).isNaN = false ∧
    CreateData_float true .long64 F32.nan1 true = some [255, 128, 4, 210] ∧
    CreateData_float true .long64 (F32.neg F32.v3_5) true = some [127, 255, 255, 253] ∧
    CreateData_float true .long64 FLT_MAX true = some [128, 0, 0, 0] ∧
    CreateData_double true .long64 (F64.neg F64.v3_5) true
      = some [127, 255, 255, 255, 255, 255, 255, 253] ∧
    (((CreateData_float true .long64 F32.nan1 true).isSome = true ∧
      CreateData_float true .long64 F32.nan1 true = CreateData_float true .long64 F32.nan2 true ∧
      (CreateData_float true .long64 (F32.neg F32.v3_5) true).isSome = true ∧
      CreateData_float true .long64 (F32.neg F32.v3_5) true
        ≠ CreateData_float true .long64 F32.nan1 true) ∧
    ((CreateData_double true .long64 F64.nan1 true).isSome = true ∧
      CreateData_double true .long64 F64.nan1 true
        = CreateData_double true .long64 F64.nan2 true ∧
      (CreateData_double true .long64 (F64.neg F64.v3_5) true).isSome = true ∧
      CreateData_double true .long64 (F64.neg F64.v3_5) true
        ≠ CreateData_double true .long64 F64.nan1 true)) :=
  ⟨by decide, by decide, by decide, by decide, by decide, by decide, by decide, by decide,
    by decide, by decide,
    NaN_key_fixed_and_distinct true true .long64 F32.nan1 F32.nan2 (F32.neg F32.v3_5)
      F64.nan1 F64.nan2 (F64.neg F64.v3_5) (by decide) (by decide) (by decide) (by decide)
      (by decide) (by decide)⟩

/-- C7: `+0.0` and `-0.0` produce identical keys, for FLOAT and for DOUBLE
(for every host byte order, data model and flag). -/
theorem signed_zero_keys_equal (hostLE le : Bool) (dm : DataModel) :
    ((CreateData_float hostLE dm F32.zero le).isSome = true ∧
      CreateData_float hostLE dm F32.zero le
        = CreateData_float hostLE dm (F32.neg F32.zero) le) ∧
    ((CreateData_double hostLE dm F64.zero le).isSome = true ∧
      CreateData_double hostLE dm F64.zero le
        = CreateData_double hostLE dm (F64.neg F64.zero) le) := by
  cases hostLE <;> cases le <;> cases dm <;> decide

/-- C8: for a string `s`, `Key::CreateKey` yields a key of length `|s| + 1`
made of the bytes of `s` followed by one zero terminator byte, so that for any
two distinct strings `s` and `t` containing no zero byte the key of `s` is not
a prefix of the key of `t`. -/
theorem CreateKey_string_terminated (s t : List Nat) (le : Bool) (hne : s ≠ t)
    (_hs : 0 ∉ s) (ht : 0 ∉ t) :
    (CreateKey_string s le).len = s.length + 1 ∧
    (CreateKey_string s le).data = s ++ [0] ∧
    (CreateKey_string s le).data.length = (CreateKey_string s le).len ∧
    ¬ List.IsPrefix (CreateKey_string s le).data (CreateKey_string t le).data := by
  rw [createKey_string_eq, createKey_string_eq]
  refine ⟨by simp, rfl, rfl, ?_⟩
  rintro ⟨r, hr⟩
  simp only at hr
  rcases List.eq_nil_or_concat r with rfl | ⟨r', c, rfl⟩
  · rw [List.append_nil] at hr
    exact hne (List.append_cancel_right hr)
  · rw [List.concat_eq_append, ← List.append_assoc] at hr
    have h := List.append_inj_left' hr rfl
    apply ht
    rw [← h]
    simp

theorem CreateKey_string_terminated_witness :
    ([97] : List Nat) ≠ [97, 98] ∧ 0 ∉ ([97] : List Nat) ∧ 0 ∉ ([97, 98] : List Nat) ∧
    ((CreateKey_string [97] true).len = ([97] : List Nat).length + 1 ∧
    (CreateKey_string [97] true).data = [97] ++ [0] ∧
    (CreateKey_string [97] true).data.length = (CreateKey_string [97] true).len ∧
    ¬ List.IsPrefix (CreateKey_string [97] true).data (CreateKey_string [97, 98] true).data) :=
  ⟨by decide, by decide, by decide,
    CreateKey_string_terminated [97] [97, 98] true (by decide) (by decide) (by decide)⟩

/-- C9: for all strings `s` and `t` (without zero bytes in particular, and
with them as well), `key(t) > key(s)` under `Key::operator>` exactly when `t`
is greater than `s` in unsigned byte-wise lexicographic order; in particular
the key of a string sorts strictly before the key of each of its proper
extensions. -/
theorem CreateKey_string_order (s t : List Nat) (le : Bool) :
    (Key.gt (CreateKey_string t le) (CreateKey_string s le) = true
      ↔ List.Lex (· < ·) s t) ∧
    (∀ u : List Nat, u ≠ [] → t = s ++ u →
      Key.gt (CreateKey_string t le) (CreateKey_string s le) = true) := by
  have key : Key.gt (CreateKey_string t le) (CreateKey_string s le) = true
      ↔ List.Lex (· < ·) s t := by
    rw [createKey_string_eq, createKey_string_eq, gt_iff_lex, lex_append_zero]
  refine ⟨key, fun u hu htu => key.2 ?_⟩
  subst htu
  clear key
  induction s with
  | nil =>
    cases u with
    | nil => exact absurd rfl hu
    | cons c u => exact List.Lex.nil
  | cons x xs ih => exact List.Lex.cons ih

/-- C10: for all keys `a` and `b`, `Key::operator>` returns true exactly when,
at the first position below `min(len(a), len(b))` where the bytes differ,
the byte of `a` is the larger one as an unsigned value, or when no such
position exists and `a` is longer than `b`. -/
theorem Key_gt_spec (a b : Key) :
    Key.gt a b = true ↔
      (∃ p, p < min a.len b.len ∧ (∀ j, j < p → a.at j = b.at j) ∧ a.at p > b.at p) ∨
      ((∀ j, j < min a.len b.len → a.at j = b.at j) ∧ a.len > b.len) := by
  unfold Key.gt
  rw [gtLoop_spec]
  simp

end ArtKey

namespace LocalStore

/-- C11: if any of the private shadow unique indexes of the table rejects the
chunk, `LocalStorage::Append` throws a ConstraintException and the buffered row
collection of the table is exactly as before the call: no row of the chunk is
buffered. -/
theorem Append_rejected_buffers_nothing (K : Constants) (ls : LocalStorage)
    (table : DataTable) (chunk : DataChunk)
    (hrej : ∃ index ∈ (ls.storageFor table).indexes,
      index.Append chunk ((K.MAX_ROW_ID : Int) + (ls.storageFor table).collection.count)
        = none) :
    (ls.Append K table chunk).1 = some Exn.ConstraintException ∧
    ((ls.Append K table chunk).2.storageFor table).collection
      = (ls.storageFor table).collection := by
  have hlen : (ls.storageFor table).indexes.length > 0 := by
    obtain ⟨x, hx, _⟩ := hrej
    exact List.length_pos_of_mem hx
  have hf := appendToLocalIndexes_reject chunk _ _ hrej
  unfold LocalStorage.Append
  simp only [hlen, if_true, hf, Bool.not_false]
  rw [storageFor_after_set]
  exact ⟨trivial, rfl⟩

theorem Append_rejected_buffers_nothing_witness :
    (∃ index ∈ (exampleLS.storageFor exampleTable2).indexes,
      index.Append (rowChunk 1 2)
        ((exampleK.MAX_ROW_ID : Int) + (exampleLS.storageFor exampleTable2).collection.count)
        = none) ∧
    ((exampleLS.Append exampleK exampleTable2 (rowChunk 1 2)).1
        = some Exn.ConstraintException ∧
      ((exampleLS.Append exampleK exampleTable2 (rowChunk 1 2)).2.storageFor
          exampleTable2).collection
        = (exampleLS.storageFor exampleTable2).collection) :=
  ⟨⟨{ column_ids := [0], is_unique := true, entries := [([1], 1000)] },
      List.mem_cons_self _ _, by decide⟩,
    Append_rejected_buffers_nothing exampleK exampleLS exampleTable2 (rowChunk 1 2)
      ⟨{ column_ids := [0], is_unique := true, entries := [([1], 1000)] },
        List.mem_cons_self _ _, by decide⟩⟩

/-- C12 (evaluation at a failing input): the table has two unique indexes and
the transaction has buffered the row (1, 1). The insert of the row (2, 1) is
accepted by the index on the first column and rejected by the index on the
second: `Append` throws, the row is not buffered, but the first shadow index
keeps the key 2. The following insert of the row (2, 3), which collides with no
buffered row, is then rejected. -/
theorem Append_failure_keeps_index_entries :
    (exampleLS.storageFor exampleTable2).collection.chunks.map DataChunk.rows = [[[1, 1]]] ∧
    (exampleLS.storageFor exampleTable2).indexes.map ART.entries
      = [[([1], 1000)], [([1], 1000)]] ∧
    (exampleLS.Append exampleK exampleTable2 (rowChunk 2 1)).1
      = some Exn.ConstraintException ∧
    ((exampleLS.Append exampleK exampleTable2 (rowChunk 2 1)).2.storageFor
        exampleTable2).collection.chunks.map DataChunk.rows = [[[1, 1]]] ∧
    ((exampleLS.Append exampleK exampleTable2 (rowChunk 2 1)).2.storageFor
        exampleTable2).indexes.map ART.entries
      = [[([1], 1000), ([2], 1001)], [([1], 1000)]] ∧
    (LocalStorage.Append exampleK (exampleLS.Append exampleK exampleTable2 (rowChunk 2 1)).2
        exampleTable2 (rowChunk 2 3)).1 = some Exn.ConstraintException ∧
    (exampleLS.Append exampleK exampleTable2 (rowChunk 2 3)).1 = none := by
  decide

/-- C13: when `LocalStorage::CheckCommit` detects a collision it throws exactly
one ConstraintException, and at that point every shared index of every table
holds exactly the entries it held before `CheckCommit` was called: each chunk
this call had appended to the shared indexes has been removed again with the
same starting row id. This holds whenever `CheckCommit` has a result, and it has
one when every local table storage holds a chunk. Here every local table storage
has `max_row` 0, as its constructor leaves it. -/
theorem CheckCommit_restores_indexes (K : Constants) (ls : LocalStorage)
    (hmax : ∀ e ∈ ls.table_storage, e.storage.max_row = 0) :
    (∀ r, ls.CheckCommit K = some r →
      (r.1 = none ∨ r.1 = some Exn.ConstraintException) ∧
      (r.1 = some Exn.ConstraintException →
        List.Forall₂ (fun e e' => e.table.sameIndexes e'.table)
          ls.table_storage r.2.table_storage)) ∧
    ((∀ e ∈ ls.table_storage, e.storage.collection.chunks ≠ []) →
      (ls.CheckCommit K).isSome = true) := by
  have key : ∀ out, checkCommitLoop1 K ls.table_storage true = some out →
      ∃ r, ls.CheckCommit K = some r ∧
        (r.1 = none ∨ r.1 = some Exn.ConstraintException) ∧
        (r.1 = some Exn.ConstraintException →
          List.Forall₂ (fun e e' => e.table.sameIndexes e'.table)
            ls.table_storage r.2.table_storage) := by
    intro out h1
    have hf := loop1_spec K ls.table_storage true hmax out h1
    obtain ⟨out2, h2, hf2⟩ := loop2_spec K ls.table_storage out.1 hf
    unfold LocalStorage.CheckCommit
    rw [h1]
    simp only
    by_cases hs : out.2 = true
    · simp only [hs, Bool.not_true, Bool.false_eq_true, if_false]
      exact ⟨_, rfl, Or.inl rfl, fun h => by simp at h⟩
    · have hs' : out.2 = false := by simpa using hs
      simp only [hs', Bool.not_false, if_true, h2]
      refine ⟨_, rfl, Or.inr rfl, fun _ => ?_⟩
      simp only
      rw [List.forall₂_map_right_iff]
      exact hf2
  constructor
  · intro r hr
    cases h1 : checkCommitLoop1 K ls.table_storage true with
    | none =>
      unfold LocalStorage.CheckCommit at hr
      rw [h1] at hr
      simp at hr
    | some out =>
      obtain ⟨r', hr', hprop⟩ := key out h1
      rw [hr] at hr'
      rw [Option.some.inj hr']
      exact hprop
  · intro hwf
    have hd := loop1_defined K ls.table_storage true hwf
    cases h1 : checkCommitLoop1 K ls.table_storage true with
    | none =>
      rw [h1] at hd
      exact absurd hd (by simp)
    | some out =>
      obtain ⟨r', hr', _⟩ := key out h1
      rw [hr']
      rfl

theorem CheckCommit_restores_indexes_witness :
    (∀ e ∈ exampleLS3conflictEmpty.table_storage, e.storage.max_row = 0) ∧
    exampleLS3conflictEmpty.table_storage.map (fun e => e.storage.collection.chunks.length)
      = [2, 0] ∧
    (exampleLS3conflictEmpty.CheckCommit exampleK2).map (fun r => r.1)
      = some (some Exn.ConstraintException) ∧
    ((∀ r, exampleLS3conflictEmpty.CheckCommit exampleK2 = some r →
      (r.1 = none ∨ r.1 = some Exn.ConstraintException) ∧
      (r.1 = some Exn.ConstraintException →
        List.Forall₂ (fun e e' => e.table.sameIndexes e'.table)
          exampleLS3conflictEmpty.table_storage r.2.table_storage)) ∧
    ((∀ e ∈ exampleLS3conflictEmpty.table_storage, e.storage.collection.chunks ≠ []) →
      (exampleLS3conflictEmpty.CheckCommit exampleK2).isSome = true)) :=
  ⟨by decide, by decide, by decide,
    CheckCommit_restores_indexes exampleK2 exampleLS3conflictEmpty (by decide)⟩

/-- C14 (evaluation at a failing input): the transaction has buffered a full
chunk with the rows 1, 2 and a second chunk with the row 3, and has deleted the
rows 1 and 2 again. `Commit` appends nothing to the base table: the scan of the
first chunk returns no row, which `ScanTableStorage` takes for the end of the
scan, and the row 3 is lost. Without the deletion all three rows are appended. -/
theorem Commit_stops_at_deleted_chunk :
    (exampleLS3del.storageFor exampleTable1).collection.chunks.map DataChunk.rows
      = [[[1], [2]], [[3]]] ∧
    ((findDeleted (exampleLS3del.storageFor exampleTable1).deleted_entries 0).map
      (fun d => (d 0, d 1))) = some (true, true) ∧
    (findDeleted (exampleLS3del.storageFor exampleTable1).deleted_entries 1).isNone = true ∧
    (exampleLS3del.Commit exampleK2 none).map (fun r => r.1.map DataTable.rows) = some [[]] ∧
    (exampleLS3.Commit exampleK2 none).map (fun r => r.1.map DataTable.rows)
      = some [[[1], [2], [3]]] := by
  decide

/-- C15: `LocalStorage::Scan` of a chunk that has a deletion bitmap returns a
selection consisting of exactly the positions `i` below the row count of the
chunk with `deleted[i]` false, in ascending order, with a count equal to their
number; for a chunk without a bitmap it returns all rows of the chunk with no
selection vector. Here the scan was started by `InitializeScan` and has
reached the chunk `c`. -/
theorem Scan_selection (K : Constants) (st : LocalTableStorage) (s0 : LocalScanState)
    (c : Nat) (column_ids : List Nat) (result : DataChunk)
    (hinit : st.InitializeScan = some s0) (hc : c ≤ s0.max_index) :
    (∀ deleted, findDeleted st.deleted_entries c = some deleted →
      ∃ sel,
        (Scan K (some st) { s0 with chunk_index := c } column_ids result).1.sel_vector
          = some sel ∧
        sel.Pairwise (· < ·) ∧
        (∀ i, i ∈ sel ↔
          i < (st.collection.chunks.getD c { data := [], sel_vector := none }).size ∧
          deleted i = false) ∧
        (∀ v ∈ (Scan K (some st) { s0 with chunk_index := c } column_ids result).1.data,
          v.sel_vector = some sel ∧ v.count = sel.length)) ∧
    (findDeleted st.deleted_entries c = none →
      (Scan K (some st) { s0 with chunk_index := c } column_ids result).1.sel_vector = none ∧
      (∀ v ∈ (Scan K (some st) { s0 with chunk_index := c } column_ids result).1.data,
        v.sel_vector = none ∧
        v.count = (st.collection.chunks.getD c { data := [], sel_vector := none }).size) ∧
      (∀ j id, column_ids.get? j = some id → id ≠ K.COLUMN_IDENTIFIER_ROW_ID →
        ((Scan K (some st) { s0 with chunk_index := c } column_ids result).1.data.get? j).map
            (fun v => v.data)
          = some ((st.collection.chunks.getD c { data := [], sel_vector := none }).data.getD id
              { data := [], sel_vector := none, count := 0 }).data)) := by
  have hcc := chunk_count_eq st s0 hinit c
  have hnot : ¬ (c > s0.max_index) := by omega
  constructor
  · intro deleted hd
    refine ⟨selLoop deleted
      (st.collection.chunks.getD c { data := [], sel_vector := none }).size 0 [], ?_, ?_, ?_, ?_⟩
    · simp only [Scan, hnot, if_false, hd, hcc]
    · exact selLoop_sorted _ _
    · intro i; exact mem_selLoop _ _ _
    · intro v hv
      simp only [Scan, hnot, if_false, hd, hcc, List.mem_map] at hv
      obtain ⟨id, _, rfl⟩ := hv
      split_ifs <;> exact ⟨rfl, rfl⟩
  · intro hd
    refine ⟨?_, ?_, ?_⟩
    · simp only [Scan, hnot, if_false, hd, hcc]
    · intro v hv
      simp only [Scan, hnot, if_false, hd, hcc, List.mem_map] at hv
      obtain ⟨id, _, rfl⟩ := hv
      split_ifs <;> exact ⟨rfl, rfl⟩
    · intro j id hj hid
      simp only [Scan, hnot, if_false, hd, hcc, List.get?_eq_getElem?, List.getElem?_map]
      simp only [List.get?_eq_getElem?] at hj
      simp [hj, hid]

theorem Scan_selection_witness :
    exampleStorage.InitializeScan
      = some { chunk_index := 0, max_index := 0, last_chunk_count := 3 } ∧
    (0 : Nat) ≤ 0 ∧
    ((∀ deleted, findDeleted exampleStorage.deleted_entries 0 = some deleted →
      ∃ sel,
        (Scan exampleK (some exampleStorage)
          { ({ chunk_index := 0, max_index := 0, last_chunk_count := 3 } : LocalScanState)
            with chunk_index := 0 } [0] { data := [], sel_vector := none }).1.sel_vector
          = some sel ∧
        sel.Pairwise (· < ·) ∧
        (∀ i, i ∈ sel ↔
          i < (exampleStorage.collection.chunks.getD 0 { data := [], sel_vector := none }).size ∧
          deleted i = false) ∧
        (∀ v ∈ (Scan exampleK (some exampleStorage)
          { ({ chunk_index := 0, max_index := 0, last_chunk_count := 3 } : LocalScanState)
            with chunk_index := 0 } [0] { data := [], sel_vector := none }).1.data,
          v.sel_vector = some sel ∧ v.count = sel.length)) ∧
    (findDeleted exampleStorage.deleted_entries 0 = none →
      (Scan exampleK (some exampleStorage)
          { ({ chunk_index := 0, max_index := 0, last_chunk_count := 3 } : LocalScanState)
            with chunk_index := 0 } [0] { data := [], sel_vector := none }).1.sel_vector = none ∧
      (∀ v ∈ (Scan exampleK (some exampleStorage)
          { ({ chunk_index := 0, max_index := 0, last_chunk_count := 3 } : LocalScanState)
            with chunk_index := 0 } [0] { data := [], sel_vector := none }).1.data,
        v.sel_vector = none ∧
        v.count
          = (exampleStorage.collection.chunks.getD 0 { data := [], sel_vector := none }).size) ∧
      (∀ j id, [0].get? j = some id → id ≠ exampleK.COLUMN_IDENTIFIER_ROW_ID →
        ((Scan exampleK (some exampleStorage)
          { ({ chunk_index := 0, max_index := 0, last_chunk_count := 3 } : LocalScanState)
            with chunk_index := 0 } [0] { data := [], sel_vector := none }).1.data.get? j).map
            (fun v => v.data)
          = some ((exampleStorage.collection.chunks.getD 0
              { data := [], sel_vector := none }).data.getD id
              { data := [], sel_vector := none, count := 0 }).data))) :=
  ⟨by decide, by decide,
    Scan_selection exampleK exampleStorage
      { chunk_index := 0, max_index := 0, last_chunk_count := 3 } 0 [0]
      { data := [], sel_vector := none } (by decide) (by decide)⟩

/-- C16: the row identifier `Scan` reports for position `p` of the local chunk
`c` is `MAX_ROW_ID + c * STANDARD_VECTOR_SIZE + p`; for every such identifier
with `p < STANDARD_VECTOR_SIZE`, `GetChunk` recovers `c`, and
`LocalStorage::Delete` sets bit `p` of the deletion bitmap of chunk `c` and no
other bit (of this or of another chunk), so that the next scan of the chunk
returns the positions it returned before except `p`. -/
theorem rowid_scan_delete (K : Constants) (st : LocalTableStorage) (s0 : LocalScanState)
    (c p : Nat) (column_ids : List Nat) (result : DataChunk)
    (hinit : st.InitializeScan = some s0) (hc : c ≤ s0.max_index)
    (hp : p < K.STANDARD_VECTOR_SIZE)
    (hfit : K.MAX_ROW_ID + c * K.STANDARD_VECTOR_SIZE + p < 2 ^ 63) :
    (∀ j, column_ids.get? j = some K.COLUMN_IDENTIFIER_ROW_ID →
      p < (st.collection.chunks.getD c { data := [], sel_vector := none }).size →
      ((Scan K (some st) { s0 with chunk_index := c } column_ids result).1.data.get? j).map
          (fun v => v.data.get? p)
        = some (some ((K.MAX_ROW_ID : Int) + c * K.STANDARD_VECTOR_SIZE + p))) ∧
    GetChunk K { data := [(K.MAX_ROW_ID : Int) + c * K.STANDARD_VECTOR_SIZE + p],
                 sel_vector := none, count := 1 } = c ∧
    (∃ d', findDeleted (st.Delete K
          { data := [(K.MAX_ROW_ID : Int) + c * K.STANDARD_VECTOR_SIZE + p],
            sel_vector := none, count := 1 }).deleted_entries c = some d' ∧
      ∀ q, d' q = (decide (q = p) ||
        ((findDeleted st.deleted_entries c).getD (fun _ => false)) q)) ∧
    (∀ c', c' ≠ c →
      findDeleted (st.Delete K
          { data := [(K.MAX_ROW_ID : Int) + c * K.STANDARD_VECTOR_SIZE + p],
            sel_vector := none, count := 1 }).deleted_entries c'
        = findDeleted st.deleted_entries c') ∧
    (∃ sel, (Scan K (some (st.Delete K
          { data := [(K.MAX_ROW_ID : Int) + c * K.STANDARD_VECTOR_SIZE + p],
            sel_vector := none, count := 1 })) { s0 with chunk_index := c }
          column_ids result).1.sel_vector = some sel ∧
      ∀ i, i ∈ sel ↔
        i < (st.collection.chunks.getD c { data := [], sel_vector := none }).size ∧
        i ≠ p ∧ ((findDeleted st.deleted_entries c).getD (fun _ => false)) i = false) := by
  obtain ⟨hd1, hd2, hd3⟩ := delete_one K st c p hp hfit
  have hcc := chunk_count_eq st s0 hinit c
  have hnot : ¬ (c > s0.max_index) := by omega
  refine ⟨?_, getChunk_local K c p [] none 1 hp hfit, ⟨_, hd1, ?_⟩, hd2, ?_⟩
  · intro j hj hps
    simp only [List.get?_eq_getElem?] at hj
    simp only [Scan, hnot, if_false, hcc, List.get?_eq_getElem?, List.getElem?_map, hj,
      Option.map_some', if_true]
    rw [← List.get?_eq_getElem?, generateSequence_get _ _ _ hps]
  · intro q
    simp only [setDeleted]
    by_cases hq : q = p <;> simp [hq]
  · have hinit' := (initializeScan_congr st _ hd3).trans hinit
    have hcc' := chunk_count_eq _ s0 hinit' c
    rw [hd3] at hcc'
    refine ⟨selLoop (setDeleted ((findDeleted st.deleted_entries c).getD (fun _ => false)) p)
      (st.collection.chunks.getD c { data := [], sel_vector := none }).size 0 [], ?_, ?_⟩
    · simp only [Scan, hnot, if_false, hd1, hd3, hcc]
    · intro i
      rw [mem_selLoop]
      simp only [setDeleted]
      by_cases hi : i = p <;> simp [hi]

theorem rowid_scan_delete_witness :
    exampleStorage.InitializeScan
      = some { chunk_index := 0, max_index := 0, last_chunk_count := 3 } ∧
    (0 : Nat) ≤ 0 ∧ 2 < exampleK.STANDARD_VECTOR_SIZE ∧
    exampleK.MAX_ROW_ID + 0 * exampleK.STANDARD_VECTOR_SIZE + 2 < 2 ^ 63 ∧
    GetChunk exampleK
      { data := [(exampleK.MAX_ROW_ID : Int) + (0 : Nat) * exampleK.STANDARD_VECTOR_SIZE + (2 : Nat)],
        sel_vector := none, count := 1 } = 0 :=
  ⟨by decide, by decide, by decide, by decide,
    (rowid_scan_delete exampleK exampleStorage
      { chunk_index := 0, max_index := 0, last_chunk_count := 3 } 0 2 [0, 99]
      { data := [], sel_vector := none } (by decide) (by decide) (by decide) (by decide)).2.1⟩

end LocalStore

namespace StringSeg

open Transaction (UpdateInfo ColumnData SegmentRef)

/-- C17: `Update` of a string vector for which the transaction has no undo
entry yet (`node` is null), on strictly ascending row ids of the vector with one
value per id, followed by `RollbackUpdate` of the undo entry it returns: every
row of the vector has the null bit it had, and every row that is not null reads
back from `FetchBaseData` the string it read before. The segment is in a
consistent state: the string update list of the vector is ascending, an entry
without a block stands for a row that is null, and the strings the update list
and the big-string markers point to have been written. -/
theorem Update_RollbackUpdate_restores (C : Constants) (seg : StringSegment) (cd : ColumnData)
    (sref : SegmentRef) (tid : Nat) (update : List (Option String)) (ids : List Nat)
    (v off : Nat)
    (hlen : update.length = ids.length)
    (hasc : ids.Pairwise (fun x y => x < y))
    (hoff : ∀ rid ∈ ids, off ≤ rid)
    (hs : sortedEntries (seg.entriesOf v))
    (hnull : ∀ e ∈ seg.entriesOf v, e.2.block_id = C.INVALID_BLOCK →
      seg.base_nullmask v e.1 = true)
    (hupd : ∀ e ∈ seg.entriesOf v, e.2.block_id ≠ C.INVALID_BLOCK →
      seg.heap.allocated e.2.block_id e.2.offset)
    (hdict : ∀ i b o, seg.base_data v i ≠ 0 →
      seg.dictionary (seg.base_data v i) = DictEntry.marker b o → b ≠ C.INVALID_BLOCK →
      seg.heap.allocated b o) :
    ∀ i,
      (RollbackUpdate C (Update C seg cd sref tid update ids v off none).1
        (Update C seg cd sref tid update ids v off none).2).base_nullmask v i
        = seg.base_nullmask v i ∧
      (seg.base_nullmask v i = false → ∀ count,
        (FetchBaseData C (RollbackUpdate C (Update C seg cd sref tid update ids v off none).1
          (Update C seg cd sref tid update ids v off none).2) v count)[i]?
          = (FetchBaseData C seg v count)[i]?) := by
  have hids : (ids.map (fun rid => rid - off)).Pairwise (fun x y => x < y) := by
    rw [List.pairwise_map]
    refine List.Pairwise.imp_of_mem ?_ hasc
    intro a b ha hb hab
    have := hoff a ha
    have := hoff b hb
    omega
  obtain ⟨h1, h2, h3⟩ := update_rollback_spec C seg cd sref tid update ids v off hlen hids hs
    hnull hupd hdict
  intro i
  refine ⟨h1 i, ?_⟩
  intro hnn count
  rw [fetchBaseData_get C _ v count h2 i, fetchBaseData_get C seg v count hs i, h3 i hnn]

theorem Update_RollbackUpdate_restores_witness :
    (RollbackUpdate exampleC
      (Update exampleC exampleSeg1 exampleColumn exampleSegmentRef 8 [some "c", none] [0, 1]
        0 0 none).1
      (Update exampleC exampleSeg1 exampleColumn exampleSegmentRef 8 [some "c", none] [0, 1]
        0 0 none).2).base_nullmask 0 0 = exampleSeg1.base_nullmask 0 0 ∧
    (exampleSeg1.base_nullmask 0 0 = false → ∀ count,
      (FetchBaseData exampleC (RollbackUpdate exampleC
        (Update exampleC exampleSeg1 exampleColumn exampleSegmentRef 8 [some "c", none] [0, 1]
          0 0 none).1
        (Update exampleC exampleSeg1 exampleColumn exampleSegmentRef 8 [some "c", none] [0, 1]
          0 0 none).2) 0 count)[0]?
        = (FetchBaseData exampleC exampleSeg1 0 count)[0]?) :=
  Update_RollbackUpdate_restores exampleC exampleSeg1 exampleColumn exampleSegmentRef 8
    [some "c", none] [0, 1] 0 0 (by decide) (by decide) (by decide)
    (by unfold sortedEntries; decide)
    (by decide)
    (by
      intro e he _
      have he' : e = (0, { block_id := 100, offset := 0 }) := by
        have : e ∈ [((0 : Nat), ({ block_id := 100, offset := 0 } : string_location_t))] := he
        simpa using this
      subst he'
      exact ⟨by decide, by decide⟩)
    (by
      intro i b o _ h
      exact absurd h (by simp [exampleSeg1, exampleUpdate1, Update, exampleSeg]))
    0

/-- C18 (evaluation at a failing input): a vector whose row 0 holds "p" and whose
row 1 is NULL. One transaction updates row 0 and then row 1; the second `Update`
merges row 1 into the undo entry, and `MergeUpdateInfo` stores for it the null
bit found at position 0 of the update (`base_nullmask[aidx]`), which is the bit
of row 0. After `RollbackUpdate` row 1 is not NULL any more, and it reads the
null string. -/
theorem RollbackUpdate_merged_null_bit :
    exampleSeg.base_nullmask 0 1 = true ∧
    exampleUpdate2.2.tuples = [0, 1] ∧
    exampleUpdate2.2.nullmask 1 = false ∧
    exampleRollback.base_nullmask 0 0 = false ∧
    exampleRollback.base_nullmask 0 1 = false ∧
    FetchBaseData exampleC exampleRollback 0 2 = [some "p", none] := by
  decide

/-- C19: `MergeUpdateInfo` on an undo entry whose `N` row offsets are
strictly ascending, with new row ids whose offsets are strictly ascending and
one base location per id: afterwards the row offsets of the entry are strictly
ascending and are exactly the old offsets and the new ones, an offset that was
present keeps the location it had, and an offset that is new holds the base
location passed in for it. -/
theorem MergeUpdateInfo_union (C : Constants)
    (node : Transaction.UpdateInfo string_location_t) (ids : List Nat)
    (vector_offset : Nat) (base_data : List string_location_t) (base_nullmask : Nat → Bool)
    (hN : node.N = node.tuples.length) (hD : node.tuple_data.length = node.N)
    (hold : node.tuples.Pairwise (fun x y => x < y))
    (hids : (ids.map (fun rid => rid - vector_offset)).Pairwise (fun x y => x < y)) :
    (MergeUpdateInfo C node ids.length ids vector_offset base_data base_nullmask).tuples.Pairwise
        (fun x y => x < y) ∧
    (MergeUpdateInfo C node ids.length ids vector_offset base_data base_nullmask).N =
      (MergeUpdateInfo C node ids.length ids vector_offset base_data base_nullmask).tuples.length ∧
    (MergeUpdateInfo C node ids.length ids vector_offset base_data base_nullmask).tuple_data.length =
      (MergeUpdateInfo C node ids.length ids vector_offset base_data base_nullmask).N ∧
    (∀ id, id ∈ (MergeUpdateInfo C node ids.length ids vector_offset base_data
          base_nullmask).tuples ↔
        id ∈ node.tuples ∨ id ∈ ids.map (fun rid => rid - vector_offset)) ∧
    (∀ k (hk : k < node.tuples.length) (hk' : k < node.tuple_data.length),
        (node.tuples.get ⟨k, hk⟩, node.tuple_data.get ⟨k, hk'⟩) ∈
          (MergeUpdateInfo C node ids.length ids vector_offset base_data base_nullmask).tuples.zip
            (MergeUpdateInfo C node ids.length ids vector_offset base_data
              base_nullmask).tuple_data) ∧
    (∀ j (hj : j < ids.length) (hj' : j < base_data.length),
        ids.get ⟨j, hj⟩ - vector_offset ∉ node.tuples →
        (ids.get ⟨j, hj⟩ - vector_offset, base_data.get ⟨j, hj'⟩) ∈
          (MergeUpdateInfo C node ids.length ids vector_offset base_data base_nullmask).tuples.zip
            (MergeUpdateInfo C node ids.length ids vector_offset base_data
              base_nullmask).tuple_data) := by
  have ht : node.tuples.take node.N = node.tuples := by rw [hN]; exact List.take_length _
  have hd : node.tuple_data.take node.N = node.tuple_data := by rw [← hD]; exact List.take_length _
  obtain ⟨h1, h2, h3, h4⟩ := mergeInfoSteps_spec node.tuple_data base_data base_nullmask
    { block_id := C.INVALID_BLOCK, offset := 0 } vector_offset
    (ids.length + node.tuples.length) ids 0 node.tuples 0 node.nullmask (le_refl _) hids hold
  simp only [MergeUpdateInfo, merge_loop, ht, hd, List.take_length, zip_map_fst_snd,
    List.length_map]
  refine ⟨h2, trivial, trivial, ?_, ?_, ?_⟩
  · intro id
    rw [h1 id]
    tauto
  · intro k hk hk'
    have := h3 k hk
    rw [List.getD_eq_getElem _ _ hk, Nat.zero_add, List.getD_eq_getElem _ _ hk'] at this
    exact this
  · intro j hj hj' hnot
    have := h4 j hj (by rw [List.getD_eq_getElem _ _ hj]; exact hnot)
    rw [List.getD_eq_getElem _ _ hj, Nat.zero_add, List.getD_eq_getElem _ _ hj'] at this
    exact this

theorem MergeUpdateInfo_union_witness :
    exampleUpdate1.2.N = exampleUpdate1.2.tuples.length ∧
    exampleUpdate1.2.tuple_data.length = exampleUpdate1.2.N ∧
    exampleUpdate1.2.tuples.Pairwise (fun x y => x < y) ∧
    (([1] : List Nat).map (fun rid => rid - 0)).Pairwise (fun x y => x < y) ∧
    (MergeUpdateInfo exampleC exampleUpdate1.2 [1].length [1] 0
        [{ block_id := -1, offset := 0 }] (fun _ => false)).tuples.Pairwise
          (fun x y => x < y) :=
  ⟨by decide, by decide, by decide, by decide,
    (MergeUpdateInfo_union exampleC exampleUpdate1.2 [1] 0
      [{ block_id := -1, offset := 0 }] (fun _ => false)
      (by decide) (by decide) (by decide) (by decide)).1⟩

end StringSeg

namespace Transaction

/-- C20: `CommitEntry<HAS_LOG>` on an `UPDATE_TUPLE` entry does not throw and
leaves the undo entry with the commit id as its version number and every other
field as it was; this holds with and without a log and for a temporary table as
for any other. -/
theorem CommitEntry_UPDATE_TUPLE_version {α : Type} (V : Nat) (HAS_LOG : Bool)
    (st : CommitState) (info : UpdateInfo α) :
    (CommitEntry V HAS_LOG st (UndoEntry.UPDATE_TUPLE info)).1 = none ∧
    (CommitEntry V HAS_LOG st (UndoEntry.UPDATE_TUPLE info)).2.2
      = UndoEntry.UPDATE_TUPLE
          { column_data := info.column_data,
            segment := info.segment,
            version_number := st.commit_id,
            vector_index := info.vector_index,
            N := info.N,
            tuples := info.tuples,
            nullmask := info.nullmask,
            tuple_data := info.tuple_data } :=
  ⟨rfl, rfl⟩

end Transaction

namespace Transaction

open LocalStore (WalRecord DataChunk Vector Exn)

/-- C21: `CommitEntry` on a `DELETE_TUPLE` entry with count `n`, for a table whose
cardinality is at least `n`: with and without a log it does not throw, the
cardinality of the table goes down by exactly `n`, the rows `rows[i]`, `i < n`,
of the entry are marked as deleted by the commit id and the mark of every other
row is what it was; nothing else in the entry changes. -/
theorem CommitEntry_DELETE_TUPLE_marks {α : Type} (V : Nat) (HAS_LOG : Bool)
    (st : CommitState) (info : DeleteInfo)
    (hc : info.cardinality < 2 ^ 64) (hn : info.count ≤ info.cardinality) :
    (CommitEntry V HAS_LOG st (UndoEntry.DELETE_TUPLE info : UndoEntry α)).1 = none ∧
    (CommitEntry V HAS_LOG st (UndoEntry.DELETE_TUPLE info : UndoEntry α)).2.2 =
      UndoEntry.DELETE_TUPLE
        { info with
          cardinality := info.cardinality - info.count,
          vinfo := { deleted := fun r =>
            if r ∈ info.rows.take info.count then st.commit_id else info.vinfo.deleted r } } := by
  have hcard : ArtKey.castU 64 ((info.cardinality : Int) - (info.count : Int))
      = info.cardinality - info.count := by
    have h1 : ((info.cardinality : Int) - (info.count : Int))
        = ((info.cardinality - info.count : Nat) : Int) := by omega
    rw [h1, ArtKey.castU_natCast]
    exact Nat.mod_eq_of_lt (by omega)
  simp only [CommitEntry, hcard, ChunkInfo.CommitDelete, and_self]

theorem CommitEntry_DELETE_TUPLE_marks_witness :
    exampleDelete.cardinality < 2 ^ 64 ∧ exampleDelete.count ≤ exampleDelete.cardinality ∧
    (CommitEntry 1024 true exampleCommit
      (UndoEntry.DELETE_TUPLE exampleDelete : UndoEntry Nat)).1 = none :=
  ⟨by decide, by decide,
    (CommitEntry_DELETE_TUPLE_marks 1024 true exampleCommit exampleDelete
      (by decide) (by decide)).1⟩

/-- C22: the record `WriteDelete` writes, with a log attached that holds
`records`, for a `DeleteInfo` with base row `B`, count `n` and relative rows
`r_0 .. r_{n-1}`: the log afterwards is `records`, the select-table record if the
table was not the current one, and one delete record behind them; the chunk of
that record and its row column have no selection vector, the count of the
column is `n`, and entry `i` of the column is `B + r_i` for every `i < n`. The
delete chunk of the commit state is absent or one that an earlier `WriteDelete`
left (no selection vector). -/
theorem WriteDelete_record (st : CommitState) (info : DeleteInfo) (records : List WalRecord)
    (hlog : st.log = some records)
    (hcount : info.count = info.rows.length)
    (hsel : ∀ c, st.delete_chunk = some c →
      c.sel_vector = none ∧ ∀ v ∈ c.data.head?, v.sel_vector = none) :
    ∃ chunk col rest,
      (st.WriteDelete info).log
        = some ((if st.current_table ≠ some info.table.id
            then records ++ [WalRecord.SetTable info.table.id] else records)
          ++ [WalRecord.Delete chunk]) ∧
      chunk.sel_vector = none ∧ chunk.data = col :: rest ∧
      col.sel_vector = none ∧ col.count = info.rows.length ∧
      col.data.take info.rows.length
        = info.rows.map (fun r => ((info.base_row + r : Nat) : Int)) := by
  have hds : (st.SwitchTable info.table).delete_chunk = st.delete_chunk := by
    unfold CommitState.SwitchTable
    split <;> rfl
  have hsl : (st.SwitchTable info.table).log
      = some (if st.current_table ≠ some info.table.id
          then records ++ [WalRecord.SetTable info.table.id] else records) := by
    unfold CommitState.SwitchTable
    by_cases hcur : st.current_table ≠ some info.table.id
    · simp only [hcur, if_true, hlog, writeLog, Option.map_some', ne_eq, not_false_eq_true]
    · simp only [hcur, if_false, hlog]
  have hrows : (List.range info.rows.length).map
      (fun i => ((info.base_row + info.rows.getD i 0 : Nat) : Int))
      = info.rows.map (fun r => ((info.base_row + r : Nat) : Int)) := by
    apply List.ext_getElem
    · simp
    · intro i h1 h2
      simp only [List.length_map, List.length_range] at h1
      simp [List.getD, List.getElem?_eq_getElem h1]
  refine ⟨deleteChunk (match (st.SwitchTable info.table).delete_chunk with
      | none => DataChunk.Initialize 1
      | some c => c) info, _, _, ?_, ?_, rfl, ?_, ?_, ?_⟩
  · show writeLog (st.SwitchTable info.table).log _ = _
    rw [hsl]
    rfl
  · simp only [deleteChunk, hds]
    cases hd : st.delete_chunk with
    | none => rfl
    | some c => exact (hsel c hd).1
  · simp only [deleteChunk, hds]
    cases hd : st.delete_chunk with
    | none => rfl
    | some c =>
      simp only
      cases hdata : c.data with
      | nil => rfl
      | cons v vs =>
        have := (hsel c hd).2 v (by simp [hdata])
        simpa using this
  · simp only [hcount]
  · simp only [hcount, hrows]
    rw [List.take_append_of_le_length (by simp)]
    rw [List.take_of_length_le (by simp)]

theorem WriteDelete_record_witness :
    exampleCommit.log = some [] ∧
    exampleDelete.count = exampleDelete.rows.length ∧
    (exampleCommit.WriteDelete exampleDelete).log
      = some [WalRecord.SetTable 5,
          WalRecord.Delete
            { data := [{ data := [2049, 2051], sel_vector := none, count := 2 }],
              sel_vector := none }] ∧
    ∃ chunk col rest,
      (exampleCommit.WriteDelete exampleDelete).log
        = some ((if exampleCommit.current_table ≠ some exampleDelete.table.id
            then [] ++ [WalRecord.SetTable exampleDelete.table.id] else [])
          ++ [WalRecord.Delete chunk]) ∧
      chunk.sel_vector = none ∧ chunk.data = col :: rest ∧
      col.sel_vector = none ∧ col.count = exampleDelete.rows.length ∧
      col.data.take exampleDelete.rows.length
        = exampleDelete.rows.map (fun r => ((exampleDelete.base_row + r : Nat) : Int)) :=
  ⟨by decide, by decide, by decide,
    WriteDelete_record exampleCommit exampleDelete [] rfl (by decide)
      (fun c hc => by simp [exampleCommit] at hc)⟩

/-- C23 (the claim fails here): a temporary table is created, so the parent is
a `TABLE` and the entry is not. With a log attached `CommitEntry` stamps the
parent and writes no record at all, where a single creation record is claimed.
Likewise for a dropped prepared statement, whose parent is a `DELETED_ENTRY`:
no record is written, where a single drop record is claimed. -/
theorem CATALOG_ENTRY_temporary_parent_no_record :
    exampleTempTable.type = CatalogType.TABLE ∧ exampleDummy.type ≠ CatalogType.TABLE ∧
    (CommitEntry 1024 true exampleCommit
      (UndoEntry.CATALOG_ENTRY exampleDummy exampleTempTable : UndoEntry Unit)).1 = none ∧
    catalogRecords 1024 exampleCommit exampleDummy exampleTempTable = [] ∧
    catalogRecords 1024 exampleCommit exampleDummy exampleTempTable
      ≠ [WalRecord.CreateTable exampleTempTable.id] ∧
    exampleDropped.type = CatalogType.DELETED_ENTRY ∧
    (CommitEntry 1024 true exampleCommit
      (UndoEntry.CATALOG_ENTRY examplePrepared exampleDropped : UndoEntry Unit)).1 = none ∧
    catalogRecords 1024 exampleCommit examplePrepared exampleDropped = [] := by
  decide

/-- C23, as amended: `CommitEntry` on a `CATALOG_ENTRY` stamps the commit id on
the parent of the entry and changes nothing else in the two entries, with and
without a log. With a log attached it writes at most one record: none when the
parent and the entry are both a `TABLE` or both a `SCHEMA`, none when the
parent is a temporary `TABLE`, an `INDEX` or a `PREPARED_STATEMENT`, and none
for a dropped `PREPARED_STATEMENT`; a single creation record naming the parent
for any other `TABLE`, `SCHEMA`, `VIEW` or `SEQUENCE` parent; a single drop
record naming the entry when the parent is a `DELETED_ENTRY` and the entry a
`SCHEMA`, a `VIEW`, a `SEQUENCE` or a `TABLE` that is not temporary. -/
theorem CommitEntry_CATALOG_ENTRY_records (V : Nat) (st : CommitState)
    (entry parent : CatalogEntry) (records : List WalRecord) (hlog : st.log = some records) :
    (∀ HAS_LOG, (CommitEntry V HAS_LOG st
        (UndoEntry.CATALOG_ENTRY entry parent : UndoEntry Unit)).2.2
      = UndoEntry.CATALOG_ENTRY entry { parent with timestamp := st.commit_id }) ∧
    (catalogRecords V st entry parent).length ≤ 1 ∧
    (parent.type = CatalogType.TABLE →
      catalogRecords V st entry parent =
        if entry.type = CatalogType.TABLE ∨ parent.temporary = true then []
        else [WalRecord.CreateTable parent.id]) ∧
    (parent.type = CatalogType.SCHEMA →
      catalogRecords V st entry parent =
        if entry.type = CatalogType.SCHEMA then [] else [WalRecord.CreateSchema parent.id]) ∧
    (parent.type = CatalogType.VIEW →
      catalogRecords V st entry parent = [WalRecord.CreateView parent.id]) ∧
    (parent.type = CatalogType.SEQUENCE →
      catalogRecords V st entry parent = [WalRecord.CreateSequence parent.id]) ∧
    (parent.type = CatalogType.INDEX ∨ parent.type = CatalogType.PREPARED_STATEMENT →
      catalogRecords V st entry parent = []) ∧
    (parent.type = CatalogType.DELETED_ENTRY →
      (entry.type = CatalogType.TABLE → entry.temporary = false →
        catalogRecords V st entry parent = [WalRecord.DropTable entry.id]) ∧
      (entry.type = CatalogType.SCHEMA →
        catalogRecords V st entry parent = [WalRecord.DropSchema entry.id]) ∧
      (entry.type = CatalogType.VIEW →
        catalogRecords V st entry parent = [WalRecord.DropView entry.id]) ∧
      (entry.type = CatalogType.SEQUENCE →
        catalogRecords V st entry parent = [WalRecord.DropSequence entry.id]) ∧
      (entry.type = CatalogType.PREPARED_STATEMENT →
        catalogRecords V st entry parent = [])) := by
  refine ⟨fun HAS_LOG => by cases HAS_LOG <;> rfl, ?_, ?_, ?_, ?_, ?_, ?_, ?_⟩
  · simp only [catalogRecords, CommitEntry, WriteCatalogEntry, hlog, recordsSince, writeLog,
      if_true]
    cases parent.type <;> simp <;> split_ifs <;> simp <;> omega
  · intro hp
    simp only [catalogRecords, CommitEntry, WriteCatalogEntry, hlog, recordsSince, writeLog,
      if_true, hp]
    by_cases h1 : entry.type = CatalogType.TABLE
    · simp [h1]
    · cases h2 : parent.temporary <;> simp [h1]
  · intro hp
    simp only [catalogRecords, CommitEntry, WriteCatalogEntry, hlog, recordsSince, writeLog,
      if_true, hp]
    by_cases h1 : entry.type = CatalogType.SCHEMA <;> simp [h1]
  · intro hp
    simp [catalogRecords, CommitEntry, WriteCatalogEntry, hlog, recordsSince, writeLog, hp]
  · intro hp
    simp [catalogRecords, CommitEntry, WriteCatalogEntry, hlog, recordsSince, writeLog, hp]
  · intro hp
    rcases hp with hp | hp <;>
      simp [catalogRecords, CommitEntry, WriteCatalogEntry, hlog, recordsSince, hp]
  · intro hp
    refine ⟨?_, ?_, ?_, ?_, ?_⟩ <;> intro he <;>
      simp [catalogRecords, CommitEntry, WriteCatalogEntry, hlog, recordsSince, writeLog, hp, he]

theorem CommitEntry_CATALOG_ENTRY_records_witness :
    exampleCommit.log = some [] ∧
    catalogRecords 1024 exampleCommit exampleDummy exampleTable = [WalRecord.CreateTable 3] ∧
    (catalogRecords 1024 exampleCommit exampleDummy exampleTable).length ≤ 1 :=
  ⟨rfl, by decide,
    (CommitEntry_CATALOG_ENTRY_records 1024 exampleCommit exampleDummy exampleTable [] rfl).2.1⟩

/-- C24 (evaluation at a failing input): a temporary table is dropped, so the
entry is the temporary `TABLE` and its parent a `DELETED_ENTRY`. With a log
attached `CommitEntry` writes a drop record for the temporary table; for the
creation of the same table it writes nothing. -/
theorem CommitEntry_logs_drop_of_temporary_table :
    exampleTempTable.temporary = true ∧
    exampleDropped.type = CatalogType.DELETED_ENTRY ∧
    (CommitEntry 1024 true exampleCommit
      (UndoEntry.CATALOG_ENTRY exampleTempTable exampleDropped : UndoEntry Nat)).1 = none ∧
    (CommitEntry 1024 true exampleCommit
      (UndoEntry.CATALOG_ENTRY exampleTempTable exampleDropped : UndoEntry Nat)).2.1.log
      = some [WalRecord.DropTable 2] ∧
    (CommitEntry 1024 true exampleCommit
      (UndoEntry.CATALOG_ENTRY exampleDummy exampleTempTable : UndoEntry Nat)).2.1.log
      = some [] := by
  decide

/-- C25: for an undo entry on which neither `CommitEntry<false>` nor
`CommitEntry<true>` throws, `CommitEntry<false>` leaves the log as it was, and
the undo entry with the objects it points to (the parent of a catalog entry with
its timestamp, the table of a deletion with its cardinality and the deletion
marks, the version number of an update) is the same after both. -/
theorem CommitEntry_without_log {α : Type} (V : Nat) (st : CommitState) (e : UndoEntry α)
    (hf : (CommitEntry V false st e).1 = none) (ht : (CommitEntry V true st e).1 = none) :
    (CommitEntry V false st e).2.1.log = st.log ∧
    (CommitEntry V false st e).2.2 = (CommitEntry V true st e).2.2 := by
  cases e with
  | CATALOG_ENTRY entry parent => exact ⟨rfl, rfl⟩
  | DELETE_TUPLE info => exact ⟨rfl, rfl⟩
  | UPDATE_TUPLE info => exact ⟨rfl, rfl⟩
  | QUERY query => exact ⟨rfl, rfl⟩
  | DATA => exact ⟨rfl, rfl⟩
  | other flag => exact ⟨rfl, rfl⟩

theorem CommitEntry_without_log_witness :
    (CommitEntry 1024 false exampleCommit
      (UndoEntry.DELETE_TUPLE exampleDelete : UndoEntry Nat)).1 = none ∧
    (CommitEntry 1024 true exampleCommit
      (UndoEntry.DELETE_TUPLE exampleDelete : UndoEntry Nat)).1 = none ∧
    (CommitEntry 1024 true exampleCommit
      (UndoEntry.DELETE_TUPLE exampleDelete : UndoEntry Nat)).2.1.log ≠ exampleCommit.log ∧
    (CommitEntry 1024 false exampleCommit
      (UndoEntry.DELETE_TUPLE exampleDelete : UndoEntry Nat)).2.1.log = exampleCommit.log :=
  ⟨rfl, rfl, by decide,
    (CommitEntry_without_log 1024 exampleCommit
      (UndoEntry.DELETE_TUPLE exampleDelete : UndoEntry Nat) rfl rfl).1⟩

/-- C27: `CommitEntry` throws `NotImplementedException` for an undo entry with
a flag other than `CATALOG_ENTRY`, `DELETE_TUPLE`, `UPDATE_TUPLE`, `QUERY` and
`DATA`, and, with a log attached, for a catalog entry whose parent type has no
case in `WriteCatalogEntry` or whose parent is a `DELETED_ENTRY` while the entry
is of none of the types that can be dropped; for every other entry it throws
nothing. -/
theorem CommitEntry_raises {α : Type} (V : Nat) (HAS_LOG : Bool) (st : CommitState)
    (e : UndoEntry α) :
    (CommitEntry V HAS_LOG st e).1
      = if saidToRaise HAS_LOG e then some Exn.NotImplementedException else none := by
  cases e with
  | CATALOG_ENTRY entry parent =>
    cases HAS_LOG
    · simp [CommitEntry, saidToRaise]
    · simp only [CommitEntry, saidToRaise, WriteCatalogEntry, if_true, Bool.true_and]
      cases parent.type <;> simp <;> split_ifs <;> simp_all
  | DELETE_TUPLE info => simp [CommitEntry, saidToRaise]
  | UPDATE_TUPLE info => simp [CommitEntry, saidToRaise]
  | QUERY query => cases HAS_LOG <;> simp [CommitEntry, saidToRaise]
  | DATA => simp [CommitEntry, saidToRaise]
  | other flag => simp [CommitEntry, saidToRaise]

end Transaction

namespace LocalStore

end LocalStore

namespace StringDict

open StringSeg (string_location_t Heap)

/-- C28: for a block id `b` and an offset `o` in the range of their types (a
signed integer of `block_id_size` bytes and an `int32_t`): `ReadStringMarker`
on the bytes `WriteStringMarker(target, b, o)` wrote returns `(b, o)`, the first
two bytes written hold `BIG_STRING_MARKER`, and `FetchStringLocation` on the
dictionary offset of these bytes returns the location `(b, o)` outside the
block. -/
theorem marker_roundtrip (L : Layout) (C : StringSeg.Constants) (buf : Nat → Nat)
    (target : Nat) (b o : Int)
    (hW : 0 < L.block_id_size) (hM : L.BIG_STRING_MARKER < 2 ^ 16)
    (hb : -(2 : Int) ^ (8 * L.block_id_size - 1) ≤ b ∧ b < (2 : Int) ^ (8 * L.block_id_size - 1))
    (ho : -(2 : Int) ^ 31 ≤ o ∧ o < (2 : Int) ^ 31) :
    ReadStringMarker L (WriteStringMarker L buf target b o) target = (b, o) ∧
    loadUInt L.hostLE (readBytes (WriteStringMarker L buf target b o) target 2)
      = L.BIG_STRING_MARKER ∧
    ∀ dict_offset : Int, 0 < dict_offset → dict_offset ≤ L.BLOCK_SIZE →
      target = ((L.BLOCK_SIZE : Int) - dict_offset).toNat →
      FetchStringLocation L C (WriteStringMarker L buf target b o) dict_offset
        = { block_id := b, offset := o } := by
  have hlenM := storeUInt_length L.hostLE 2 L.BIG_STRING_MARKER
  have hlenB := storeUInt_length L.hostLE L.block_id_size
    (ArtKey.castU (8 * L.block_id_size) b)
  have hlenO := storeUInt_length L.hostLE 4 (ArtKey.castU 32 o)
  have hread : ReadStringMarker L (WriteStringMarker L buf target b o) target = (b, o) := by
    unfold ReadStringMarker WriteStringMarker
    simp only
    rw [readBytes_writeBytes_disjoint _ _ _ _ _ (by omega)]
    have h1 := readBytes_writeBytes_same
      (writeBytes buf target (ArtKey.storeUInt L.hostLE 2 L.BIG_STRING_MARKER)) (target + 2)
      (ArtKey.storeUInt L.hostLE L.block_id_size (ArtKey.castU (8 * L.block_id_size) b))
    rw [hlenB] at h1
    rw [h1]
    have h2 := readBytes_writeBytes_same
      (writeBytes (writeBytes buf target (ArtKey.storeUInt L.hostLE 2 L.BIG_STRING_MARKER))
        (target + 2)
        (ArtKey.storeUInt L.hostLE L.block_id_size (ArtKey.castU (8 * L.block_id_size) b)))
      (target + 2 + L.block_id_size) (ArtKey.storeUInt L.hostLE 4 (ArtKey.castU 32 o))
    rw [hlenO] at h2
    rw [h2, loadInt_storeUInt L.hostLE L.block_id_size b hW hb.1 hb.2,
      loadInt_storeUInt L.hostLE 4 o (by norm_num) (by simpa using ho.1) (by simpa using ho.2)]
  have hmark : loadUInt L.hostLE (readBytes (WriteStringMarker L buf target b o) target 2)
      = L.BIG_STRING_MARKER := by
    unfold WriteStringMarker
    simp only
    rw [readBytes_writeBytes_disjoint _ _ _ _ _ (by omega),
      readBytes_writeBytes_disjoint _ _ _ _ _ (by omega)]
    have h1 := readBytes_writeBytes_same buf target
      (ArtKey.storeUInt L.hostLE 2 L.BIG_STRING_MARKER)
    rw [hlenM] at h1
    rw [h1, loadUInt_storeUInt L.hostLE 2 _ (by norm_num; omega)]
  refine ⟨hread, hmark, ?_⟩
  intro d hd0 _ htarget
  unfold FetchStringLocation
  rw [if_neg (by omega)]
  simp only [← htarget, hmark, if_true, hread]

theorem marker_roundtrip_witness :
    (0 < exampleL.block_id_size ∧ exampleL.BIG_STRING_MARKER < 2 ^ 16) ∧
    ReadStringMarker exampleL (WriteStringMarker exampleL (fun _ => 0) 242 (-7) 40) 242
      = (-7, 40) :=
  ⟨by decide,
    (marker_roundtrip exampleL exampleC (fun _ => 0) 242 (-7) 40 (by decide) (by decide)
      (by decide) (by decide)).1⟩

end StringDict

namespace StringDict

open StringSeg (string_location_t Heap)

/-- C29: `AppendData` with `end` the end of the block, for a vector of the
segment, `target_offset` the number of rows the vector holds and at most as many
values as the vector has room for; the constants are related as the code
expects, and the vectors, the dictionary and a marker per row still free fit
the block. For every value `j` that is not null and that the test of
`AppendData` keeps in the block: its entry lies directly below the dictionary
as the values before it left it (the dictionary offset grows by the length of
the string plus 3), the slot of its row holds the new dictionary offset, which
is not zero, and after the call `FetchStringFromDict` on this offset returns
the string. Every entry that was in the dictionary before the call reads back
after the call what it read before. -/
theorem AppendData_inline (L : Layout) (C : StringSeg.Constants) (seg : Segment)
    (stats : SegmentStatistics) (target target_offset : Nat) (source : List (Option String))
    (sel_vector : Option (List Nat)) (offset count : Nat)
    (hwf : L.wellFormed)
    (hroom : seg.max_vector_count * vector_size L + seg.dictionary_offset
      + (L.STANDARD_VECTOR_SIZE - seg.tuple_count % L.STANDARD_VECTOR_SIZE)
        * L.BIG_STRING_MARKER_SIZE ≤ L.BLOCK_SIZE)
    (htarget : target + vector_size L ≤ seg.max_vector_count * vector_size L)
    (hoffset : target_offset = seg.tuple_count % L.STANDARD_VECTOR_SIZE)
    (hcount : target_offset + count ≤ L.STANDARD_VECTOR_SIZE) :
    (∀ j s, j < count → sourceValue source sel_vector (offset + j) = some s →
      toOverflow L (AppendData L C seg stats target L.BLOCK_SIZE target_offset source
        sel_vector offset j) (strlen s + 1 + 2) = false →
      (AppendData L C seg stats target L.BLOCK_SIZE target_offset source sel_vector offset
          (j + 1)).seg.dictionary_offset
        = (AppendData L C seg stats target L.BLOCK_SIZE target_offset source sel_vector
            offset j).seg.dictionary_offset + strlen s + 3 ∧
      slotValue L (AppendData L C seg stats target L.BLOCK_SIZE target_offset source
          sel_vector offset count).seg.buf target (target_offset + j)
        = (((AppendData L C seg stats target L.BLOCK_SIZE target_offset source sel_vector
            offset (j + 1)).seg.dictionary_offset : Nat) : Int) ∧
      (AppendData L C seg stats target L.BLOCK_SIZE target_offset source sel_vector offset
          (j + 1)).seg.dictionary_offset ≠ 0 ∧
      FetchStringFromDict L C
          (AppendData L C seg stats target L.BLOCK_SIZE target_offset source sel_vector
            offset count).seg.buf
          (AppendData L C seg stats target L.BLOCK_SIZE target_offset source sel_vector
            offset count).seg.heap
          (((AppendData L C seg stats target L.BLOCK_SIZE target_offset source sel_vector
            offset (j + 1)).seg.dictionary_offset : Nat) : Int)
        = some (cstr s)) ∧
    (∀ d s, d ≤ seg.dictionary_offset → inlineAt L seg.buf d s →
      strlen s < L.BIG_STRING_MARKER →
      FetchStringFromDict L C seg.buf seg.heap (d : Int) = some (cstr s) ∧
      FetchStringFromDict L C
          (AppendData L C seg stats target L.BLOCK_SIZE target_offset source sel_vector
            offset count).seg.buf
          (AppendData L C seg stats target L.BLOCK_SIZE target_offset source sel_vector
            offset count).seg.heap (d : Int)
        = some (cstr s)) := by
  have hM : L.BIG_STRING_MARKER < 2 ^ 16 := hwf.2.2.2.2.1
  obtain ⟨st0, hst0⟩ : ∃ st0 : AppendState, st0 = AppendState.mk seg stats
      (L.STANDARD_VECTOR_SIZE - seg.tuple_count % L.STANDARD_VECTOR_SIZE) := ⟨_, rfl⟩
  have hroom0 : roomFor L st0 := by rw [hst0]; exact hroom
  have htarget0 : target + vector_size L ≤ st0.seg.max_vector_count * vector_size L := by
    rw [hst0]; exact htarget
  have hseg0 : st0.seg = seg := by rw [hst0]
  have hrem0 : st0.remaining_strings
      = L.STANDARD_VECTOR_SIZE - seg.tuple_count % L.STANDARD_VECTOR_SIZE := by rw [hst0]
  have hAD : ∀ n, AppendData L C seg stats target L.BLOCK_SIZE target_offset source sel_vector
      offset n = appendLoop L C target L.BLOCK_SIZE target_offset source sel_vector offset n
        st0 := by
    intro n; rw [hst0]; rfl
  simp only [hAD]
  constructor
  · intro j s hj hsrc hover
    obtain ⟨p1, p2, p3, -, -, -⟩ := appendLoop_spec L C target target_offset source sel_vector
      offset st0 hwf hroom0 htarget0 j (by omega) (by omega)
    have hrem : 1 ≤ (appendLoop L C target L.BLOCK_SIZE target_offset source sel_vector offset
        j st0).remaining_strings := by rw [p3]; omega
    have hstep : appendLoop L C target L.BLOCK_SIZE target_offset source sel_vector offset
        (j + 1) st0
        = appendValue L C target L.BLOCK_SIZE (target_offset + j)
            (appendLoop L C target L.BLOCK_SIZE target_offset source sel_vector offset j st0)
            (some s) := by
      simp only [appendLoop]
      have eidx : offset + j - offset + target_offset = target_offset + j := by omega
      rw [eidx, hsrc]
    obtain ⟨i1, i2, i3, i4⟩ := appendValue_inline L C target (target_offset + j)
      (appendLoop L C target L.BLOCK_SIZE target_offset source sel_vector offset j st0) s
      hwf p1 hrem (by rw [p2]; exact htarget0) (by omega) hover
    obtain ⟨r1, -⟩ := appendValue_room L C target L.BLOCK_SIZE (target_offset + j)
      (appendLoop L C target L.BLOCK_SIZE target_offset source sel_vector offset j st0)
      (some s) hwf p1 hrem
    obtain ⟨c1, -, c3⟩ := appendValue_counts L C target L.BLOCK_SIZE (target_offset + j)
      (appendLoop L C target L.BLOCK_SIZE target_offset source sel_vector offset j st0)
      (some s)
    rw [← hstep] at i1 i3 i4 r1 c1 c3
    -- the values behind this one
    have hsplit : count = (j + 1) + (count - (j + 1)) := by omega
    have hfinal := appendLoop_add L C target L.BLOCK_SIZE target_offset source sel_vector
      offset (j + 1) st0 (count - (j + 1))
    rw [← hsplit] at hfinal
    obtain ⟨-, -, -, -, f5, f6⟩ := appendLoop_spec L C target (target_offset + (j + 1)) source
      sel_vector (offset + (j + 1))
      (appendLoop L C target L.BLOCK_SIZE target_offset source sel_vector offset (j + 1) st0)
      hwf r1 (by rw [c1, p2]; exact htarget0) (count - (j + 1)) (by rw [c3, p3]; omega)
      (by omega)
    rw [← hfinal] at f5 f6
    rw [← i1] at i3 i4
    clear hfinal hstep hAD r1 c1 c3 p1 p2 p3 hrem hover
    generalize appendLoop L C target L.BLOCK_SIZE target_offset source sel_vector offset
      (j + 1) st0 = S1 at i1 i3 i4 f5 f6 ⊢
    generalize appendLoop L C target L.BLOCK_SIZE target_offset source sel_vector offset
      count st0 = Sf at f5 f6 ⊢
    generalize appendLoop L C target L.BLOCK_SIZE target_offset source sel_vector offset
      j st0 = Sj at i1 ⊢
    have hbytes : readBytes Sf.seg.buf (slotAddr L target (target_offset + j)) 4
        = readBytes S1.seg.buf (slotAddr L target (target_offset + j)) 4 := by
      apply readBytes_congr
      intro x hx1 hx2
      apply f6 x
      · unfold slotAddr at hx1; omega
      · unfold slotAddr at hx2 ⊢; omega
    have hslot : slotValue L Sf.seg.buf target (target_offset + j)
        = slotValue L S1.seg.buf target (target_offset + j) := by
      unfold slotValue
      rw [hbytes]
    have hin : inlineAt L Sf.seg.buf S1.seg.dictionary_offset s :=
      inlineAt_congr L S1.seg.buf Sf.seg.buf S1.seg.dictionary_offset s i4 f5
    have hfetch := fetch_inline L C Sf.seg.buf Sf.seg.heap S1.seg.dictionary_offset s hin
      (by omega) (by omega)
    exact ⟨i1, by rw [hslot, i3], by omega, hfetch⟩
  · intro d s hd hin hlen
    obtain ⟨-, -, -, -, p5, -⟩ := appendLoop_spec L C target target_offset source sel_vector
      offset st0 hwf hroom0 htarget0 count (by omega) hcount
    rw [hseg0] at p5
    clear hAD
    generalize appendLoop L C target L.BLOCK_SIZE target_offset source sel_vector offset
      count st0 = Sf at p5 ⊢
    have hin' : inlineAt L Sf.seg.buf d s :=
      inlineAt_congr L seg.buf Sf.seg.buf d s hin (fun x hx => p5 x (by omega))
    exact ⟨fetch_inline L C seg.buf seg.heap d s hin (by omega) (by omega),
      fetch_inline L C Sf.seg.buf Sf.seg.heap d s hin' (by omega) (by omega)⟩

theorem AppendData_inline_witness :
    exampleL.wellFormed ∧
    sourceValue [some "ab", none, some "c"] none (0 + 2) = some "c" ∧
    toOverflow exampleL (AppendData exampleL exampleC exampleSegment exampleStats 0
      exampleL.BLOCK_SIZE 0 [some "ab", none, some "c"] none 0 2) (strlen "c" + 1 + 2) = false ∧
    FetchStringFromDict exampleL exampleC
        (AppendData exampleL exampleC exampleSegment exampleStats 0 exampleL.BLOCK_SIZE 0
          [some "ab", none, some "c"] none 0 3).seg.buf
        (AppendData exampleL exampleC exampleSegment exampleStats 0 exampleL.BLOCK_SIZE 0
          [some "ab", none, some "c"] none 0 3).seg.heap
        (((AppendData exampleL exampleC exampleSegment exampleStats 0 exampleL.BLOCK_SIZE 0
          [some "ab", none, some "c"] none 0 (2 + 1)).seg.dictionary_offset : Nat) : Int)
      = some (cstr "c") :=
  ⟨by unfold Layout.wellFormed; decide, by decide, by decide,
    ((AppendData_inline exampleL exampleC exampleSegment exampleStats 0 0
      [some "ab", none, some "c"] none 0 3 (by unfold Layout.wellFormed; decide) (by decide)
      (by decide) (by decide) (by decide)).1 2 "c" (by decide) (by decide)
      (by decide)).2.2.2⟩

end StringDict

namespace Tql

/-- C30: for table names `a` and `b` that are not empty and contain no blank,
and any state of the object: `parse` of "SET T1 = a" and then of "SET T2 = b"
returns each time no error, an empty SQL text and `stopSQLFlow` true;
afterwards `parse("SHOW META")` returns without error the SQL text
"SELECT * FROM a", and `parse("SHOW DATA")` returns "SELECT * FROM b". -/
theorem parse_SET_SHOW (db : TigerDB) (a b : List Char) (ha : a ≠ []) (hab : blank ∉ a)
    (hb : b ≠ []) (hbb : blank ∉ b) :
    parse db ("SET T1 = ".toList ++ a) =
      some ({ error := false, eMsg := "None".toList, sql := [], stopSQLFlow := true },
        { db with t1 := a }) ∧
    parse { db with t1 := a } ("SET T2 = ".toList ++ b) =
      some ({ error := false, eMsg := "None".toList, sql := [], stopSQLFlow := true },
        { t1 := a, t2 := b }) ∧
    parse { t1 := a, t2 := b } "SHOW META".toList =
      some ({ error := false, eMsg := "None".toList, sql := "SELECT * FROM ".toList ++ a,
              stopSQLFlow := false },
        { t1 := a, t2 := b }) ∧
    parse { t1 := a, t2 := b } "SHOW DATA".toList =
      some ({ error := false, eMsg := "None".toList, sql := "SELECT * FROM ".toList ++ b,
              stopSQLFlow := false },
        { t1 := a, t2 := b }) := by
  have e1 : "SET T1 = ".toList ++ a
      = "SET".toList ++ blank :: ("T1".toList ++ blank :: ("=".toList ++ blank :: a)) := rfl
  have e2 : "SET T2 = ".toList ++ b
      = "SET".toList ++ blank :: ("T2".toList ++ blank :: ("=".toList ++ blank :: b)) := rfl
  have t1 : tokens ("SET T1 = ".toList ++ a) = ["SET".toList, "T1".toList, "=".toList, a] := by
    rw [e1]
    exact tokens_four _ _ _ a (by decide) (by decide) (by decide) hab ha
  have t2 : tokens ("SET T2 = ".toList ++ b) = ["SET".toList, "T2".toList, "=".toList, b] := by
    rw [e2]
    exact tokens_four _ _ _ b (by decide) (by decide) (by decide) hbb hb
  have t3 : tokens "SHOW META".toList = ["SHOW".toList, "META".toList] := by decide
  have t4 : tokens "SHOW DATA".toList = ["SHOW".toList, "DATA".toList] := by decide
  have hsc : ¬ ("SET".toList = "CREATE".toList ∨ "SET".toList = "create".toList) := by decide
  have hsi : ¬ ("SET".toList = "INSERT".toList ∨ "SET".toList = "insert".toList) := by decide
  have hss : "SET".toList = "SET".toList ∨ "SET".toList = "set".toList := Or.inl rfl
  have hwc : ¬ ("SHOW".toList = "CREATE".toList ∨ "SHOW".toList = "create".toList) := by
    decide
  have hwi : ¬ ("SHOW".toList = "INSERT".toList ∨ "SHOW".toList = "insert".toList) := by
    decide
  have hws : ¬ ("SHOW".toList = "SET".toList ∨ "SHOW".toList = "set".toList) := by decide
  have hww : "SHOW".toList = "SHOW".toList ∨ "SHOW".toList = "show".toList := Or.inl rfl
  have h11 : "T1".toList = "t1".toList ∨ "T1".toList = "T1".toList := Or.inr rfl
  have h21 : ¬ ("T2".toList = "t1".toList ∨ "T2".toList = "T1".toList) := by decide
  have h22 : "T2".toList = "t2".toList ∨ "T2".toList = "T2".toList := Or.inr rfl
  have hmd : ¬ ("META".toList = "DATA".toList ∨ "META".toList = "data".toList) := by decide
  have hmm : "META".toList = "META".toList ∨ "META".toList = "meta".toList := Or.inl rfl
  have hdd : "DATA".toList = "DATA".toList ∨ "DATA".toList = "data".toList := Or.inl rfl
  have hempty : ¬ (a = "".toList ∨ b = "".toList) := by
    intro h
    rcases h with h | h
    · exact ha h
    · exact hb h
  refine ⟨?_, ?_, ?_, ?_⟩
  · unfold parse
    rw [t1]
    simp only [List.getElem?_cons_zero, if_neg hsc, if_neg hsi, if_pos hss]
    simp only [parseTableName, List.length_cons, List.length_nil, ne_eq, not_true_eq_false,
      if_false, List.getElem?_cons_succ, List.getElem?_cons_zero, if_pos h11]
    rfl
  · unfold parse
    rw [t2]
    simp only [List.getElem?_cons_zero, if_neg hsc, if_neg hsi, if_pos hss]
    simp only [parseTableName, List.length_cons, List.length_nil, ne_eq, not_true_eq_false,
      if_false, List.getElem?_cons_succ, List.getElem?_cons_zero, if_neg h21, if_pos h22]
    rfl
  · unfold parse
    rw [t3]
    simp only [List.getElem?_cons_zero, if_neg hwc, if_neg hwi, if_neg hws, if_pos hww,
      if_neg hempty]
    simp only [parseShow, List.getElem?_cons_succ, List.getElem?_cons_zero, if_neg hmd,
      if_pos hmm, Option.map_some']
    rfl
  · unfold parse
    rw [t4]
    simp only [List.getElem?_cons_zero, if_neg hwc, if_neg hwi, if_neg hws, if_pos hww,
      if_neg hempty]
    simp only [parseShow, List.getElem?_cons_succ, List.getElem?_cons_zero, if_pos hdd,
      Option.map_some']
    rfl

theorem parse_SET_SHOW_witness :
    "sensors".toList ≠ [] ∧ blank ∉ "sensors".toList ∧
    parse { t1 := "sensors".toList, t2 := "sensor_data".toList } "SHOW META".toList =
      some ({ error := false, eMsg := "None".toList,
              sql := "SELECT * FROM ".toList ++ "sensors".toList, stopSQLFlow := false },
        { t1 := "sensors".toList, t2 := "sensor_data".toList }) :=
  ⟨by decide, by decide,
    (parse_SET_SHOW TigerDB.new "sensors".toList "sensor_data".toList (by decide) (by decide)
      (by decide) (by decide)).2.2.1⟩

end Tql

namespace RadixIndex

/-- C31: for any sequence of inserts and deletes on an index without entries,
over keys none of which is a proper prefix of another (as the keys of one column
are), an exact-key lookup returns exactly the row identifiers currently inserted
under that key, nothing when there is none, whatever variants the nodes of the
tree went through. -/
theorem lookup_after_inserts_and_deletes (is_unique : Bool) (ops : List Op) (key : List Nat)
    (h : prefixFree (key :: ops.map Op.key)) :
    ((empty is_unique).run ops).lookup key = inserted is_unique key ops := by
  have hw : wellFormed (fun a => a ∈ key :: ops.map Op.key) (empty is_unique) := by
    intro node hnode
    simp [empty] at hnode
  have := run_spec (fun a => a ∈ key :: ops.map Op.key)
    (fun a b ha hb hab => h a ha b hb hab) ops (empty is_unique) hw
    (fun op hop => List.mem_cons_of_mem _ (List.mem_map_of_mem _ hop)) key
    (List.mem_cons_self _ _)
  rw [this]
  rfl

theorem lookup_after_inserts_and_deletes_witness :
    prefixFree ([0x80, 0, 0, 3] :: exampleOps.map Op.key) ∧
    ((empty false).run (exampleOps.take 5)).root.bind RadixNode.type? = some NodeType.N16 ∧
    inserted false [0x80, 0, 0, 3] exampleOps = [3] ∧
    ((empty false).run exampleOps).lookup [0x80, 0, 0, 3]
      = inserted false [0x80, 0, 0, 3] exampleOps :=
  ⟨by unfold prefixFree; decide, by decide, by decide,
    lookup_after_inserts_and_deletes false exampleOps [0x80, 0, 0, 3]
      (by unfold prefixFree; decide)⟩

end RadixIndex

namespace ArtKey

/-- C32: the comparison of keys is a strict total order: for all keys `a`, `b`,
`c` exactly one of `a > b`, `b > a` and `a == b` holds, and `a > b` together
with `b > c` implies `a > c`. -/
theorem Key_strict_total_order (a b c : Key) :
    ((Key.gt a b = true ∧ Key.gt b a = false ∧ Key.eq a b = false) ∨
     (Key.gt a b = false ∧ Key.gt b a = true ∧ Key.eq a b = false) ∨
     (Key.gt a b = false ∧ Key.gt b a = false ∧ Key.eq a b = true)) ∧
    (Key.gt a b = true → Key.gt b c = true → Key.gt a c = true) := by
  refine ⟨?_, gt_trans a b c⟩
  rcases gt_or_eq a b with h | h | h
  · exact Or.inl ⟨h, gt_asymm a b h, gt_not_eq a b h⟩
  · refine Or.inr (Or.inl ⟨gt_asymm b a h, h, ?_⟩)
    cases he : Key.eq a b with
    | false => rfl
    | true =>
      have h1 := gt_not_eq b a h
      rw [eq_symm a b he] at h1
      exact absurd h1 (by decide)
  · refine Or.inr (Or.inr ⟨?_, ?_, h⟩)
    · cases hg : Key.gt a b with
      | false => rfl
      | true =>
        have h1 := gt_not_eq a b hg
        rw [h] at h1
        exact absurd h1 (by decide)
    · cases hg : Key.gt b a with
      | false => rfl
      | true =>
        have h1 := gt_not_eq b a hg
        rw [eq_symm a b h] at h1
        exact absurd h1 (by decide)

theorem Key_strict_total_order_witness :
    Key.gt exampleKeyThree exampleKeyTwo = true ∧ Key.gt exampleKeyTwo exampleKeyOne = true ∧
    Key.gt exampleKeyThree exampleKeyOne = true :=
  ⟨by decide, by decide,
    (Key_strict_total_order exampleKeyThree exampleKeyTwo exampleKeyOne).2
      (by decide) (by decide)⟩

/-- C33: for all keys `a` and `b`, `a >= b` holds if and only if `a > b` or
`a == b`. -/
theorem Key_ge_iff (a b : Key) :
    Key.ge a b = true ↔ (Key.gt a b = true ∨ Key.eq a b = true) := by
  rw [ge_spec, gt_spec, eq_spec]
  constructor
  · rintro (h | ⟨h, hl⟩)
    · exact Or.inl (Or.inl h)
    · rcases Nat.eq_or_lt_of_le hl with he | hlt
      · exact Or.inr ⟨he.symm, fun j hj => h j (by omega)⟩
      · exact Or.inl (Or.inr ⟨h, hlt⟩)
  · rintro ((h | ⟨h, hl⟩) | ⟨he, h⟩)
    · exact Or.inl h
    · exact Or.inr ⟨h, by omega⟩
    · exact Or.inr ⟨fun j hj => h j (by omega), by omega⟩

end ArtKey

namespace StringSeg

open Transaction (UpdateInfo ColumnData SegmentRef)

/-- C34 (evaluation at a failing input): row 0 of a vector has a string update,
row 1 has none and no version entry; `FetchRow` of row 1 returns the null
pointer, while the base dictionary holds "q" for the row and `FetchBaseData`
reads "q" for it. -/
theorem FetchRow_skips_dictionary :
    entryAt (exampleUpdateA.1.entriesOf 0) 1 = none ∧
    FetchStringFromDict exampleC exampleUpdateA.1 (exampleUpdateA.1.base_data 0 1) = some "q" ∧
    (FetchRow 4 exampleC exampleUpdateA.1 [] 1 exampleResult).data = [none] ∧
    FetchBaseData exampleC exampleUpdateA.1 0 2 = [some "a", some "q"] ∧
    (FetchRow 4 exampleC exampleSeg2 [] 1 exampleResult).data = [some "q"] := by
  decide

/-- C35 (evaluation at a failing input): with vectors of four rows, row 5 (offset
1 of vector 1) was updated from "q" to "b" and the undo entry of the update,
which records offset 1 with the string "q", is handed to `FetchRow`: the fetch
of row 5 returns the updated value "b". For row 1 of vector 0 the same update
and walk return "q". -/
theorem FetchRow_misses_undo_entry :
    exampleUpdateB1.2.tuples = [1] ∧
    UndoString exampleC exampleUpdateB1.1 exampleUpdateB1.2 1 = some (some "q") ∧
    (FetchRow 4 exampleC exampleUpdateB1.1 [exampleUpdateB1.2] 5 exampleResult).data
      = [some "b"] ∧
    UndoString exampleC exampleUpdateB0.1 exampleUpdateB0.2 1 = some (some "q") ∧
    (FetchRow 4 exampleC exampleUpdateB0.1 [exampleUpdateB0.2] 1 exampleResult).data
      = [some "q"] := by
  decide

/-- C36 (evaluation at a failing input): row 1 of vector 0 was updated from "q"
to NULL; its undo entry records the null bit `false` for the row. `FetchRow`
takes the string "q" from the undo entry and reports the null bit `true`, the
current bit of base storage. -/
theorem FetchRow_reports_base_null_bit :
    UndoString exampleC exampleUpdateNull.1 exampleUpdateNull.2 1 = some (some "q") ∧
    exampleUpdateNull.2.nullmask 1 = false ∧
    exampleUpdateNull.1.base_nullmask 0 1 = true ∧
    (FetchRow 4 exampleC exampleUpdateNull.1 [exampleUpdateNull.2] 1 exampleResult).data
      = [some "q"] ∧
    (FetchRow 4 exampleC exampleUpdateNull.1 [exampleUpdateNull.2] 1 exampleResult).nullmask 0
      = true := by
  decide

/-- C37: when the string update list of a vector has strictly ascending row
offsets, `FetchBaseData` returns `count` strings, for every row `i` below `count`
the string of a lookup of the row on its own (the string of the update with
offset `i` if the list has one, else the string the base dictionary holds for
slot `i`), and the null mask of the result is the base null mask. -/
theorem FetchBaseData_per_row_lookup (C : Constants) (seg : StringSegment)
    (vector_index count : Nat) (hs : sortedEntries (seg.entriesOf vector_index)) :
    (FetchBaseData_result C seg vector_index count).data.length = count ∧
    (∀ i, i < count →
      (FetchBaseData_result C seg vector_index count).data[i]?
        = some (readRow C seg vector_index (seg.entriesOf vector_index) i)) ∧
    (FetchBaseData_result C seg vector_index count).nullmask = seg.base_nullmask vector_index ∧
    (FetchBaseData_result C seg vector_index count).count = count := by
  have hget := fetchBaseData_get C seg vector_index count hs
  refine ⟨?_, ?_, rfl, rfl⟩
  · show (FetchBaseData C seg vector_index count).length = count
    have h1 := hget count
    simp only [Nat.lt_irrefl, if_false] at h1
    have h2 : (FetchBaseData C seg vector_index count).length ≤ count :=
      List.getElem?_eq_none_iff.mp h1
    rcases Nat.eq_or_lt_of_le h2 with h3 | h3
    · exact h3
    · have h4 := hget (FetchBaseData C seg vector_index count).length
      simp only [h3, if_true] at h4
      have h5 : (FetchBaseData C seg vector_index count)[
          (FetchBaseData C seg vector_index count).length]? = none :=
        List.getElem?_eq_none (le_refl _)
      rw [h5] at h4
      exact absurd h4 (by simp)
  · intro i hi
    show (FetchBaseData C seg vector_index count)[i]? = _
    rw [hget i]
    simp only [hi, if_true]
    rfl

theorem FetchBaseData_per_row_lookup_witness :
    sortedEntries (exampleUpdate2.1.entriesOf 0) ∧
    (FetchBaseData_result exampleC exampleUpdate2.1 0 2).data = [some "a", some "b"] ∧
    ((FetchBaseData_result exampleC exampleUpdate2.1 0 2).data.length = 2 ∧
    (∀ i, i < 2 →
      (FetchBaseData_result exampleC exampleUpdate2.1 0 2).data[i]?
        = some (readRow exampleC exampleUpdate2.1 0 (exampleUpdate2.1.entriesOf 0) i)) ∧
    (FetchBaseData_result exampleC exampleUpdate2.1 0 2).nullmask
      = exampleUpdate2.1.base_nullmask 0 ∧
    (FetchBaseData_result exampleC exampleUpdate2.1 0 2).count = 2) :=
  ⟨by unfold sortedEntries; decide, by decide,
    FetchBaseData_per_row_lookup exampleC exampleUpdate2.1 0 2 (by unfold sortedEntries; decide)⟩

end StringSeg

namespace LocalStore

/-- C38 (evaluation at a failing input): the first `Append` to a table with a
unique index, of a chunk that holds the key 5 twice, fails with a constraint
violation and leaves a `LocalTableStorage` registered for the table that holds
no chunk; `InitializeScan` on it reads the last element of an empty chunk list,
in `LocalStorage::InitializeScan` and in `ScanTableStorage` alike. -/
theorem Append_failure_registers_empty_storage :
    exampleLSrejected.1 = some Exn.ConstraintException ∧
    (exampleLSrejected.2.find exampleTable1).map (fun s => s.collection.chunks) = some [] ∧
    ((exampleLSrejected.2.find exampleTable1).map
      (fun s => s.InitializeScan)) = some none ∧
    (LocalStorage.InitializeScan exampleLSrejected.2 exampleTable1
      { chunk_index := 0, max_index := 0, last_chunk_count := 0 }).isNone = true ∧
    ((exampleLSrejected.2.find exampleTable1).map
      (fun s => (ScanTableStorage exampleK2 exampleTable1 s
        (fun (n : Nat) (_ : DataChunk) => (true, n + 1)) 0))) = some none := by
  decide

end LocalStore

namespace ArtKey

/-- C39 (evaluation at a failing input): on the key of the 32 bit integer `1`,
four bytes in a buffer of four, the assertion of `Key::operator[]` accepts the
index `4`, which is not below `len`, and the access reads behind the buffer;
the index `5` is the first one the assertion refuses. -/
theorem Key_subscript_accepts_len :
    exampleKeyOne.data = CreateData_int32 true 1 true ∧
    exampleKeyOne.len = 4 ∧ exampleKeyOne.data.length = 4 ∧
    Key.subscript exampleKeyOne 3 = Access.byte 1 ∧
    Key.subscript exampleKeyOne 4 = Access.outside_buffer ∧
    ¬ (4 < exampleKeyOne.len) ∧
    Key.subscript exampleKeyOne 5 = Access.assertion_failed := by
  decide

end ArtKey

namespace Tql

/-- C40 (evaluation at failing inputs): for the empty string the token list of
`TigerDB::parse` is empty and `tokens[0]` reads behind its end, whatever `T1`
and `T2` are; for a lone `SHOW` with both table names set, `parseShow` reads
`t[1]` of a list of one token. No result is returned in either case, while a
lone `SHOW` without table names is reported through the error flag. -/
theorem parse_reads_past_tokens (db : TigerDB) :
    tokens "".toList = [] ∧
    parse db "".toList = none ∧
    tokens "SHOW".toList = ["SHOW".toList] ∧
    parse { t1 := "a".toList, t2 := "b".toList } "SHOW".toList = none ∧
    (parse TigerDB.new "SHOW".toList).map (fun r => r.1.error) = some true := by
  refine ⟨by decide, ?_, by decide, by decide, by decide⟩
  rfl

end Tql
